import Mathlib

/-!
The ngim service monitor and the TAI64 time labels.

A shallow embedding of `srvctl/src/monitor.c` (the per-service supervision
state machine) and of `libbase/lib/tai.c` (TAI64 / TAI64N labels), with the
properties of the specification stated and proved over it.

Conventions of the embedding.

* The monitor's process-wide globals become the fields of `Monitor`; every C
  function that reads or writes them becomes a function on `Monitor`.
* Everything the operating system decides (which children have exited, whether
  a file exists, whether `pipe` or `exec` succeeds, which pid a new process
  gets) is an explicit argument of the function that asks for it.
* `die_assert` terminates the program, so a function that can reach a failing
  `die_assert` returns `Except Fault Monitor`.
* What the monitor does to the outside world (signals sent, start attempts,
  bytes written to the control pipe, warnings) is appended to `Monitor.trace`.
-/

namespace Ngim

/-! # Part I: the embedding -/

/-! ## Constants of `monitor.c` and `srvctl.h` -/

/-- Max. allowed restarts in `TIMER_CHILD`. -/
def CHILD_MAXSTARTS : Nat := 2

/-- Number of `TIMER_CHILD`s to suspend. -/
def CHILD_SUSPENSION : Int := 3

/-- Time between suspension checks, in seconds. -/
def TIMER_CHILD : Nat := 10

def MONITOR_CMD_KILL : Nat := 'k'.toNat

def MONITOR_CMD_TERMINATE : Nat := 'x'.toNat

def MONITOR_CMD_WAKEUP : Nat := 'w'.toNat

def SIGINT : Nat := 2

def SIGQUIT : Nat := 3

def SIGKILL : Nat := 9

def SIGTERM : Nat := 15

/-! ## State -/

/-- The fields of `child_proc` the monitor's control flow depends on:
`proc.pid` (0 when not running), `starts` (an `apr_uint32_t`), `suspended`
and `suspended_periods`. -/
structure child_proc where
  pid : Nat
  starts : Nat
  suspended : Bool
  suspended_periods : Int
deriving DecidableEq, Repr

/-- The two children of a monitor. -/
inductive Who where
  | run
  | log
deriving DecidableEq, Repr

/-- Observable actions of the monitor. -/
inductive Event where
  /-- The call `apr_proc_kill(&child->proc, sig)` in `signal_child`. -/
  | signal (who : Who) (sig : Nat)
  /-- Entry into `start_child` for the child. -/
  | start_attempt (who : Who)
  /-- A byte written by `write_command`. -/
  | command (cmd : Nat)
  /-- The warning "unknown command" of `parse_command`. -/
  | unknown_command
deriving DecidableEq, Repr

/-- Ways the embedded code can stop abnormally. -/
inductive Fault where
  /-- A `die_assert` failed. -/
  | assertion
  /-- An array was indexed past its end. -/
  | out_of_bounds
deriving DecidableEq, Repr

/-- The globals of `monitor.c`. A pipe end is `true` when the `apr_file_t*`
is non-NULL (open). -/
structure Monitor where
  flag_stop : Bool
  flag_intr : Bool
  flag_forward : Bool
  flag_ignchld : Bool
  flag_timer : Bool
  pipe_stdin : Bool
  pipe_runlog0 : Bool
  pipe_runlog1 : Bool
  run : child_proc
  log : child_proc
  trace : List Event
deriving DecidableEq, Repr

/-- Result of `child_init`: `memset` to zero. -/
def child_init : child_proc :=
  { pid := 0, starts := 0, suspended := false, suspended_periods := 0 }

/-- The state when `monitor` enters its loop: flags are zero-initialised,
`setup_monitor` has opened `monitor/stdin`, `pipe_runlog` is `{NULL, NULL}`. -/
def monitor_init : Monitor :=
  { flag_stop := false, flag_intr := false, flag_forward := false,
    flag_ignchld := false, flag_timer := false, pipe_stdin := true,
    pipe_runlog0 := false, pipe_runlog1 := false,
    run := child_init, log := child_init, trace := [] }

def child (who : Who) (s : Monitor) : child_proc :=
  match who with
  | .run => s.run
  | .log => s.log

def set_child (who : Who) (c : child_proc) (s : Monitor) : Monitor :=
  match who with
  | .run => { s with run := c }
  | .log => { s with log := c }

def emit (e : Event) (s : Monitor) : Monitor :=
  { s with trace := s.trace ++ [e] }

/-! ## Pipes -/

def close_pipe (s : Monitor) : Monitor :=
  { s with pipe_runlog0 := false, pipe_runlog1 := false }

/-- What `apr_file_pipe_create` and the two `apr_file_inherit_unset` calls do
when `create_pipe` has to make a new pipe. -/
inductive PipeOutcome where
  /-- `apr_file_pipe_create` failed: both pointers stay NULL. -/
  | create_failed
  /-- The pipe was created but `apr_file_inherit_unset` failed. -/
  | inherit_failed
  | created
deriving DecidableEq, Repr

/-- The function `create_pipe`: the result is its return value (non-zero as
`true`) and the new state. -/
def create_pipe (o : PipeOutcome) (s : Monitor) : Bool × Monitor :=
  if !s.pipe_runlog0 || !s.pipe_runlog1 then
    let s1 := close_pipe s
    match o with
    | .create_failed => (false, s1)
    | .inherit_failed => (false, { s1 with pipe_runlog0 := true, pipe_runlog1 := true })
    | .created => (true, { s1 with pipe_runlog0 := true, pipe_runlog1 := true })
  else (true, s)

/-! ## Reaping -/

/-- One iteration of the loop of `check_children`, for the reaped pid. -/
def reap (s : Monitor) (pid : Nat) : Monitor :=
  if pid = s.run.pid then
    { s with run := { s.run with pid := 0 }, flag_forward := false }
  else if pid = s.log.pid then
    { s with log := { s.log with pid := 0 } }
  else s

/-- The function `check_children`; `reaped` lists the pids that the successive
calls of `apr_proc_wait_all_procs` return before it reports no more. -/
def check_children (reaped : List Nat) (s : Monitor) : Monitor :=
  reaped.foldl reap s

/-! ## Starting -/

/-- What the system calls of `start_child` find. -/
inductive StartOutcome where
  /-- `apr_stat` on the program failed (for instance ENOENT). -/
  | stat_failed
  /-- The program is not a regular file. -/
  | not_regular
  /-- `apr_proc_create` failed. -/
  | exec_failed
  /-- `apr_proc_create` succeeded and the child has this pid. -/
  | started (pid : Nat)
deriving DecidableEq, Repr

def start_child (who : Who) (o : StartOutcome) (s : Monitor) : Monitor :=
  let s1 := if !s.flag_timer then { s with flag_timer := true } else s
  let c := child who s1
  let s2 := emit (.start_attempt who)
    (set_child who { c with starts := (c.starts + 1) % 2 ^ 32 } s1)
  match o with
  | .stat_failed => s2
  | .not_regular => s2
  | .exec_failed =>
    if s2.flag_intr then s2 else set_child who { child who s2 with pid := 0 } s2
  | .started p =>
    if s2.flag_intr then s2 else set_child who { child who s2 with pid := p } s2

/-- The function `create_procattr_log`; the result is `true` when it returns
non-NULL attributes. `attr_ok` says whether the `apr_procattr_*` calls succeed. -/
def create_procattr_log (po : PipeOutcome) (attr_ok : Bool) (s : Monitor) :
    Bool × Monitor :=
  match create_pipe po s with
  | (false, s1) => (false, s1)
  | (true, s1) => (attr_ok, s1)

/-- The function `create_procattr_run`. `attr_ok` says whether creating the
attributes succeeds, `fwd_ok` whether setting stdout and stderr to
`pipe_runlog[1]` does. -/
def create_procattr_run (attr_ok fwd_ok : Bool) (s : Monitor) :
    Except Fault (Bool × Monitor) :=
  if !s.pipe_stdin then .error .assertion else
  let s1 := { s with flag_forward := false }
  if !attr_ok then .ok (false, s1) else
  if s1.log.pid ≠ 0 then
    if !s1.pipe_runlog1 then .error .assertion else
    if !fwd_ok then .ok (false, s1) else
    .ok (true, { s1 with flag_forward := true })
  else .ok (true, s1)

/-- Everything `start_children` asks the operating system. -/
structure StartEnv where
  /-- Result of `check_fileup`: `monitor/up` exists. -/
  up : Bool
  log_pipe : PipeOutcome
  log_attr : Bool
  log_start : StartOutcome
  run_attr : Bool
  run_fwd : Bool
  run_start : StartOutcome
deriving DecidableEq, Repr

/-- The first `if` block of `start_children`: start log. -/
def start_children_log (e : StartEnv) (s : Monitor) : Monitor :=
  if !s.log.suspended && s.log.pid == 0 && (s.run.pid == 0 || s.flag_forward) then
    match create_procattr_log e.log_pipe e.log_attr s with
    | (false, s1) => s1
    | (true, s1) => start_child .log e.log_start s1
  else s

/-- The second `if` block of `start_children`: start run. -/
def start_children_run (e : StartEnv) (s : Monitor) : Except Fault Monitor :=
  if !s.run.suspended && s.run.pid == 0 then
    match create_procattr_run e.run_attr e.run_fwd s with
    | .error f => .error f
    | .ok (false, s1) => .ok s1
    | .ok (true, s1) => .ok (start_child .run e.run_start s1)
  else .ok s

def start_children (e : StartEnv) (s : Monitor) : Except Fault Monitor :=
  if s.flag_intr || !e.up then .ok s else
  start_children_run e (start_children_log e s)

/-! ## Signalling and terminating -/

/-- The function `signal_child`: a child whose pid is zero gets no signal. -/
def signal_child (who : Who) (sig : Nat) (s : Monitor) : Monitor :=
  if (child who s).pid = 0 then s else emit (.signal who sig) s

/-- The array `sigs` of `terminate_child`. -/
def sigs : List Nat := [SIGTERM, SIGTERM, SIGINT, SIGQUIT, SIGKILL]

/-- The `while` loop of `terminate_child`. The first argument is the part of
`sigs` from index `i` on, so `sigs[i]` is its head and an empty list means
that `i` is past the end of the array. `reaped i` lists the pids that
`check_children` reaps in the iteration with index `i`. -/
def terminate_loop (who : Who) (reaped : Nat → List Nat) :
    List Nat → Nat → Monitor → Except Fault Monitor
  | [], _, s => if (child who s).pid = 0 then .ok s else .error .out_of_bounds
  | sig :: rest, i, s =>
    if (child who s).pid = 0 then .ok s else
    let s1 := signal_child who sig s
    let s2 := check_children (reaped i) s1
    if sig = SIGKILL then .ok s2 else terminate_loop who reaped rest (i + 1) s2

def terminate_child (who : Who) (reaped : Nat → List Nat) (s : Monitor) :
    Except Fault Monitor :=
  match terminate_loop who reaped sigs 0 { s with flag_ignchld := true } with
  | .error f => .error f
  | .ok s1 =>
    let c := child who s1
    .ok { set_child who { c with starts := 0, suspended := false, suspended_periods := 0 } s1
          with flag_ignchld := false }

/-! ## Commands -/

/-- The function `parse_command`. `NSIG` is the constant of the platform's
`<signal.h>`; `rr` and `rl` say what is reaped while run and log are being
terminated. -/
def parse_command (NSIG : Nat) (cmd : Nat) (rr rl : Nat → List Nat) (s : Monitor) :
    Except Fault Monitor :=
  let s0 :=
    if cmd = MONITOR_CMD_TERMINATE then { s with flag_stop := true, pipe_stdin := false }
    else s
  if cmd = MONITOR_CMD_KILL || s0.flag_stop then
    match terminate_child .run rr (close_pipe s0) with
    | .error f => .error f
    | .ok s1 => terminate_child .log rl s1
  else if cmd = MONITOR_CMD_WAKEUP then .ok s0
  else if 0 < cmd && cmd < NSIG then .ok (signal_child .run cmd s0)
  else .ok (emit .unknown_command s0)

/-! ## Flap detection -/

/-- The function `check_suspension`; the first component is its return value
(non-zero as `true`). -/
def check_suspension (who : Who) (s : Monitor) : Bool × Monitor :=
  let c := child who s
  if c.suspended then
    let p := c.suspended_periods + 1
    if p ≥ CHILD_SUSPENSION then
      (false, emit (.command MONITOR_CMD_WAKEUP)
        (set_child who { c with suspended := false, suspended_periods := 0 } s))
    else (true, set_child who { c with suspended_periods := p } s)
  else if c.starts > 0 then
    let c1 := if c.starts > CHILD_MAXSTARTS then { c with suspended := true } else c
    (true, set_child who { c1 with starts := 0 } s)
  else (false, s)

/-- The function `handle_alarm`, the handler of SIGALRM. -/
def handle_alarm (s : Monitor) : Monitor :=
  let r1 := check_suspension .log s
  let r2 := check_suspension .run r1.2
  if r2.1 || r1.1 then r2.2 else { r2.2 with flag_timer := false }

/-- The branch of `handler` for SIGINT, SIGTERM and SIGQUIT. -/
def handle_intr (s : Monitor) : Monitor :=
  emit (.command MONITOR_CMD_TERMINATE) { s with flag_intr := true }

/-- The branch of `handler` for SIGHUP, and for SIGCHLD when `flag_ignchld`
is clear. -/
def handle_wakeup (s : Monitor) : Monitor :=
  emit (.command MONITOR_CMD_WAKEUP) s

/-! ## The main loop -/

/-- What happens during one iteration of the loop of `monitor`. `cmd` is the
byte `wait_for_command` reads, or `none` when the poll times out, is
interrupted or fails. -/
structure IterInput where
  reaped : List Nat
  env : StartEnv
  cmd : Option Nat
  rr : Nat → List Nat
  rl : Nat → List Nat

/-- The body of the `do ... while (!flag_stop)` loop of `monitor`. -/
def monitor_iter (NSIG : Nat) (inp : IterInput) (s : Monitor) : Except Fault Monitor :=
  match start_children inp.env (check_children inp.reaped s) with
  | .error f => .error f
  | .ok s1 =>
    match inp.cmd with
    | none => .ok s1
    | some c => parse_command NSIG c inp.rr inp.rl s1

/-- The loop of `monitor` run on the given iterations: the body is executed,
and the loop ends as soon as `flag_stop` is set after a body. -/
def monitor_loop (NSIG : Nat) : List IterInput → Monitor → Except Fault Monitor
  | [], s => .ok s
  | inp :: rest, s =>
    match monitor_iter NSIG inp s with
    | .error f => .error f
    | .ok s1 => if s1.flag_stop then .ok s1 else monitor_loop NSIG rest s1

/-! ## Reachable states -/

/-- Pids handed out by the operating system are positive. -/
def StartOutcome.valid : StartOutcome → Prop
  | .started p => 0 < p
  | _ => True

def StartEnv.valid (e : StartEnv) : Prop := e.log_start.valid ∧ e.run_start.valid

/-- Reaped pids are positive. -/
def valid_reaped (l : List Nat) : Prop := ∀ p ∈ l, 0 < p

/-- The states of the monitor from the start of its loop on: every operation
is applied while the loop is running (`flag_stop` clear), with any answer of
the operating system, and signal handlers run between operations. -/
inductive Reachable (NSIG : Nat) : Monitor → Prop where
  | init : Reachable NSIG monitor_init
  | reap {s : Monitor} (l : List Nat) : Reachable NSIG s → s.flag_stop = false →
      valid_reaped l → Reachable NSIG (check_children l s)
  | start {s s1 : Monitor} (e : StartEnv) : Reachable NSIG s → s.flag_stop = false →
      e.valid → start_children e s = .ok s1 → Reachable NSIG s1
  | command {s s1 : Monitor} (cmd : Nat) (rr rl : Nat → List Nat) : Reachable NSIG s →
      s.flag_stop = false → cmd < 256 → (∀ i, valid_reaped (rr i)) →
      (∀ i, valid_reaped (rl i)) → parse_command NSIG cmd rr rl s = .ok s1 →
      Reachable NSIG s1
  | alarm {s : Monitor} : Reachable NSIG s → s.flag_stop = false → s.flag_timer = true →
      Reachable NSIG (handle_alarm s)
  | intr {s : Monitor} : Reachable NSIG s → s.flag_stop = false →
      Reachable NSIG (handle_intr s)
  | wakeup {s : Monitor} : Reachable NSIG s → s.flag_stop = false →
      Reachable NSIG (handle_wakeup s)

/-! ## What reaping leaves alone -/

/-- What reaping leaves alone: everything except the pids and the forwarding
flag. -/
structure ReapFrame (s t : Monitor) : Prop where
  flag_stop : t.flag_stop = s.flag_stop
  flag_intr : t.flag_intr = s.flag_intr
  flag_ignchld : t.flag_ignchld = s.flag_ignchld
  flag_timer : t.flag_timer = s.flag_timer
  pipe_stdin : t.pipe_stdin = s.pipe_stdin
  pipe_runlog0 : t.pipe_runlog0 = s.pipe_runlog0
  pipe_runlog1 : t.pipe_runlog1 = s.pipe_runlog1
  run_starts : t.run.starts = s.run.starts
  run_suspended : t.run.suspended = s.run.suspended
  run_periods : t.run.suspended_periods = s.run.suspended_periods
  log_starts : t.log.starts = s.log.starts
  log_suspended : t.log.suspended = s.log.suspended
  log_periods : t.log.suspended_periods = s.log.suspended_periods
  trace : t.trace = s.trace

/-! ## Commands other than KILL and TERMINATE -/

/-- What `parse_command` does to the outside world for a command byte that is
neither KILL nor TERMINATE. -/
def command_output (NSIG : Nat) (cmd : Nat) (s : Monitor) : List Event :=
  if cmd = MONITOR_CMD_WAKEUP then []
  else if 0 < cmd ∧ cmd < NSIG then
    if s.run.pid = 0 then [] else [Event.signal Who.run cmd]
  else [Event.unknown_command]

/-! ## Graceful escalation -/

/-- The signal list ends with SIGKILL and holds no SIGKILL before its end. -/
def KillLast : List Nat → Prop
  | [] => False
  | [a] => a = SIGKILL
  | a :: b :: l => a ≠ SIGKILL ∧ KillLast (b :: l)

/-! ## Invariants of the reachable states -/

/-- Flap state of one child: an unsuspended child has suspended-period counter
0; a suspended child has start counter 0 and a counter in
`[0, CHILD_SUSPENSION)`. -/
def FlapOk (c : child_proc) : Prop :=
  (c.suspended = false → c.suspended_periods = 0) ∧
  (c.suspended = true →
    c.starts = 0 ∧ 0 ≤ c.suspended_periods ∧ c.suspended_periods < CHILD_SUSPENSION)

/-- Invariant of the monitor. -/
structure Inv (s : Monitor) : Prop where
  /-- The two ends of the run-to-log pipe are open together or closed together. -/
  pipe_ends : s.pipe_runlog0 = s.pipe_runlog1
  /-- While the loop runs, `monitor/stdin` is open. -/
  stdin_open : s.flag_stop = false → s.pipe_stdin = true
  run_flap : FlapOk s.run
  log_flap : FlapOk s.log
  /-- With the timer inactive no child is suspended or has counted starts. -/
  timer : s.flag_timer = false →
    s.run.suspended = false ∧ s.run.starts = 0 ∧ s.log.suspended = false ∧ s.log.starts = 0

/-- The part of `check_suspension` that acts on the child: its return value
and the new child record. -/
def check_suspension_child (c : child_proc) : Bool × child_proc :=
  if c.suspended then
    if c.suspended_periods + 1 ≥ CHILD_SUSPENSION then
      (false, { c with suspended := false, suspended_periods := 0 })
    else (true, { c with suspended_periods := c.suspended_periods + 1 })
  else if c.starts > 0 then
    (true, { (if c.starts > CHILD_MAXSTARTS then { c with suspended := true } else c)
             with starts := 0 })
  else (false, c)

/-! ## Pipe coherence -/

/-- Answers of the operating system when everything works: the pipe is
created, the attributes are set up, both programs are regular files and are
started with the given pids. -/
def env_ok (up : Bool) (log_pid run_pid : Nat) : StartEnv :=
  { up := up, log_pipe := .created, log_attr := true, log_start := .started log_pid,
    run_attr := true, run_fwd := true, run_start := .started run_pid }

/-- Both children have been started, log first (pid 101), then run (pid 100)
with its output forwarded. -/
def both_running : Monitor :=
  { flag_stop := false, flag_intr := false, flag_forward := true,
    flag_ignchld := false, flag_timer := true, pipe_stdin := true,
    pipe_runlog0 := true, pipe_runlog1 := true,
    run := { pid := 100, starts := 1, suspended := false, suspended_periods := 0 },
    log := { pid := 101, starts := 1, suspended := false, suspended_periods := 0 },
    trace := [Event.start_attempt Who.log, Event.start_attempt Who.run] }

/-- The flap fields of a child are kept and no start of it is attempted. -/
structure Quiet (who : Who) (s t : Monitor) : Prop where
  flag_stop : t.flag_stop = s.flag_stop
  starts : (child who t).starts = (child who s).starts
  suspended : (child who t).suspended = (child who s).suspended
  periods : (child who t).suspended_periods = (child who s).suspended_periods
  trace : ∃ tr, t.trace = s.trace ++ tr ∧ Event.start_attempt who ∉ tr

/-- Run has been started three times (pids 100, 102, 103) and has exited each
time; log (pid 101) is running. -/
def flapping : Monitor :=
  { flag_stop := false, flag_intr := false, flag_forward := false,
    flag_ignchld := false, flag_timer := true, pipe_stdin := true,
    pipe_runlog0 := true, pipe_runlog1 := true,
    run := { pid := 0, starts := 3, suspended := false, suspended_periods := 0 },
    log := { pid := 101, starts := 1, suspended := false, suspended_periods := 0 },
    trace := [Event.start_attempt Who.log, Event.start_attempt Who.run,
              Event.start_attempt Who.run, Event.start_attempt Who.run] }

/-- The state `flapping` after the next SIGALRM: run is suspended. -/
def run_suspended : Monitor :=
  { flag_stop := false, flag_intr := false, flag_forward := false,
    flag_ignchld := false, flag_timer := true, pipe_stdin := true,
    pipe_runlog0 := true, pipe_runlog1 := true,
    run := { pid := 0, starts := 0, suspended := true, suspended_periods := 0 },
    log := { pid := 101, starts := 0, suspended := false, suspended_periods := 0 },
    trace := [Event.start_attempt Who.log, Event.start_attempt Who.run,
              Event.start_attempt Who.run, Event.start_attempt Who.run] }

/-- The state `run_suspended` after a KILL command during which log exits on
the first SIGTERM. -/
def after_kill : Monitor :=
  { flag_stop := false, flag_intr := false, flag_forward := false,
    flag_ignchld := false, flag_timer := true, pipe_stdin := true,
    pipe_runlog0 := false, pipe_runlog1 := false,
    run := { pid := 0, starts := 0, suspended := false, suspended_periods := 0 },
    log := { pid := 0, starts := 0, suspended := false, suspended_periods := 0 },
    trace := [Event.start_attempt Who.log, Event.start_attempt Who.run,
              Event.start_attempt Who.run, Event.start_attempt Who.run,
              Event.signal Who.log 15] }

/-- The state `after_kill` after the next `start_children`. -/
def restarted : Monitor :=
  { flag_stop := false, flag_intr := false, flag_forward := true,
    flag_ignchld := false, flag_timer := true, pipe_stdin := true,
    pipe_runlog0 := true, pipe_runlog1 := true,
    run := { pid := 105, starts := 1, suspended := false, suspended_periods := 0 },
    log := { pid := 104, starts := 1, suspended := false, suspended_periods := 0 },
    trace := [Event.start_attempt Who.log, Event.start_attempt Who.run,
              Event.start_attempt Who.run, Event.start_attempt Who.run,
              Event.signal Who.log 15,
              Event.start_attempt Who.log, Event.start_attempt Who.run] }

/-! ## The monitor with asynchronous signals

`main` blocks SIGCHLD only, so the handlers of SIGALRM, SIGHUP, SIGINT,
SIGTERM and SIGQUIT run between any two statements of the main flow. The
main flow is therefore taken statement by statement wherever it reads or
writes what a handler writes or reads: the flap fields of the children,
`flag_timer`, `flag_intr` and `flag_ignchld`. -/

/-- The statement the main flow of the monitor is about to execute. -/
inductive Pc where
  /-- In the loop of `monitor`, outside `start_children` and
  `parse_command`. -/
  | idle
  /-- In `start_children`, before the test that guards the start of the
  child. -/
  | guard (who : Who)
  /-- The guard has passed; before `create_procattr_log` or
  `create_procattr_run`. -/
  | attr (who : Who)
  /-- In `start_child`, before the test of `flag_timer`. -/
  | timer (who : Who)
  /-- In `start_child`, before `++child->starts`. -/
  | count (who : Who)
  /-- In `start_child`, before `apr_stat`; the statement runs through
  `apr_proc_create`. -/
  | exec (who : Who)
  /-- In `terminate_child`, before `flag_ignchld = 1`. -/
  | ignchld (who : Who)
  /-- In `terminate_child`, at the test of the `while` loop with index `i`. -/
  | term (who : Who) (i : Nat)
  /-- In `terminate_child`, before `child->starts = 0`. -/
  | reset_starts (who : Who)
  /-- In `terminate_child`, before `child->suspended = 0`. -/
  | reset_suspended (who : Who)
  /-- In `terminate_child`, before `child->suspended_periods = 0`. -/
  | reset_periods (who : Who)
  /-- In `terminate_child`, before `flag_ignchld = 0`. -/
  | reset_ignchld (who : Who)
deriving DecidableEq, Repr

/-- The monitor between two statements: where the main flow is, and the
globals. -/
structure Config where
  pc : Pc
  st : Monitor
deriving DecidableEq, Repr

/-- The first statement of `start_child`: start the suspension timer if it is
inactive. The entry into `start_child` is recorded here. -/
def start_child_timer (who : Who) (s : Monitor) : Monitor :=
  emit (.start_attempt who) (if !s.flag_timer then { s with flag_timer := true } else s)

/-- The statement `++child->starts` of `start_child`. -/
def start_child_count (who : Who) (s : Monitor) : Monitor :=
  set_child who { child who s with starts := ((child who s).starts + 1) % 2 ^ 32 } s

/-- The rest of `start_child`, from `apr_stat` on. -/
def start_child_exec (who : Who) (o : StartOutcome) (s : Monitor) : Monitor :=
  match o with
  | .stat_failed => s
  | .not_regular => s
  | .exec_failed => if s.flag_intr then s else set_child who { child who s with pid := 0 } s
  | .started p => if s.flag_intr then s else set_child who { child who s with pid := p } s

/-- Where `start_children` goes on after the block of a child: log is
handled first, then run. -/
def after_start : Who → Pc
  | .log => .guard .run
  | .run => .idle

/-- Where `parse_command` goes on after `terminate_child`: run is
terminated first, then log. -/
def after_terminate : Who → Pc
  | .run => .ignchld .log
  | .log => .idle

/-- The answer of `start_child` for the child, out of the answers of the
operating system. -/
def StartEnv.outcome (e : StartEnv) : Who → StartOutcome
  | .log => e.log_start
  | .run => e.run_start

/-- The next statement of the main flow inside `start_children` or
`terminate_child`. `e` holds the answers of the operating system and `reaped`
the pids `check_children` reaps in this round of the loop of
`terminate_child`. -/
def main_step (e : StartEnv) (reaped : List Nat) (c : Config) : Except Fault Config :=
  match c.pc with
  | .idle => .ok c
  | .guard .log =>
    if !c.st.log.suspended && c.st.log.pid == 0 && (c.st.run.pid == 0 || c.st.flag_forward) then
      .ok { pc := .attr .log, st := c.st }
    else .ok { pc := .guard .run, st := c.st }
  | .guard .run =>
    if !c.st.run.suspended && c.st.run.pid == 0 then .ok { pc := .attr .run, st := c.st }
    else .ok { pc := .idle, st := c.st }
  | .attr .log =>
    match create_procattr_log e.log_pipe e.log_attr c.st with
    | (false, s1) => .ok { pc := .guard .run, st := s1 }
    | (true, s1) => .ok { pc := .timer .log, st := s1 }
  | .attr .run =>
    match create_procattr_run e.run_attr e.run_fwd c.st with
    | .error f => .error f
    | .ok (false, s1) => .ok { pc := .idle, st := s1 }
    | .ok (true, s1) => .ok { pc := .timer .run, st := s1 }
  | .timer w => .ok { pc := .count w, st := start_child_timer w c.st }
  | .count w => .ok { pc := .exec w, st := start_child_count w c.st }
  | .exec w => .ok { pc := after_start w, st := start_child_exec w (e.outcome w) c.st }
  | .ignchld w => .ok { pc := .term w 0, st := { c.st with flag_ignchld := true } }
  | .term w i =>
    if (child w c.st).pid = 0 then .ok { pc := .reset_starts w, st := c.st }
    else
      match sigs[i]? with
      | none => .error .out_of_bounds
      | some sig =>
        if sig = SIGKILL then
          .ok { pc := .reset_starts w, st := check_children reaped (signal_child w sig c.st) }
        else .ok { pc := .term w (i + 1), st := check_children reaped (signal_child w sig c.st) }
  | .reset_starts w =>
    .ok { pc := .reset_suspended w, st := set_child w { child w c.st with starts := 0 } c.st }
  | .reset_suspended w =>
    .ok { pc := .reset_periods w,
          st := set_child w { child w c.st with suspended := false } c.st }
  | .reset_periods w =>
    .ok { pc := .reset_ignchld w,
          st := set_child w { child w c.st with suspended_periods := 0 } c.st }
  | .reset_ignchld w => .ok { pc := after_terminate w, st := { c.st with flag_ignchld := false } }

/-- The start of `parse_command` for the byte `cmd`: KILL and TERMINATE go on
into `terminate_child`, any other command is finished at once. -/
def begin_command (NSIG : Nat) (cmd : Nat) (s : Monitor) : Config :=
  let s0 :=
    if cmd = MONITOR_CMD_TERMINATE then { s with flag_stop := true, pipe_stdin := false }
    else s
  if cmd = MONITOR_CMD_KILL || s0.flag_stop then { pc := .ignchld .run, st := close_pipe s0 }
  else if cmd = MONITOR_CMD_WAKEUP then { pc := .idle, st := s0 }
  else if 0 < cmd && cmd < NSIG then { pc := .idle, st := signal_child .run cmd s0 }
  else { pc := .idle, st := emit .unknown_command s0 }

/-- What can happen next. -/
inductive MOp where
  /-- The main flow, in the loop, calls `check_children`, which reaps the
  listed pids. -/
  | reap (l : List Nat)
  /-- The main flow, in the loop, enters `start_children`. -/
  | start (e : StartEnv)
  /-- The main flow, in the loop, reads a byte from the control pipe and
  enters `parse_command`. -/
  | command (cmd : Nat)
  /-- The main flow, inside `start_children` or `parse_command`, executes
  its next statement. -/
  | next (e : StartEnv) (reaped : List Nat)
  /-- SIGALRM is delivered and `handle_alarm` runs. -/
  | alarm
  /-- SIGINT, SIGTERM or SIGQUIT is delivered. -/
  | intr
  /-- SIGHUP is delivered, or SIGCHLD with `flag_ignchld` clear. -/
  | wakeup

/-- One step of the monitor. An operation of the loop takes place only when
the main flow is in the loop, and SIGALRM is delivered only while the
suspension timer is active; otherwise nothing happens. -/
def mstep (NSIG : Nat) (o : MOp) (c : Config) : Except Fault Config :=
  match o with
  | .reap l =>
    if c.pc = .idle then .ok { pc := .idle, st := check_children l c.st } else .ok c
  | .start e =>
    if c.pc = .idle then
      if c.st.flag_intr || !e.up then .ok c else .ok { pc := .guard .log, st := c.st }
    else .ok c
  | .command cmd => if c.pc = .idle then .ok (begin_command NSIG cmd c.st) else .ok c
  | .next e reaped => main_step e reaped c
  | .alarm => if c.st.flag_timer then .ok { pc := c.pc, st := handle_alarm c.st } else .ok c
  | .intr => .ok { pc := c.pc, st := handle_intr c.st }
  | .wakeup => .ok { pc := c.pc, st := handle_wakeup c.st }

/-- A run of steps. -/
def mrun (NSIG : Nat) : List MOp → Config → Except Fault Config
  | [], c => .ok c
  | o :: os, c =>
    match mstep NSIG o c with
    | .error f => .error f
    | .ok c1 => mrun NSIG os c1

/-- Pids handed out and reaped are positive, and a command is a byte. -/
def MOp.valid : MOp → Prop
  | .reap l => valid_reaped l
  | .start e => e.valid
  | .command cmd => cmd < 256
  | .next e reaped => e.valid ∧ valid_reaped reaped
  | .alarm => True
  | .intr => True
  | .wakeup => True

/-- The configurations of the monitor from the start of its loop on, with
signals delivered between any two statements. In the loop the monitor goes
on only while `flag_stop` is clear. -/
inductive MReachable (NSIG : Nat) : Config → Prop where
  | init : MReachable NSIG { pc := .idle, st := monitor_init }
  | step {c c1 : Config} (o : MOp) : MReachable NSIG c →
      (c.pc = .idle → c.st.flag_stop = false) → o.valid →
      mstep NSIG o c = .ok c1 → MReachable NSIG c1

/-- The operation is a tick of the suspension timer, or a KILL or TERMINATE
command, which resets the suspension. -/
def MOp.disturbs : MOp → Bool
  | .command cmd => cmd == MONITOR_CMD_KILL || cmd == MONITOR_CMD_TERMINATE
  | .alarm => true
  | _ => false

/-- The main flow is in the loop or in `start_children`, and not between the
test that guards the start of the child `who` and the return of
`start_child` for it. -/
def Pc.calm (who : Who) : Pc → Bool
  | .idle => true
  | .guard _ => true
  | .attr w => w != who
  | .timer w => w != who
  | .count w => w != who
  | .exec w => w != who
  | _ => false

/-- The configuration after a tick of the suspension timer. -/
def alarm_tick (c : Config) : Config := { pc := c.pc, st := handle_alarm c.st }

/-- The steps of `start_children` in the state `flapping` with SIGALRM
delivered after the guard of run has passed and before `start_child` is
called. -/
def race_ops : List MOp :=
  [.start (env_ok true 104 105), .next (env_ok true 104 105) [],
   .next (env_ok true 104 105) [], .alarm, .next (env_ok true 104 105) [],
   .next (env_ok true 104 105) [], .next (env_ok true 104 105) [],
   .next (env_ok true 104 105) []]

/-- The state `race_ops` leads to from `flapping`: run is suspended, has been
started with pid 105, and its start counter is 1. -/
def raced : Monitor :=
  { flag_stop := false, flag_intr := false, flag_forward := true,
    flag_ignchld := false, flag_timer := true, pipe_stdin := true,
    pipe_runlog0 := true, pipe_runlog1 := true,
    run := { pid := 105, starts := 1, suspended := true, suspended_periods := 0 },
    log := { pid := 101, starts := 0, suspended := false, suspended_periods := 0 },
    trace := [Event.start_attempt Who.log, Event.start_attempt Who.run,
              Event.start_attempt Who.run, Event.start_attempt Who.run,
              Event.start_attempt Who.run] }

/-! ## TAI64 and TAI64N labels (`tai.c`)

Memory that C reaches through a pointer is a function from indices to cells,
and a pointer into it is the memory together with an offset. A cell of an
`unsigned char` array is a `Fin 256`; a stored value is reduced modulo 256, as
the conversion to `unsigned char` does. A cell of a `char` array holding a
character with a non-negative code is the Lean character with that code. -/

/-- The TAI64 label `ngim_tai_t`; `x` is an `apr_uint64_t`. -/
structure ngim_tai_t where
  x : Nat
deriving DecidableEq, Repr

/-- The TAI64N label `ngim_tain_t`; `nano` is an `apr_uint32_t`. -/
structure ngim_tain_t where
  sec : ngim_tai_t
  nano : Nat
deriving DecidableEq, Repr

/-- The maximum value for seconds in a TAI64 label, 2^63 - 1. -/
def TAI_MAX_SEC : Nat := 9223372036854775807

/-- The maximum value for nanoseconds in a TAI64N label. -/
def TAI_MAX_NA : Nat := 999999999

def NGIM_TAI_PACK : Nat := 8

def NGIM_TAI_FORMAT : Nat := 2 * NGIM_TAI_PACK + 1

def NGIM_TAIN_PACK : Nat := 12

def NGIM_TAIN_FORMAT : Nat := 2 * NGIM_TAIN_PACK + 1

/-- An array of `unsigned char`. -/
abbrev Bytes := Nat → Fin 256

/-- An array of `char`. -/
abbrev Chars := Nat → Char

/-- Conversion of an integer value to `unsigned char`. -/
def to_uchar (v : Nat) : Fin 256 := ⟨v % 256, Nat.mod_lt v (by decide)⟩

/-- The assignment `m[i] = v`. -/
def store {α : Type} (m : Nat → α) (i : Nat) (v : α) : Nat → α :=
  fun j => if j = i then v else m j

/-- The table `nibble_to_hex` of `format_textual`. -/
def nibble_to_hex : List Char := "0123456789abcdef".toList

/-- The loop `while (--l >= 0)` of `format_textual`, entered with the given
value of `l`. -/
def format_textual_loop (p : Bytes) : Nat → Chars → Chars
  | 0, s => s
  | l + 1, s =>
    let s1 := store s (2 * l + 1) (nibble_to_hex.getD (((p l).val >>> 4) &&& 0xF) '0')
    let s2 := store s1 (2 * l + 2) (nibble_to_hex.getD ((p l).val &&& 0xF) '0')
    format_textual_loop p l s2

/-- The helper `format_textual`: binary external format to textual. -/
def format_textual (s : Chars) (p : Bytes) (l : Nat) : Chars :=
  format_textual_loop p l (store s 0 '@')

/-- The macro `hex_to_nibble`: the arithmetic is done in `int` and the result
converted to `unsigned char`. -/
def hex_to_nibble (c : Char) : Nat :=
  ((if c ≥ 'a' then (c.toNat : Int) - ('a'.toNat : Int) + 10
    else (c.toNat : Int) - ('0'.toNat : Int)) % 256).toNat

/-- The helper `unformat_textual`: textual external format to binary. The
first component is the return value. -/
def unformat_textual (s : Chars) (p : Bytes) (plen : Nat) : Nat × Bytes :=
  if s 0 ≠ '@' then (0, p) else
  (1, (List.range plen).foldl
    (fun q i => store q i
      (to_uchar ((hex_to_nibble (s (2 * i + 1)) <<< 4) |||
        (hex_to_nibble (s (2 * i + 2)) &&& 0xF)))) p)

/-- The function `ngim_tai_pack`, writing at `s + off`. -/
def ngim_tai_pack (s : Bytes) (off : Nat) (t : ngim_tai_t) : Bytes :=
  let x := t.x
  let s := store s (off + 7) (to_uchar (x &&& 0xFF))
  let x := x >>> 8
  let s := store s (off + 6) (to_uchar (x &&& 0xFF))
  let x := x >>> 8
  let s := store s (off + 5) (to_uchar (x &&& 0xFF))
  let x := x >>> 8
  let s := store s (off + 4) (to_uchar (x &&& 0xFF))
  let x := x >>> 8
  let s := store s (off + 3) (to_uchar (x &&& 0xFF))
  let x := x >>> 8
  let s := store s (off + 2) (to_uchar (x &&& 0xFF))
  let x := x >>> 8
  let s := store s (off + 1) (to_uchar (x &&& 0xFF))
  let x := x >>> 8
  store s off (to_uchar x)

/-- The two statements `x <<= 8; x += b;` on an unsigned integer of `w` bits. -/
def shift_in (w : Nat) (x : Nat) (b : Fin 256) : Nat :=
  ((x <<< 8) % 2 ^ w + b.val) % 2 ^ w

/-- The function `ngim_tai_unpack`, reading at `s + off`; the arithmetic is
that of `apr_uint64_t`. The result is the return value and the label written
to `*t`. -/
def ngim_tai_unpack (s : Bytes) (off : Nat) : Nat × ngim_tai_t :=
  let x := (s off).val
  let x := shift_in 64 x (s (off + 1))
  let x := shift_in 64 x (s (off + 2))
  let x := shift_in 64 x (s (off + 3))
  let x := shift_in 64 x (s (off + 4))
  let x := shift_in 64 x (s (off + 5))
  let x := shift_in 64 x (s (off + 6))
  let x := shift_in 64 x (s (off + 7))
  (if x ≤ TAI_MAX_SEC then 1 else 0, { x := x })

/-- The local array `p` of the format and unformat functions before it is
written. -/
def local_bytes : Bytes := fun _ => 0

/-- The function `ngim_tai_format`. -/
def ngim_tai_format (s : Chars) (t : ngim_tai_t) : Chars :=
  format_textual s (ngim_tai_pack local_bytes 0 t) NGIM_TAI_PACK

/-- The function `ngim_tai_unformat`; `t0` is the content of `*t` before the
call, kept when `unformat_textual` returns 0. -/
def ngim_tai_unformat (s : Chars) (t0 : ngim_tai_t) : Nat × ngim_tai_t :=
  let r := unformat_textual s local_bytes NGIM_TAI_PACK
  if r.1 = 0 then (0, t0) else
  let u := ngim_tai_unpack r.2 0
  (if u.1 ≠ 0 then 1 else 0, u.2)

/-- The function `ngim_tain_pack`, writing at `s + off`. -/
def ngim_tain_pack (s : Bytes) (off : Nat) (t : ngim_tain_t) : Bytes :=
  let s := ngim_tai_pack s off t.sec
  let off := off + NGIM_TAI_PACK
  let x := t.nano
  let s := store s (off + 3) (to_uchar (x &&& 0xFF))
  let x := x >>> 8
  let s := store s (off + 2) (to_uchar (x &&& 0xFF))
  let x := x >>> 8
  let s := store s (off + 1) (to_uchar (x &&& 0xFF))
  let x := x >>> 8
  store s off (to_uchar x)

/-- The function `ngim_tain_unpack`, reading at `s + off`; `t0` is the content
of `*t` before the call, whose `nano` is kept when the seconds are invalid.
The arithmetic on the nanoseconds is that of `apr_uint32_t`. -/
def ngim_tain_unpack (s : Bytes) (off : Nat) (t0 : ngim_tain_t) : Nat × ngim_tain_t :=
  let u := ngim_tai_unpack s off
  if u.1 ≠ 0 then
    let off := off + NGIM_TAI_PACK
    let x := (s off).val
    let x := shift_in 32 x (s (off + 1))
    let x := shift_in 32 x (s (off + 2))
    let x := shift_in 32 x (s (off + 3))
    (if x ≤ TAI_MAX_NA then 1 else 0, { sec := u.2, nano := x })
  else (0, { sec := u.2, nano := t0.nano })

/-- The function `ngim_tain_format`. -/
def ngim_tain_format (s : Chars) (t : ngim_tain_t) : Chars :=
  format_textual s (ngim_tain_pack local_bytes 0 t) NGIM_TAIN_PACK

/-- The function `ngim_tain_unformat`. -/
def ngim_tain_unformat (s : Chars) (t0 : ngim_tain_t) : Nat × ngim_tain_t :=
  let r := unformat_textual s local_bytes NGIM_TAIN_PACK
  if r.1 = 0 then (0, t0) else
  let u := ngim_tain_unpack r.2 0 t0
  (if u.1 ≠ 0 then 1 else 0, u.2)

/-! ## Decoding: validity -/

/-- The value of `n` bytes at `s + off` read big-endian. -/
def be_value (s : Bytes) (off : Nat) : Nat → Nat
  | 0 => 0
  | n + 1 => be_value s off n * 256 + (s (off + n)).val

/-! ## Textual form -/

/-- The hexadecimal digit `format_textual` writes for the high nibble of a
byte. -/
def hex_hi (b : Fin 256) : Char := nibble_to_hex.getD ((b.val >>> 4) &&& 0xF) '0'

/-- The hexadecimal digit `format_textual` writes for the low nibble of a
byte. -/
def hex_lo (b : Fin 256) : Char := nibble_to_hex.getD (b.val &&& 0xF) '0'

/-! ## Ordering of labels and of file names -/

/-- The function `ngim_tain_less`. -/
def ngim_tain_less (t u : ngim_tain_t) : Nat :=
  if t.sec.x < u.sec.x then 1
  else if t.sec.x > u.sec.x then 0
  else if t.nano < u.nano then 1 else 0

/-- The library function `strcmp` on C strings, each given as the list of its
characters before the terminating NUL. C specifies only the sign of the
result; for two different characters the difference of their codes is
returned, for a proper prefix -1 or 1. -/
def strcmp : List Char → List Char → Int
  | [], [] => 0
  | [], _ :: _ => -1
  | _ :: _, [] => 1
  | a :: as, b :: bs =>
    if a = b then strcmp as bs else (a.toNat : Int) - (b.toNat : Int)

/-- The string held in the first `n` cells of a `char` array. -/
def chars_to_list (s : Chars) (n : Nat) : List Char := (List.range n).map s

/-- The local array `name` of `close_tainlog` (and `oldest` of
`flush_archive`) before it is written. -/
def local_chars : Chars := fun _ => Char.ofNat 0

/-- The name `close_tainlog` gives the archived file: `ngim_tain_format`
writes `NGIM_TAIN_FORMAT` characters into `name`, and `name[NGIM_TAIN_FORMAT]`
is set to NUL. -/
def archive_name (stamp : ngim_tain_t) : List Char :=
  chars_to_list (ngim_tain_format local_chars stamp) NGIM_TAIN_FORMAT

/-- The digits `format_textual` writes for the first `l` bytes, in order. -/
def hex_string (p : Bytes) : Nat → List Char
  | 0 => []
  | l + 1 => hex_string p l ++ [hex_hi (p l), hex_lo (p l)]

/-- The nibbles of the first `l` bytes, high nibble first. -/
def nibbles (p : Bytes) : Nat → List Nat
  | 0 => []
  | l + 1 => nibbles p l ++ [(p l).val / 16, (p l).val % 16]

/-- The number whose base-16 digits, most significant first, are the list. -/
def nib_value (ds : List Nat) : Nat := ds.foldl (fun acc d => acc * 16 + d) 0

/-! ## The status record (`srvctl.h`, `write_status`, `format_status`) -/

def MONITOR_STATUS_SIZE : Nat := 3 * NGIM_TAIN_PACK + 2 * 4 + 1
def MONITOR_STATUS_UPDATED : Nat := 0
def MONITOR_STATUS_CHG_RUN : Nat := NGIM_TAIN_PACK
def MONITOR_STATUS_CHG_LOG : Nat := MONITOR_STATUS_CHG_RUN + NGIM_TAIN_PACK
def MONITOR_STATUS_PID_RUN : Nat := MONITOR_STATUS_CHG_LOG + NGIM_TAIN_PACK
def MONITOR_STATUS_PID_LOG : Nat := MONITOR_STATUS_PID_RUN + 4
def MONITOR_STATUS_FORWARD : Nat := MONITOR_STATUS_SIZE - 1

/-- The store `*(apr_uint32_t*)&s[off] = (apr_uint32_t)v` in the byte order of
the host. -/
def store_u32 (big_endian : Bool) (s : Bytes) (off : Nat) (v : Nat) : Bytes :=
  let w := v % 2 ^ 32
  if big_endian then
    store (store (store (store s off (to_uchar (w / 2 ^ 24))) (off + 1)
      (to_uchar (w / 2 ^ 16))) (off + 2) (to_uchar (w / 2 ^ 8))) (off + 3) (to_uchar w)
  else
    store (store (store (store s off (to_uchar w)) (off + 1)
      (to_uchar (w / 2 ^ 8))) (off + 2) (to_uchar (w / 2 ^ 16))) (off + 3)
      (to_uchar (w / 2 ^ 24))

/-- The array `buffer` of `write_status` when it is written to the file.
`mem` is the memory the array lies in, `updated` the result of `ngim_tain_now`,
`run_changed` and `log_changed` the fields `run.changed` and `log.changed`. -/
def write_status_buffer (big_endian : Bool) (mem : Bytes)
    (updated run_changed log_changed : ngim_tain_t) (s : Monitor) : Bytes :=
  let b0 : Bytes := fun j => if j < MONITOR_STATUS_SIZE then 0 else mem j
  let b1 := ngim_tain_pack b0 MONITOR_STATUS_UPDATED updated
  let b2 := ngim_tain_pack b1 MONITOR_STATUS_CHG_RUN run_changed
  let b3 := ngim_tain_pack b2 MONITOR_STATUS_CHG_LOG log_changed
  let b4 := store_u32 big_endian b3 MONITOR_STATUS_PID_RUN s.run.pid
  let b5 := store_u32 big_endian b4 MONITOR_STATUS_PID_LOG s.log.pid
  if s.flag_forward then store b5 MONITOR_STATUS_FORWARD 1 else b5

/-- The bytes `write_status` writes to the temporary file:
`apr_file_write_full(file, buffer, sizeof(buffer), NULL)`. -/
def write_status_record (big_endian : Bool) (mem : Bytes)
    (updated run_changed log_changed : ngim_tain_t) (s : Monitor) : List (Fin 256) :=
  (List.range MONITOR_STATUS_SIZE).map
    (write_status_buffer big_endian mem updated run_changed log_changed s)

def DEFAULT_BUFSIZE : Int := 148
def MAX_BUFSIZE : Int := 4096
def MIN_BUFSIZE : Int := 60
def BUFFER_START : Nat := NGIM_TAIN_FORMAT + 1
def BUFFER_SEPARATOR : Nat := NGIM_TAIN_FORMAT
def DEFAULT_FILESIZE : Int := 100000
def MIN_FILESIZE : Int := 1000
def MAX_FILESIZE : Int := 100000000
def DEFAULT_KEEPNUM : Int := 10
def MAX_KEEPNUM : Int := 100000

def cmd_help : Nat := 1 <<< 0
def cmd_keep : Nat := 1 <<< 1
def cmd_keepall : Nat := 1 <<< 2
def cmd_logdir : Nat := 1 <<< 3
def cmd_user : Nat := 1 <<< 4
def cmd_group : Nat := 1 <<< 5
def cmd_buffer : Nat := 1 <<< 6
def cmd_file : Nat := 1 <<< 7

/-- The numeric settings of `tainlog`: the globals `arg_keepnum`,
`arg_bufsize` and `arg_filesize`. -/
structure tainlog_args where
  arg_keepnum : Int
  arg_bufsize : Int
  arg_filesize : Int
deriving DecidableEq, Repr

/-- The initial values of the globals. -/
def tainlog_defaults : tainlog_args :=
  { arg_keepnum := DEFAULT_KEEPNUM, arg_bufsize := DEFAULT_BUFSIZE,
    arg_filesize := DEFAULT_FILESIZE }

/-- The function `validate_cmdline`. `root_given` says whether `arg_root` is
non-NULL; `keep_num`, `file_num` and `buffer_num` are the values `apr_atoi64`
returns for the arguments of `--keep`, `--logsize` and `--line-buffer`. The
result is the return value and the settings. -/
def validate_cmdline (selected : Nat) (root_given : Bool) (keep_num file_num buffer_num : Int)
    (a : tainlog_args) : Int × tainlog_args :=
  if selected &&& cmd_help ≠ 0 then (-1, a) else
  if !root_given then (-1, a) else
  if selected &&& cmd_keep ≠ 0 ∧ selected &&& cmd_keepall ≠ 0 then (-1, a) else
  let a1 :=
    if selected &&& cmd_keep ≠ 0 then
      if keep_num > MAX_KEEPNUM then { a with arg_keepnum := MAX_KEEPNUM }
      else if keep_num < 0 then { a with arg_keepnum := -1 }
      else { a with arg_keepnum := keep_num }
    else if selected &&& cmd_keepall ≠ 0 then { a with arg_keepnum := -1 }
    else a
  let a2 :=
    if selected &&& cmd_file ≠ 0 then
      if file_num > MAX_FILESIZE then { a1 with arg_filesize := MAX_FILESIZE }
      else if file_num < MIN_BUFSIZE then { a1 with arg_filesize := MIN_FILESIZE }
      else { a1 with arg_filesize := file_num }
    else a1
  let a3 :=
    if selected &&& cmd_buffer ≠ 0 then
      if buffer_num > MAX_BUFSIZE then { a2 with arg_bufsize := MAX_BUFSIZE }
      else if buffer_num < MIN_BUFSIZE then { a2 with arg_bufsize := MIN_BUFSIZE }
      else { a2 with arg_bufsize := buffer_num }
    else a2
  (0, a3)

/-! ## The scanner (`scanner.c`) -/

/-- Maximum number of monitors started. -/
def MAX_SERVICES : Nat := 128

/-- The file types the scanner and the logger tell apart. -/
inductive FileType where
  | reg
  | dir
  | lnk
  | other
deriving DecidableEq, Repr

/-- What `apr_dir_read` reports of a directory entry: its name and type. -/
structure finfo where
  name : List Char
  filetype : FileType
deriving DecidableEq, Repr

/-- The loop of `scan` that reads the directory into the array `info`. The
second argument is `info[0 .. active)`, so `active` is its length; an entry
read into `info[active]` is kept only when `active` is then incremented. The
result is the collected entries and whether the warning "reached 128
services, ignoring the rest" was issued. -/
def scan_read : List finfo → List finfo → List finfo × Bool
  | [], info => (info, false)
  | e :: rest, info =>
    if e.name.head? = some '.' then scan_read rest info
    else if info.length < MAX_SERVICES - 1 then scan_read rest (info ++ [e])
    else (info, true)

/-- The comparison function `compare_finfo_name`. -/
def compare_finfo_name (a b : finfo) : Int := strcmp b.name a.name

/-- The library function `qsort` with a comparison function: the elements in
an order in which the comparison of each element with its successor is not
positive. -/
def qsort {α : Type} (cmp : α → α → Int) (l : List α) : List α :=
  l.insertionSort (fun a b => cmp a b ≤ 0)

/-- The loop `while (active-- > 0 && !flag_stop) start(&info[active], ...)` of
`scan`: the entries handed to `start`, in order. `stop a` is the value of
`flag_stop` when the loop condition is tested with `active = a`. -/
def scan_start_loop (info : List finfo) (stop : Nat → Bool) : Nat → List finfo
  | 0 => []
  | active + 1 =>
    if stop (active + 1) then []
    else (info.getD active { name := [], filetype := .other }) ::
      scan_start_loop info stop active

/-- One pass of `scan` over the entries of the active directory: the entries
handed to `start`, in order, and whether the warning was issued. -/
def scan_pass (entries : List finfo) (stop : Nat → Bool) : List finfo × Bool :=
  let r := scan_read entries []
  let info := qsort compare_finfo_name r.1
  (scan_start_loop info stop r.1.length, r.2)

/-- A directory of `n` symbolic links named `s0`, `s1`, and so on. -/
def links (n : Nat) : List finfo :=
  (List.range n).map (fun i => { name := 's' :: Nat.toDigits 10 i, filetype := .lnk })

/-! ## The line logger (`tainlog.c`) -/

/-- One call of `apr_file_getc` on standard input that does not report end of
file: a byte, together with the label `ngim_tain_now` would return at that
moment, or a read error. End of file is the end of the list of results. -/
inductive ReadResult where
  | byte (c : Char) (now : ngim_tain_t)
  | error
deriving DecidableEq, Repr

/-- How the logger functions can end: with a result, in a failed `die_assert`,
or, in this embedding, with the loop bound used up. -/
inductive Outcome (α : Type) where
  | done (a : α)
  | fault (f : Fault)
  | out_of_fuel

/-- What `readline` leaves behind: the buffer, `*pos`, `*stamp`, `flag_eof`
and the input not yet read. -/
structure ReadOut where
  buffer : Chars
  pos : Nat
  stamp : ngim_tain_t
  flag_eof : Bool
  rest : List ReadResult

/-- The `do ... while (*pos < len && !flag_eof)` loop of `readline`, entered
with the given `*pos`. -/
def readline_loop (start len : Nat) :
    List ReadResult → Chars → Nat → ngim_tain_t → ReadOut
  | [], buffer, pos, stamp =>
    { buffer := buffer, pos := pos, stamp := stamp, flag_eof := true, rest := [] }
  | .error :: rest, buffer, pos, stamp =>
    if pos < len then readline_loop start len rest buffer pos stamp
    else { buffer := buffer, pos := pos, stamp := stamp, flag_eof := false, rest := rest }
  | .byte c now :: rest, buffer, pos, stamp =>
    let buffer1 := store buffer pos c
    let stamp1 := if pos = start then now else stamp
    if c = '\n' then
      { buffer := buffer1, pos := pos + 1, stamp := stamp1, flag_eof := false, rest := rest }
    else if pos + 1 < len then readline_loop start len rest buffer1 (pos + 1) stamp1
    else { buffer := buffer1, pos := pos + 1, stamp := stamp1, flag_eof := false, rest := rest }

/-- The function `readline`; the first component is its return value. -/
def readline (buffer : Chars) (start len : Nat) (stamp : ngim_tain_t)
    (input : List ReadResult) : Except Fault (Nat × ReadOut) :=
  if ¬ start < len then .error .assertion else
  let r := readline_loop start len input buffer start stamp
  .ok (if r.pos > start then 1 else 0, r)

/-- The function `format_tainlog`; `bufsize` is `arg_bufsize`. The result is
the buffer, `*len` and `*wrapped`. -/
def format_tainlog (bufsize : Nat) (buffer : Chars) (len : Nat) (stamp : ngim_tain_t)
    (wrapped : Bool) : Except Fault (Chars × Nat × Bool) :=
  if ¬ len < bufsize then .error .assertion else
  let b1 := ngim_tain_format buffer stamp
  let b2 := store b1 BUFFER_SEPARATOR (if wrapped then '\t' else ' ')
  if b2 (len - 1) ≠ '\n' then .ok (store b2 len '\n', len + 1, true)
  else .ok (b2, len, false)

/-- A file of the log directory. -/
structure LogFile where
  name : List Char
  filetype : FileType
  size : Nat
deriving DecidableEq, Repr

/-- The name `FILE_CURRENT`. -/
def FILE_CURRENT : List Char := "current".toList

/-- The log directory and the globals `current` (open or NULL) and
`current_size`. -/
structure Logger where
  dir : List LogFile
  current_open : Bool
  current_size : Nat
deriving DecidableEq, Repr

/-- What the operating system answers during one call of `append_tainlog`:
whether the rename, the opening of the directory and the removal in each
round of `flush_archive`, the opening and the locking of `current` succeed,
and how many bytes of a request `apr_file_write_full` reports written. -/
structure AppendEnv where
  rename_ok : Bool
  dir_open_ok : Nat → Bool
  remove_ok : Nat → Bool
  open_ok : Bool
  lock_ok : Bool
  written : Nat → Nat

/-- The function `open_tainlog`. -/
def open_tainlog (open_ok lock_ok : Bool) (L : Logger) : Logger :=
  if L.current_open then L else
  let L1 := { L with current_size := 0 }
  match L1.dir.find? (fun f => f.name = FILE_CURRENT) with
  | none =>
    if open_ok then
      { L1 with dir := L1.dir ++ [{ name := FILE_CURRENT, filetype := .reg, size := 0 }],
                current_open := lock_ok }
    else L1
  | some f =>
    if f.filetype ≠ .reg then L1
    else if open_ok then { L1 with current_size := f.size, current_open := lock_ok }
    else L1

/-- The function `close_tainlog`: the rename replaces a file that already has
the archive name, and fails when there is no `current`. -/
def close_tainlog (stamp : ngim_tain_t) (rename_ok : Bool) (L : Logger) : Logger :=
  let L1 := { L with current_open := false }
  if rename_ok && L1.dir.any (fun f => f.name = FILE_CURRENT) then
    let kept := L1.dir.filter (fun f => f.name ≠ archive_name stamp)
    let renamed := kept.map
      (fun f => if f.name = FILE_CURRENT then { f with name := archive_name stamp } else f)
    { L1 with dir := renamed }
  else L1

/-- The test of `flush_archive` for a log file: a regular file whose name
starts with `'@'` and has `NGIM_TAIN_FORMAT` characters. -/
def is_archive (f : LogFile) : Bool :=
  f.filetype = .reg && f.name.head? = some '@' && f.name.length = NGIM_TAIN_FORMAT

/-- The inner `while` loop of `flush_archive` over the directory entries: the
count `files` and the name `oldest`. -/
def scan_archives : List LogFile → Nat × List Char → Nat × List Char
  | [], st => st
  | f :: rest, st =>
    if is_archive f then
      scan_archives rest
        (st.1 + 1, if st.1 = 0 ∨ strcmp f.name st.2 < 0 then f.name else st.2)
    else scan_archives rest st

/-- The `do ... while (files > arg_keepnum)` loop of `flush_archive`, from the
round with the given index on. -/
def flush_loop (keepnum : Int) (dir_open_ok remove_ok : Nat → Bool) :
    Nat → Nat → List LogFile → Outcome (List LogFile)
  | 0, _, _ => .out_of_fuel
  | fuel + 1, i, dir =>
    if !dir_open_ok i then .done dir else
    let st := scan_archives dir (0, [])
    if (st.1 : Int) > keepnum then
      if !remove_ok i then .done dir else
      let dir1 := dir.filter (fun f => f.name ≠ st.2)
      if ((st.1 : Int) - 1) > keepnum then flush_loop keepnum dir_open_ok remove_ok fuel (i + 1) dir1
      else .done dir1
    else .done dir

/-- The function `flush_archive`. -/
def flush_archive (keepnum : Int) (dir_open_ok remove_ok : Nat → Bool) (fuel : Nat)
    (dir : List LogFile) : Outcome (List LogFile) :=
  if keepnum < 0 then .done dir else flush_loop keepnum dir_open_ok remove_ok fuel 0 dir

/-- The function `append_tainlog` for a buffer of `len` bytes; `bufsize`,
`filesize` and `keepnum` are `arg_bufsize`, `arg_filesize` and `arg_keepnum`.
The loop of `flush_archive` is given one round more than there are directory
entries. -/
def append_tainlog (bufsize filesize : Nat) (keepnum : Int) (env : AppendEnv) (len : Nat)
    (stamp : ngim_tain_t) (L : Logger) : Outcome Logger :=
  if ¬ (len > 0 ∧ len ≤ bufsize) then .fault .assertion else
  let rotated : Outcome Logger :=
    if L.current_size + len > filesize then
      let L1 := close_tainlog stamp env.rename_ok L
      match flush_archive keepnum env.dir_open_ok env.remove_ok (L1.dir.length + 1) L1.dir with
      | .done d => .done { L1 with dir := d }
      | .fault f => .fault f
      | .out_of_fuel => .out_of_fuel
    else .done L
  match rotated with
  | .fault f => .fault f
  | .out_of_fuel => .out_of_fuel
  | .done L2 =>
    let L3 := open_tainlog env.open_ok env.lock_ok L2
    if L3.current_open then
      let w := min (env.written len) len
      let grown := L3.dir.map
        (fun f => if f.name = FILE_CURRENT then { f with size := f.size + w } else f)
      .done { dir := grown, current_open := L3.current_open,
              current_size := L3.current_size + w }
    else .done L3

/-- The state of `tainlog`: its locals `buffer`, `stamp` and `wrapped`, the
flag `flag_eof`, the input not yet read, the log directory, and the buffers
handed to `append_tainlog` so far. -/
structure Tainlog where
  buffer : Chars
  stamp : ngim_tain_t
  wrapped : Bool
  flag_eof : Bool
  input : List ReadResult
  logger : Logger
  records : List (List Char)

/-- The `do ... while (!flag_eof)` loop of `tainlog`, bounded by the given
number of rounds. `env n` holds the answers of the operating system during
the call of `append_tainlog` for record number `n`. -/
def tainlog_loop (bufsize filesize : Nat) (keepnum : Int) (env : Nat → AppendEnv) :
    Nat → Tainlog → Outcome Tainlog
  | 0, _ => .out_of_fuel
  | fuel + 1, T =>
    match readline T.buffer BUFFER_START (bufsize - 1) T.stamp T.input with
    | .error f => .fault f
    | .ok (ret, r) =>
      if ret ≠ 0 then
        match format_tainlog bufsize r.buffer r.pos r.stamp T.wrapped with
        | .error f => .fault f
        | .ok (buffer, len, wrapped) =>
          match append_tainlog bufsize filesize keepnum (env T.records.length) len r.stamp
              T.logger with
          | .fault f => .fault f
          | .out_of_fuel => .out_of_fuel
          | .done L =>
            let T1 : Tainlog :=
              { buffer := buffer, stamp := r.stamp, wrapped := wrapped,
                flag_eof := r.flag_eof, input := r.rest, logger := L,
                records := T.records ++ [chars_to_list buffer len] }
            if T1.flag_eof then .done T1
            else tainlog_loop bufsize filesize keepnum env fuel T1
      else
        let T1 : Tainlog :=
          { T with buffer := r.buffer, stamp := r.stamp, flag_eof := r.flag_eof,
                   input := r.rest }
        if T1.flag_eof then .done T1
        else tainlog_loop bufsize filesize keepnum env fuel T1

/-- The state in which `tainlog` enters its loop: the buffer from
`apr_pcalloc` is zeroed, `wrapped` is 0, and `setup_tainlog` has called
`open_tainlog` in the log directory. -/
def tainlog_init (dir : List LogFile) (open_ok lock_ok : Bool) (stamp0 : ngim_tain_t)
    (input : List ReadResult) : Tainlog :=
  { buffer := local_chars, stamp := stamp0, wrapped := false, flag_eof := false,
    input := input,
    logger := open_tainlog open_ok lock_ok { dir := dir, current_open := false, current_size := 0 },
    records := [] }

/-- The bytes of an input: what the successful reads deliver, in order. -/
def input_bytes : List ReadResult → List Char
  | [] => []
  | .byte c _ :: rest => c :: input_bytes rest
  | .error :: rest => input_bytes rest

/-- The characters of a buffer from index `lo` up to, not including, `hi`. -/
def chunk (b : Chars) (lo hi : Nat) : List Char :=
  (List.range (hi - lo)).map (fun i => b (lo + i))

/-- A hexadecimal digit, in either case. -/
def hex_digit (c : Char) : Bool :=
  c.isDigit || ('a' ≤ c && c ≤ 'f') || ('A' ≤ c && c ≤ 'F')

/-- The archive names as the specification words them: `'@'` followed by 24
hexadecimal digits. -/
def spec_archive_name : List Char → Bool
  | '@' :: ds => ds.length = 24 && ds.all hex_digit
  | _ => false

/-- A regular file named `'@'` followed by 24 letters `z`. -/
def odd_file : LogFile :=
  { name := '@' :: List.replicate 24 'z', filetype := .reg, size := 0 }

/-- A log directory with three archive files, `current`, and a subdirectory. -/
def sample_dir : List LogFile :=
  [ { name := "@4000000000000002000000bb".toList, filetype := .reg, size := 10 },
    { name := "current".toList, filetype := .reg, size := 5 },
    { name := "@4000000000000001000000aa".toList, filetype := .reg, size := 10 },
    { name := "@4000000000000003000000cc".toList, filetype := .reg, size := 10 },
    { name := "old".toList, filetype := .dir, size := 0 } ]

/-- The separator of a record: the character after the stamp. -/
def separator (r : List Char) : Char := r.getD BUFFER_SEPARATOR ' '

/-- Reassembly as the specification words it: strip stamp and separator from
each record, and delete the final character (the newline) of every record
that is followed by a record whose separator is a tab; concatenate. -/
def reassemble : List (List Char) → List Char
  | [] => []
  | [r] => r.drop BUFFER_START
  | r :: r2 :: rest =>
    (if separator r2 = '\t' then (r.drop BUFFER_START).dropLast else r.drop BUFFER_START)
      ++ reassemble (r2 :: rest)

/-- The single newline that follows a non-empty input not ending with one. -/
def final_newline (bs : List Char) : List Char :=
  if bs ≠ [] ∧ bs.getLast? ≠ some '\n' then ['\n'] else []

/-- The answers of an operating system on which every file operation
succeeds and every write is complete. -/
def ok_env : AppendEnv :=
  { rename_ok := true, dir_open_ok := fun _ => true, remove_ok := fun _ => true,
    open_ok := true, lock_ok := true, written := fun n => n }

/-- The input made of `m` lines `"a\n"`, the first of them being line number
`i` of the whole input; byte number `k` of the whole input is read at the
time `clock k`. -/
def a_lines (clock : Nat → ngim_tain_t) : Nat → Nat → List ReadResult
  | _, 0 => []
  | i, m + 1 =>
    .byte 'a' (clock (2 * i)) :: .byte '\n' (clock (2 * i + 1)) :: a_lines clock (i + 1) m

/-- A clock that advances by one second with every byte read. -/
def tick (k : Nat) : ngim_tain_t := { sec := { x := k }, nano := 0 }

/-- The logger that has `current` open, with `c` bytes in it, and the archive
files `arch` in the directory before it. -/
def logger_with (arch : List LogFile) (c : Nat) : Logger :=
  { dir := arch ++ [{ name := FILE_CURRENT, filetype := .reg, size := c }],
    current_open := true, current_size := c }

/-- The file `close_tainlog` makes of a `current` of `c` bytes. -/
def archived (stamp : ngim_tain_t) (c : Nat) : LogFile :=
  { name := archive_name stamp, filetype := .reg, size := c }

/-- Archive file number `j` of the scenario, `j = 1, 2, ...`: it is named by
the stamp of line number `3571 * j` and holds 3571 records of 28 bytes. -/
def nth_archive (clock : Nat → ngim_tain_t) (j : Nat) : LogFile :=
  archived (clock (2 * (3571 * j))) 99988

/-- The last `K` of the archive files number 1 to `q`, oldest first. -/
def archives (clock : Nat → ngim_tain_t) (K q : Nat) : List LogFile :=
  ((List.range q).map (fun j => nth_archive clock (j + 1))).drop (q - K)

/-- An input with a line longer than a line buffer of 60 bytes has room for,
and a failed read inside it. -/
def long_line : List ReadResult :=
  List.replicate 40 (.byte 'x' (tick 1)) ++ [.error, .byte '\n' (tick 2)]

/-- An active directory with two links, read in the order `b`, `a`. -/
def two_links : List finfo :=
  [{ name := ['b'], filetype := .lnk }, { name := ['a'], filetype := .lnk }]

/-! ## Conversion from and to `apr_time_t` (`tai.c`) -/

/-- The constant `NGIM_TAI_APR_EPOCH`, 2^62 + 10. -/
def NGIM_TAI_APR_EPOCH : Int := 4611686018427387914

/-- The APR constant `APR_USEC_PER_SEC`. -/
def APR_USEC_PER_SEC : Int := 1000000

/-- The maximum value for microseconds in `apr_time_t`. -/
def APR_MAX_U : Nat := 999999

/-- The APR macro `apr_time_sec`: division of `apr_time_t` values truncates. -/
def apr_time_sec (a : Int) : Int := a.tdiv APR_USEC_PER_SEC

/-- The APR macro `apr_time_usec`. -/
def apr_time_usec (a : Int) : Int := a.tmod APR_USEC_PER_SEC

/-- The value of a 64-bit pattern read as an `apr_time_t` (two's complement). -/
def to_int64 (n : Int) : Int :=
  if n % 2 ^ 64 < 2 ^ 63 then n % 2 ^ 64 else n % 2 ^ 64 - 2 ^ 64

/-- The APR macro `apr_time_make`. -/
def apr_time_make (sec usec : Int) : Int := to_int64 (sec * APR_USEC_PER_SEC + usec)

/-- The function `ngim_tain_from_apr`; `sec.x` is an `apr_uint64_t` and `nano`
an `apr_uint32_t`. -/
def ngim_tain_from_apr (a : Int) : ngim_tain_t :=
  { sec := { x := ((NGIM_TAI_APR_EPOCH + apr_time_sec a) % 2 ^ 64).toNat },
    nano := ((1000 * apr_time_usec a + 500) % 2 ^ 32).toNat }

/-- The function `ngim_tain_to_apr`; `s` is an `apr_uint64_t` and `u` an
`apr_uint32_t`. -/
def ngim_tain_to_apr (t : ngim_tain_t) : Int :=
  let s : Nat := (((t.sec.x : Int) - NGIM_TAI_APR_EPOCH) % 2 ^ 64).toNat
  let u : Nat := ((t.nano + 500) % 2 ^ 32) / 1000
  if u > APR_MAX_U then apr_time_make (to_int64 (((s + 1) % 2 ^ 64 : Nat) : Int)) 0
  else apr_time_make (to_int64 (s : Int)) (u : Int)

/-! ## The pipe assertion and the flap state -/

/-- The state `both_running` after a KILL command during which run exits on
the first SIGTERM and log survives every signal, SIGKILL included. -/
def log_survives : Monitor :=
  { flag_stop := false, flag_intr := false, flag_forward := false,
    flag_ignchld := false, flag_timer := true, pipe_stdin := true,
    pipe_runlog0 := false, pipe_runlog1 := false,
    run := { pid := 0, starts := 0, suspended := false, suspended_periods := 0 },
    log := { pid := 101, starts := 0, suspended := false, suspended_periods := 0 },
    trace := [Event.start_attempt Who.log, Event.start_attempt Who.run,
              Event.signal Who.run 15, Event.signal Who.log 15, Event.signal Who.log 15,
              Event.signal Who.log 2, Event.signal Who.log 3, Event.signal Who.log 9] }

/-! ## ISO 8601 dates (`iso8601.c`) -/

/-- The maximum length of a formatted date and time, with the terminating NUL. -/
def NGIM_ISO8601_FORMAT : Nat := 33

/-- The fields of `apr_time_exp_t` that `format_iso8601` reads, all
`apr_int32_t`. -/
structure apr_time_exp_t where
  tm_usec : Int
  tm_sec : Int
  tm_min : Int
  tm_hour : Int
  tm_mday : Int
  tm_mon : Int
  tm_year : Int
  tm_gmtoff : Int
deriving DecidableEq, Repr

/-- The byte a `char` holds after an `int` is stored into it. -/
def to_char (x : Int) : Char := Char.ofNat (x % 256).toNat

/-- The value of `'0'` as an `int`. -/
def char_zero : Int := '0'.toNat

/-- The bytes the block "Year" of `format_iso8601` stores, up to and
including the `'-'`. Division and remainder of `int` truncate. -/
def iso_year (exp : apr_time_exp_t) : List Char :=
  let tmp := exp.tm_year + 1900
  (if tmp > 9999 then
    [to_char (tmp.tdiv 10000 + char_zero), to_char ((tmp.tmod 10000).tdiv 1000 + char_zero)]
  else [to_char (tmp.tdiv 1000 + char_zero)]) ++
  [to_char ((tmp.tmod 1000).tdiv 100 + char_zero),
   to_char ((tmp.tmod 100).tdiv 10 + char_zero),
   to_char (tmp.tmod 10 + char_zero), '-']

/-- The bytes stored for a field written with two digits. -/
def iso_two (x : Int) : List Char :=
  [to_char (x.tdiv 10 + char_zero), to_char (x.tmod 10 + char_zero)]

/-- The bytes the block "Microseconds" stores. -/
def iso_usec (exp : apr_time_exp_t) : List Char :=
  if exp.tm_usec > 0 then
    ['.', to_char (exp.tm_usec.tdiv 100000 + char_zero),
     to_char ((exp.tm_usec.tmod 100000).tdiv 10000 + char_zero),
     to_char ((exp.tm_usec.tmod 10000).tdiv 1000 + char_zero),
     to_char ((exp.tm_usec.tmod 1000).tdiv 100 + char_zero),
     to_char ((exp.tm_usec.tmod 100).tdiv 10 + char_zero),
     to_char (exp.tm_usec.tmod 10 + char_zero)]
  else []

/-- The bytes the block "Time zone offset" stores. -/
def iso_zone (exp : apr_time_exp_t) : List Char :=
  if exp.tm_gmtoff ≠ 0 then
    [if exp.tm_gmtoff > 0 then '+' else '-'] ++
    iso_two (exp.tm_gmtoff.tdiv 3600) ++
    (if (exp.tm_gmtoff.tmod 3600).tdiv 60 > 0 then iso_two ((exp.tm_gmtoff.tmod 3600).tdiv 60)
     else [])
  else ['Z']

/-- The function `format_iso8601`: the bytes it stores at `s[0]`, `s[1]`, and
so on, the last of them the terminating NUL. -/
def format_iso8601 (exp : apr_time_exp_t) : List Char :=
  iso_year exp ++ iso_two (exp.tm_mon + 1) ++ ['-'] ++ iso_two exp.tm_mday ++ [' '] ++
  iso_two exp.tm_hour ++ [':'] ++ iso_two exp.tm_min ++ [':'] ++ iso_two exp.tm_sec ++
  iso_usec exp ++ iso_zone exp ++ [Char.ofNat 0]

/-- Half past noon on 15 June 2005 at the given offset from UTC, in seconds. -/
def sample_time (gmtoff : Int) : apr_time_exp_t :=
  { tm_usec := 0, tm_sec := 45, tm_min := 30, tm_hour := 12, tm_mday := 15, tm_mon := 5,
    tm_year := 105, tm_gmtoff := gmtoff }

/-! ## The line buffer with its bounds checked -/

/-- The loop of `readline` on a buffer of `size` bytes: every call of
`apr_file_getc` is passed `&buffer[*pos]`, which has to lie inside the
buffer. -/
def readline_loop_chk (size start len : Nat) :
    List ReadResult → Chars → Nat → ngim_tain_t → Except Fault ReadOut
  | [], buffer, pos, stamp =>
    if ¬ pos < size then .error .out_of_bounds else
    .ok { buffer := buffer, pos := pos, stamp := stamp, flag_eof := true, rest := [] }
  | .error :: rest, buffer, pos, stamp =>
    if ¬ pos < size then .error .out_of_bounds else
    if pos < len then readline_loop_chk size start len rest buffer pos stamp
    else .ok { buffer := buffer, pos := pos, stamp := stamp, flag_eof := false, rest := rest }
  | .byte c now :: rest, buffer, pos, stamp =>
    if ¬ pos < size then .error .out_of_bounds else
    let buffer1 := store buffer pos c
    let stamp1 := if pos = start then now else stamp
    if c = '\n' then
      .ok { buffer := buffer1, pos := pos + 1, stamp := stamp1, flag_eof := false, rest := rest }
    else if pos + 1 < len then readline_loop_chk size start len rest buffer1 (pos + 1) stamp1
    else .ok { buffer := buffer1, pos := pos + 1, stamp := stamp1, flag_eof := false,
               rest := rest }

/-- The function `readline` on a buffer of `size` bytes. -/
def readline_chk (size : Nat) (buffer : Chars) (start len : Nat) (stamp : ngim_tain_t)
    (input : List ReadResult) : Except Fault (Nat × ReadOut) :=
  if ¬ start < len then .error .assertion else
  match readline_loop_chk size start len input buffer start stamp with
  | .error f => .error f
  | .ok r => .ok (if r.pos > start then 1 else 0, r)

/-- The function `format_tainlog` on a buffer of `size` bytes:
`ngim_tain_format` stores `NGIM_TAIN_FORMAT` bytes from `buffer[0]` on, then
`buffer[BUFFER_SEPARATOR]` is stored, `buffer[*len - 1]` is read (the
subtraction is done in `apr_size_t`) and, for a wrapped line, `buffer[*len]`
is stored. -/
def format_tainlog_chk (size bufsize : Nat) (buffer : Chars) (len : Nat)
    (stamp : ngim_tain_t) (wrapped : Bool) : Except Fault (Chars × Nat × Bool) :=
  if ¬ len < bufsize then .error .assertion else
  if ¬ NGIM_TAIN_FORMAT ≤ size then .error .out_of_bounds else
  let b1 := ngim_tain_format buffer stamp
  if ¬ BUFFER_SEPARATOR < size then .error .out_of_bounds else
  let b2 := store b1 BUFFER_SEPARATOR (if wrapped then '\t' else ' ')
  if len = 0 ∨ ¬ len - 1 < size then .error .out_of_bounds else
  if b2 (len - 1) ≠ '\n' then
    if ¬ len < size then .error .out_of_bounds else .ok (store b2 len '\n', len + 1, true)
  else .ok (b2, len, false)

/-- The function `append_tainlog` on a buffer of `size` bytes:
`apr_file_write_full` reads `buffer[0 .. len)`. -/
def append_tainlog_chk (size bufsize filesize : Nat) (keepnum : Int) (env : AppendEnv)
    (len : Nat) (stamp : ngim_tain_t) (L : Logger) : Outcome Logger :=
  if ¬ (len > 0 ∧ len ≤ bufsize) then .fault .assertion else
  if ¬ len ≤ size then .fault .out_of_bounds else
  append_tainlog bufsize filesize keepnum env len stamp L

/-! ## The scanner's table of services (`scanner.c`) -/

/-- The hash table key: inode and device of the service directory. -/
structure service_key where
  inode : Nat
  device : Nat
deriving DecidableEq, Repr

/-- The fields of the hash table value that the control flow depends on:
`pid` (monitor running if non-zero) and `active` (non-zero as `true`). -/
structure service_value where
  pid : Nat
  active : Bool
deriving DecidableEq, Repr

/-- The hash table `services`: its entries, in the order in which an iteration
visits them. -/
abbrev Services := List (service_key × service_value)

/-- The APR function `apr_hash_get`: the value stored under the key, or none
(NULL). -/
def apr_hash_get (t : Services) (k : service_key) : Option service_value :=
  (t.find? (fun e => e.1 = k)).map (fun e => e.2)

/-- The APR function `apr_hash_set`: with a value, the entry under the key is
replaced or added; with NULL it is deleted. -/
def apr_hash_set (t : Services) (k : service_key) : Option service_value → Services
  | some v => t.filter (fun e => e.1 ≠ k) ++ [(k, v)]
  | none => t.filter (fun e => e.1 ≠ k)

/-- An assignment to a field of the value that `apr_hash_get` returned for the
key: the value is changed in place. -/
def set_value (t : Services) (k : service_key) (f : service_value → service_value) :
    Services :=
  t.map (fun e => if e.1 = k then (e.1, f e.2) else e)

/-- What the operating system answers during one call of `start`: the result
of `apr_stat` on the link (type and key of what it points to, or failure),
whether the basename can be resolved, whether `malloc` succeeds, whether the
process attributes can be created, and the pid `apr_proc_create` reports, or
its failure. -/
structure StartAnswers where
  stat : Option (FileType × service_key)
  basename_ok : Bool
  alloc_ok : Bool
  attr_ok : Bool
  spawn : Option Nat
deriving DecidableEq, Repr

/-- The function `create_entry`: the table with the new entry, or none when it
returns NULL. -/
def create_entry (a : StartAnswers) (k : service_key) (t : Services) : Option Services :=
  if t.length ≥ MAX_SERVICES then none
  else if !a.basename_ok then none
  else if !a.alloc_ok then none
  else some (apr_hash_set t k (some { pid := 0, active := false }))

/-- The part of `start` from "Create process attributes" on: the new table
and, when a monitor was started, its pid and the key it was started for. -/
def start_monitor (k : service_key) (a : StartAnswers) (t : Services) :
    Services × Option (Nat × service_key) :=
  if !a.attr_ok then (t, none) else
  match a.spawn with
  | none => (t, none)
  | some pid => (set_value t k (fun v => { v with pid := pid }), some (pid, k))

/-- The function `start`. -/
def start (entry : finfo) (a : StartAnswers) (t : Services) :
    Services × Option (Nat × service_key) :=
  if entry.filetype ≠ .lnk ∨ entry.name.head? = some '.' then (t, none) else
  match a.stat with
  | none => (t, none)
  | some (ft, k) =>
    if ft ≠ .dir then (t, none) else
    match apr_hash_get t k with
    | some v =>
      let t1 := set_value t k (fun v => { v with active := true })
      if v.pid ≠ 0 then (t1, none) else start_monitor k a t1
    | none =>
      match create_entry a k t with
      | none => (t, none)
      | some t1 => start_monitor k a (set_value t1 k (fun v => { v with active := true }))

/-- The function `monitor_done` for the pid of the child that was reaped: the
first value with that pid is marked as not running. -/
def monitor_done (pid : Nat) : Services → Services
  | [] => []
  | e :: rest =>
    if e.2.pid = pid then (e.1, { e.2 with pid := 0 }) :: rest
    else e :: monitor_done pid rest

/-- The function `clear_services`. -/
def clear_services (t : Services) : Services :=
  t.filterMap (fun e =>
    if e.2.active then some (e.1, { e.2 with active := false })
    else if e.2.pid = 0 then none
    else some e)

/-- The scanner's table together with the monitors it has started and not yet
reaped, each with the key it was started for. -/
structure Scanner where
  services : Services
  monitors : List (Nat × service_key)

/-- The states of the scanner: `start` is called on any entry with any
answers, where a new process gets a non-zero pid that no unreaped child has;
a child is reaped and `monitor_done` is called with its pid;
`clear_services` is called. -/
inductive ScanReachable : Scanner → Prop where
  | init : ScanReachable { services := [], monitors := [] }
  | start {S : Scanner} (entry : finfo) (a : StartAnswers) : ScanReachable S →
      (∀ pid, a.spawn = some pid → pid ≠ 0 ∧ pid ∉ S.monitors.map Prod.fst) →
      ScanReachable { services := (start entry a S.services).1,
                      monitors := S.monitors ++ (start entry a S.services).2.toList }
  | done {S : Scanner} (pid : Nat) : ScanReachable S →
      ScanReachable { services := monitor_done pid S.services,
                      monitors := S.monitors.filter (fun m => m.1 ≠ pid) }
  | clear {S : Scanner} : ScanReachable S →
      ScanReachable { services := clear_services S.services, monitors := S.monitors }

/-- The invariant of the scanner: keys are distinct, the table is not over
its limit, and every unreaped monitor has its non-zero pid recorded under the
key it was started for; pids of unreaped monitors are distinct. -/
structure ScanInv (S : Scanner) : Prop where
  keys : (S.services.map Prod.fst).Nodup
  count : S.services.length ≤ MAX_SERVICES
  recorded : ∀ m ∈ S.monitors, ∃ v, (m.2, v) ∈ S.services ∧ v.pid = m.1
  pids : (S.monitors.map Prod.fst).Nodup
  nonzero : ∀ m ∈ S.monitors, m.1 ≠ 0

/-- A symbolic link named `web` in the active directory. -/
def web_link : finfo := { name := "web".toList, filetype := .lnk }

/-- The answers when the link resolves to the directory with inode 7 on
device 1 and the monitor is started with pid 500. -/
def web_answers : StartAnswers :=
  { stat := some (.dir, { inode := 7, device := 1 }), basename_ok := true, alloc_ok := true,
    attr_ok := true, spawn := some 500 }

/-- The scanner after `start` on `web_link` from the empty table. -/
def one_service : Scanner :=
  { services := [({ inode := 7, device := 1 }, { pid := 500, active := true })],
    monitors := [(500, { inode := 7, device := 1 })] }

/-! ## Writing the status file (`write_status`) -/

/-- The name `FILE_STATUS`. -/
def FILE_STATUS : List Char := "monitor/status".toList

/-- A file operation that took effect. -/
inductive FsOp where
  /-- `apr_file_mktemp` created the file, empty, and opened it. -/
  | mktemp (name : List Char)
  /-- `apr_file_perms_set` on the file. -/
  | perms_set (name : List Char)
  /-- `apr_file_write_full` wrote the bytes to the open file. -/
  | write (name : List Char) (bytes : List (Fin 256))
  /-- `apr_file_close` on the open file. -/
  | close (name : List Char)
  /-- `apr_file_rename`: the source takes the place of the destination in one
  step. -/
  | rename (src dst : List Char)
  /-- `apr_file_remove`. -/
  | remove (name : List Char)
deriving DecidableEq, Repr

/-- What the operating system answers during `write_status`: whether
`apr_psprintf` succeeds, the six characters `apr_file_mktemp` puts in place of
`XXXXXX` (none when it fails), whether `apr_file_perms_set` succeeds, after
how many bytes `apr_file_write_full` fails (none when it succeeds), whether
the rename and the removal succeed. -/
structure StatusAnswers where
  alloc_ok : Bool
  suffix : Option (List Char)
  perms_ok : Bool
  write_failed_after : Option Nat
  rename_ok : Bool
  remove_ok : Bool
deriving DecidableEq, Repr

/-- The part of `write_status` after the buffer is composed: the file
operations that take effect, in order, for the bytes of `buffer`. -/
def write_status_file (a : StatusAnswers) (record : List (Fin 256)) : List FsOp :=
  if !a.alloc_ok then [] else
  match a.suffix with
  | none => []
  | some x =>
    let tmpname := FILE_STATUS ++ '.' :: x
    if !a.perms_ok then [.mktemp tmpname, .close tmpname] else
    match a.write_failed_after with
    | some n =>
      [.mktemp tmpname, .perms_set tmpname, .write tmpname (record.take n), .close tmpname]
    | none =>
      [.mktemp tmpname, .perms_set tmpname, .write tmpname record, .close tmpname] ++
      (if a.rename_ok then [.rename tmpname FILE_STATUS]
       else if a.remove_ok then [.remove tmpname] else [])

/-- The function `write_status`: the file operations that take effect. -/
def write_status (a : StatusAnswers) (big_endian : Bool) (mem : Bytes)
    (updated run_changed log_changed : ngim_tain_t) (s : Monitor) : List FsOp :=
  write_status_file a (write_status_record big_endian mem updated run_changed log_changed s)

/-! ## The lock of a monitor (`create_lockfile`, `setup_monitor`, `monitor`) -/

/-- What `apr_file_lock` with `APR_FLOCK_EXCLUSIVE | APR_FLOCK_NONBLOCK`
answers. -/
inductive LockAnswer where
  /-- The lock was granted. -/
  | locked
  /-- The call failed with EAGAIN: another process holds the lock. -/
  | eagain
  /-- The call failed otherwise. -/
  | failed
deriving DecidableEq, Repr

/-- What the operating system answers while a monitor starts up. -/
structure SetupAnswers where
  chdir_ok : Bool
  pool_ok : Bool
  dir_ok : Bool
  lock_open_ok : Bool
  lock : LockAnswer
  control_ok : Bool
  pollset_ok : Bool
  stdin_ok : Bool
  pool_runlog_ok : Bool
deriving DecidableEq, Repr

/-- The calls a monitor makes while it starts up. -/
inductive SetupStep where
  | chdir
  | pool
  | create_directory
  | open_lock
  | lock
  | control_pipe
  | pollset
  | stdin_pipe
  | pool_runlog
  | write_status
  | loop
deriving DecidableEq, Repr

/-- The function `create_lockfile`: the calls it makes, and whether it
returns (`true`) or dies. -/
def create_lockfile (a : SetupAnswers) : List SetupStep × Bool :=
  if !a.lock_open_ok then ([.open_lock], false)
  else
    match a.lock with
    | .locked => ([.open_lock, .lock], true)
    | .eagain => ([.open_lock, .lock], false)
    | .failed => ([.open_lock, .lock], false)

/-- The function `setup_monitor`: the calls it makes, and whether it returns
or dies. -/
def setup_monitor (a : SetupAnswers) : List SetupStep × Bool :=
  if !a.dir_ok then ([.create_directory], false) else
  let l := create_lockfile a
  if !l.2 then (.create_directory :: l.1, false) else
  if !a.control_ok then (.create_directory :: l.1 ++ [.control_pipe], false) else
  if !a.pollset_ok then (.create_directory :: l.1 ++ [.control_pipe, .pollset], false) else
  if !a.stdin_ok then
    (.create_directory :: l.1 ++ [.control_pipe, .pollset, .stdin_pipe], false) else
  (.create_directory :: l.1 ++ [.control_pipe, .pollset, .stdin_pipe, .pool_runlog],
    a.pool_runlog_ok)

/-- The function `monitor` up to the entry into its loop: the calls it makes,
and whether it gets there or dies. -/
def monitor_startup (a : SetupAnswers) : List SetupStep × Bool :=
  if !a.chdir_ok then ([.chdir], false) else
  if !a.pool_ok then ([.chdir, .pool], false) else
  let r := setup_monitor a
  if !r.2 then (.chdir :: .pool :: r.1, false)
  else (.chdir :: .pool :: r.1 ++ [.write_status, .loop], true)

/-- The processes around the file `monitor/lock` of one service directory:
those that hold the exclusive lock, and the monitors that have returned from
`create_lockfile` and are alive. -/
structure LockState where
  holders : List Nat
  past_lock : List Nat
deriving DecidableEq, Repr

/-- The states of the lock. A new process calls `create_lockfile`, where the
operating system grants the exclusive lock only when no process holds it;
the process goes on with the lock, or dies. A process exits, which releases
its lock. -/
inductive LockReachable : LockState → Prop where
  | init : LockReachable { holders := [], past_lock := [] }
  | attempt {S : LockState} (p : Nat) (a : SetupAnswers) : LockReachable S →
      p ∉ S.holders → p ∉ S.past_lock → (a.lock = .locked → S.holders = []) →
      LockReachable (if (create_lockfile a).2 then
        { holders := p :: S.holders, past_lock := p :: S.past_lock } else S)
  | exit {S : LockState} (p : Nat) : LockReachable S →
      LockReachable { holders := S.holders.filter (fun q => q ≠ p),
                      past_lock := S.past_lock.filter (fun q => q ≠ p) }

/-- Answers with which a monitor starts up. -/
def setup_ok : SetupAnswers :=
  { chdir_ok := true, pool_ok := true, dir_ok := true, lock_open_ok := true, lock := .locked,
    control_ok := true, pollset_ok := true, stdin_ok := true, pool_runlog_ok := true }

/-- The lock held by the monitor with pid 5. -/
def lock_held : LockState := { holders := [5], past_lock := [5] }

/-! ## Command line processing (`cmdline.c`) -/

/-- An entry of a parameter table (`ngim_cmdline_params_t`): the name, the
command bitmask, and the number of the variable that receives the argument
(`none` for a NULL `arg`). -/
structure ngim_cmdline_params_t where
  name : List Char
  cmd : Nat
  arg : Option Nat

/-- How the parser went past an element of `argv` (ghost). -/
inductive Use where
  /-- Matched a name of the parameter table. -/
  | param
  /-- Stored as the argument of the parameter before it. -/
  | param_arg
  /-- Taken as the argument of the parameter before it and not stored,
  with the warning that the variable was already set. -/
  | param_arg_skipped
  /-- The element `-` or `--` that ends the parameters. -/
  | terminator
  /-- Stored in a variable of the argument table. -/
  | positional
deriving DecidableEq, Repr

/-- The data of a parse: the bitmask `*selected`, the `const char *`
variables the tables point to (`none` for NULL), and the elements of `argv`
gone past so far (ghost). -/
structure Cmdline where
  selected : Nat
  vars : Nat → Option (List Char)
  used : List (Nat × Use)

/-- Records that element `i` of `argv` was gone past. -/
def Cmdline.mark (st : Cmdline) (i : Nat) (u : Use) : Cmdline :=
  { selected := st.selected, vars := st.vars, used := (i, u) :: st.used }

/-- The first entry of the table whose name `strcmp` finds equal to `s`. -/
def find_param (params : List ngim_cmdline_params_t) (s : List Char) :
    Option ngim_cmdline_params_t :=
  params.find? (fun p => strcmp s p.name = 0)

/-- How one round of the loop of `parse_params` ends: with a `return`, or at
the end of the body with the current value of `i`. -/
inductive ParamStep where
  | ret (r : Int) (st : Cmdline)
  | next (i : Nat) (st : Cmdline)

/-- The body of the loop of `parse_params` at index `i < argc`. -/
def parse_params_body (params : List ngim_cmdline_params_t) (argv : List (List Char))
    (i : Nat) (st : Cmdline) : ParamStep :=
  if (argv.getD i []).head? ≠ some '-' then .ret (i : Int) st
  else if (argv.getD i []).tail = [] ∨ (argv.getD i []).tail = ['-'] then
    if i + 1 < argv.length then .ret ((i + 1 : Nat) : Int) (st.mark i .terminator)
    else .ret 0 (st.mark i .terminator)
  else
    match find_param params (argv.getD i []) with
    | none => .ret (-1) st
    | some p =>
      if st.selected &&& p.cmd ≠ 0 then .ret (-1) st
      else
        match p.arg with
        | none =>
          .next i { selected := st.selected ||| p.cmd, vars := st.vars,
                    used := (i, .param) :: st.used }
        | some v =>
          if argv.length ≤ i + 1 then
            .ret (-1) { selected := st.selected ||| p.cmd, vars := st.vars,
                        used := (i, .param) :: st.used }
          else if (st.vars v).isSome then
            .next (i + 1) { selected := st.selected ||| p.cmd, vars := st.vars,
                            used := (i + 1, .param_arg_skipped) :: (i, .param) :: st.used }
          else if (argv.getD (i + 1) []).head? = some '-' ∧
              (find_param params (argv.getD (i + 1) [])).isSome then
            .ret (-1) { selected := st.selected ||| p.cmd, vars := st.vars,
                        used := (i, .param) :: st.used }
          else
            .next (i + 1) { selected := st.selected ||| p.cmd,
                            vars := Function.update st.vars v (some (argv.getD (i + 1) [])),
                            used := (i + 1, .param_arg) :: (i, .param) :: st.used }

/-- The loop `for (i = 1; i < argc; ++i)` of `parse_params`, from `i` on;
`none` when the fuel runs out. -/
def parse_params_loop (params : List ngim_cmdline_params_t) (argv : List (List Char)) :
    Nat → Nat → Cmdline → Option (Int × Cmdline)
  | 0, _, _ => none
  | fuel + 1, i, st =>
    if i < argv.length then
      match parse_params_body params argv i st with
      | .ret r st' => some (r, st')
      | .next j st' => parse_params_loop params argv fuel (j + 1) st'
    else some (0, st)

/-- The function `parse_params`, with `argc` the length of `argv`. -/
def parse_params (params : List ngim_cmdline_params_t) (argv : List (List Char))
    (st : Cmdline) : Option (Int × Cmdline) :=
  parse_params_loop params argv (argv.length + 1) 1 st

/-- The loop of `parse_args` over the argument table (the numbers of its
variables), followed by the final test. -/
def parse_args_loop (argv : List (List Char)) : List Nat → Nat → Cmdline → Int × Cmdline
  | [], index, st => if index < argv.length then ((index : Int), st) else (0, st)
  | v :: args, index, st =>
    if argv.length ≤ index then (-1, st)
    else if (st.vars v).isSome then (-1, st)
    else
      parse_args_loop argv args (index + 1)
        { selected := st.selected,
          vars := Function.update st.vars v (some (argv.getD index [])),
          used := (index, .positional) :: st.used }

/-- The function `parse_args`. -/
def parse_args (argv : List (List Char)) (index : Nat) (args : List Nat) (st : Cmdline) :
    Int × Cmdline :=
  parse_args_loop argv args index st

/-- The function `ngim_cmdline_parse`, with `argc` the length of `argv`;
`args` is `none` for a NULL table, and `vars` holds the variables of the
tables at the call. -/
def ngim_cmdline_parse (argv : List (List Char)) (noextra : Bool)
    (params : List ngim_cmdline_params_t) (args : Option (List Nat))
    (vars : Nat → Option (List Char)) : Option (Int × Cmdline) :=
  if argv.length < 2 then some (0, { selected := 0, vars := vars, used := [] })
  else
    match parse_params params argv { selected := 0, vars := vars, used := [] } with
    | none => none
    | some (index, st) =>
      if 0 < index then
        match args with
        | some a =>
          if noextra = true ∧ 0 < (parse_args argv index.toNat a st).1 then
            some (-1, (parse_args argv index.toNat a st).2)
          else some (parse_args argv index.toNat a st)
        | none => if noextra = true then some (-1, st) else some (index, st)
      else some (index, st)

/-- The loop heads of `parse_params` in a call of `ngim_cmdline_parse`: the
values of `i` and of the data each time the loop test is reached. -/
inductive LoopHead (params : List ngim_cmdline_params_t) (argv : List (List Char))
    (vars : Nat → Option (List Char)) : Nat → Cmdline → Prop where
  | first : LoopHead params argv vars 1 { selected := 0, vars := vars, used := [] }
  | next {i j : Nat} {st st' : Cmdline} : LoopHead params argv vars i st → i < argv.length →
      parse_params_body params argv i st = .next j st' → LoopHead params argv vars (j + 1) st'

/-- An element of `argv` that the loop of `parse_params` looks up in the
table: it starts with `-` and is neither `-` nor `--`. -/
def is_param (s : List Char) : Prop :=
  s.head? = some '-' ∧ ¬ (s.tail = [] ∨ s.tail = ['-'])

instance is_param_decidable (s : List Char) : Decidable (is_param s) := by
  unfold is_param
  exact inferInstance

/-- A part of the parameter table of `tainlog` (`logger_params`). -/
def some_logger_params : List ngim_cmdline_params_t :=
  [⟨"--help".toList, cmd_help, none⟩, ⟨"--keep".toList, cmd_keep, some 0⟩,
   ⟨"-k".toList, cmd_keep, some 0⟩, ⟨"--keep-all".toList, cmd_keepall, none⟩,
   ⟨"-a".toList, cmd_keepall, none⟩]

/-- The return value of a parse with `noextra` set, one positional argument
expected and all variables NULL. -/
def parse_value (argv : List String) : Option Int :=
  (ngim_cmdline_parse (argv.map String.toList) true some_logger_params (some [1])
    (fun _ => none)).map Prod.fst

/-! ## Terminating a child: what a call did -/

/-- The call `terminate_child(who)` in state `s` returns in state `t` having
sent the first `n` signals of `sigs` to the child: none when the child was
not running, at least one when it was, all five when it is never reaped, and
`j + 1` when its pid is first reaped after signal `j + 1`; with fewer than
five signals the child has been reaped. The child's flap fields and
`flag_ignchld` are reset, the other child keeps its flap fields, and a child
whose pid is never reaped keeps its pid. -/
structure Terminated (who : Who) (reaped : Nat → List Nat) (n : Nat) (s t : Monitor) :
    Prop where
  returns : terminate_child who reaped s = .ok t
  bound : n ≤ 5
  signals : t.trace = s.trace ++ (sigs.take n).map (Event.signal who)
  not_running : (child who s).pid = 0 → n = 0
  running : (child who s).pid ≠ 0 → 1 ≤ n
  gone : n < 5 → (child who t).pid = 0
  first_reaped : ∀ j, j < 5 → (child who s).pid ≠ 0 →
    (∀ k, k < j → (child who s).pid ∉ reaped k) → (child who s).pid ∈ reaped j →
    (who = Who.run ∨ s.run.pid ≠ s.log.pid) → n = j + 1
  never_reaped : (child who s).pid ≠ 0 → (∀ k, k < 5 → (child who s).pid ∉ reaped k) → n = 5
  starts : (child who t).starts = 0
  suspended : (child who t).suspended = false
  periods : (child who t).suspended_periods = 0
  ignchld : t.flag_ignchld = false
  flags : t.flag_stop = s.flag_stop ∧ t.flag_intr = s.flag_intr ∧ t.pipe_stdin = s.pipe_stdin ∧
    t.pipe_runlog0 = s.pipe_runlog0 ∧ t.pipe_runlog1 = s.pipe_runlog1
  other_flap : ∀ w, w ≠ who → (child w t).starts = (child w s).starts ∧
    (child w t).suspended = (child w s).suspended ∧
    (child w t).suspended_periods = (child w s).suspended_periods
  pid_cases : ∀ w, (child w t).pid = 0 ∨ (child w t).pid = (child w s).pid
  pid_kept : ∀ w, (∀ k, (child w s).pid ∉ reaped k) → (child w t).pid = (child w s).pid

/-! # Part II: properties -/

/-! ## Frame lemmas -/

theorem ReapFrame_refl (s : Monitor) : ReapFrame s s := by
  constructor <;> rfl

theorem ReapFrame_trans {s t u : Monitor} (h1 : ReapFrame s t) (h2 : ReapFrame t u) :
    ReapFrame s u := by
  constructor
  · rw [h2.flag_stop, h1.flag_stop]
  · rw [h2.flag_intr, h1.flag_intr]
  · rw [h2.flag_ignchld, h1.flag_ignchld]
  · rw [h2.flag_timer, h1.flag_timer]
  · rw [h2.pipe_stdin, h1.pipe_stdin]
  · rw [h2.pipe_runlog0, h1.pipe_runlog0]
  · rw [h2.pipe_runlog1, h1.pipe_runlog1]
  · rw [h2.run_starts, h1.run_starts]
  · rw [h2.run_suspended, h1.run_suspended]
  · rw [h2.run_periods, h1.run_periods]
  · rw [h2.log_starts, h1.log_starts]
  · rw [h2.log_suspended, h1.log_suspended]
  · rw [h2.log_periods, h1.log_periods]
  · rw [h2.trace, h1.trace]

theorem reap_frame (s : Monitor) (p : Nat) : ReapFrame s (reap s p) := by
  unfold reap
  split_ifs <;> constructor <;> rfl

theorem check_children_frame (l : List Nat) (s : Monitor) :
    ReapFrame s (check_children l s) := by
  induction l generalizing s with
  | nil => exact ReapFrame_refl s
  | cons a l ih => exact ReapFrame_trans (reap_frame s a) (ih (reap s a))

theorem check_children_nil (s : Monitor) : check_children [] s = s := rfl

theorem check_children_cons (a : Nat) (l : List Nat) (s : Monitor) :
    check_children (a :: l) s = check_children l (reap s a) := rfl

theorem check_children_run_zero (l : List Nat) (s : Monitor) (h : s.run.pid = 0) :
    (check_children l s).run.pid = 0 := by
  induction l generalizing s with
  | nil => exact h
  | cons a l ih =>
    rw [check_children_cons]
    apply ih
    unfold reap
    split_ifs <;> simp [h]

theorem check_children_log_zero (l : List Nat) (s : Monitor) (h : s.log.pid = 0) :
    (check_children l s).log.pid = 0 := by
  induction l generalizing s with
  | nil => exact h
  | cons a l ih =>
    rw [check_children_cons]
    apply ih
    unfold reap
    split_ifs <;> simp [h]

/-- A reaped run is no longer running. -/
theorem check_children_run_mem (l : List Nat) (s : Monitor) (h : s.run.pid ∈ l) :
    (check_children l s).run.pid = 0 := by
  induction l generalizing s with
  | nil => simp at h
  | cons a l ih =>
    rw [check_children_cons]
    by_cases ha : a = s.run.pid
    · apply check_children_run_zero
      simp [reap, ha]
    · have h1 : (reap s a).run.pid = s.run.pid := by
        unfold reap
        split_ifs <;> rfl
      apply ih
      rw [h1]
      rcases List.mem_cons.mp h with h2 | h2
      · exact absurd h2.symm ha
      · exact h2

/-! ## No restart when the service is not wanted up -/

/-- C7. When the interrupt flag is set or `monitor/up` does not exist,
`start_children` returns at once: the state is unchanged (pids, start
counters, forwarding flag, pipe, timer flag) and the trace gains no start
attempt. Hence a loop iteration that reaps run while `monitor/up` is absent
and that reads no command leaves run down and attempts no start. -/
theorem start_children_not_wanted (NSIG : Nat) (e : StartEnv) (s : Monitor)
    (h : s.flag_intr = true ∨ e.up = false) :
    start_children e s = .ok s ∧
    ∀ inp : IterInput, inp.env = e → inp.cmd = none → s.run.pid ∈ inp.reaped →
      ∃ s1, monitor_iter NSIG inp s = .ok s1 ∧ s1.run.pid = 0 ∧ s1.trace = s.trace ∧
        s1 = check_children inp.reaped s := by
  have key : ∀ t : Monitor, t.flag_intr = s.flag_intr → start_children e t = .ok t := by
    intro t ht
    unfold start_children
    rcases h with h | h
    · simp [ht, h]
    · simp [h]
  refine ⟨key s rfl, ?_⟩
  intro inp he hc hm
  refine ⟨check_children inp.reaped s, ?_, check_children_run_mem _ _ hm,
    (check_children_frame _ _).trace, rfl⟩
  unfold monitor_iter
  rw [he, key _ (check_children_frame _ _).flag_intr, hc]

/-- C7 at a concrete state: log runs (pid 101), run has died, `monitor/up` is
gone. -/
theorem start_children_not_wanted_witness :
    start_children
      { up := false, log_pipe := .created, log_attr := true, log_start := .started 7,
        run_attr := true, run_fwd := true, run_start := .started 8 }
      { flag_stop := false, flag_intr := false, flag_forward := false,
        flag_ignchld := false, flag_timer := false, pipe_stdin := true,
        pipe_runlog0 := true, pipe_runlog1 := true,
        run := { pid := 0, starts := 1, suspended := false, suspended_periods := 0 },
        log := { pid := 101, starts := 1, suspended := false, suspended_periods := 0 },
        trace := [] } =
    .ok
      { flag_stop := false, flag_intr := false, flag_forward := false,
        flag_ignchld := false, flag_timer := false, pipe_stdin := true,
        pipe_runlog0 := true, pipe_runlog1 := true,
        run := { pid := 0, starts := 1, suspended := false, suspended_periods := 0 },
        log := { pid := 101, starts := 1, suspended := false, suspended_periods := 0 },
        trace := [] } :=
  (start_children_not_wanted 65 _ _ (Or.inr rfl)).1

/-! ## Commands other than KILL and TERMINATE -/

/-- A command byte other than `'x'` and `'k'`, with the stop flag clear, only
extends the trace. -/
theorem parse_command_signal (NSIG cmd : Nat) (rr rl : Nat → List Nat) (s : Monitor)
    (hx : cmd ≠ MONITOR_CMD_TERMINATE) (hk : cmd ≠ MONITOR_CMD_KILL)
    (hs : s.flag_stop = false) :
    parse_command NSIG cmd rr rl s =
      .ok { s with trace := s.trace ++ command_output NSIG cmd s } := by
  obtain ⟨f1, f2, f3, f4, f5, p1, p2, p3, r, l, t⟩ := s
  simp only at hs
  subst hs
  unfold parse_command command_output signal_child emit child
  simp only [hx, hk, if_false, Bool.or_false, decide_False, Bool.false_eq_true]
  by_cases hw : cmd = MONITOR_CMD_WAKEUP
  · simp [hw]
  · by_cases hr : 0 < cmd ∧ cmd < NSIG
    · by_cases hp : r.pid = 0 <;> simp [hw, hp, hr.1, hr.2]
    · have h2 : 0 < cmd → ¬ cmd < NSIG := fun h0 h1 => hr ⟨h0, h1⟩
      by_cases h0 : 0 < cmd
      · simp [hw, h0, h2 h0]
      · simp [hw, h0]

/-- C4. For a command byte other than `'x'` and `'k'`, with the stop flag
clear, `parse_command` returns with the same monitor state (all flags, both
children, all pipe ends); only the trace grows, by `command_output`: one
signal `cmd` to run when `cmd` is not `'w'`, `0 < cmd < NSIG` and run's pid is
non-zero, nothing to log ever, and for `'w'`, for 0 and for every byte
`≥ NSIG` no signal at all (at most the warning). -/
theorem parse_command_other (NSIG cmd : Nat) (rr rl : Nat → List Nat) (s : Monitor)
    (hx : cmd ≠ MONITOR_CMD_TERMINATE) (hk : cmd ≠ MONITOR_CMD_KILL)
    (hs : s.flag_stop = false) :
    parse_command NSIG cmd rr rl s =
      .ok { s with trace := s.trace ++ command_output NSIG cmd s } ∧
    (∀ sig, Event.signal Who.log sig ∉ command_output NSIG cmd s) ∧
    (∀ sig, Event.signal Who.run sig ∈ command_output NSIG cmd s →
      sig = cmd ∧ cmd ≠ MONITOR_CMD_WAKEUP ∧ 0 < cmd ∧ cmd < NSIG ∧ s.run.pid ≠ 0) ∧
    (cmd ≠ MONITOR_CMD_WAKEUP → 0 < cmd → cmd < NSIG → s.run.pid ≠ 0 →
      command_output NSIG cmd s = [Event.signal Who.run cmd]) ∧
    (cmd = MONITOR_CMD_WAKEUP → command_output NSIG cmd s = []) ∧
    (cmd ≠ MONITOR_CMD_WAKEUP → (cmd = 0 ∨ NSIG ≤ cmd) →
      command_output NSIG cmd s = [Event.unknown_command]) := by
  refine ⟨?_, ?_, ?_, ?_, ?_, ?_⟩
  · exact parse_command_signal NSIG cmd rr rl s hx hk hs
  · intro sig
    unfold command_output
    split_ifs <;> simp
  · intro sig
    unfold command_output
    split_ifs with h1 h2 h3 <;> simp
    intro h
    exact ⟨h, h1, h2.1, h2.2, h3⟩
  · intro hw h0 h1 hp
    simp [command_output, hw, h0, h1, hp]
  · intro hw
    simp [command_output, hw]
  · intro hw h
    have : ¬ (0 < cmd ∧ cmd < NSIG) := by omega
    simp [command_output, hw, this]

/-- C4 for SIGHUP (signal 1) sent to a running run (pid 100) while log runs
(pid 101), on a platform with `NSIG = 65`. -/
theorem parse_command_other_witness :
    parse_command 65 1 (fun _ => []) (fun _ => [])
      { flag_stop := false, flag_intr := false, flag_forward := true,
        flag_ignchld := false, flag_timer := true, pipe_stdin := true,
        pipe_runlog0 := true, pipe_runlog1 := true,
        run := { pid := 100, starts := 1, suspended := false, suspended_periods := 0 },
        log := { pid := 101, starts := 1, suspended := false, suspended_periods := 0 },
        trace := [] } =
    .ok
      { flag_stop := false, flag_intr := false, flag_forward := true,
        flag_ignchld := false, flag_timer := true, pipe_stdin := true,
        pipe_runlog0 := true, pipe_runlog1 := true,
        run := { pid := 100, starts := 1, suspended := false, suspended_periods := 0 },
        log := { pid := 101, starts := 1, suspended := false, suspended_periods := 0 },
        trace := [Event.signal Who.run 1] } :=
  (parse_command_other 65 1 (fun _ => []) (fun _ => []) _ (by decide) (by decide) rfl).1

/-! ## Graceful escalation -/

theorem child_reap_cases (who : Who) (s : Monitor) (a : Nat) :
    (child who (reap s a)).pid = 0 ∨ (child who (reap s a)).pid = (child who s).pid := by
  unfold reap
  cases who <;> simp only [child] <;> split_ifs <;> simp

/-- Reaping either clears a child's pid or leaves it. -/
theorem check_children_pid_cases (who : Who) (l : List Nat) (s : Monitor) :
    (child who (check_children l s)).pid = 0 ∨
    (child who (check_children l s)).pid = (child who s).pid := by
  induction l generalizing s with
  | nil => exact Or.inr rfl
  | cons a l ih =>
    rw [check_children_cons]
    rcases ih (reap s a) with h | h
    · exact Or.inl h
    · rcases child_reap_cases who s a with h1 | h1
      · left; rw [h, h1]
      · right; rw [h, h1]

theorem child_reap_ne (who : Who) (s : Monitor) (a : Nat) (h : a ≠ (child who s).pid) :
    (child who (reap s a)).pid = (child who s).pid := by
  unfold reap
  cases who <;> simp only [child] at h ⊢ <;> split_ifs <;> simp_all

/-- A child whose pid is not among the reaped ones keeps its pid. -/
theorem check_children_pid_not_mem (who : Who) (l : List Nat) (s : Monitor)
    (h : (child who s).pid ∉ l) :
    (child who (check_children l s)).pid = (child who s).pid := by
  induction l generalizing s with
  | nil => rfl
  | cons a l ih =>
    rw [check_children_cons]
    have ha : a ≠ (child who s).pid := fun e => h (by simp [e])
    have h1 := child_reap_ne who s a ha
    rw [ih (reap s a) (by rw [h1]; exact fun hm => h (List.mem_cons_of_mem _ hm)), h1]

theorem check_children_log_mem (l : List Nat) (s : Monitor) (h : s.log.pid ∈ l)
    (hd : s.run.pid ≠ s.log.pid) : (check_children l s).log.pid = 0 := by
  by_cases h0 : s.log.pid = 0
  · exact check_children_log_zero l s h0
  induction l generalizing s with
  | nil => simp at h
  | cons a l ih =>
    rw [check_children_cons]
    by_cases ha : a = s.run.pid
    · have hal : a ≠ s.log.pid := fun e => hd (ha.symm.trans e)
      have hm : s.log.pid ∈ l := by
        rcases List.mem_cons.mp h with h2 | h2
        · exact absurd h2.symm hal
        · exact h2
      have e1 : (reap s a).log.pid = s.log.pid := by simp [reap, ha]
      have e2 : (reap s a).run.pid = 0 := by simp [reap, ha]
      apply ih
      · rw [e1]; exact hm
      · rw [e1, e2]; exact fun e => h0 e.symm
      · rw [e1]; exact h0
    · by_cases hb : a = s.log.pid
      · apply check_children_log_zero
        have hc : ¬ s.log.pid = s.run.pid := fun e => hd e.symm
        simp [reap, hb, hc]
      · have e : reap s a = s := by simp [reap, ha, hb]
        rw [e]
        apply ih s _ hd h0
        rcases List.mem_cons.mp h with h2 | h2
        · exact absurd h2.symm hb
        · exact h2

/-- A child whose pid is among the reaped ones is reaped, provided the other
child does not have the same pid. -/
theorem check_children_pid_mem (who : Who) (l : List Nat) (s : Monitor)
    (h : (child who s).pid ∈ l) (hd : who = Who.run ∨ s.run.pid ≠ s.log.pid) :
    (child who (check_children l s)).pid = 0 := by
  cases who with
  | run => exact check_children_run_mem l s h
  | log =>
    rcases hd with hd | hd
    · cases hd
    · exact check_children_log_mem l s h hd

theorem sigs_KillLast : KillLast sigs := by
  simp [sigs, KillLast, SIGKILL, SIGTERM, SIGINT, SIGQUIT]

theorem signal_child_frame (who : Who) (sig : Nat) (s : Monitor) :
    ReapFrame s { signal_child who sig s with trace := s.trace } ∧
    (signal_child who sig s).run.pid = s.run.pid ∧
    (signal_child who sig s).log.pid = s.log.pid ∧
    (signal_child who sig s).flag_forward = s.flag_forward := by
  unfold signal_child emit
  split_ifs
  · exact ⟨by constructor <;> rfl, rfl, rfl, rfl⟩
  · exact ⟨by constructor <;> rfl, rfl, rfl, rfl⟩

theorem signal_child_trace (who : Who) (sig : Nat) (s : Monitor)
    (h : (child who s).pid ≠ 0) :
    (signal_child who sig s).trace = s.trace ++ [Event.signal who sig] := by
  simp [signal_child, h, emit]

theorem signal_child_child (who w : Who) (sig : Nat) (s : Monitor) :
    child w (signal_child who sig s) = child w s := by
  unfold signal_child emit
  split_ifs <;> cases w <;> rfl

theorem reap_forward (s : Monitor) (a : Nat) (h : (reap s a).flag_forward = true) :
    s.flag_forward = true := by
  unfold reap at h
  split_ifs at h <;> simp_all

/-- Reaping never sets the forwarding flag. -/
theorem check_children_forward (l : List Nat) (s : Monitor)
    (h : (check_children l s).flag_forward = true) : s.flag_forward = true := by
  induction l generalizing s with
  | nil => exact h
  | cons a l ih => exact reap_forward s a (ih (reap s a) h)

/-- While run is not reaped the forwarding flag is kept. -/
theorem check_children_forward_keep (l : List Nat) (s : Monitor)
    (h : (check_children l s).run.pid ≠ 0) :
    (check_children l s).flag_forward = s.flag_forward := by
  induction l generalizing s with
  | nil => rfl
  | cons a l ih =>
    rw [check_children_cons] at h ⊢
    rw [ih (reap s a) h]
    by_cases ha : a = s.run.pid
    · exfalso
      apply h
      apply check_children_run_zero
      simp [reap, ha]
    · unfold reap
      split_ifs <;> rfl

theorem terminate_loop_cons (who : Who) (reaped : Nat → List Nat) (sig : Nat)
    (rest : List Nat) (i : Nat) (s : Monitor) :
    terminate_loop who reaped (sig :: rest) i s =
      if (child who s).pid = 0 then .ok s else
      if sig = SIGKILL then .ok (check_children (reaped i) (signal_child who sig s))
      else terminate_loop who reaped rest (i + 1)
        (check_children (reaped i) (signal_child who sig s)) := rfl

/-- What the loop of `terminate_child` leaves alone. -/
theorem terminate_loop_frame (who : Who) (reaped : Nat → List Nat) :
    ∀ (rest : List Nat) (i : Nat) (s s1 : Monitor),
      terminate_loop who reaped rest i s = .ok s1 →
      ReapFrame s { s1 with trace := s.trace } ∧
      (∀ w, (child w s1).pid = 0 ∨ (child w s1).pid = (child w s).pid) ∧
      (s1.flag_forward = true → s.flag_forward = true) ∧
      (s1.run.pid ≠ 0 → s1.flag_forward = s.flag_forward) := by
  intro rest
  induction rest with
  | nil =>
    intro i s s1 h
    simp only [terminate_loop] at h
    split_ifs at h
    cases h
    exact ⟨by constructor <;> rfl, fun w => Or.inr rfl, id, fun _ => rfl⟩
  | cons sig rest ih =>
    intro i s s1 h
    rw [terminate_loop_cons] at h
    have step : ∀ t : Monitor, t = check_children (reaped i) (signal_child who sig s) →
        ReapFrame s { t with trace := s.trace } ∧
        (∀ w, (child w t).pid = 0 ∨ (child w t).pid = (child w s).pid) ∧
        (t.flag_forward = true → s.flag_forward = true) ∧
        (t.run.pid ≠ 0 → t.flag_forward = s.flag_forward) := by
      intro t ht
      subst ht
      have f1 := (signal_child_frame who sig s).1
      have f2 := check_children_frame (reaped i) (signal_child who sig s)
      refine ⟨?_, ?_, ?_, ?_⟩
      · constructor
        · exact f2.flag_stop.trans f1.flag_stop
        · exact f2.flag_intr.trans f1.flag_intr
        · exact f2.flag_ignchld.trans f1.flag_ignchld
        · exact f2.flag_timer.trans f1.flag_timer
        · exact f2.pipe_stdin.trans f1.pipe_stdin
        · exact f2.pipe_runlog0.trans f1.pipe_runlog0
        · exact f2.pipe_runlog1.trans f1.pipe_runlog1
        · exact f2.run_starts.trans f1.run_starts
        · exact f2.run_suspended.trans f1.run_suspended
        · exact f2.run_periods.trans f1.run_periods
        · exact f2.log_starts.trans f1.log_starts
        · exact f2.log_suspended.trans f1.log_suspended
        · exact f2.log_periods.trans f1.log_periods
        · rfl
      · intro w
        have := check_children_pid_cases w (reaped i) (signal_child who sig s)
        rw [signal_child_child] at this
        exact this
      · intro hf
        rw [← (signal_child_frame who sig s).2.2.2]
        exact check_children_forward _ _ hf
      · intro hr
        rw [← (signal_child_frame who sig s).2.2.2]
        exact check_children_forward_keep _ _ hr
    split_ifs at h with h1 h2
    · cases h
      exact ⟨by constructor <;> rfl, fun w => Or.inr rfl, id, fun _ => rfl⟩
    · cases h
      exact step _ rfl
    · obtain ⟨g1, g2, g3, g4⟩ := ih _ _ _ h
      obtain ⟨k1, k2, k3, k4⟩ := step _ rfl
      refine ⟨?_, ?_, fun hf => k3 (g3 hf), ?_⟩
      · have g1t : ReapFrame { check_children (reaped i) (signal_child who sig s) with
            trace := s.trace } { s1 with trace := s.trace } := by
          constructor
          · exact g1.flag_stop
          · exact g1.flag_intr
          · exact g1.flag_ignchld
          · exact g1.flag_timer
          · exact g1.pipe_stdin
          · exact g1.pipe_runlog0
          · exact g1.pipe_runlog1
          · exact g1.run_starts
          · exact g1.run_suspended
          · exact g1.run_periods
          · exact g1.log_starts
          · exact g1.log_suspended
          · exact g1.log_periods
          · rfl
        exact ReapFrame_trans k1 g1t
      · intro w
        rcases g2 w with h3 | h3
        · exact Or.inl h3
        · rcases k2 w with h4 | h4
          · left; rw [h3, h4]
          · right; rw [h3, h4]
      · intro hr
        rw [g4 hr]
        apply k4
        rcases g2 Who.run with h3 | h3
        · exact absurd h3 hr
        · simp only [child] at h3
          rw [← h3]; exact hr

/-- The loop of `terminate_child` on any signal list that ends with its only
SIGKILL: it returns, and it sends the first `n` signals of the list. -/
theorem terminate_loop_spec (who : Who) (reaped : Nat → List Nat) :
    ∀ (rest : List Nat) (i : Nat) (s : Monitor), KillLast rest →
    ∃ (n : Nat) (s1 : Monitor),
      terminate_loop who reaped rest i s = .ok s1 ∧
      n ≤ rest.length ∧
      s1.trace = s.trace ++ (rest.take n).map (Event.signal who) ∧
      ((child who s).pid = 0 → n = 0) ∧
      ((child who s).pid ≠ 0 → 1 ≤ n) ∧
      (n < rest.length → (child who s1).pid = 0) ∧
      (∀ j, j < rest.length → (child who s).pid ≠ 0 →
        (∀ k, k < j → (child who s).pid ∉ reaped (i + k)) →
        (child who s).pid ∈ reaped (i + j) →
        (who = Who.run ∨ s.run.pid ≠ s.log.pid) → n = j + 1) ∧
      ((child who s).pid ≠ 0 →
        (∀ k, k < rest.length → (child who s).pid ∉ reaped (i + k)) → n = rest.length) := by
  intro rest
  induction rest with
  | nil => intro i s h; exact absurd h (by simp [KillLast])
  | cons sig rest ih =>
    intro i s hk
    by_cases hp : (child who s).pid = 0
    · refine ⟨0, s, by rw [terminate_loop_cons, if_pos hp], Nat.zero_le _, by simp,
        fun _ => rfl, fun h => absurd hp h, fun _ => hp, ?_, ?_⟩
      · intro j _ h; exact absurd hp h
      · intro h; exact absurd hp h
    · have htr : (check_children (reaped i) (signal_child who sig s)).trace =
          s.trace ++ [Event.signal who sig] := by
        rw [(check_children_frame _ _).trace, signal_child_trace who sig s hp]
      have hnot : (child who s).pid ∉ reaped i →
          (child who (check_children (reaped i) (signal_child who sig s))).pid =
            (child who s).pid := by
        intro hm
        rw [check_children_pid_not_mem who _ _ (by rw [signal_child_child]; exact hm),
          signal_child_child]
      have hmem : (child who s).pid ∈ reaped i → (who = Who.run ∨ s.run.pid ≠ s.log.pid) →
          (child who (check_children (reaped i) (signal_child who sig s))).pid = 0 := by
        intro hm hd
        apply check_children_pid_mem who _ _ (by rw [signal_child_child]; exact hm)
        rw [(signal_child_frame who sig s).2.1, (signal_child_frame who sig s).2.2.1]
        exact hd
      by_cases hs : sig = SIGKILL
      · have hr : rest = [] := by
          cases rest with
          | nil => rfl
          | cons b l => exact absurd hs hk.1
        subst hr
        refine ⟨1, _, by rw [terminate_loop_cons, if_neg hp, if_pos hs], by simp,
          by simpa using htr, fun h => absurd h hp, fun _ => le_refl 1, by simp, ?_, ?_⟩
        · intro j hj _ _ _ _
          simp at hj
          omega
        · intro _ _; rfl
      · have hk2 : KillLast rest := by
          cases rest with
          | nil => exact absurd hk hs
          | cons b l => exact hk.2
        obtain ⟨n, s1, e1, e2, e3, e4, e5, e6, e7, e8⟩ :=
          ih (i + 1) (check_children (reaped i) (signal_child who sig s)) hk2
        refine ⟨n + 1, s1, by rw [terminate_loop_cons, if_neg hp, if_neg hs]; exact e1,
          by simp; omega, ?_, fun h => absurd h hp, fun _ => by omega, ?_, ?_, ?_⟩
        · rw [e3, htr]
          simp
        · intro h
          apply e6
          simp at h
          omega
        · intro j hj _ hbefore hat hd
          cases j with
          | zero =>
            have := e4 (hmem (by simpa using hat) hd)
            omega
          | succ j =>
            have h0 := hnot (by simpa using hbefore 0 (by omega))
            have hd2 : who = Who.run ∨
                (check_children (reaped i) (signal_child who sig s)).run.pid ≠
                (check_children (reaped i) (signal_child who sig s)).log.pid := by
              rcases hd with hd | hd
              · exact Or.inl hd
              · cases who with
                | run => exact Or.inl rfl
                | log =>
                  right
                  simp only [child] at h0 hp
                  rw [h0]
                  rcases check_children_pid_cases Who.run (reaped i)
                    (signal_child Who.log sig s) with h1 | h1
                  · simp only [child] at h1
                    rw [h1]; exact fun e => hp e.symm
                  · simp only [child] at h1
                    rw [h1, (signal_child_frame Who.log sig s).2.1]; exact hd
            have := e7 j (by simp at hj; omega) (by rw [h0]; exact hp)
              (by
                intro k hk'
                rw [h0]
                have := hbefore (k + 1) (by omega)
                rwa [show i + (k + 1) = i + 1 + k by omega] at this)
              (by
                rw [h0]
                rwa [show i + (j + 1) = i + 1 + j by omega] at hat)
              hd2
            omega
        · intro _ hall
          have h0 := hnot (by simpa using hall 0 (by simp))
          have := e8 (by rw [h0]; exact hp) (by
            intro k hk'
            rw [h0]
            have := hall (k + 1) (by simp; omega)
            rwa [show i + (k + 1) = i + 1 + k by omega] at this)
          simp
          omega

/-- C6. For either child and whatever is reaped after each signal,
`terminate_child` returns (it never indexes `sigs` past the SIGKILL entry),
and the signals it sends to the child are the first `n` of TERM, TERM, INT,
QUIT, KILL with `n ≤ 5`: `n = 0` when the child's pid is 0; `n = j + 1` when
the child's pid is first among the reaped pids after signal `j + 1` (for log,
provided run does not hold the same pid, which two live processes never do);
`n = 5` when it is never reaped; and when `n < 5` the child has been reaped. On return the child's
start counter, suspended flag and suspended-period counter are 0 and
`flag_ignchld` is clear. -/
theorem terminate_child_escalation (who : Who) (reaped : Nat → List Nat) (s : Monitor) :
    ∃ (n : Nat) (s1 : Monitor),
      terminate_child who reaped s = .ok s1 ∧
      n ≤ 5 ∧
      s1.trace = s.trace ++ ([SIGTERM, SIGTERM, SIGINT, SIGQUIT, SIGKILL].take n).map
        (Event.signal who) ∧
      ((child who s).pid = 0 → n = 0) ∧
      ((child who s).pid ≠ 0 → 1 ≤ n) ∧
      (n < 5 → (child who s1).pid = 0) ∧
      (∀ j, j < 5 → (child who s).pid ≠ 0 →
        (∀ k, k < j → (child who s).pid ∉ reaped k) →
        (child who s).pid ∈ reaped j →
        (who = Who.run ∨ s.run.pid ≠ s.log.pid) → n = j + 1) ∧
      ((child who s).pid ≠ 0 → (∀ k, k < 5 → (child who s).pid ∉ reaped k) → n = 5) ∧
      (child who s1).starts = 0 ∧ (child who s1).suspended = false ∧
      (child who s1).suspended_periods = 0 ∧ s1.flag_ignchld = false := by
  have hc : ∀ w : Who, child w { s with flag_ignchld := true } = child w s := by
    intro w; cases w <;> rfl
  obtain ⟨n, s1, e1, e2, e3, e4, e5, e6, e7, e8⟩ :=
    terminate_loop_spec who reaped sigs 0 { s with flag_ignchld := true } sigs_KillLast
  simp only [hc, Nat.zero_add] at e4 e5 e7 e8
  refine ⟨n, _, by unfold terminate_child; rw [e1], e2, ?_, e4, e5, ?_, ?_, e8, ?_, ?_, ?_, ?_⟩
  · cases who <;> simpa [set_child, sigs] using e3
  · intro h
    have := e6 h
    cases who <;> simpa [set_child, child] using this
  · intro j hj h1 h2 h3 h4
    exact e7 j hj h1 h2 h3 h4
  · cases who <;> rfl
  · cases who <;> rfl
  · cases who <;> rfl
  · cases who <;> rfl

/-! ## Invariants of the reachable states -/

theorem Inv_init : Inv monitor_init := by
  constructor <;> simp [monitor_init, child_init, FlapOk]

theorem Inv_of_frame {s t : Monitor} (f : ReapFrame s t) (h : Inv s) : Inv t := by
  obtain ⟨h1, h2, h3, h4, h5⟩ := h
  constructor
  · rw [f.pipe_runlog0, f.pipe_runlog1]; exact h1
  · rw [f.flag_stop, f.pipe_stdin]; exact h2
  · unfold FlapOk at h3 ⊢
    rw [f.run_starts, f.run_suspended, f.run_periods]; exact h3
  · unfold FlapOk at h4 ⊢
    rw [f.log_starts, f.log_suspended, f.log_periods]; exact h4
  · rw [f.flag_timer, f.run_starts, f.run_suspended, f.log_starts, f.log_suspended]
    exact h5

theorem check_children_inv (l : List Nat) (s : Monitor) (h : Inv s) :
    Inv (check_children l s) :=
  Inv_of_frame (check_children_frame l s) h

/-- Closed form of `start_child`. -/
theorem start_child_eq (who : Who) (o : StartOutcome) (s : Monitor) :
    start_child who o s =
      emit (.start_attempt who)
        (set_child who
          { child who s with
            starts := ((child who s).starts + 1) % 2 ^ 32
            pid := if s.flag_intr then (child who s).pid else
              match o with
              | .stat_failed => (child who s).pid
              | .not_regular => (child who s).pid
              | .exec_failed => 0
              | .started p => p }
          { s with flag_timer := true }) := by
  obtain ⟨f1, f2, f3, f4, f5, p1, p2, p3, r, l, t⟩ := s
  cases who <;> cases o <;> cases f5 <;> cases f2 <;> rfl

/-- Closed form of `create_pipe`. -/
theorem create_pipe_eq (o : PipeOutcome) (s : Monitor) :
    create_pipe o s =
      if s.pipe_runlog0 = true ∧ s.pipe_runlog1 = true then (true, s)
      else (decide (o = .created),
        { s with pipe_runlog0 := decide (o ≠ .create_failed),
                 pipe_runlog1 := decide (o ≠ .create_failed) }) := by
  obtain ⟨f1, f2, f3, f4, f5, p1, p2, p3, r, l, t⟩ := s
  cases o <;> cases p2 <;> cases p3 <;> rfl

/-- Closed form of the block of `start_children` that starts log. -/
theorem start_children_log_eq (e : StartEnv) (s : Monitor) :
    start_children_log e s =
      if s.log.suspended = false ∧ s.log.pid = 0 ∧ (s.run.pid = 0 ∨ s.flag_forward = true) then
        if (create_pipe e.log_pipe s).1 = true ∧ e.log_attr = true then
          start_child .log e.log_start (create_pipe e.log_pipe s).2
        else (create_pipe e.log_pipe s).2
      else s := by
  unfold start_children_log create_procattr_log
  by_cases h1 : s.log.suspended = false ∧ s.log.pid = 0 ∧ (s.run.pid = 0 ∨ s.flag_forward = true)
  · rw [if_pos h1, if_pos (by simpa [and_assoc] using h1)]
    rcases hc : create_pipe e.log_pipe s with ⟨b, s1⟩
    cases b <;> cases ha : e.log_attr <;> simp
  · rw [if_neg h1, if_neg (by simpa [and_assoc] using h1)]

theorem create_pipe_inv (o : PipeOutcome) (s : Monitor) (h : Inv s) :
    Inv (create_pipe o s).2 := by
  rw [create_pipe_eq]
  split_ifs
  · exact h
  · obtain ⟨h1, h2, h3, h4, h5⟩ := h
    exact ⟨rfl, h2, h3, h4, h5⟩

theorem start_child_inv (who : Who) (o : StartOutcome) (s : Monitor) (h : Inv s)
    (hs : (child who s).suspended = false) : Inv (start_child who o s) := by
  rw [start_child_eq]
  obtain ⟨h1, h2, h3, h4, h5⟩ := h
  cases who
  · simp only [child] at hs
    refine ⟨h1, h2, ?_, h4, ?_⟩
    · simp only [set_child, emit, child, FlapOk] at h3 ⊢
      exact ⟨h3.1, fun hh => by rw [hs] at hh; cases hh⟩
    · intro hh; cases hh
  · simp only [child] at hs
    refine ⟨h1, h2, h3, ?_, ?_⟩
    · simp only [set_child, emit, child, FlapOk] at h4 ⊢
      exact ⟨h4.1, fun hh => by rw [hs] at hh; cases hh⟩
    · intro hh; cases hh

theorem start_children_log_inv (e : StartEnv) (s : Monitor) (h : Inv s) :
    Inv (start_children_log e s) := by
  rw [start_children_log_eq]
  split_ifs with h1 h2
  · apply start_child_inv _ _ _ (create_pipe_inv _ _ h)
    rw [create_pipe_eq]
    split_ifs <;> exact h1.1
  · exact create_pipe_inv _ _ h
  · exact h

/-- What `create_procattr_run` returns when no assertion fails: the state with
a new forwarding flag, set exactly when log is running and all calls succeed. -/
theorem create_procattr_run_ok (a f b : Bool) (s s1 : Monitor)
    (h : create_procattr_run a f s = .ok (b, s1)) :
    s.pipe_stdin = true ∧
    s1 = { s with flag_forward := decide (s.log.pid ≠ 0) && b } ∧
    (s1.flag_forward = true → s.pipe_runlog1 = true) := by
  obtain ⟨f1, f2, f3, f4, f5, p1, p2, p3, r, l, t⟩ := s
  unfold create_procattr_run at h
  simp only at h ⊢
  cases p1 <;> cases a <;> cases f <;> cases p3 <;> by_cases hl : l.pid = 0 <;>
    simp [hl] at h <;> obtain ⟨h1, h2⟩ := h <;> subst h1 <;> subst h2 <;> simp [hl]

theorem start_children_run_inv (e : StartEnv) (s s1 : Monitor) (h : Inv s)
    (hr : start_children_run e s = .ok s1) : Inv s1 := by
  unfold start_children_run at hr
  split_ifs at hr with hc
  · rcases hp : create_procattr_run e.run_attr e.run_fwd s with f | ⟨b, s2⟩
    · rw [hp] at hr; cases hr
    · obtain ⟨_, k2, _⟩ := create_procattr_run_ok _ _ _ _ _ hp
      have hi : Inv s2 := by
        rw [k2]
        obtain ⟨h1, h2, h3, h4, h5⟩ := h
        exact ⟨h1, h2, h3, h4, h5⟩
      rw [hp] at hr
      cases b
      · simp only [Except.ok.injEq] at hr
        rw [← hr]; exact hi
      · simp only [Except.ok.injEq] at hr
        rw [← hr]
        apply start_child_inv _ _ _ hi
        rw [k2]
        simp only [child]
        simp at hc
        exact hc.1
  · cases hr
    exact h

theorem start_children_inv (e : StartEnv) (s s1 : Monitor) (h : Inv s)
    (hr : start_children e s = .ok s1) : Inv s1 := by
  unfold start_children at hr
  split_ifs at hr
  · cases hr; exact h
  · exact start_children_run_inv e _ _ (start_children_log_inv e s h) hr

theorem terminate_child_ok (who : Who) (reaped : Nat → List Nat) (s s1 : Monitor)
    (h : terminate_child who reaped s = .ok s1) :
    ∃ t, terminate_loop who reaped sigs 0 { s with flag_ignchld := true } = .ok t ∧
      s1 = { set_child who { child who t with starts := 0, suspended := false,
                                                suspended_periods := 0 } t
             with flag_ignchld := false } := by
  unfold terminate_child at h
  rcases ht : terminate_loop who reaped sigs 0 { s with flag_ignchld := true } with f | t
  · rw [ht] at h; cases h
  · rw [ht] at h
    simp only [Except.ok.injEq] at h
    exact ⟨t, rfl, h.symm⟩

theorem terminate_child_inv (who : Who) (reaped : Nat → List Nat) (s s1 : Monitor)
    (hi : Inv s) (h : terminate_child who reaped s = .ok s1) : Inv s1 := by
  obtain ⟨t, ht, e⟩ := terminate_child_ok who reaped s s1 h
  obtain ⟨f, -, -, -⟩ := terminate_loop_frame who reaped sigs 0 _ t ht
  obtain ⟨h1, h2, h3, h4, h5⟩ := hi
  have g1 := f.pipe_runlog0
  have g2 := f.pipe_runlog1
  have g3 := f.flag_stop
  have g4 := f.pipe_stdin
  have g5 := f.flag_timer
  have g6 := f.run_starts
  have g7 := f.run_suspended
  have g8 := f.run_periods
  have g9 := f.log_starts
  have g10 := f.log_suspended
  have g11 := f.log_periods
  simp only at g1 g2 g3 g4 g5 g6 g7 g8 g9 g10 g11
  subst e
  cases who
  · constructor
    · simp only [set_child]; rw [g1, g2]; exact h1
    · simp only [set_child]; rw [g3, g4]; exact h2
    · simp [set_child, FlapOk, CHILD_SUSPENSION]
    · simp only [set_child]; unfold FlapOk at h4 ⊢; rw [g9, g10, g11]; exact h4
    · simp only [set_child]; rw [g5, g9, g10]
      intro hh
      simpa using (h5 hh).2.2
  · constructor
    · simp only [set_child]; rw [g1, g2]; exact h1
    · simp only [set_child]; rw [g3, g4]; exact h2
    · simp only [set_child]; unfold FlapOk at h3 ⊢; rw [g6, g7, g8]; exact h3
    · simp [set_child, FlapOk, CHILD_SUSPENSION]
    · simp only [set_child]; rw [g5, g6, g7]
      intro hh
      simpa using ⟨(h5 hh).1, (h5 hh).2.1⟩

theorem parse_command_inv (NSIG cmd : Nat) (rr rl : Nat → List Nat) (s s1 : Monitor)
    (hi : Inv s) (h : parse_command NSIG cmd rr rl s = .ok s1) : Inv s1 := by
  unfold parse_command at h
  have hi0 : Inv (if cmd = MONITOR_CMD_TERMINATE then
      { s with flag_stop := true, pipe_stdin := false } else s) := by
    split_ifs
    · obtain ⟨h1, h2, h3, h4, h5⟩ := hi
      exact ⟨h1, fun hh => Bool.noConfusion hh, h3, h4, h5⟩
    · exact hi
  generalize (if cmd = MONITOR_CMD_TERMINATE then
      { s with flag_stop := true, pipe_stdin := false } else s) = s0 at h hi0
  simp only at h
  split_ifs at h
  · have hc : Inv (close_pipe s0) := by
      obtain ⟨h1, h2, h3, h4, h5⟩ := hi0
      exact ⟨rfl, h2, h3, h4, h5⟩
    rcases ht : terminate_child Who.run rr (close_pipe s0) with f | t
    · rw [ht] at h; cases h
    · rw [ht] at h
      exact terminate_child_inv _ _ _ _ (terminate_child_inv _ _ _ _ hc ht) h
  · cases h; exact hi0
  · cases h
    have f := (signal_child_frame Who.run cmd s0).1
    obtain ⟨h1, h2, h3, h4, h5⟩ := hi0
    unfold signal_child emit
    split_ifs
    · exact ⟨h1, h2, h3, h4, h5⟩
    · exact ⟨h1, h2, h3, h4, h5⟩
  · cases h
    obtain ⟨h1, h2, h3, h4, h5⟩ := hi0
    exact ⟨h1, h2, h3, h4, h5⟩

/-- Closed form of `check_suspension`: it changes the child and, when it lifts
a suspension, writes WAKEUP. -/
theorem check_suspension_eq (who : Who) (s : Monitor) :
    check_suspension who s =
      ((check_suspension_child (child who s)).1,
        { set_child who (check_suspension_child (child who s)).2 s with
          trace := s.trace ++
            (if (child who s).suspended = true ∧
                (child who s).suspended_periods + 1 ≥ CHILD_SUSPENSION
             then [Event.command MONITOR_CMD_WAKEUP] else []) }) := by
  obtain ⟨f1, f2, f3, f4, f5, p1, p2, p3, r, l, t⟩ := s
  unfold check_suspension check_suspension_child
  cases who <;> simp only [child, set_child, emit] <;> split_ifs <;> simp_all

theorem check_suspension_child_flap (c : child_proc) (h : FlapOk c) :
    FlapOk (check_suspension_child c).2 ∧
    ((check_suspension_child c).1 = false →
      (check_suspension_child c).2.suspended = false ∧
      (check_suspension_child c).2.starts = 0) := by
  obtain ⟨pid, starts, susp, per⟩ := c
  unfold FlapOk CHILD_SUSPENSION at h
  unfold check_suspension_child FlapOk CHILD_SUSPENSION CHILD_MAXSTARTS
  simp only at h ⊢
  cases susp
  · have hp := h.1 rfl
    subst hp
    by_cases h0 : starts > 0
    · by_cases h2 : starts > 2 <;> simp [h0, h2]
    · simp [h0]
      omega
  · obtain ⟨hs, hp0, hp3⟩ := h.2 rfl
    subst hs
    by_cases h3 : per + 1 ≥ 3
    · simp [h3]
    · simp [h3]
      omega

theorem handle_alarm_inv (s : Monitor) (h : Inv s) : Inv (handle_alarm s) := by
  obtain ⟨h1, h2, h3, h4, h5⟩ := h
  obtain ⟨k1, k2⟩ := check_suspension_child_flap s.log h4
  obtain ⟨k3, k4⟩ := check_suspension_child_flap s.run h3
  unfold handle_alarm
  simp only [check_suspension_eq, child, set_child]
  by_cases hc : ((check_suspension_child s.run).1 || (check_suspension_child s.log).1) = true
  · simp only [hc, if_true]
    exact ⟨h1, h2, k3, k1, fun hh => by
      have := h5 hh
      obtain ⟨a, b, c, d⟩ := this
      simp [check_suspension_child, a, b, c, d] at hc⟩
  · simp only [hc, if_false]
    simp only [Bool.or_eq_true, not_or, Bool.not_eq_true] at hc
    exact ⟨h1, h2, k3, k1, fun _ => ⟨(k4 hc.1).1, (k4 hc.1).2, (k2 hc.2).1, (k2 hc.2).2⟩⟩

/-- Every reachable state satisfies the invariant. -/
theorem Reachable.inv {NSIG : Nat} {s : Monitor} (h : Reachable NSIG s) : Inv s := by
  induction h with
  | init => exact Inv_init
  | reap l _ _ _ ih => exact check_children_inv l _ ih
  | start e _ _ _ hs ih => exact start_children_inv e _ _ ih hs
  | command cmd rr rl _ _ _ _ _ hs ih => exact parse_command_inv _ cmd rr rl _ _ ih hs
  | alarm _ _ _ ih => exact handle_alarm_inv _ ih
  | intr _ _ ih =>
    obtain ⟨h1, h2, h3, h4, h5⟩ := ih
    exact ⟨h1, h2, h3, h4, h5⟩
  | wakeup _ _ ih =>
    obtain ⟨h1, h2, h3, h4, h5⟩ := ih
    exact ⟨h1, h2, h3, h4, h5⟩

theorem both_running_reachable : Reachable 65 both_running :=
  Reachable.start (env_ok true 101 100) Reachable.init rfl
    ⟨by simp [env_ok, StartOutcome.valid], by simp [env_ok, StartOutcome.valid]⟩ rfl

/-- When the interrupt flag is clear, `monitor/stdin` is open, neither child is
suspended, log is not held back by an unforwarded run, and a running log has
its pipe: with `monitor/up` present and every start attempt succeeding,
`start_children` returns with both children running. -/
theorem start_children_both (s : Monitor) (lp rp : Nat)
    (hin : s.pipe_stdin = true) (hintr : s.flag_intr = false)
    (hrs : s.run.suspended = false) (hls : s.log.suspended = false)
    (hlp : 0 < lp) (hrp : 0 < rp)
    (hd : s.log.pid = 0 → s.run.pid = 0 ∨ s.flag_forward = true)
    (hp : s.log.pid ≠ 0 → s.pipe_runlog1 = true) :
    ∃ s1, start_children (env_ok true lp rp) s = .ok s1 ∧ 0 < s1.run.pid ∧ 0 < s1.log.pid := by
  obtain ⟨f1, f2, f3, f4, f5, p1, p2, p3, r, l, t⟩ := s
  obtain ⟨rpid, rstarts, rsusp, rper⟩ := r
  obtain ⟨lpid, lstarts, lsusp, lper⟩ := l
  simp only at hintr hrs hls hd hp hin
  subst hintr hrs hls hin
  unfold start_children
  rw [start_children_log_eq, create_pipe_eq]
  unfold start_children_run create_procattr_run
  simp only [start_child_eq, env_ok, set_child, emit, child]
  by_cases hl0 : lpid = 0
  · subst hl0
    have hlp' : lp ≠ 0 := by omega
    have hrp' : rp ≠ 0 := by omega
    by_cases hr0 : rpid = 0
    · subst hr0
      cases p2 <;> cases p3 <;> simp [hlp', hrp', hlp, hrp]
    · have hf := (hd rfl).resolve_left hr0
      subst hf
      have : 0 < rpid := by omega
      cases p2 <;> cases p3 <;> simp [hlp', hr0, hlp, this]
  · have hp3 := hp hl0
    subst hp3
    have hl1 : 0 < lpid := by omega
    by_cases hr0 : rpid = 0
    · subst hr0
      have hrp' : rp ≠ 0 := by omega
      simp [hl0, hrp, hl1]
    · have : 0 < rpid := by omega
      simp [hl0, hr0, hl1, this]

theorem Quiet_refl (who : Who) (s : Monitor) : Quiet who s s :=
  ⟨rfl, rfl, rfl, rfl, [], by simp, by simp⟩

theorem Quiet_trans {who : Who} {s t u : Monitor} (h1 : Quiet who s t) (h2 : Quiet who t u) :
    Quiet who s u := by
  obtain ⟨a1, a2, a3, a4, tr1, a5, a6⟩ := h1
  obtain ⟨b1, b2, b3, b4, tr2, b5, b6⟩ := h2
  refine ⟨b1.trans a1, b2.trans a2, b3.trans a3, b4.trans a4, tr1 ++ tr2, ?_, ?_⟩
  · rw [b5, a5, List.append_assoc]
  · simp [a6, b6]

theorem Quiet_of_frame (who : Who) {s t : Monitor} (f : ReapFrame s t) : Quiet who s t := by
  cases who
  · exact ⟨f.flag_stop, f.run_starts, f.run_suspended, f.run_periods, [],
      by simp [f.trace], by simp⟩
  · exact ⟨f.flag_stop, f.log_starts, f.log_suspended, f.log_periods, [],
      by simp [f.trace], by simp⟩

theorem start_child_quiet (who w : Who) (o : StartOutcome) (s : Monitor) (h : w ≠ who) :
    Quiet who s (start_child w o s) := by
  rw [start_child_eq]
  refine ⟨by cases w <;> rfl, ?_, ?_, ?_, [Event.start_attempt w], by cases w <;> rfl, ?_⟩
  · cases who <;> cases w <;> first | rfl | exact absurd rfl h
  · cases who <;> cases w <;> rfl
  · cases who <;> cases w <;> rfl
  · simpa using fun e => h e.symm

theorem create_pipe_quiet (who : Who) (o : PipeOutcome) (s : Monitor) :
    Quiet who s (create_pipe o s).2 := by
  rw [create_pipe_eq]
  split_ifs
  · exact Quiet_refl _ s
  · exact ⟨rfl, by cases who <;> rfl, by cases who <;> rfl, by cases who <;> rfl,
      [], by simp, by simp⟩

theorem start_children_log_quiet (who : Who) (e : StartEnv) (s : Monitor)
    (h : (child who s).suspended = true) : Quiet who s (start_children_log e s) := by
  rw [start_children_log_eq]
  cases who
  · split_ifs
    · exact Quiet_trans (create_pipe_quiet _ _ s) (start_child_quiet _ _ _ _ (by decide))
    · exact create_pipe_quiet _ _ s
    · exact Quiet_refl _ s
  · simp only [child] at h
    have hc : ¬ (s.log.suspended = false ∧ s.log.pid = 0 ∧
        (s.run.pid = 0 ∨ s.flag_forward = true)) := by
      rw [h]; simp
    rw [if_neg hc]
    exact Quiet_refl _ s

theorem start_children_run_quiet (who : Who) (e : StartEnv) (s s1 : Monitor)
    (h : (child who s).suspended = true) (hs : start_children_run e s = .ok s1) :
    Quiet who s s1 := by
  unfold start_children_run at hs
  cases who
  · simp only [child] at h
    simp only [h, Bool.not_true, Bool.false_and, Bool.false_eq_true, if_false,
      Except.ok.injEq] at hs
    subst hs
    exact Quiet_refl _ s
  · split_ifs at hs with hc
    · rcases hp : create_procattr_run e.run_attr e.run_fwd s with f | ⟨b, s2⟩
      · rw [hp] at hs; cases hs
      · obtain ⟨_, k2, _⟩ := create_procattr_run_ok _ _ _ _ _ hp
        rw [hp] at hs
        cases b
        · simp only [Except.ok.injEq] at hs
          subst hs; subst k2
          exact ⟨rfl, rfl, rfl, rfl, [], by simp, by simp⟩
        · simp only [Except.ok.injEq] at hs
          subst hs
          have q0 : Quiet Who.log s s2 := by
            subst k2
            exact ⟨rfl, rfl, rfl, rfl, [], by simp, by simp⟩
          exact Quiet_trans q0 (start_child_quiet _ _ _ _ (by decide))
    · cases hs
      exact Quiet_refl _ s

theorem start_children_quiet (who : Who) (e : StartEnv) (s s1 : Monitor)
    (h : (child who s).suspended = true) (hs : start_children e s = .ok s1) :
    Quiet who s s1 := by
  unfold start_children at hs
  split_ifs at hs
  · cases hs; exact Quiet_refl _ s
  · have q1 := start_children_log_quiet who e s h
    exact Quiet_trans q1
      (start_children_run_quiet who e _ s1 (by rw [q1.suspended]; exact h) hs)

/-- The handler of SIGALRM applies `check_suspension_child` to each child, and
only writes commands. -/
theorem handle_alarm_child (who : Who) (s : Monitor) :
    child who (handle_alarm s) = (check_suspension_child (child who s)).2 ∧
    (handle_alarm s).flag_stop = s.flag_stop ∧
    ∃ tr, (handle_alarm s).trace = s.trace ++ tr ∧
      (∀ w, Event.start_attempt w ∉ tr) ∧
      ((child who s).suspended = true →
        (child who s).suspended_periods + 1 ≥ CHILD_SUSPENSION →
        Event.command MONITOR_CMD_WAKEUP ∈ tr) := by
  unfold handle_alarm
  simp only [check_suspension_eq, child, set_child]
  refine ⟨?_, ?_, ?_⟩
  · cases who <;> simp only [child] <;> split_ifs <;> rfl
  · split_ifs <;> rfl
  · refine ⟨(if s.log.suspended = true ∧ s.log.suspended_periods + 1 ≥ CHILD_SUSPENSION
        then [Event.command MONITOR_CMD_WAKEUP] else []) ++
      (if s.run.suspended = true ∧ s.run.suspended_periods + 1 ≥ CHILD_SUSPENSION
        then [Event.command MONITOR_CMD_WAKEUP] else []), ?_, ?_, ?_⟩
    · split_ifs <;> simp
    · intro w
      split_ifs <;> simp
    · intro h1 h2
      cases who
      · simp only [child] at h1 h2
        simp [h1, h2]
      · simp only [child] at h1 h2
        simp [h1, h2]

/-- One tick for a suspended child. -/
theorem tick_suspended (c : child_proc) (h : c.suspended = true) :
    (c.suspended_periods + 1 < CHILD_SUSPENSION →
      (check_suspension_child c).2.suspended = true ∧
      (check_suspension_child c).2.suspended_periods = c.suspended_periods + 1) ∧
    (c.suspended_periods + 1 ≥ CHILD_SUSPENSION →
      (check_suspension_child c).2.suspended = false) := by
  unfold check_suspension_child CHILD_SUSPENSION
  constructor
  · intro h1
    have : ¬ (c.suspended_periods + 1 ≥ 3) := by omega
    simp [h, this]
  · intro h1
    simp [h, h1]

/-- The tick at which the start counter exceeds `CHILD_MAXSTARTS`. -/
theorem tick_suspends (c : child_proc) (h : c.suspended = false)
    (hs : c.starts > CHILD_MAXSTARTS) :
    (check_suspension_child c).2.suspended = true ∧
    (check_suspension_child c).2.suspended_periods = c.suspended_periods := by
  unfold check_suspension_child
  unfold CHILD_MAXSTARTS at hs ⊢
  have h0 : c.starts > 0 := by omega
  simp [h, h0, hs]

/-- A suspended child has the suspension timer active. -/
theorem suspended_timer (who : Who) (s : Monitor) (hi : Inv s)
    (h : (child who s).suspended = true) : s.flag_timer = true := by
  cases ht : s.flag_timer with
  | true => rfl
  | false =>
    obtain ⟨a, -, b, -⟩ := hi.timer ht
    cases who
    · simp only [child] at h
      rw [a] at h
      cases h
    · simp only [child] at h
      rw [b] at h
      cases h

theorem env_ok_valid (up : Bool) (lp rp : Nat) (hl : 0 < lp) (hr : 0 < rp) :
    (env_ok up lp rp).valid := ⟨hl, hr⟩

theorem flapping_reachable : Reachable 65 flapping := by
  have v : ∀ p : Nat, 0 < p → valid_reaped [p] := by
    intro p hp q hq
    simp at hq
    omega
  have h1 := Reachable.reap [100] both_running_reachable rfl (v 100 (by decide))
  have h2 := Reachable.start (env_ok true 7 102) h1 rfl
    (env_ok_valid _ _ _ (by decide) (by decide)) rfl
  have h3 := Reachable.reap [102] h2 rfl (v 102 (by decide))
  have h4 := Reachable.start (env_ok true 7 103) h3 rfl
    (env_ok_valid _ _ _ (by decide) (by decide)) rfl
  exact Reachable.reap [103] h4 rfl (v 103 (by decide))

/-- C2, counterexample. Run is suspended at a tick; before any further tick a
KILL command (`srvctl --restart`) is handled: `terminate_child` resets the
suspension, and the next `start_children` starts run again. -/
theorem bounded_flapping_counterexample :
    Reachable 65 flapping ∧ flapping.flag_stop = false ∧
    flapping.run.suspended = false ∧ flapping.run.starts > CHILD_MAXSTARTS ∧
    handle_alarm flapping = run_suspended ∧ run_suspended.run.suspended = true ∧
    parse_command 65 MONITOR_CMD_KILL (fun _ => []) (fun _ => [101]) run_suspended =
      .ok after_kill ∧
    after_kill.run.suspended = false ∧
    start_children (env_ok true 104 105) after_kill = .ok restarted ∧
    Event.start_attempt Who.run ∈ restarted.trace.drop run_suspended.trace.length :=
  ⟨flapping_reachable, rfl, rfl, by decide, by decide, rfl, rfl, rfl, rfl, by decide⟩

/-! ## The monitor with asynchronous signals -/

/-- The three statements of `start_child` make up `start_child`. -/
theorem start_child_split (who : Who) (o : StartOutcome) (s : Monitor) :
    start_child_exec who o (start_child_count who (start_child_timer who s)) =
      start_child who o s := by
  obtain ⟨f1, f2, f3, f4, f5, p1, p2, p3, r, l, t⟩ := s
  cases who <;> cases o <;> cases f5 <;> cases f2 <;> rfl

theorem valid_reaped_nil : valid_reaped [] := by
  intro p hp
  cases hp

/-- The statements of the block of `start_children` that starts log, run
without a signal in between, do what `start_children_log` does. -/
theorem machine_start_log (NSIG : Nat) (e : StartEnv) (hv : e.valid) (s : Monitor)
    (h : MReachable NSIG { pc := .guard .log, st := s }) :
    MReachable NSIG { pc := .guard .run, st := start_children_log e s } := by
  have nx : ∀ {c c1 : Config}, MReachable NSIG c → c.pc ≠ .idle →
      main_step e [] c = .ok c1 → MReachable NSIG c1 := by
    intro c c1 hc hpc hs
    exact MReachable.step (.next e []) hc (fun hi => absurd hi hpc) ⟨hv, valid_reaped_nil⟩ hs
  unfold start_children_log
  by_cases hg : (!s.log.suspended && s.log.pid == 0 && (s.run.pid == 0 || s.flag_forward)) = true
  · rw [if_pos hg]
    have h1 : MReachable NSIG { pc := .attr .log, st := s } :=
      nx h (by simp) (by simp only [main_step]; rw [if_pos hg])
    rcases hp : create_procattr_log e.log_pipe e.log_attr s with ⟨b, s1⟩
    cases b
    · simp only
      exact nx h1 (by simp) (by simp only [main_step, hp])
    · simp only
      have h2 : MReachable NSIG { pc := .timer .log, st := s1 } :=
        nx h1 (by simp) (by simp only [main_step, hp])
      have h3 := nx h2 (by simp) (show main_step e [] _ = .ok
        { pc := .count .log, st := start_child_timer .log s1 } from rfl)
      have h4 := nx h3 (by simp) (show main_step e [] _ = .ok
        { pc := .exec .log, st := start_child_count .log (start_child_timer .log s1) } from rfl)
      have h5 := nx h4 (by simp) (show main_step e [] _ = .ok
        { pc := .guard .run, st := start_child_exec .log e.log_start
            (start_child_count .log (start_child_timer .log s1)) } from rfl)
      rw [start_child_split] at h5
      exact h5
  · rw [if_neg hg]
    exact nx h (by simp) (by simp only [main_step]; rw [if_neg hg])

/-- The statements of the block of `start_children` that starts run, run
without a signal in between, do what `start_children_run` does. -/
theorem machine_start_run (NSIG : Nat) (e : StartEnv) (hv : e.valid) (s s1 : Monitor)
    (h : MReachable NSIG { pc := .guard .run, st := s })
    (hr : start_children_run e s = .ok s1) :
    MReachable NSIG { pc := .idle, st := s1 } := by
  have nx : ∀ {c c1 : Config}, MReachable NSIG c → c.pc ≠ .idle →
      main_step e [] c = .ok c1 → MReachable NSIG c1 := by
    intro c c1 hc hpc hs
    exact MReachable.step (.next e []) hc (fun hi => absurd hi hpc) ⟨hv, valid_reaped_nil⟩ hs
  unfold start_children_run at hr
  by_cases hg : (!s.run.suspended && s.run.pid == 0) = true
  · rw [if_pos hg] at hr
    have h1 : MReachable NSIG { pc := .attr .run, st := s } :=
      nx h (by simp) (by simp only [main_step]; rw [if_pos hg])
    rcases hp : create_procattr_run e.run_attr e.run_fwd s with f | ⟨b, s2⟩
    · rw [hp] at hr
      cases hr
    · rw [hp] at hr
      cases b
      · simp only [Except.ok.injEq] at hr
        subst hr
        exact nx h1 (by simp) (by simp only [main_step, hp])
      · simp only [Except.ok.injEq] at hr
        subst hr
        have h2 : MReachable NSIG { pc := .timer .run, st := s2 } :=
          nx h1 (by simp) (by simp only [main_step, hp])
        have h3 := nx h2 (by simp) (show main_step e [] _ = .ok
          { pc := .count .run, st := start_child_timer .run s2 } from rfl)
        have h4 := nx h3 (by simp) (show main_step e [] _ = .ok
          { pc := .exec .run, st := start_child_count .run (start_child_timer .run s2) } from rfl)
        have h5 := nx h4 (by simp) (show main_step e [] _ = .ok
          { pc := .idle, st := start_child_exec .run e.run_start
              (start_child_count .run (start_child_timer .run s2)) } from rfl)
        rw [start_child_split] at h5
        exact h5
  · rw [if_neg hg] at hr
    cases hr
    exact nx h (by simp) (by simp only [main_step]; rw [if_neg hg])

/-- The rounds of the loop of `terminate_child`, run without a signal in
between, do what `terminate_loop` does. -/
theorem machine_terminate_loop (NSIG : Nat) (who : Who) (reaped : Nat → List Nat)
    (hv : ∀ k, valid_reaped (reaped k)) :
    ∀ (rest : List Nat) (i : Nat) (s s1 : Monitor), sigs.drop i = rest →
      terminate_loop who reaped rest i s = .ok s1 →
      MReachable NSIG { pc := .term who i, st := s } →
      MReachable NSIG { pc := .reset_starts who, st := s1 } := by
  have nx : ∀ (k : Nat) {c c1 : Config}, MReachable NSIG c → c.pc ≠ .idle →
      main_step (env_ok true 1 1) (reaped k) c = .ok c1 → MReachable NSIG c1 := by
    intro k c c1 hc hpc hs
    exact MReachable.step (.next (env_ok true 1 1) (reaped k)) hc (fun hi => absurd hi hpc)
      ⟨env_ok_valid _ _ _ (by decide) (by decide), hv k⟩ hs
  intro rest
  induction rest with
  | nil =>
    intro i s s1 _ h hm
    simp only [terminate_loop] at h
    split_ifs at h with hp
    cases h
    exact nx 0 hm (by simp) (by simp only [main_step]; rw [if_pos hp])
  | cons sig rest ih =>
    intro i s s1 hd h hm
    rw [terminate_loop_cons] at h
    have hsig : sigs[i]? = some sig := by
      have := congrArg (fun l => l[0]?) hd
      simpa using this
    have hrest : sigs.drop (i + 1) = rest := by
      have := congrArg List.tail hd
      simpa using this
    by_cases hp : (child who s).pid = 0
    · rw [if_pos hp] at h
      cases h
      exact nx 0 hm (by simp) (by simp only [main_step]; rw [if_pos hp])
    · rw [if_neg hp] at h
      by_cases hk : sig = SIGKILL
      · rw [if_pos hk] at h
        cases h
        exact nx i hm (by simp) (by simp only [main_step]; rw [if_neg hp, hsig]; simp only [hk, if_true])
      · rw [if_neg hk] at h
        exact ih (i + 1) _ s1 hrest h
          (nx i hm (by simp) (by simp only [main_step]; rw [if_neg hp, hsig]; simp only [hk, if_false]))

/-- The statements of `terminate_child`, run without a signal in between, do
what `terminate_child` does. -/
theorem machine_terminate (NSIG : Nat) (who : Who) (reaped : Nat → List Nat)
    (hv : ∀ k, valid_reaped (reaped k)) (s s1 : Monitor)
    (h : terminate_child who reaped s = .ok s1)
    (hm : MReachable NSIG { pc := .ignchld who, st := s }) :
    MReachable NSIG { pc := after_terminate who, st := s1 } := by
  have nx : ∀ {c c1 : Config}, MReachable NSIG c → c.pc ≠ .idle →
      main_step (env_ok true 1 1) [] c = .ok c1 → MReachable NSIG c1 := by
    intro c c1 hc hpc hs
    exact MReachable.step (.next (env_ok true 1 1) []) hc (fun hi => absurd hi hpc)
      ⟨env_ok_valid _ _ _ (by decide) (by decide), valid_reaped_nil⟩ hs
  obtain ⟨t, ht, e⟩ := terminate_child_ok who reaped s s1 h
  have h1 := nx hm (by simp) (show main_step _ [] _ = .ok
    { pc := .term who 0, st := { s with flag_ignchld := true } } from rfl)
  have h2 := machine_terminate_loop NSIG who reaped hv sigs 0 _ t rfl ht h1
  have h3 := nx h2 (by simp) (show main_step _ [] _ = .ok
    { pc := .reset_suspended who, st := set_child who { child who t with starts := 0 } t }
    from rfl)
  have h4 := nx h3 (by simp) (show main_step _ [] _ = .ok
    { pc := .reset_periods who, st := set_child who
        { child who (set_child who { child who t with starts := 0 } t) with
          suspended := false } (set_child who { child who t with starts := 0 } t) } from rfl)
  have h5 := nx h4 (by simp) (show main_step _ [] _ = .ok { pc := .reset_ignchld who, st := _ }
    from rfl)
  have h6 := nx h5 (by simp) (show main_step _ [] _ = .ok { pc := after_terminate who, st := _ }
    from rfl)
  have hst : s1 = { set_child who { child who (set_child who { child who (set_child who { child who t with starts := 0 } t) with suspended := false } (set_child who { child who t with starts := 0 } t)) with suspended_periods := 0 } (set_child who { child who (set_child who { child who t with starts := 0 } t) with suspended := false } (set_child who { child who t with starts := 0 } t)) with flag_ignchld := false } := by
    rw [e]
    cases who <;> rfl
  rw [hst]
  exact h6

/-- Every state of the monitor whose operations are taken whole is a
configuration of the monitor taken statement by statement. -/
theorem Reachable.machine {NSIG : Nat} {s : Monitor} (h : Reachable NSIG s) :
    MReachable NSIG { pc := .idle, st := s } := by
  induction h with
  | init => exact MReachable.init
  | reap l _ hs hv ih =>
    exact MReachable.step (.reap l) ih (fun _ => hs) hv (by simp [mstep])
  | @start s s1 e _ hs hv he ih =>
    unfold start_children at he
    by_cases hc : (s.flag_intr || !e.up) = true
    · rw [if_pos hc] at he
      cases he
      exact ih
    · rw [if_neg hc] at he
      have h1 : MReachable NSIG { pc := .guard .log, st := s } :=
        MReachable.step (.start e) ih (fun _ => hs) hv (by simp only [mstep]; simp [hc])
      exact machine_start_run NSIG e hv _ _ (machine_start_log NSIG e hv s h1) he
  | @command s s1 cmd rr rl _ hs hc hvr hvl he ih =>
    unfold parse_command at he
    simp only at he
    obtain ⟨s0, hs0⟩ : ∃ s0 : Monitor, s0 = (if cmd = MONITOR_CMD_TERMINATE then
        { s with flag_stop := true, pipe_stdin := false } else s) := ⟨_, rfl⟩
    rw [← hs0] at he
    have hb : begin_command NSIG cmd s =
        if (decide (cmd = MONITOR_CMD_KILL) || s0.flag_stop) = true then
          { pc := .ignchld .run, st := close_pipe s0 }
        else if cmd = MONITOR_CMD_WAKEUP then { pc := .idle, st := s0 }
        else if (decide (0 < cmd) && decide (cmd < NSIG)) = true then
          { pc := .idle, st := signal_child .run cmd s0 }
        else { pc := .idle, st := emit .unknown_command s0 } := by
      rw [hs0]
      rfl
    have hstep : mstep NSIG (.command cmd) { pc := .idle, st := s } =
        .ok (begin_command NSIG cmd s) := by
      simp [mstep]
    have h1 := MReachable.step (.command cmd) ih (fun _ => hs) hc hstep
    rw [hb] at h1
    by_cases hk : (decide (cmd = MONITOR_CMD_KILL) || s0.flag_stop) = true
    · rw [if_pos hk] at he h1
      rcases ht : terminate_child Who.run rr (close_pipe s0) with f | t
      · rw [ht] at he
        cases he
      · rw [ht] at he
        simp only at he
        have h2 := machine_terminate NSIG Who.run rr hvr _ t ht h1
        exact machine_terminate NSIG Who.log rl hvl _ s1 he h2
    · rw [if_neg hk] at he h1
      by_cases hw : cmd = MONITOR_CMD_WAKEUP
      · rw [if_pos hw] at he h1
        cases he
        exact h1
      · rw [if_neg hw] at he h1
        by_cases hsig : (decide (0 < cmd) && decide (cmd < NSIG)) = true
        · rw [if_pos hsig] at he h1
          cases he
          exact h1
        · rw [if_neg hsig] at he h1
          cases he
          exact h1
  | alarm _ hs ht ih =>
    exact MReachable.step .alarm ih (fun _ => hs) trivial (by simp [mstep, ht])
  | intr _ hs ih =>
    exact MReachable.step .intr ih (fun _ => hs) trivial (by simp [mstep])
  | wakeup _ hs ih =>
    exact MReachable.step .wakeup ih (fun _ => hs) trivial (by simp [mstep])

/-- The steps of `race_ops` are steps of the monitor. -/
theorem raced_reachable : MReachable 65 { pc := .idle, st := raced } := by
  have v := env_ok_valid true 104 105 (by decide) (by decide)
  have h0 := flapping_reachable.machine
  have h1 : MReachable 65 { pc := .guard .log, st := flapping } :=
    MReachable.step (.start (env_ok true 104 105)) h0 (fun _ => rfl) v rfl
  have h2 : MReachable 65 { pc := .guard .run, st := flapping } :=
    MReachable.step (.next (env_ok true 104 105) []) h1 (fun h => by cases h)
      ⟨v, valid_reaped_nil⟩ rfl
  have h3 : MReachable 65 { pc := .attr .run, st := flapping } :=
    MReachable.step (.next (env_ok true 104 105) []) h2 (fun h => by cases h)
      ⟨v, valid_reaped_nil⟩ rfl
  have h4 : MReachable 65 { pc := .attr .run, st := run_suspended } :=
    MReachable.step .alarm h3 (fun h => by cases h) trivial rfl
  have h5 : MReachable 65 { pc := .timer .run, st := { run_suspended with flag_forward := true } } :=
    MReachable.step (.next (env_ok true 104 105) []) h4 (fun h => by cases h)
      ⟨v, valid_reaped_nil⟩ rfl
  have h6 := MReachable.step (.next (env_ok true 104 105) []) h5 (fun h => by cases h)
    ⟨v, valid_reaped_nil⟩ rfl
  have h7 := MReachable.step (.next (env_ok true 104 105) []) h6 (fun h => by cases h)
    ⟨v, valid_reaped_nil⟩ rfl
  exact MReachable.step (.next (env_ok true 104 105) []) h7 (fun h => by cases h)
    ⟨v, valid_reaped_nil⟩ rfl

/-- C28. Taken whole, the operations of the monitor keep the flap state in
order: in every state reached with `start_children`, the handlers and
`parse_command` as single steps, a suspended child has start counter 0 and a
suspended-period counter in `[0, CHILD_SUSPENSION)`, an unsuspended child has
suspended-period counter 0, and with the timer flag clear both children are
unsuspended with start counter 0. The monitor itself does not keep it:
SIGALRM is not blocked, and when it is delivered in `start_children` after
the test `!run.suspended && !run.proc.pid` and before `start_child`, the
handler suspends run and `start_child` then starts it. From the state
`flapping` (run started three times within a timer period, all three reaped)
the steps `race_ops` give the state `raced`, in which run is suspended, runs
with pid 105, and has start counter 1. The state `raced` is also what
`start_child`, taken whole, gives when applied after `handle_alarm`, taken
whole. -/
theorem flap_state_race :
    (∀ (NSIG : Nat) (s : Monitor), Reachable NSIG s →
      FlapOk s.run ∧ FlapOk s.log ∧
      (s.flag_timer = false →
        s.run.suspended = false ∧ s.run.starts = 0 ∧
        s.log.suspended = false ∧ s.log.starts = 0)) ∧
    Reachable 65 flapping ∧ FlapOk flapping.run ∧
    mrun 65 (race_ops.take 3) { pc := .idle, st := flapping } =
      .ok { pc := .attr .run, st := flapping } ∧
    flapping.run.suspended = false ∧ flapping.run.pid = 0 ∧
    race_ops.drop 3 = MOp.alarm :: race_ops.drop 4 ∧
    mrun 65 (race_ops.take 4) { pc := .idle, st := flapping } =
      .ok { pc := .attr .run, st := handle_alarm flapping } ∧
    (handle_alarm flapping).run.suspended = true ∧
    mrun 65 race_ops { pc := .idle, st := flapping } = .ok { pc := .idle, st := raced } ∧
    MReachable 65 { pc := .idle, st := raced } ∧
    create_procattr_run true true (handle_alarm flapping) =
      .ok (true, { handle_alarm flapping with flag_forward := true }) ∧
    start_child .run (.started 105) { handle_alarm flapping with flag_forward := true } =
      raced ∧
    raced.run.suspended = true ∧ raced.run.starts = 1 ∧ raced.run.pid = 105 ∧
    raced.flag_timer = true ∧
    Event.start_attempt Who.run ∈ raced.trace.drop flapping.trace.length ∧
    ¬ FlapOk raced.run := by
  refine ⟨fun NSIG s h => ⟨h.inv.run_flap, h.inv.log_flap, h.inv.timer⟩, flapping_reachable,
    flapping_reachable.inv.run_flap, rfl, rfl, rfl, rfl, rfl, by decide, rfl,
    raced_reachable, rfl, by decide, rfl, rfl, rfl, rfl, by decide, ?_⟩
  intro h
  have := (h.2 rfl).1
  exact absurd this (by decide)

theorem start_child_timer_child (who w : Who) (s : Monitor) :
    child w (start_child_timer who s) = child w s ∧
    (start_child_timer who s).flag_stop = s.flag_stop ∧
    (start_child_timer who s).flag_timer = true ∧
    (start_child_timer who s).trace = s.trace ++ [Event.start_attempt who] := by
  obtain ⟨f1, f2, f3, f4, f5, p1, p2, p3, r, l, t⟩ := s
  cases w <;> cases f5 <;> exact ⟨rfl, rfl, rfl, rfl⟩

theorem start_child_count_child (who w : Who) (s : Monitor) :
    (child w (start_child_count who s)).suspended = (child w s).suspended ∧
    (child w (start_child_count who s)).suspended_periods = (child w s).suspended_periods ∧
    (w ≠ who → (child w (start_child_count who s)).starts = (child w s).starts) ∧
    (start_child_count who s).flag_stop = s.flag_stop ∧
    (start_child_count who s).flag_timer = s.flag_timer ∧
    (start_child_count who s).trace = s.trace := by
  cases who <;> cases w <;>
    exact ⟨rfl, rfl, fun h => by first | rfl | exact absurd rfl h, rfl, rfl, rfl⟩

theorem start_child_exec_child (who w : Who) (o : StartOutcome) (s : Monitor) :
    (child w (start_child_exec who o s)).suspended = (child w s).suspended ∧
    (child w (start_child_exec who o s)).suspended_periods = (child w s).suspended_periods ∧
    (child w (start_child_exec who o s)).starts = (child w s).starts ∧
    (start_child_exec who o s).flag_stop = s.flag_stop ∧
    (start_child_exec who o s).flag_timer = s.flag_timer ∧
    (start_child_exec who o s).trace = s.trace := by
  obtain ⟨f1, f2, f3, f4, f5, p1, p2, p3, r, l, t⟩ := s
  cases who <;> cases w <;> cases o <;> cases f2 <;> exact ⟨rfl, rfl, rfl, rfl, rfl, rfl⟩

theorem create_procattr_log_child (w : Who) (p : PipeOutcome) (a : Bool) (s : Monitor) :
    child w (create_procattr_log p a s).2 = child w s ∧
    (create_procattr_log p a s).2.flag_stop = s.flag_stop ∧
    (create_procattr_log p a s).2.flag_timer = s.flag_timer ∧
    (create_procattr_log p a s).2.trace = s.trace := by
  obtain ⟨f1, f2, f3, f4, f5, p1, p2, p3, r, l, t⟩ := s
  cases w <;> cases p <;> cases a <;> cases p2 <;> cases p3 <;> exact ⟨rfl, rfl, rfl, rfl⟩

theorem create_procattr_run_child (w : Who) (a f b : Bool) (s s1 : Monitor)
    (h : create_procattr_run a f s = .ok (b, s1)) :
    child w s1 = child w s ∧ s1.flag_stop = s.flag_stop ∧ s1.flag_timer = s.flag_timer ∧
    s1.trace = s.trace := by
  obtain ⟨-, e, -⟩ := create_procattr_run_ok a f b s s1 h
  subst e
  cases w <;> exact ⟨rfl, rfl, rfl, rfl⟩

/-- A statement of `start_children` executed while the child `who` is
suspended and the main flow is not inside the start of `who`: the flap
fields of `who` are kept, no start of `who` is attempted, the main flow
stays outside the start of `who`, and an active timer stays active. -/
theorem main_step_quiet (who : Who) (e : StartEnv) (reaped : List Nat) (c c1 : Config)
    (hc : c.pc.calm who = true) (hs : (child who c.st).suspended = true)
    (h : main_step e reaped c = .ok c1) :
    Quiet who c.st c1.st ∧ c1.pc.calm who = true ∧
    (c.st.flag_timer = true → c1.st.flag_timer = true) := by
  obtain ⟨pc, s⟩ := c
  have mk : ∀ (t : Monitor) (tr : List Event), t.flag_stop = s.flag_stop →
      (child who t).starts = (child who s).starts →
      (child who t).suspended = (child who s).suspended →
      (child who t).suspended_periods = (child who s).suspended_periods →
      t.trace = s.trace ++ tr → Event.start_attempt who ∉ tr → Quiet who s t :=
    fun t tr a1 a2 a3 a4 a5 a6 => ⟨a1, a2, a3, a4, tr, a5, a6⟩
  cases pc with
  | idle =>
    simp only [main_step, Except.ok.injEq] at h
    subst h
    exact ⟨Quiet_refl _ _, hc, id⟩
  | guard w =>
    cases w with
    | log =>
      simp only [main_step] at h
      split_ifs at h with hg
      · simp only [Except.ok.injEq] at h
        subst h
        refine ⟨Quiet_refl _ _, ?_, id⟩
        cases who with
        | run => rfl
        | log =>
          simp only [child] at hs
          simp [hs] at hg
      · simp only [Except.ok.injEq] at h
        subst h
        exact ⟨Quiet_refl _ _, rfl, id⟩
    | run =>
      simp only [main_step] at h
      split_ifs at h with hg
      · simp only [Except.ok.injEq] at h
        subst h
        refine ⟨Quiet_refl _ _, ?_, id⟩
        cases who with
        | log => rfl
        | run =>
          simp only [child] at hs
          simp [hs] at hg
      · simp only [Except.ok.injEq] at h
        subst h
        exact ⟨Quiet_refl _ _, rfl, id⟩
  | attr w =>
    cases w with
    | log =>
      cases who with
      | log => simp [Pc.calm] at hc
      | run =>
        obtain ⟨k1, k2, k3, k4⟩ := create_procattr_log_child Who.run e.log_pipe e.log_attr s
        simp only [main_step] at h
        rcases hp : create_procattr_log e.log_pipe e.log_attr s with ⟨b, s1⟩
        rw [hp] at h k1 k2 k3 k4
        simp only at k1 k2 k3 k4
        cases b
        · simp only [Except.ok.injEq] at h
          subst h
          exact ⟨mk s1 [] k2 (by rw [k1]) (by rw [k1]) (by rw [k1]) (by simp [k4]) (by simp),
            rfl, fun ht => k3.trans ht⟩
        · simp only [Except.ok.injEq] at h
          subst h
          exact ⟨mk s1 [] k2 (by rw [k1]) (by rw [k1]) (by rw [k1]) (by simp [k4]) (by simp),
            rfl, fun ht => k3.trans ht⟩
    | run =>
      cases who with
      | run => simp [Pc.calm] at hc
      | log =>
        simp only [main_step] at h
        rcases hp : create_procattr_run e.run_attr e.run_fwd s with f | ⟨b, s1⟩
        · rw [hp] at h
          cases h
        · obtain ⟨k1, k2, k3, k4⟩ := create_procattr_run_child Who.log _ _ _ _ _ hp
          rw [hp] at h
          cases b
          · simp only [Except.ok.injEq] at h
            subst h
            exact ⟨mk s1 [] k2 (by rw [k1]) (by rw [k1]) (by rw [k1]) (by simp [k4]) (by simp),
              rfl, fun ht => k3.trans ht⟩
          · simp only [Except.ok.injEq] at h
            subst h
            exact ⟨mk s1 [] k2 (by rw [k1]) (by rw [k1]) (by rw [k1]) (by simp [k4]) (by simp),
              rfl, fun ht => k3.trans ht⟩
  | timer w =>
    have hw : w ≠ who := by
      intro e1
      subst e1
      simp [Pc.calm] at hc
    simp only [main_step, Except.ok.injEq] at h
    subst h
    obtain ⟨k1, k2, k3, k4⟩ := start_child_timer_child w who s
    exact ⟨mk _ [Event.start_attempt w] k2 (by rw [k1]) (by rw [k1]) (by rw [k1]) k4
      (by simpa using fun e1 => hw e1.symm), by simpa [Pc.calm] using hw, fun _ => k3⟩
  | count w =>
    have hw : w ≠ who := by
      intro e1
      subst e1
      simp [Pc.calm] at hc
    simp only [main_step, Except.ok.injEq] at h
    subst h
    obtain ⟨k1, k2, k3, k4, k5, k6⟩ := start_child_count_child w who s
    exact ⟨mk _ [] k4 (k3 (fun e1 => hw e1.symm)) k1 k2 (by simp [k6]) (by simp),
      by simpa [Pc.calm] using hw, fun ht => k5.trans ht⟩
  | exec w =>
    have hw : w ≠ who := by
      intro e1
      subst e1
      simp [Pc.calm] at hc
    simp only [main_step, Except.ok.injEq] at h
    subst h
    obtain ⟨k1, k2, k3, k4, k5, k6⟩ := start_child_exec_child w who (e.outcome w) s
    refine ⟨mk _ [] k4 k3 k1 k2 (by simp [k6]) (by simp), ?_, fun ht => k5.trans ht⟩
    cases w <;> rfl
  | ignchld w => simp [Pc.calm] at hc
  | term w i => simp [Pc.calm] at hc
  | reset_starts w => simp [Pc.calm] at hc
  | reset_suspended w => simp [Pc.calm] at hc
  | reset_periods w => simp [Pc.calm] at hc
  | reset_ignchld w => simp [Pc.calm] at hc

/-- A command other than KILL and TERMINATE is finished at once, and writes
what `command_output` says. -/
theorem begin_command_signal (NSIG cmd : Nat) (s : Monitor)
    (hx : cmd ≠ MONITOR_CMD_TERMINATE) (hk : cmd ≠ MONITOR_CMD_KILL)
    (hs : s.flag_stop = false) :
    begin_command NSIG cmd s =
      { pc := .idle, st := { s with trace := s.trace ++ command_output NSIG cmd s } } := by
  obtain ⟨f1, f2, f3, f4, f5, p1, p2, p3, r, l, t⟩ := s
  simp only at hs
  subst hs
  unfold begin_command command_output signal_child emit child
  simp only [hx, hk, if_false, Bool.or_false, decide_False, Bool.false_eq_true]
  by_cases hw : cmd = MONITOR_CMD_WAKEUP
  · simp [hw]
  · by_cases hr : 0 < cmd ∧ cmd < NSIG
    · by_cases hp : r.pid = 0 <;> simp [hw, hp, hr.1, hr.2]
    · have h2 : 0 < cmd → ¬ cmd < NSIG := fun h0 h1 => hr ⟨h0, h1⟩
      simp [hw, hr, h2]

/-- A step of the monitor other than a tick and other than a KILL or
TERMINATE command, taken while the child `who` is suspended and the main
flow is not inside the start of `who`. -/
theorem mstep_quiet (NSIG : Nat) (who : Who) (o : MOp) (c c1 : Config)
    (ho : o.disturbs = false) (hstop : c.st.flag_stop = false)
    (hc : c.pc.calm who = true) (hs : (child who c.st).suspended = true)
    (h : mstep NSIG o c = .ok c1) :
    Quiet who c.st c1.st ∧ c1.pc.calm who = true ∧
    (c.st.flag_timer = true → c1.st.flag_timer = true) := by
  cases o with
  | reap l =>
    simp only [mstep] at h
    split_ifs at h
    · simp only [Except.ok.injEq] at h
      subst h
      exact ⟨Quiet_of_frame who (check_children_frame l c.st), rfl,
        fun ht => (check_children_frame l c.st).flag_timer.trans ht⟩
    · simp only [Except.ok.injEq] at h
      subst h
      exact ⟨Quiet_refl _ _, hc, id⟩
  | start e =>
    simp only [mstep] at h
    split_ifs at h
    all_goals
      simp only [Except.ok.injEq] at h
      subst h
      first
        | exact ⟨Quiet_refl _ _, hc, id⟩
        | exact ⟨Quiet_refl _ _, rfl, id⟩
  | command cmd =>
    simp only [MOp.disturbs, Bool.or_eq_false_iff, beq_eq_false_iff_ne] at ho
    simp only [mstep] at h
    split_ifs at h
    · simp only [Except.ok.injEq] at h
      subst h
      have hb := begin_command_signal NSIG cmd c.st ho.2 ho.1 hstop
      rw [hb]
      refine ⟨⟨rfl, by cases who <;> rfl, by cases who <;> rfl, by cases who <;> rfl,
        command_output NSIG cmd c.st, rfl, ?_⟩, rfl, id⟩
      unfold command_output
      split_ifs <;> simp
    · simp only [Except.ok.injEq] at h
      subst h
      exact ⟨Quiet_refl _ _, hc, id⟩
  | next e reaped => exact main_step_quiet who e reaped c c1 hc hs h
  | alarm => cases ho
  | intr =>
    simp only [mstep, Except.ok.injEq] at h
    subst h
    exact ⟨⟨rfl, by cases who <;> rfl, by cases who <;> rfl, by cases who <;> rfl,
      [Event.command MONITOR_CMD_TERMINATE], rfl, by simp⟩, hc, id⟩
  | wakeup =>
    simp only [mstep, Except.ok.injEq] at h
    subst h
    exact ⟨⟨rfl, by cases who <;> rfl, by cases who <;> rfl, by cases who <;> rfl,
      [Event.command MONITOR_CMD_WAKEUP], rfl, by simp⟩, hc, id⟩

/-- Between ticks, without KILL or TERMINATE, a suspended child stays as it
is, no start of it is attempted, and the main flow does not enter its
start. -/
theorem mrun_quiet (NSIG : Nat) (who : Who) (os : List MOp) (c c1 : Config)
    (ho : ∀ o ∈ os, o.disturbs = false) (hstop : c.st.flag_stop = false)
    (hc : c.pc.calm who = true) (hs : (child who c.st).suspended = true)
    (h : mrun NSIG os c = .ok c1) :
    Quiet who c.st c1.st ∧ c1.pc.calm who = true ∧
    (c.st.flag_timer = true → c1.st.flag_timer = true) := by
  induction os generalizing c with
  | nil =>
    simp only [mrun, Except.ok.injEq] at h
    subst h
    exact ⟨Quiet_refl _ _, hc, id⟩
  | cons o os ih =>
    simp only [mrun] at h
    rcases ha : mstep NSIG o c with f | t
    · rw [ha] at h
      cases h
    · rw [ha] at h
      obtain ⟨q1, p1, t1⟩ := mstep_quiet NSIG who o c t (ho o (by simp)) hstop hc hs ha
      obtain ⟨q2, p2, t2⟩ := ih t (fun o' ho' => ho o' (List.mem_cons_of_mem _ ho'))
        (by rw [q1.flag_stop]; exact hstop) p1 (by rw [q1.suspended]; exact hs) h
      exact ⟨Quiet_trans q1 q2, p2, fun ht => t2 (t1 ht)⟩

theorem check_suspension_child_periods (c : child_proc)
    (h : c.suspended = false → c.suspended_periods = 0) :
    (check_suspension_child c).2.suspended = false →
    (check_suspension_child c).2.suspended_periods = 0 := by
  obtain ⟨pid, starts, susp, per⟩ := c
  simp only at h
  unfold check_suspension_child
  cases susp
  · have hp := h rfl
    subst hp
    simp only [Bool.false_eq_true, if_false]
    split_ifs <;> simp
  · simp only [if_true]
    split_ifs <;> simp

theorem check_suspension_child_returns (c : child_proc)
    (h : (check_suspension_child c).2.suspended = true) :
    (check_suspension_child c).1 = true := by
  obtain ⟨pid, starts, susp, per⟩ := c
  unfold check_suspension_child at h ⊢
  cases susp
  · simp only [Bool.false_eq_true, if_false] at h ⊢
    split_ifs at h ⊢
    all_goals simp_all
  · simp only [if_true] at h ⊢
    split_ifs at h ⊢
    all_goals simp_all

/-- A tick that leaves a child suspended leaves the timer as it is. -/
theorem handle_alarm_timer (who : Who) (s : Monitor)
    (h : (child who (handle_alarm s)).suspended = true) :
    (handle_alarm s).flag_timer = s.flag_timer := by
  rw [(handle_alarm_child who s).1] at h
  have hr := check_suspension_child_returns _ h
  unfold handle_alarm
  simp only [check_suspension_eq, child, set_child]
  cases who
  · simp only [child] at hr
    simp [hr]
  · simp only [child] at hr
    simp [hr]

theorem begin_command_child (NSIG cmd : Nat) (s : Monitor) (w : Who) :
    child w (begin_command NSIG cmd s).st = child w s ∧
    ∀ v, (begin_command NSIG cmd s).pc ≠ .reset_periods v := by
  unfold begin_command signal_child emit close_pipe
  simp only
  split_ifs <;> cases w <;> exact ⟨rfl, fun v hv => by cases hv⟩

theorem term_round_child (w v : Who) (sig : Nat) (l : List Nat) (s : Monitor) :
    (child w (check_children l (signal_child v sig s))).suspended = (child w s).suspended ∧
    (child w (check_children l (signal_child v sig s))).suspended_periods =
      (child w s).suspended_periods := by
  have f1 := check_children_frame l (signal_child v sig s)
  have f2 := (signal_child_frame v sig s).1
  cases w
  · exact ⟨f1.run_suspended.trans f2.run_suspended, f1.run_periods.trans f2.run_periods⟩
  · exact ⟨f1.log_suspended.trans f2.log_suspended, f1.log_periods.trans f2.log_periods⟩

/-- Outside the statement between `child->suspended = 0` and
`child->suspended_periods = 0` of `terminate_child`, an unsuspended child has
suspended-period counter 0: every step keeps this. -/
theorem mstep_periods (NSIG : Nat) (o : MOp) (c c1 : Config) (h : mstep NSIG o c = .ok c1)
    (hi : ∀ w, c.pc ≠ .reset_periods w → (child w c.st).suspended = false →
      (child w c.st).suspended_periods = 0) :
    ∀ w, c1.pc ≠ .reset_periods w → (child w c1.st).suspended = false →
      (child w c1.st).suspended_periods = 0 := by
  obtain ⟨pc, s⟩ := c
  simp only at hi
  have keep : ∀ (pc1 : Pc) (t : Monitor),
      (∀ w, pc = .reset_periods w → pc1 = .reset_periods w) →
      (∀ w, (child w t).suspended = (child w s).suspended ∧
        (child w t).suspended_periods = (child w s).suspended_periods) →
      ∀ w, pc1 ≠ .reset_periods w → (child w t).suspended = false →
        (child w t).suspended_periods = 0 := by
    intro pc1 t hp hf w hw hsus
    rw [(hf w).2]
    exact hi w (fun e => hw (hp w e)) (by rw [← (hf w).1]; exact hsus)
  cases o with
  | reap l =>
    simp only [mstep] at h
    split_ifs at h with hpc
    · simp only [Except.ok.injEq] at h
      subst h
      simp only at hpc
      subst hpc
      refine keep _ _ (fun w e => e) (fun w => ?_)
      have f := check_children_frame l s
      cases w
      · exact ⟨f.run_suspended, f.run_periods⟩
      · exact ⟨f.log_suspended, f.log_periods⟩
    · simp only [Except.ok.injEq] at h
      subst h
      exact hi
  | start e =>
    simp only [mstep] at h
    split_ifs at h with hpc
    · simp only [Except.ok.injEq] at h
      subst h
      exact hi
    · simp only [Except.ok.injEq] at h
      subst h
      simp only at hpc
      subst hpc
      exact keep _ _ (fun w e => by cases e) (fun w => ⟨rfl, rfl⟩)
    · simp only [Except.ok.injEq] at h
      subst h
      exact hi
  | command cmd =>
    simp only [mstep] at h
    split_ifs at h with hpc
    · simp only [Except.ok.injEq] at h
      subst h
      simp only at hpc
      subst hpc
      intro w hw
      have hb := begin_command_child NSIG cmd s w
      rw [hb.1]
      exact hi w (fun e => by cases e)
    · simp only [Except.ok.injEq] at h
      subst h
      exact hi
  | alarm =>
    simp only [mstep] at h
    split_ifs at h
    · simp only [Except.ok.injEq] at h
      subst h
      intro w hw
      simp only at hw ⊢
      rw [(handle_alarm_child w s).1]
      exact check_suspension_child_periods _ (hi w hw)
    · simp only [Except.ok.injEq] at h
      subst h
      exact hi
  | intr =>
    simp only [mstep, Except.ok.injEq] at h
    subst h
    exact keep _ _ (fun w e => e) (fun w => by cases w <;> exact ⟨rfl, rfl⟩)
  | wakeup =>
    simp only [mstep, Except.ok.injEq] at h
    subst h
    exact keep _ _ (fun w e => e) (fun w => by cases w <;> exact ⟨rfl, rfl⟩)
  | next e reaped =>
    simp only [mstep] at h
    cases pc with
    | idle =>
      simp only [main_step, Except.ok.injEq] at h
      subst h
      exact hi
    | guard v =>
      cases v <;> simp only [main_step] at h <;> split_ifs at h <;>
        simp only [Except.ok.injEq] at h <;> subst h <;>
        exact keep _ _ (fun w e => by cases e) (fun w => ⟨rfl, rfl⟩)
    | attr v =>
      cases v with
      | log =>
        simp only [main_step] at h
        rcases hp : create_procattr_log e.log_pipe e.log_attr s with ⟨b, s1⟩
        have hk : ∀ w, child w s1 = child w s := by
          intro w
          have := (create_procattr_log_child w e.log_pipe e.log_attr s).1
          rw [hp] at this
          exact this
        rw [hp] at h
        cases b <;> simp only [Except.ok.injEq] at h <;> subst h <;>
          exact keep _ _ (fun w e => by cases e) (fun w => by rw [hk w]; exact ⟨rfl, rfl⟩)
      | run =>
        simp only [main_step] at h
        rcases hp : create_procattr_run e.run_attr e.run_fwd s with f | ⟨b, s1⟩
        · rw [hp] at h
          cases h
        · have hk : ∀ w, child w s1 = child w s :=
            fun w => (create_procattr_run_child w _ _ _ _ _ hp).1
          rw [hp] at h
          cases b <;> simp only [Except.ok.injEq] at h <;> subst h <;>
            exact keep _ _ (fun w e => by cases e) (fun w => by rw [hk w]; exact ⟨rfl, rfl⟩)
    | timer v =>
      simp only [main_step, Except.ok.injEq] at h
      subst h
      exact keep _ _ (fun w e => by cases e)
        (fun w => by rw [(start_child_timer_child v w s).1]; exact ⟨rfl, rfl⟩)
    | count v =>
      simp only [main_step, Except.ok.injEq] at h
      subst h
      exact keep _ _ (fun w e => by cases e)
        (fun w => ⟨(start_child_count_child v w s).1, (start_child_count_child v w s).2.1⟩)
    | exec v =>
      simp only [main_step, Except.ok.injEq] at h
      subst h
      exact keep _ _ (fun w e => by cases e)
        (fun w => ⟨(start_child_exec_child v w _ s).1, (start_child_exec_child v w _ s).2.1⟩)
    | ignchld v =>
      simp only [main_step, Except.ok.injEq] at h
      subst h
      exact keep _ _ (fun w e => by cases e) (fun w => by cases w <;> exact ⟨rfl, rfl⟩)
    | term v i =>
      simp only [main_step] at h
      split_ifs at h
      · simp only [Except.ok.injEq] at h
        subst h
        exact keep _ _ (fun w e => by cases e) (fun w => ⟨rfl, rfl⟩)
      · rcases hg : sigs[i]? with _ | sig
        · rw [hg] at h
          cases h
        · rw [hg] at h
          simp only at h
          split_ifs at h <;> simp only [Except.ok.injEq] at h <;> subst h <;>
            exact keep _ _ (fun w e => by cases e) (fun w => term_round_child w v sig reaped s)
    | reset_starts v =>
      simp only [main_step, Except.ok.injEq] at h
      subst h
      exact keep _ _ (fun w e => by cases e)
        (fun w => by cases v <;> cases w <;> exact ⟨rfl, rfl⟩)
    | reset_suspended v =>
      simp only [main_step, Except.ok.injEq] at h
      subst h
      intro w hw
      have hne : v ≠ w := fun e => hw (by rw [e])
      have hk : child w (set_child v { child v s with suspended := false } s) = child w s := by
        cases v <;> cases w <;> first | rfl | exact absurd rfl hne
      simp only
      rw [hk]
      exact hi w (fun e => by cases e)
    | reset_periods v =>
      simp only [main_step, Except.ok.injEq] at h
      subst h
      intro w _
      by_cases hvw : v = w
      · subst hvw
        intro _
        cases v <;> rfl
      · have hk : child w (set_child v { child v s with suspended_periods := 0 } s) =
            child w s := by
          cases v <;> cases w <;> first | rfl | exact absurd rfl hvw
        simp only
        rw [hk]
        exact hi w (fun e => hvw (by cases e; rfl))
    | reset_ignchld v =>
      simp only [main_step, Except.ok.injEq] at h
      subst h
      intro w _
      have hk : child w { s with flag_ignchld := false } = child w s := by cases w <;> rfl
      simp only
      rw [hk]
      exact hi w (fun e => by cases e)

theorem MReachable.unsuspended_periods {NSIG : Nat} {c : Config} (h : MReachable NSIG c) :
    ∀ w, c.pc ≠ .reset_periods w → (child w c.st).suspended = false →
      (child w c.st).suspended_periods = 0 := by
  induction h with
  | init =>
    intro w _ _
    cases w <;> rfl
  | step o _ _ _ hs ih => exact mstep_periods NSIG o _ _ hs ih

theorem calm_not_reset (who w : Who) (pc : Pc) (h : pc.calm who = true) :
    pc ≠ .reset_periods w := by
  intro e
  subst e
  simp [Pc.calm] at h

/-- C2, amended. Signals are delivered between any two statements of the
main flow, and each SIGALRM is one timer period. Take a tick at which a child
is not suspended and its start counter exceeds `CHILD_MAXSTARTS`, the main
flow being in the loop or in `start_children` but not between the test that
guards the start of this child and the return of `start_child` for it. That
tick suspends the child. As long as no KILL or TERMINATE command is read, the
child is still suspended after each of the next two ticks and after every
step the monitor takes between the ticks (statements of `start_children`,
reaping, other commands, other signals); at none of these moments is the main
flow inside the start of the child, and no start of it is attempted; the
third following tick lifts the suspension and writes WAKEUP. The timer is active at each of
these ticks, so each of them is a step of the monitor. -/
theorem bounded_flapping (NSIG : Nat) (who : Who) (c c1 c2 c3 : Config)
    (o1 o2 o3 : List MOp) (hr : MReachable NSIG c) (hstop : c.st.flag_stop = false)
    (ht : c.st.flag_timer = true) (hpc : c.pc.calm who = true)
    (hu : (child who c.st).suspended = false)
    (hst : (child who c.st).starts > CHILD_MAXSTARTS)
    (h1 : ∀ o ∈ o1, o.disturbs = false) (h2 : ∀ o ∈ o2, o.disturbs = false)
    (h3 : ∀ o ∈ o3, o.disturbs = false)
    (e1 : mrun NSIG o1 (alarm_tick c) = .ok c1)
    (e2 : mrun NSIG o2 (alarm_tick c1) = .ok c2)
    (e3 : mrun NSIG o3 (alarm_tick c2) = .ok c3) :
    mstep NSIG .alarm c = .ok (alarm_tick c) ∧ mstep NSIG .alarm c1 = .ok (alarm_tick c1) ∧
    mstep NSIG .alarm c2 = .ok (alarm_tick c2) ∧ mstep NSIG .alarm c3 = .ok (alarm_tick c3) ∧
    (child who (alarm_tick c).st).suspended = true ∧ (child who c1.st).suspended = true ∧
    (child who (alarm_tick c1).st).suspended = true ∧ (child who c2.st).suspended = true ∧
    (child who (alarm_tick c2).st).suspended = true ∧ (child who c3.st).suspended = true ∧
    (child who (alarm_tick c3).st).suspended = false ∧
    Event.command MONITOR_CMD_WAKEUP ∈ (alarm_tick c3).st.trace.drop c3.st.trace.length ∧
    Event.start_attempt who ∉ (alarm_tick c3).st.trace.drop c.st.trace.length ∧
    c1.pc.calm who = true ∧ c2.pc.calm who = true ∧ c3.pc.calm who = true ∧
    (∀ (p q : List MOp) (d : Config), o1 = p ++ q → mrun NSIG p (alarm_tick c) = .ok d →
      (child who d.st).suspended = true ∧ d.pc.calm who = true) ∧
    (∀ (p q : List MOp) (d : Config), o2 = p ++ q → mrun NSIG p (alarm_tick c1) = .ok d →
      (child who d.st).suspended = true ∧ d.pc.calm who = true) ∧
    (∀ (p q : List MOp) (d : Config), o3 = p ++ q → mrun NSIG p (alarm_tick c2) = .ok d →
      (child who d.st).suspended = true ∧ d.pc.calm who = true) := by
  have tk : ∀ d : Config, d.st.flag_timer = true → mstep NSIG .alarm d = .ok (alarm_tick d) := by
    intro d hd
    simp [mstep, alarm_tick, hd]
  have hp0 : (child who c.st).suspended_periods = 0 :=
    hr.unsuspended_periods who (calm_not_reset who who c.pc hpc) hu
  -- tick 0
  obtain ⟨a1, a2, t0, a3, a4, -⟩ := handle_alarm_child who c.st
  obtain ⟨b1, b2⟩ := tick_suspends (child who c.st) hu hst
  rw [← a1] at b1 b2
  rw [hp0] at b2
  have ht0 : (alarm_tick c).st.flag_timer = true := (handle_alarm_timer who c.st b1).trans ht
  obtain ⟨q1, p1, u1⟩ := mrun_quiet NSIG who o1 (alarm_tick c) c1 h1 (a2.trans hstop) hpc b1 e1
  have c1s : (child who c1.st).suspended = true := q1.suspended.trans b1
  have c1p : (child who c1.st).suspended_periods = 0 := q1.periods.trans b2
  have hs1 : c1.st.flag_stop = false := q1.flag_stop.trans (a2.trans hstop)
  have ht1 : c1.st.flag_timer = true := u1 ht0
  -- tick 1
  obtain ⟨a5, a6, t1, a7, a8, -⟩ := handle_alarm_child who c1.st
  obtain ⟨b3, -⟩ := tick_suspended (child who c1.st) c1s
  obtain ⟨b4, b5⟩ := b3 (by rw [c1p]; decide)
  rw [← a5] at b4 b5
  rw [c1p] at b5
  have ht1' : (alarm_tick c1).st.flag_timer = true := (handle_alarm_timer who c1.st b4).trans ht1
  obtain ⟨q2, p2, u2⟩ := mrun_quiet NSIG who o2 (alarm_tick c1) c2 h2 (a6.trans hs1) p1 b4 e2
  have c2s : (child who c2.st).suspended = true := q2.suspended.trans b4
  have c2p : (child who c2.st).suspended_periods = 0 + 1 := q2.periods.trans b5
  have hs2 : c2.st.flag_stop = false := q2.flag_stop.trans (a6.trans hs1)
  have ht2 : c2.st.flag_timer = true := u2 ht1'
  -- tick 2
  obtain ⟨a9, a10, t2, a11, a12, -⟩ := handle_alarm_child who c2.st
  obtain ⟨b6, -⟩ := tick_suspended (child who c2.st) c2s
  obtain ⟨b7, b8⟩ := b6 (by rw [c2p]; decide)
  rw [← a9] at b7 b8
  rw [c2p] at b8
  have ht2' : (alarm_tick c2).st.flag_timer = true := (handle_alarm_timer who c2.st b7).trans ht2
  obtain ⟨q3, p3, u3⟩ := mrun_quiet NSIG who o3 (alarm_tick c2) c3 h3 (a10.trans hs2) p2 b7 e3
  have c3s : (child who c3.st).suspended = true := q3.suspended.trans b7
  have c3p : (child who c3.st).suspended_periods = 0 + 1 + 1 := q3.periods.trans b8
  have ht3 : c3.st.flag_timer = true := u3 ht2'
  -- tick 3
  obtain ⟨a13, a14, t3, a15, a16, a17⟩ := handle_alarm_child who c3.st
  obtain ⟨-, b9⟩ := tick_suspended (child who c3.st) c3s
  have hge : (child who c3.st).suspended_periods + 1 ≥ CHILD_SUSPENSION := by rw [c3p]; decide
  have b10 := b9 hge
  rw [← a13] at b10
  obtain ⟨r1, d1, d2⟩ := q1.trace
  obtain ⟨r2, d3, d4⟩ := q2.trace
  obtain ⟨r3, d5, d6⟩ := q3.trace
  refine ⟨tk c ht, tk c1 ht1, tk c2 ht2, tk c3 ht3, b1, c1s, b4, c2s, b7, c3s, b10, ?_, ?_,
    p1, p2, p3, ?_, ?_, ?_⟩
  · show _ ∈ (handle_alarm c3.st).trace.drop c3.st.trace.length
    rw [a15]
    simp only [List.drop_left]
    exact a17 c3s hge
  · show _ ∉ (handle_alarm c3.st).trace.drop c.st.trace.length
    have d1' : c1.st.trace = (handle_alarm c.st).trace ++ r1 := d1
    have d3' : c2.st.trace = (handle_alarm c1.st).trace ++ r2 := d3
    have d5' : c3.st.trace = (handle_alarm c2.st).trace ++ r3 := d5
    rw [a15, d5', a11, d3', a7, d1', a3]
    simp only [List.append_assoc, List.drop_left]
    simp [a4 who, d2, a8 who, d4, a12 who, d6, a16 who]
  · intro p q d hpq hd
    obtain ⟨g1, g2, -⟩ := mrun_quiet NSIG who p (alarm_tick c) d
      (fun o ho => h1 o (by rw [hpq]; exact List.mem_append_left _ ho)) (a2.trans hstop) hpc b1 hd
    exact ⟨g1.suspended.trans b1, g2⟩
  · intro p q d hpq hd
    obtain ⟨g1, g2, -⟩ := mrun_quiet NSIG who p (alarm_tick c1) d
      (fun o ho => h2 o (by rw [hpq]; exact List.mem_append_left _ ho)) (a6.trans hs1) p1 b4 hd
    exact ⟨g1.suspended.trans b4, g2⟩
  · intro p q d hpq hd
    obtain ⟨g1, g2, -⟩ := mrun_quiet NSIG who p (alarm_tick c2) d
      (fun o ho => h3 o (by rw [hpq]; exact List.mem_append_left _ ho)) (a10.trans hs2) p2 b7 hd
    exact ⟨g1.suspended.trans b7, g2⟩

/-- C2 amended, for run in the state `flapping` with the main flow in the
loop: between the first two ticks `start_children` is gone through and SIGHUP
is forwarded to run. -/
theorem bounded_flapping_witness :
    MReachable 65 { pc := .idle, st := flapping } ∧ flapping.flag_stop = false ∧
    flapping.flag_timer = true ∧
    (child Who.run flapping).suspended = false ∧
    (child Who.run flapping).starts > CHILD_MAXSTARTS ∧
    mrun 65 [.start (env_ok true 7 8), .next (env_ok true 7 8) [], .next (env_ok true 7 8) [],
      .command 1] (alarm_tick { pc := .idle, st := flapping }) =
      .ok { pc := .idle, st := run_suspended } ∧
    (child Who.run (handle_alarm flapping)).suspended = true ∧
    (child Who.run (handle_alarm run_suspended)).suspended = true ∧
    (child Who.run (handle_alarm (handle_alarm run_suspended))).suspended = true ∧
    (child Who.run (handle_alarm (handle_alarm (handle_alarm run_suspended)))).suspended =
      false ∧
    Event.start_attempt Who.run ∉
      (handle_alarm (handle_alarm (handle_alarm run_suspended))).trace.drop
        flapping.trace.length := by
  have h := bounded_flapping 65 Who.run { pc := .idle, st := flapping }
    { pc := .idle, st := run_suspended } (alarm_tick { pc := .idle, st := run_suspended })
    (alarm_tick (alarm_tick { pc := .idle, st := run_suspended }))
    [.start (env_ok true 7 8), .next (env_ok true 7 8) [], .next (env_ok true 7 8) [],
      .command 1] [] []
    flapping_reachable.machine rfl rfl rfl rfl (by decide) (by decide) (by simp) (by simp)
    rfl rfl rfl
  exact ⟨flapping_reachable.machine, rfl, rfl, rfl, by decide, rfl, h.2.2.2.2.1,
    h.2.2.2.2.2.2.1, h.2.2.2.2.2.2.2.2.1, h.2.2.2.2.2.2.2.2.2.2.1,
    h.2.2.2.2.2.2.2.2.2.2.2.2.1⟩

/-! ## KILL and TERMINATE -/

/-- The function `terminate_child` returns; it only sends signals to the
child, resets the child's flap state, and leaves flags and pipes alone. -/
theorem terminate_child_total (who : Who) (reaped : Nat → List Nat) (s : Monitor) :
    ∃ (n : Nat) (s1 : Monitor),
      terminate_child who reaped s = .ok s1 ∧ n ≤ 5 ∧
      s1.trace = s.trace ++ (sigs.take n).map (Event.signal who) ∧
      s1.flag_stop = s.flag_stop ∧ s1.flag_intr = s.flag_intr ∧
      s1.pipe_stdin = s.pipe_stdin ∧ s1.pipe_runlog0 = s.pipe_runlog0 ∧
      s1.pipe_runlog1 = s.pipe_runlog1 ∧
      (child who s1).suspended = false ∧
      (∀ w, w ≠ who → (child w s1).suspended = (child w s).suspended) ∧
      (∀ w, (child w s).pid = 0 → (child w s1).pid = 0) := by
  obtain ⟨n, t, e1, e2, e3, -⟩ :=
    terminate_loop_spec who reaped sigs 0 { s with flag_ignchld := true } sigs_KillLast
  obtain ⟨f, g, -, -⟩ := terminate_loop_frame who reaped sigs 0 _ t e1
  have g1 := f.flag_stop
  have g2 := f.flag_intr
  have g3 := f.pipe_stdin
  have g4 := f.pipe_runlog0
  have g5 := f.pipe_runlog1
  have g6 := f.run_suspended
  have g7 := f.log_suspended
  simp only at g1 g2 g3 g4 g5 g6 g7
  refine ⟨n, _, by unfold terminate_child; rw [e1], by simpa [sigs] using e2, ?_, ?_, ?_, ?_,
    ?_, ?_, ?_, ?_, ?_⟩
  · cases who <;> simpa [set_child] using e3
  · cases who <;> simpa [set_child] using g1
  · cases who <;> simpa [set_child] using g2
  · cases who <;> simpa [set_child] using g3
  · cases who <;> simpa [set_child] using g4
  · cases who <;> simpa [set_child] using g5
  · cases who <;> rfl
  · intro w hw
    cases who <;> cases w <;> first
      | exact absurd rfl hw
      | simpa [set_child, child] using g6
      | simpa [set_child, child] using g7
  · intro w hw
    have hw' : (child w { s with flag_ignchld := true }).pid = 0 := by
      cases w <;> exact hw
    rcases g w with h | h
    · cases who <;> cases w <;> simpa [set_child, child] using h
    · rw [hw'] at h
      cases who <;> cases w <;> simpa [set_child, child] using h

/-- TERMINATE acts like KILL on the state in which the stop flag has been set
and `monitor/stdin` closed. -/
theorem parse_command_terminate (NSIG : Nat) (rr rl : Nat → List Nat) (s : Monitor) :
    parse_command NSIG MONITOR_CMD_TERMINATE rr rl s =
      parse_command NSIG MONITOR_CMD_KILL rr rl
        { s with flag_stop := true, pipe_stdin := false } := by
  unfold parse_command
  simp [MONITOR_CMD_TERMINATE, MONITOR_CMD_KILL]

/-- A child whose pid is never among the reaped pids keeps its pid through
the loop of `terminate_child`. -/
theorem terminate_loop_keep (who w : Who) (reaped : Nat → List Nat) :
    ∀ (rest : List Nat) (i : Nat) (s s1 : Monitor),
      terminate_loop who reaped rest i s = .ok s1 →
      (∀ k, (child w s).pid ∉ reaped k) → (child w s1).pid = (child w s).pid := by
  intro rest
  induction rest with
  | nil =>
    intro i s s1 h _
    simp only [terminate_loop] at h
    split_ifs at h
    cases h
    rfl
  | cons sig rest ih =>
    intro i s s1 h hk
    rw [terminate_loop_cons] at h
    have hstep : (child w (check_children (reaped i) (signal_child who sig s))).pid =
        (child w s).pid := by
      rw [check_children_pid_not_mem w _ _ (by rw [signal_child_child]; exact hk i),
        signal_child_child]
    split_ifs at h
    · cases h
      rfl
    · cases h
      exact hstep
    · rw [ih _ _ _ h (by rw [hstep]; exact hk), hstep]

/-- Every call of `terminate_child` returns, and the returned state stands in
the relation `Terminated` to the state of the call. -/
theorem terminate_child_terminated (who : Who) (reaped : Nat → List Nat) (s : Monitor) :
    ∃ (n : Nat) (t : Monitor), Terminated who reaped n s t := by
  have hc : ∀ w : Who, child w { s with flag_ignchld := true } = child w s := by
    intro w; cases w <;> rfl
  obtain ⟨n, u, e1, e2, e3, e4, e5, e6, e7, e8⟩ :=
    terminate_loop_spec who reaped sigs 0 { s with flag_ignchld := true } sigs_KillLast
  obtain ⟨f, g, -, -⟩ := terminate_loop_frame who reaped sigs 0 _ u e1
  have hkeep := fun w => terminate_loop_keep who w reaped sigs 0 _ u e1
  simp only [hc, Nat.zero_add] at e4 e5 e7 e8 g hkeep
  have g1 := f.flag_stop
  have g2 := f.flag_intr
  have g3 := f.pipe_stdin
  have g4 := f.pipe_runlog0
  have g5 := f.pipe_runlog1
  have g6 := f.run_suspended
  have g7 := f.log_suspended
  have g8 := f.run_starts
  have g9 := f.log_starts
  have g10 := f.run_periods
  have g11 := f.log_periods
  simp only at g1 g2 g3 g4 g5 g6 g7 g8 g9 g10 g11
  refine ⟨n, _, ⟨by unfold terminate_child; rw [e1], by simpa [sigs] using e2, ?_, e4, e5, ?_,
    ?_, e8, ?_, ?_, ?_, ?_, ?_, ?_, ?_, ?_⟩⟩
  · cases who <;> simpa [set_child] using e3
  · intro h
    have := e6 (by simpa [sigs] using h)
    cases who <;> simpa [set_child, child] using this
  · intro j hj h1 h2 h3 h4
    exact e7 j (by simpa [sigs] using hj) h1 h2 h3 h4
  · cases who <;> rfl
  · cases who <;> rfl
  · cases who <;> rfl
  · cases who <;> rfl
  · cases who <;> exact ⟨g1, g2, g3, g4, g5⟩
  · intro w hw
    cases who <;> cases w <;> first
      | exact absurd rfl hw
      | exact ⟨g8, g6, g10⟩
      | exact ⟨g9, g7, g11⟩
  · intro w
    rcases g w with h | h
    · left
      cases who <;> cases w <;> simpa [set_child, child] using h
    · right
      cases who <;> cases w <;> simpa [set_child, child] using h
  · intro w hw
    have := hkeep w hw
    cases who <;> cases w <;> simpa [set_child, child] using this

/-- What KILL does: close the pipe, terminate run, then log. -/
theorem parse_command_kill (NSIG : Nat) (rr rl : Nat → List Nat) (s : Monitor) :
    ∃ (n m : Nat) (t s1 : Monitor),
      Terminated Who.run rr n (close_pipe s) t ∧ Terminated Who.log rl m t s1 ∧
      parse_command NSIG MONITOR_CMD_KILL rr rl s = .ok s1 ∧
      s1.trace = s.trace ++ (sigs.take n).map (Event.signal Who.run) ++
        (sigs.take m).map (Event.signal Who.log) ∧
      (n < 5 → s1.run.pid = 0) ∧ (m < 5 → s1.log.pid = 0) ∧
      (s.run.pid = 0 → s1.run.pid = 0) ∧ (s.log.pid = 0 → s1.log.pid = 0) ∧
      s1.run.starts = 0 ∧ s1.run.suspended = false ∧ s1.run.suspended_periods = 0 ∧
      s1.log.starts = 0 ∧ s1.log.suspended = false ∧ s1.log.suspended_periods = 0 ∧
      s1.flag_ignchld = false ∧
      s1.flag_stop = s.flag_stop ∧ s1.flag_intr = s.flag_intr ∧
      s1.pipe_stdin = s.pipe_stdin ∧
      s1.pipe_runlog0 = false ∧ s1.pipe_runlog1 = false := by
  obtain ⟨n, t, a⟩ := terminate_child_terminated Who.run rr (close_pipe s)
  obtain ⟨m, u, b⟩ := terminate_child_terminated Who.log rl t
  have hrun0 : ∀ x : Monitor, (child Who.run x).pid = x.run.pid := fun _ => rfl
  have keep0 : t.run.pid = 0 → u.run.pid = 0 := by
    intro h
    rcases b.pid_cases Who.run with h1 | h1
    · exact h1
    · exact h1.trans h
  obtain ⟨o1, o2, o3⟩ := b.other_flap Who.run (by decide)
  obtain ⟨a1, a2, a3, a4, a5⟩ := a.flags
  obtain ⟨b1, b2, b3, b4, b5⟩ := b.flags
  refine ⟨n, m, t, u, a, b, ?_, ?_, fun h => keep0 (a.gone h), b.gone, ?_, ?_,
    o1.trans a.starts, o2.trans a.suspended, o3.trans a.periods,
    b.starts, b.suspended, b.periods, b.ignchld,
    b1.trans a1, b2.trans a2, b3.trans a3, b4.trans a4, b5.trans a5⟩
  · unfold parse_command
    simp only [MONITOR_CMD_KILL, MONITOR_CMD_TERMINATE]
    simp only [show ¬ ('k'.toNat = 'x'.toNat) by decide, if_false, decide_True, Bool.true_or,
      if_true]
    rw [a.returns]
    exact b.returns
  · rw [b.signals, a.signals]; rfl
  · intro h
    apply keep0
    rcases a.pid_cases Who.run with h1 | h1
    · exact h1
    · exact h1.trans h
  · intro h
    have ht : t.log.pid = 0 := by
      rcases a.pid_cases Who.log with h1 | h1
      · exact h1
      · exact h1.trans h
    rcases b.pid_cases Who.log with h1 | h1
    · exact h1
    · exact h1.trans ht

theorem monitor_loop_cons (NSIG : Nat) (inp : IterInput) (rest : List IterInput)
    (s s1 : Monitor) (h : monitor_iter NSIG inp s = .ok s1) :
    monitor_loop NSIG (inp :: rest) s =
      if s1.flag_stop then .ok s1 else monitor_loop NSIG rest s1 := by
  simp only [monitor_loop, h]

theorem monitor_iter_command (NSIG : Nat) (inp : IterInput) (s0 s : Monitor) (cmd : Nat)
    (h : start_children inp.env (check_children inp.reaped s0) = .ok s)
    (hc : inp.cmd = some cmd) :
    monitor_iter NSIG inp s0 = parse_command NSIG cmd inp.rr inp.rl s := by
  simp only [monitor_iter, h, hc]

/-- C5. In a reachable state with the loop running, `parse_command('k')`
closes both ends of the run-to-log pipe and terminates run, then log: each
`terminate_child` returns and stands in the relation `Terminated` (a running
child gets TERM, TERM, INT, QUIT, KILL in this order until it is reaped, at
least one signal, and with fewer than five signals it is gone), the trace
gains the signals to run followed by the signals to log and nothing else,
the flap fields of both children and `flag_ignchld` are reset. The stop flag
stays clear and `monitor/stdin` open, so the loop goes on to its next
iteration, where `start_children` starts both children again once they are
gone (given `monitor/up`, no interrupt, and attempts that succeed).
`parse_command('x')` is the same on the state with the stop flag set and
`monitor/stdin` closed, and after it the loop ends at once: the remaining
iterations are not run, so no child is started again. -/
theorem kill_keeps_terminate_stops (NSIG : Nat) (rr rl : Nat → List Nat) (s : Monitor)
    (hr : Reachable NSIG s) (hstop : s.flag_stop = false) :
    (∃ (n m : Nat) (t sk : Monitor),
      Terminated Who.run rr n (close_pipe s) t ∧ Terminated Who.log rl m t sk ∧
      parse_command NSIG MONITOR_CMD_KILL rr rl s = .ok sk ∧
      sk.trace = s.trace ++ (sigs.take n).map (Event.signal Who.run) ++
        (sigs.take m).map (Event.signal Who.log) ∧
      (s.run.pid ≠ 0 → 1 ≤ n) ∧ (n < 5 → sk.run.pid = 0) ∧
      (s.log.pid ≠ 0 → (∀ k, s.log.pid ∉ rr k) → 1 ≤ m) ∧ (m < 5 → sk.log.pid = 0) ∧
      sk.run.starts = 0 ∧ sk.run.suspended = false ∧ sk.run.suspended_periods = 0 ∧
      sk.log.starts = 0 ∧ sk.log.suspended = false ∧ sk.log.suspended_periods = 0 ∧
      sk.flag_ignchld = false ∧
      sk.flag_stop = false ∧ sk.pipe_stdin = true ∧
      sk.pipe_runlog0 = false ∧ sk.pipe_runlog1 = false ∧
      (∀ (inp : IterInput) (rest : List IterInput) (s0 : Monitor),
        start_children inp.env (check_children inp.reaped s0) = .ok s →
        inp.cmd = some MONITOR_CMD_KILL → inp.rr = rr → inp.rl = rl →
        monitor_loop NSIG (inp :: rest) s0 = monitor_loop NSIG rest sk) ∧
      (∀ (l : List Nat) (lp rp : Nat), s.flag_intr = false → sk.run.pid = 0 →
        sk.log.pid = 0 → 0 < lp → 0 < rp →
        ∃ s1, start_children (env_ok true lp rp) (check_children l sk) = .ok s1 ∧
          0 < s1.run.pid ∧ 0 < s1.log.pid)) ∧
    (∃ (n m : Nat) (t sx : Monitor),
      Terminated Who.run rr n (close_pipe { s with flag_stop := true, pipe_stdin := false }) t ∧
      Terminated Who.log rl m t sx ∧
      parse_command NSIG MONITOR_CMD_TERMINATE rr rl s = .ok sx ∧
      parse_command NSIG MONITOR_CMD_KILL rr rl
        { s with flag_stop := true, pipe_stdin := false } = .ok sx ∧
      sx.trace = s.trace ++ (sigs.take n).map (Event.signal Who.run) ++
        (sigs.take m).map (Event.signal Who.log) ∧
      (s.run.pid ≠ 0 → 1 ≤ n) ∧ (n < 5 → sx.run.pid = 0) ∧
      (s.log.pid ≠ 0 → (∀ k, s.log.pid ∉ rr k) → 1 ≤ m) ∧ (m < 5 → sx.log.pid = 0) ∧
      sx.flag_stop = true ∧ sx.pipe_stdin = false ∧
      sx.pipe_runlog0 = false ∧ sx.pipe_runlog1 = false ∧
      (∀ (inp : IterInput) (rest : List IterInput) (s0 : Monitor),
        start_children inp.env (check_children inp.reaped s0) = .ok s →
        inp.cmd = some MONITOR_CMD_TERMINATE → inp.rr = rr → inp.rl = rl →
        monitor_loop NSIG (inp :: rest) s0 = .ok sx)) := by
  have hin := (hr.inv).stdin_open hstop
  have hlog : ∀ (x t : Monitor) (n m : Nat) (u : Monitor), x.log.pid = s.log.pid →
      Terminated Who.run rr n x t → Terminated Who.log rl m t u →
      s.log.pid ≠ 0 → (∀ k, s.log.pid ∉ rr k) → 1 ≤ m := by
    intro x t n m u hx a b h0 hk
    apply b.running
    have := a.pid_kept Who.log (by simpa [child, hx] using hk)
    simp only [child] at this ⊢
    rw [this, hx]
    exact h0
  constructor
  · obtain ⟨n, m, t, sk, a, b, c1, c2, c3, c4, -, -, d1, d2, d3, d4, d5, d6, d7, f1, f2, f3,
      f4, f5⟩ := parse_command_kill NSIG rr rl s
    refine ⟨n, m, t, sk, a, b, c1, c2, a.running, c3, hlog (close_pipe s) t n m sk rfl a b, c4,
      d1, d2, d3, d4, d5, d6, d7, f1.trans hstop, f3.trans hin, f4, f5, ?_, ?_⟩
    · intro inp rest s0 h1 h2 h3 h4
      have hi : monitor_iter NSIG inp s0 = .ok sk := by
        rw [monitor_iter_command NSIG inp s0 s _ h1 h2, h3, h4]; exact c1
      rw [monitor_loop_cons NSIG inp rest s0 sk hi, f1.trans hstop]
      rfl
    · intro l lp rp hi hr0 hl0 hlp hrp
      have f := check_children_frame l sk
      apply start_children_both _ lp rp
      · rw [f.pipe_stdin]; exact f3.trans hin
      · rw [f.flag_intr]; exact f2.trans hi
      · rw [f.run_suspended]; exact d2
      · rw [f.log_suspended]; exact d5
      · exact hlp
      · exact hrp
      · intro _
        exact Or.inl (check_children_run_zero l sk hr0)
      · intro h
        exact absurd (check_children_log_zero l sk hl0) h
  · obtain ⟨n, m, t, sx, a, b, c1, c2, c3, c4, -, -, -, -, -, -, -, -, -, f1, -, f3, f4, f5⟩ :=
      parse_command_kill NSIG rr rl { s with flag_stop := true, pipe_stdin := false }
    have a0 : parse_command NSIG MONITOR_CMD_TERMINATE rr rl s = .ok sx := by
      rw [parse_command_terminate]; exact c1
    refine ⟨n, m, t, sx, a, b, a0, c1, c2, a.running, c3, hlog (close_pipe { s with flag_stop := true, pipe_stdin := false }) t n m sx rfl a b, c4,
      f1, f3, f4, f5, ?_⟩
    intro inp rest s0 h1 h2 h3 h4
    have hi : monitor_iter NSIG inp s0 = .ok sx := by
      rw [monitor_iter_command NSIG inp s0 s _ h1 h2, h3, h4]; exact a0
    rw [monitor_loop_cons NSIG inp rest s0 sx hi, f1]
    rfl

/-- C5 at the state `both_running`, with run exiting on the first SIGTERM and
log on the second: KILL sends one signal to run and two to log, both are
gone, and the loop goes on; TERMINATE sets the stop flag. -/
theorem kill_keeps_terminate_stops_witness :
    Reachable 65 both_running ∧ both_running.flag_stop = false ∧
    (∃ sk : Monitor,
      parse_command 65 MONITOR_CMD_KILL (fun i => if i = 0 then [100] else [])
        (fun i => if i = 1 then [101] else []) both_running = .ok sk ∧
      sk.trace = both_running.trace ++
        [Event.signal Who.run SIGTERM, Event.signal Who.log SIGTERM,
         Event.signal Who.log SIGTERM] ∧
      sk.run.pid = 0 ∧ sk.log.pid = 0 ∧
      sk.flag_stop = false ∧ sk.pipe_runlog0 = false ∧ sk.pipe_runlog1 = false) ∧
    (∃ sx : Monitor,
      parse_command 65 MONITOR_CMD_TERMINATE (fun i => if i = 0 then [100] else [])
        (fun i => if i = 1 then [101] else []) both_running = .ok sx ∧
      sx.run.pid = 0 ∧ sx.log.pid = 0 ∧
      sx.flag_stop = true ∧ sx.pipe_stdin = false) := by
  obtain ⟨⟨n, m, t, sk, a, b, k1, k2, -, k3, -, k4, -, -, -, -, -, -, -, k5, -, k6, k7, -⟩,
      ⟨n', m', t', sx, a', b', x1, -, -, -, x2, -, x3, x4, x5, -⟩⟩ :=
    kill_keeps_terminate_stops 65 (fun i => if i = 0 then [100] else [])
      (fun i => if i = 1 then [101] else []) both_running both_running_reachable rfl
  have hn : n = 1 := a.first_reaped 0 (by decide) (by decide) (by intro k hk; omega)
    (by decide) (Or.inl rfl)
  have ht : t.log.pid = 101 := a.pid_kept Who.log (by
    intro k
    show (101 : Nat) ∉ (if k = 0 then [100] else [])
    split_ifs <;> simp)
  have htr : t.run.pid = 0 := a.gone (by omega)
  have hm : m = 2 := b.first_reaped 1 (by decide)
    (by simp only [child]; rw [ht]; decide)
    (by
      intro k hk
      have : k = 0 := by omega
      subst this
      simp only [child]
      rw [ht]
      decide)
    (by simp only [child]; rw [ht]; decide)
    (Or.inr (by rw [ht, htr]; decide))
  have hn' : n' = 1 := a'.first_reaped 0 (by decide) (by decide) (by intro k hk; omega)
    (by decide) (Or.inl rfl)
  have ht' : t'.log.pid = 101 := a'.pid_kept Who.log (by
    intro k
    show (101 : Nat) ∉ (if k = 0 then [100] else [])
    split_ifs <;> simp)
  have htr' : t'.run.pid = 0 := a'.gone (by omega)
  have hm' : m' = 2 := b'.first_reaped 1 (by decide)
    (by simp only [child]; rw [ht']; decide)
    (by
      intro k hk
      have : k = 0 := by omega
      subst this
      simp only [child]
      rw [ht']
      decide)
    (by simp only [child]; rw [ht']; decide)
    (Or.inr (by rw [ht', htr']; decide))
  refine ⟨both_running_reachable, rfl, ⟨sk, k1, ?_, k3 (by omega), k4 (by omega), k5, k6, k7⟩,
    ⟨sx, x1, x2 (by omega), x3 (by omega), x4, x5⟩⟩
  rw [k2, hn, hm]
  rfl

/-! ## Decoding: validity -/

theorem and_255 (x : Nat) : x &&& 0xFF = x % 256 :=
  Nat.and_pow_two_sub_one_eq_mod x 8

theorem and_15 (x : Nat) : x &&& 0xF = x % 16 :=
  Nat.and_pow_two_sub_one_eq_mod x 4

theorem to_uchar_val (v : Nat) : (to_uchar v).val = v % 256 := rfl

theorem shift_in_eq (w x : Nat) (b : Fin 256) (h : x * 256 + b.val < 2 ^ w) :
    shift_in w x b = x * 256 + b.val := by
  unfold shift_in
  rw [Nat.shiftLeft_eq]
  have h1 : x * 2 ^ 8 = x * 256 := by norm_num
  have h2 : x * 256 < 2 ^ w := by omega
  rw [h1, Nat.mod_eq_of_lt h2, Nat.mod_eq_of_lt h]

theorem be_value_lt (s : Bytes) (off n : Nat) : be_value s off n < 256 ^ n := by
  induction n with
  | zero => simp [be_value]
  | succ n ih =>
    have hb := (s (off + n)).isLt
    simp only [be_value, pow_succ]
    omega

/-- The function `ngim_tai_unpack` decodes the big-endian value of the 8 bytes
and accepts it when it is at most `TAI_MAX_SEC`. -/
theorem ngim_tai_unpack_eq (s : Bytes) (off : Nat) :
    ngim_tai_unpack s off =
      (if be_value s off 8 ≤ TAI_MAX_SEC then 1 else 0, { x := be_value s off 8 }) := by
  have e1 : (s off).val = be_value s off 1 := by simp [be_value]
  have step : ∀ n, n < 8 → shift_in 64 (be_value s off n) (s (off + n)) =
      be_value s off (n + 1) := by
    intro n hn
    apply shift_in_eq
    have h1 := be_value_lt s off (n + 1)
    have h2 : (256 : Nat) ^ (n + 1) ≤ 256 ^ 8 := Nat.pow_le_pow_right (by decide) (by omega)
    have h3 : (256 : Nat) ^ 8 = 2 ^ 64 := by norm_num
    simp only [be_value] at h1
    omega
  unfold ngim_tai_unpack
  simp only [e1, step 1 (by decide), step 2 (by decide), step 3 (by decide),
    step 4 (by decide), step 5 (by decide), step 6 (by decide), step 7 (by decide)]

theorem ngim_tain_unpack_eq (s : Bytes) (off : Nat) (t0 : ngim_tain_t) :
    ngim_tain_unpack s off t0 =
      if be_value s off 8 ≤ TAI_MAX_SEC then
        (if be_value s (off + 8) 4 ≤ TAI_MAX_NA then 1 else 0,
          { sec := { x := be_value s off 8 }, nano := be_value s (off + 8) 4 })
      else (0, { sec := { x := be_value s off 8 }, nano := t0.nano }) := by
  have e1 : (s (off + 8)).val = be_value s (off + 8) 1 := by simp [be_value]
  have step : ∀ n, n < 4 → shift_in 32 (be_value s (off + 8) n) (s (off + 8 + n)) =
      be_value s (off + 8) (n + 1) := by
    intro n hn
    apply shift_in_eq
    have h1 := be_value_lt s (off + 8) (n + 1)
    have h2 : (256 : Nat) ^ (n + 1) ≤ 256 ^ 4 := Nat.pow_le_pow_right (by decide) (by omega)
    have h3 : (256 : Nat) ^ 4 = 2 ^ 32 := by norm_num
    simp only [be_value] at h1
    omega
  unfold ngim_tain_unpack
  simp only [ngim_tai_unpack_eq, NGIM_TAI_PACK, e1, step 1 (by decide), step 2 (by decide),
    step 3 (by decide)]
  split_ifs <;> simp_all

/-- C9. The function `ngim_tai_unpack` returns non-zero if and only if the 8
input bytes, read big-endian, give a value below 2^63; `ngim_tain_unpack`
returns non-zero if and only if that holds for the first 8 bytes and the next
4 bytes, read big-endian, give a value below 10^9. -/
theorem unpack_validity (s : Bytes) (off : Nat) (t0 : ngim_tain_t) :
    ((ngim_tai_unpack s off).1 ≠ 0 ↔ be_value s off 8 < 2 ^ 63) ∧
    ((ngim_tain_unpack s off t0).1 ≠ 0 ↔
      (be_value s off 8 < 2 ^ 63 ∧ be_value s (off + 8) 4 < 10 ^ 9)) := by
  rw [ngim_tai_unpack_eq, ngim_tain_unpack_eq]
  unfold TAI_MAX_SEC TAI_MAX_NA
  constructor
  · simp only
    split_ifs <;> constructor <;> intro h <;> omega
  · split_ifs <;> constructor <;> intro h <;> omega

theorem be_value_8 (s : Bytes) (off : Nat) :
    be_value s off 8 =
      (((((((s off).val * 256 + (s (off + 1)).val) * 256 + (s (off + 2)).val) * 256 +
        (s (off + 3)).val) * 256 + (s (off + 4)).val) * 256 + (s (off + 5)).val) * 256 +
        (s (off + 6)).val) * 256 + (s (off + 7)).val := by
  simp [be_value]

theorem be_value_4 (s : Bytes) (off : Nat) :
    be_value s off 4 =
      (((s off).val * 256 + (s (off + 1)).val) * 256 + (s (off + 2)).val) * 256 +
        (s (off + 3)).val := by
  simp [be_value]

/-! ## Encoding -/

/-- The bytes `ngim_tai_pack` writes: byte `k` of the 8 is byte `7 - k` of
`x`, and nothing outside the 8 bytes changes. -/
theorem ngim_tai_pack_bytes (s : Bytes) (off : Nat) (t : ngim_tai_t) :
    ((ngim_tai_pack s off t) off).val = t.x / 256 ^ 7 % 256 ∧
    ((ngim_tai_pack s off t) (off + 1)).val = t.x / 256 ^ 6 % 256 ∧
    ((ngim_tai_pack s off t) (off + 2)).val = t.x / 256 ^ 5 % 256 ∧
    ((ngim_tai_pack s off t) (off + 3)).val = t.x / 256 ^ 4 % 256 ∧
    ((ngim_tai_pack s off t) (off + 4)).val = t.x / 256 ^ 3 % 256 ∧
    ((ngim_tai_pack s off t) (off + 5)).val = t.x / 256 ^ 2 % 256 ∧
    ((ngim_tai_pack s off t) (off + 6)).val = t.x / 256 % 256 ∧
    ((ngim_tai_pack s off t) (off + 7)).val = t.x % 256 ∧
    ∀ j, (j < off ∨ off + 8 ≤ j) → (ngim_tai_pack s off t) j = s j := by
  unfold ngim_tai_pack
  simp only [store, to_uchar_val, and_255, Nat.shiftRight_eq_div_pow]
  refine ⟨?_, ?_, ?_, ?_, ?_, ?_, ?_, ?_, ?_⟩
  · simp [to_uchar_val]; omega
  · simp [to_uchar_val]; omega
  · simp [to_uchar_val]; omega
  · simp [to_uchar_val]; omega
  · simp [to_uchar_val]; omega
  · simp [to_uchar_val]; omega
  · simp [to_uchar_val]
  · simp [to_uchar_val]
  · intro j hj
    have h0 : j ≠ off := by omega
    have h1 : j ≠ off + 1 := by omega
    have h2 : j ≠ off + 2 := by omega
    have h3 : j ≠ off + 3 := by omega
    have h4 : j ≠ off + 4 := by omega
    have h5 : j ≠ off + 5 := by omega
    have h6 : j ≠ off + 6 := by omega
    have h7 : j ≠ off + 7 := by omega
    simp [h0, h1, h2, h3, h4, h5, h6, h7]

theorem ngim_tai_pack_value (s : Bytes) (off : Nat) (t : ngim_tai_t) (h : t.x < 2 ^ 64) :
    be_value (ngim_tai_pack s off t) off 8 = t.x := by
  obtain ⟨h0, h1, h2, h3, h4, h5, h6, h7, -⟩ := ngim_tai_pack_bytes s off t
  rw [be_value_8, h0, h1, h2, h3, h4, h5, h6, h7]
  omega

/-- The bytes `ngim_tain_pack` writes. -/
theorem ngim_tain_pack_bytes (s : Bytes) (off : Nat) (t : ngim_tain_t) :
    (∀ k, k < 8 → (ngim_tain_pack s off t) (off + k) = (ngim_tai_pack s off t.sec) (off + k)) ∧
    ((ngim_tain_pack s off t) (off + 8)).val = t.nano / 256 ^ 3 % 256 ∧
    ((ngim_tain_pack s off t) (off + 9)).val = t.nano / 256 ^ 2 % 256 ∧
    ((ngim_tain_pack s off t) (off + 10)).val = t.nano / 256 % 256 ∧
    ((ngim_tain_pack s off t) (off + 11)).val = t.nano % 256 ∧
    ∀ j, (j < off ∨ off + 12 ≤ j) → (ngim_tain_pack s off t) j = s j := by
  unfold ngim_tain_pack
  simp only [store, to_uchar_val, and_255, Nat.shiftRight_eq_div_pow, NGIM_TAI_PACK]
  refine ⟨?_, ?_, ?_, ?_, ?_, ?_⟩
  · intro k hk
    have h0 : off + k ≠ off + 8 := by omega
    have h1 : off + k ≠ off + 8 + 1 := by omega
    have h2 : off + k ≠ off + 8 + 2 := by omega
    have h3 : off + k ≠ off + 8 + 3 := by omega
    simp [h0, h1, h2, h3]
  · simp [to_uchar_val]; omega
  · simp [to_uchar_val]; omega
  · simp [to_uchar_val]
  · simp [to_uchar_val]
  · intro j hj
    have h0 : j ≠ off + 8 := by omega
    have h1 : j ≠ off + 8 + 1 := by omega
    have h2 : j ≠ off + 8 + 2 := by omega
    have h3 : j ≠ off + 8 + 3 := by omega
    simp only [h0, h1, h2, h3, if_false]
    exact (ngim_tai_pack_bytes s off t.sec).2.2.2.2.2.2.2.2 j (by omega)

theorem be_value_congr (s q : Bytes) (off n : Nat) (h : ∀ k, k < n → s (off + k) = q (off + k)) :
    be_value s off n = be_value q off n := by
  induction n with
  | zero => rfl
  | succ n ih =>
    simp only [be_value]
    rw [ih (fun k hk => h k (by omega)), h n (by omega)]

theorem ngim_tain_pack_value (s : Bytes) (off : Nat) (t : ngim_tain_t)
    (hx : t.sec.x < 2 ^ 64) (hn : t.nano < 2 ^ 32) :
    be_value (ngim_tain_pack s off t) off 8 = t.sec.x ∧
    be_value (ngim_tain_pack s off t) (off + 8) 4 = t.nano := by
  obtain ⟨h0, h1, h2, h3, h4, -⟩ := ngim_tain_pack_bytes s off t
  constructor
  · rw [be_value_congr _ _ off 8 h0]
    exact ngim_tai_pack_value s off t.sec hx
  · rw [be_value_4]
    rw [show off + 8 + 1 = off + 9 by omega, show off + 8 + 2 = off + 10 by omega,
      show off + 8 + 3 = off + 11 by omega, h1, h2, h3, h4]
    omega

/-! ## Textual form -/

theorem hex_hi_eq (b : Fin 256) : hex_hi b = nibble_to_hex.getD (b.val / 16) '0' := by
  unfold hex_hi
  rw [and_15, Nat.shiftRight_eq_div_pow]
  have := b.isLt
  congr 1
  omega

theorem hex_lo_eq (b : Fin 256) : hex_lo b = nibble_to_hex.getD (b.val % 16) '0' := by
  unfold hex_lo
  rw [and_15]

theorem nibble_to_hex_mem (n : Nat) (h : n < 16) : nibble_to_hex.getD n '0' ∈ nibble_to_hex := by
  interval_cases n <;> decide

theorem format_textual_loop_spec (p : Bytes) (l : Nat) :
    ∀ (s : Chars) (i : Nat), (format_textual_loop p l s) i =
      if 1 ≤ i ∧ i ≤ 2 * l then
        (if i % 2 = 1 then hex_hi (p ((i - 1) / 2)) else hex_lo (p ((i - 2) / 2)))
      else s i := by
  induction l with
  | zero =>
    intro s i
    have : ¬ (1 ≤ i ∧ i ≤ 2 * 0) := by omega
    simp only [format_textual_loop, this, if_false]
  | succ l ih =>
    intro s i
    simp only [format_textual_loop]
    rw [ih]
    by_cases h1 : 1 ≤ i ∧ i ≤ 2 * l
    · have h2 : 1 ≤ i ∧ i ≤ 2 * (l + 1) := by omega
      rw [if_pos h1, if_pos h2]
    · rw [if_neg h1]
      unfold store
      by_cases h3 : i = 2 * l + 2
      · have h2 : 1 ≤ i ∧ i ≤ 2 * (l + 1) := by omega
        have h4 : ¬ i % 2 = 1 := by omega
        have h5 : (i - 2) / 2 = l := by omega
        rw [if_pos h3, if_pos h2, if_neg h4, h5]
        rfl
      · rw [if_neg h3]
        by_cases h6 : i = 2 * l + 1
        · have h2 : 1 ≤ i ∧ i ≤ 2 * (l + 1) := by omega
          have h4 : i % 2 = 1 := by omega
          have h5 : (i - 1) / 2 = l := by omega
          rw [if_pos h6, if_pos h2, if_pos h4, h5]
          rfl
        · have h2 : ¬ (1 ≤ i ∧ i ≤ 2 * (l + 1)) := by omega
          rw [if_neg h6, if_neg h2]

/-- What `format_textual` writes: `'@'` at index 0, the two digits of byte `k`
at indices `2k + 1` and `2k + 2`, and nothing from index `2l + 1` on. -/
theorem format_textual_spec (s : Chars) (p : Bytes) (l : Nat) :
    (format_textual s p l) 0 = '@' ∧
    (∀ k, k < l → (format_textual s p l) (2 * k + 1) = hex_hi (p k) ∧
      (format_textual s p l) (2 * k + 2) = hex_lo (p k)) ∧
    (∀ i, 2 * l + 1 ≤ i → (format_textual s p l) i = s i) := by
  unfold format_textual
  refine ⟨?_, ?_, ?_⟩
  · rw [format_textual_loop_spec]
    simp [store]
  · intro k hk
    constructor
    · rw [format_textual_loop_spec]
      have h1 : 1 ≤ 2 * k + 1 ∧ 2 * k + 1 ≤ 2 * l := by omega
      have h2 : (2 * k + 1) % 2 = 1 := by omega
      have h3 : (2 * k + 1 - 1) / 2 = k := by omega
      rw [if_pos h1, if_pos h2, h3]
    · rw [format_textual_loop_spec]
      have h1 : 1 ≤ 2 * k + 2 ∧ 2 * k + 2 ≤ 2 * l := by omega
      have h2 : ¬ (2 * k + 2) % 2 = 1 := by omega
      have h3 : (2 * k + 2 - 2) / 2 = k := by omega
      rw [if_pos h1, if_neg h2, h3]
  · intro i hi
    rw [format_textual_loop_spec]
    have h1 : ¬ (1 ≤ i ∧ i ≤ 2 * l) := by omega
    have h2 : i ≠ 0 := by omega
    rw [if_neg h1]
    simp [store, h2]

/-- C10. For every label, `ngim_tain_format` writes exactly the 25 characters
at indices 0 to 24: `'@'`, then for each of the 12 packed bytes in order its
high-nibble digit and its low-nibble digit, each digit taken from
`0123456789abcdef`; the packed bytes are the seconds as 8 bytes big-endian
followed by the nanoseconds as 4 bytes big-endian. Likewise `ngim_tai_format`
writes the 17 characters `'@'` and the 16 digits of the 8 packed bytes. -/
theorem format_shape (s : Chars) (t : ngim_tain_t) :
    ((ngim_tain_format s t) 0 = '@' ∧
     (∀ k, k < 12 →
       (ngim_tain_format s t) (2 * k + 1) =
         nibble_to_hex.getD ((ngim_tain_pack local_bytes 0 t k).val / 16) '0' ∧
       (ngim_tain_format s t) (2 * k + 2) =
         nibble_to_hex.getD ((ngim_tain_pack local_bytes 0 t k).val % 16) '0') ∧
     (∀ i, 1 ≤ i → i ≤ 24 → (ngim_tain_format s t) i ∈ nibble_to_hex) ∧
     (∀ i, 25 ≤ i → (ngim_tain_format s t) i = s i) ∧
     (∀ k, k < 8 → (ngim_tain_pack local_bytes 0 t k).val = t.sec.x / 256 ^ (7 - k) % 256) ∧
     (∀ k, 8 ≤ k → k < 12 →
       (ngim_tain_pack local_bytes 0 t k).val = t.nano / 256 ^ (11 - k) % 256)) ∧
    ((ngim_tai_format s t.sec) 0 = '@' ∧
     (∀ k, k < 8 →
       (ngim_tai_format s t.sec) (2 * k + 1) =
         nibble_to_hex.getD ((ngim_tai_pack local_bytes 0 t.sec k).val / 16) '0' ∧
       (ngim_tai_format s t.sec) (2 * k + 2) =
         nibble_to_hex.getD ((ngim_tai_pack local_bytes 0 t.sec k).val % 16) '0') ∧
     (∀ i, 1 ≤ i → i ≤ 16 → (ngim_tai_format s t.sec) i ∈ nibble_to_hex) ∧
     (∀ i, 17 ≤ i → (ngim_tai_format s t.sec) i = s i) ∧
     (∀ k, k < 8 →
       (ngim_tai_pack local_bytes 0 t.sec k).val = t.sec.x / 256 ^ (7 - k) % 256)) := by
  have digits : ∀ (p : Bytes) (l i : Nat), 1 ≤ i → i ≤ 2 * l →
      (format_textual s p l) i ∈ nibble_to_hex := by
    intro p l i h1 h2
    obtain ⟨-, hk, -⟩ := format_textual_spec s p l
    have hb := fun k => (p k).isLt
    by_cases hodd : i % 2 = 1
    · have e : i = 2 * ((i - 1) / 2) + 1 := by omega
      rw [e, (hk ((i - 1) / 2) (by omega)).1, hex_hi_eq]
      exact nibble_to_hex_mem _ (by have := hb ((i - 1) / 2); omega)
    · have e : i = 2 * ((i - 2) / 2) + 2 := by omega
      rw [e, (hk ((i - 2) / 2) (by omega)).2, hex_lo_eq]
      exact nibble_to_hex_mem _ (by omega)
  have taib := ngim_tai_pack_bytes local_bytes 0 t.sec
  simp only [Nat.zero_add] at taib
  obtain ⟨b0, b1, b2, b3, b4, b5, b6, b7, -⟩ := taib
  have tai8 : ∀ k, k < 8 →
      (ngim_tai_pack local_bytes 0 t.sec k).val = t.sec.x / 256 ^ (7 - k) % 256 := by
    intro k hk
    interval_cases k
    · exact b0
    · exact b1
    · exact b2
    · exact b3
    · exact b4
    · exact b5
    · simpa using b6
    · simpa using b7
  have tainb := ngim_tain_pack_bytes local_bytes 0 t
  simp only [Nat.zero_add] at tainb
  obtain ⟨c0, c1, c2, c3, c4, -⟩ := tainb
  constructor
  · obtain ⟨f0, fk, fi⟩ := format_textual_spec s (ngim_tain_pack local_bytes 0 t) 12
    refine ⟨f0, ?_, ?_, ?_, ?_, ?_⟩
    · intro k hk
      have := fk k hk
      rw [hex_hi_eq, hex_lo_eq] at this
      exact this
    · intro i h1 h2
      exact digits _ 12 i h1 (by omega)
    · intro i hi
      exact fi i (by omega)
    · intro k hk
      rw [c0 k hk]
      exact tai8 k hk
    · intro k h1 h2
      interval_cases k
      · exact c1
      · exact c2
      · simpa using c3
      · simpa using c4
  · obtain ⟨f0, fk, fi⟩ := format_textual_spec s (ngim_tai_pack local_bytes 0 t.sec) 8
    refine ⟨f0, ?_, ?_, ?_, tai8⟩
    · intro k hk
      have := fk k hk
      rw [hex_hi_eq, hex_lo_eq] at this
      exact this
    · intro i h1 h2
      exact digits _ 8 i h1 (by omega)
    · intro i hi
      exact fi i (by omega)

/-! ## Round trips -/

theorem hex_to_nibble_digit : ∀ n : Fin 16, hex_to_nibble (nibble_to_hex.getD n.val '0') = n.val := by
  decide

theorem nibbles_or : ∀ h l : Fin 16,
    h.val * 2 ^ 4 ||| l.val % 16 = h.val * 16 + l.val := by
  decide

/-- Decoding the two digits of a byte gives the byte back. -/
theorem hex_byte_roundtrip (b : Fin 256) :
    to_uchar ((hex_to_nibble (hex_hi b) <<< 4) ||| (hex_to_nibble (hex_lo b) &&& 0xF)) = b := by
  have hb := b.isLt
  rw [hex_hi_eq, hex_lo_eq]
  have h1 := hex_to_nibble_digit ⟨b.val / 16, by omega⟩
  have h2 := hex_to_nibble_digit ⟨b.val % 16, by omega⟩
  simp only at h1 h2
  rw [h1, h2, and_15, Nat.shiftLeft_eq]
  have h3 := nibbles_or ⟨b.val / 16, by omega⟩ ⟨b.val % 16, by omega⟩
  simp only at h3
  rw [h3]
  apply Fin.ext
  rw [to_uchar_val]
  omega

theorem foldl_store_range {α : Type} (f : Nat → α) (n : Nat) (p : Nat → α) :
    ∀ i, ((List.range n).foldl (fun q i => store q i (f i)) p) i =
      if i < n then f i else p i := by
  induction n with
  | zero => intro i; simp
  | succ n ih =>
    intro i
    rw [List.range_succ, List.foldl_append]
    simp only [List.foldl_cons, List.foldl_nil, store]
    by_cases h : i = n
    · have h1 : i < n + 1 := by omega
      rw [if_pos h, if_pos h1, h]
    · rw [if_neg h, ih]
      by_cases h2 : i < n
      · have h1 : i < n + 1 := by omega
        rw [if_pos h2, if_pos h1]
      · have h1 : ¬ i < n + 1 := by omega
        rw [if_neg h2, if_neg h1]

/-- The helper `unformat_textual` undoes `format_textual`. -/
theorem unformat_format_textual (s : Chars) (p q : Bytes) (l : Nat) :
    (unformat_textual (format_textual s p l) q l).1 = 1 ∧
    ∀ i, i < l → (unformat_textual (format_textual s p l) q l).2 i = p i := by
  obtain ⟨f0, fk, -⟩ := format_textual_spec s p l
  unfold unformat_textual
  simp only [f0, ne_eq, not_true_eq_false, if_false, true_and]
  intro i hi
  rw [foldl_store_range (fun i => to_uchar ((hex_to_nibble (format_textual s p l (2 * i + 1)) <<< 4) |||
    (hex_to_nibble (format_textual s p l (2 * i + 2)) &&& 0xF))) l q i, if_pos hi]
  rw [(fk i hi).1, (fk i hi).2]
  exact hex_byte_roundtrip (p i)

theorem ngim_tai_unpack_congr (s q : Bytes) (off : Nat)
    (h : ∀ k, k < 8 → s (off + k) = q (off + k)) :
    ngim_tai_unpack s off = ngim_tai_unpack q off := by
  rw [ngim_tai_unpack_eq, ngim_tai_unpack_eq, be_value_congr s q off 8 h]

theorem ngim_tain_unpack_congr (s q : Bytes) (off : Nat) (t0 : ngim_tain_t)
    (h : ∀ k, k < 12 → s (off + k) = q (off + k)) :
    ngim_tain_unpack s off t0 = ngim_tain_unpack q off t0 := by
  rw [ngim_tain_unpack_eq, ngim_tain_unpack_eq,
    be_value_congr s q off 8 (fun k hk => h k (by omega)),
    be_value_congr s q (off + 8) 4 (fun k hk => by
      have := h (8 + k) (by omega)
      rwa [← Nat.add_assoc] at this)]

/-- C8. For every valid TAI64 label (`x < 2^63`) unpacking the packed label
and unformatting the formatted label both report success (return 1) and yield
the label; likewise for every valid TAI64N label (`x < 2^63` and
`nano ≤ 999999999`). -/
theorem tai_roundtrip (t : ngim_tain_t) (hx : t.sec.x < 2 ^ 63) (hn : t.nano ≤ 999999999)
    (sb : Bytes) (off : Nat) (sc : Chars) (t0 : ngim_tain_t) :
    ngim_tai_unpack (ngim_tai_pack sb off t.sec) off = (1, t.sec) ∧
    ngim_tai_unformat (ngim_tai_format sc t.sec) t0.sec = (1, t.sec) ∧
    ngim_tain_unpack (ngim_tain_pack sb off t) off t0 = (1, t) ∧
    ngim_tain_unformat (ngim_tain_format sc t) t0 = (1, t) := by
  have hx64 : t.sec.x < 2 ^ 64 := by omega
  have hn32 : t.nano < 2 ^ 32 := by omega
  have a1 : ∀ (b : Bytes) (o : Nat), ngim_tai_unpack (ngim_tai_pack b o t.sec) o = (1, t.sec) := by
    intro b o
    rw [ngim_tai_unpack_eq, ngim_tai_pack_value b o t.sec hx64]
    have : t.sec.x ≤ TAI_MAX_SEC := by unfold TAI_MAX_SEC; omega
    simp [this]
  have a2 : ∀ (b : Bytes) (o : Nat), ngim_tain_unpack (ngim_tain_pack b o t) o t0 = (1, t) := by
    intro b o
    obtain ⟨v1, v2⟩ := ngim_tain_pack_value b o t hx64 hn32
    rw [ngim_tain_unpack_eq, v1, v2]
    have h1 : t.sec.x ≤ TAI_MAX_SEC := by unfold TAI_MAX_SEC; omega
    have h2 : t.nano ≤ TAI_MAX_NA := hn
    simp [h1, h2]
  refine ⟨a1 sb off, ?_, a2 sb off, ?_⟩
  · obtain ⟨u1, u2⟩ := unformat_format_textual sc (ngim_tai_pack local_bytes 0 t.sec)
      local_bytes NGIM_TAI_PACK
    unfold ngim_tai_unformat ngim_tai_format
    simp only [u1, one_ne_zero, if_false]
    rw [ngim_tai_unpack_congr _ (ngim_tai_pack local_bytes 0 t.sec) 0
      (fun k hk => by rw [Nat.zero_add]; exact u2 k hk), a1]
    simp
  · obtain ⟨u1, u2⟩ := unformat_format_textual sc (ngim_tain_pack local_bytes 0 t)
      local_bytes NGIM_TAIN_PACK
    unfold ngim_tain_unformat ngim_tain_format
    simp only [u1, one_ne_zero, if_false]
    rw [ngim_tain_unpack_congr _ (ngim_tain_pack local_bytes 0 t) 0 t0
      (fun k hk => by rw [Nat.zero_add]; exact u2 k hk), a2]
    simp

/-- C8 at the label of 2001-09-09 01:46:40 UTC (10^9 s after the epoch) plus
half a second. -/
theorem tai_roundtrip_witness :
    ngim_tai_unpack
      (ngim_tai_pack (fun _ => 0) 0 { x := 4611686019427387914 }) 0 =
      (1, { x := 4611686019427387914 }) ∧
    ngim_tain_unformat
      (ngim_tain_format (fun _ => ' ')
        { sec := { x := 4611686019427387914 }, nano := 500000000 })
      { sec := { x := 0 }, nano := 0 } =
      (1, { sec := { x := 4611686019427387914 }, nano := 500000000 }) := by
  have h := tai_roundtrip { sec := { x := 4611686019427387914 }, nano := 500000000 }
    (by norm_num) (by norm_num) (fun _ => 0) 0 (fun _ => ' ') { sec := { x := 0 }, nano := 0 }
  exact ⟨h.1, h.2.2.2⟩

/-! ## Rotation monotonicity -/

theorem strcmp_cons_self (c : Char) (a b : List Char) :
    strcmp (c :: a) (c :: b) = strcmp a b := by
  simp [strcmp]

theorem chars_to_list_succ (s : Chars) (n : Nat) :
    chars_to_list s (n + 1) = chars_to_list s n ++ [s n] := by
  simp [chars_to_list, List.range_succ]

theorem chars_to_list_congr (s q : Chars) (n : Nat) (h : ∀ i, i < n → s i = q i) :
    chars_to_list s n = chars_to_list q n := by
  induction n with
  | zero => rfl
  | succ n ih =>
    rw [chars_to_list_succ, chars_to_list_succ, ih (fun i hi => h i (by omega)), h n (by omega)]

/-- The characters `format_textual` writes, as a string. -/
theorem chars_to_list_format (s : Chars) (p : Bytes) (l : Nat) :
    chars_to_list (format_textual s p l) (2 * l + 1) = '@' :: hex_string p l := by
  have key : ∀ m, m ≤ l →
      chars_to_list (format_textual s p l) (2 * m + 1) = '@' :: hex_string p m := by
    intro m
    induction m with
    | zero =>
      intro _
      have h0 := (format_textual_spec s p l).1
      simp [chars_to_list, List.range_succ, h0, hex_string]
    | succ m ih =>
      intro hm
      have e : 2 * (m + 1) + 1 = (2 * m + 1) + 1 + 1 := by omega
      rw [e, chars_to_list_succ, chars_to_list_succ, ih (by omega)]
      obtain ⟨-, fk, -⟩ := format_textual_spec s p l
      have h1 := (fk m (by omega)).1
      have h2 := (fk m (by omega)).2
      rw [show 2 * m + 1 + 1 = 2 * m + 2 by omega, h1, h2]
      simp [hex_string]
  exact key l (le_refl l)

theorem hex_string_eq (p : Bytes) (l : Nat) :
    hex_string p l = (nibbles p l).map (fun n => nibble_to_hex.getD n '0') := by
  induction l with
  | zero => rfl
  | succ l ih => simp [hex_string, nibbles, ih, hex_hi_eq, hex_lo_eq]

theorem nibbles_length (p : Bytes) (l : Nat) : (nibbles p l).length = 2 * l := by
  induction l with
  | zero => rfl
  | succ l ih => simp [nibbles, ih]; omega

theorem nibbles_lt (p : Bytes) (l : Nat) : ∀ d ∈ nibbles p l, d < 16 := by
  induction l with
  | zero => intro d hd; simp [nibbles] at hd
  | succ l ih =>
    intro d hd
    have hb := (p l).isLt
    simp only [nibbles, List.mem_append, List.mem_cons, List.mem_singleton,
      List.not_mem_nil, or_false] at hd
    rcases hd with hd | hd | hd
    · exact ih d hd
    · omega
    · omega

theorem nib_value_append (ds : List Nat) (d : Nat) :
    nib_value (ds ++ [d]) = nib_value ds * 16 + d := by
  simp [nib_value, List.foldl_append]

/-- The nibbles of the bytes spell the big-endian value of the bytes. -/
theorem nib_value_nibbles (p : Bytes) (l : Nat) :
    nib_value (nibbles p l) = be_value p 0 l := by
  induction l with
  | zero => rfl
  | succ l ih =>
    have hb := (p l).isLt
    have e : nibbles p (l + 1) = (nibbles p l ++ [(p l).val / 16]) ++ [(p l).val % 16] := by
      simp [nibbles]
    rw [e, nib_value_append, nib_value_append, ih]
    simp only [be_value, Nat.zero_add]
    omega

theorem nib_value_foldl (ds : List Nat) (acc : Nat) :
    ds.foldl (fun a d => a * 16 + d) acc = acc * 16 ^ ds.length + nib_value ds := by
  induction ds generalizing acc with
  | nil => simp [nib_value]
  | cons d ds ih =>
    simp only [List.foldl_cons, List.length_cons, nib_value]
    rw [ih, ih (0 * 16 + d)]
    ring

theorem nib_value_cons (d : Nat) (ds : List Nat) :
    nib_value (d :: ds) = d * 16 ^ ds.length + nib_value ds := by
  have h := nib_value_foldl ds (0 * 16 + d)
  simp only [nib_value, List.foldl_cons]
  rw [h]
  simp [nib_value]

theorem nib_value_lt (ds : List Nat) (h : ∀ d ∈ ds, d < 16) :
    nib_value ds < 16 ^ ds.length := by
  induction ds with
  | nil => simp [nib_value]
  | cons d ds ih =>
    rw [nib_value_cons]
    have h1 := ih (fun e he => h e (List.mem_cons_of_mem _ he))
    have h2 : d < 16 := h d (by simp)
    have h3 : (d + 1) * 16 ^ ds.length ≤ 16 * 16 ^ ds.length :=
      Nat.mul_le_mul_right _ (by omega)
    have h4 : (d + 1) * 16 ^ ds.length = d * 16 ^ ds.length + 16 ^ ds.length := by ring
    simp only [List.length_cons, pow_succ]
    omega

theorem hex_digit_order : ∀ n m : Fin 16,
    (nibble_to_hex.getD n.val '0' = nibble_to_hex.getD m.val '0' ↔ n = m) ∧
    (((nibble_to_hex.getD n.val '0').toNat : Int) - ((nibble_to_hex.getD m.val '0').toNat : Int) < 0
      ↔ n < m) := by
  decide

/-- Strings of hexadecimal digits of equal length compare like the numbers
they spell. -/
theorem strcmp_hex (a : List Nat) :
    ∀ b : List Nat, a.length = b.length → (∀ d ∈ a, d < 16) → (∀ d ∈ b, d < 16) →
      (strcmp (a.map (fun n => nibble_to_hex.getD n '0'))
          (b.map (fun n => nibble_to_hex.getD n '0')) < 0 ↔
        nib_value a < nib_value b) := by
  induction a with
  | nil =>
    intro b hl _ _
    cases b with
    | nil => simp [strcmp, nib_value]
    | cons y bs => simp at hl
  | cons x as ih =>
    intro b hl ha hb
    cases b with
    | nil => simp at hl
    | cons y bs =>
      have hl2 : as.length = bs.length := by simpa using hl
      have hx : x < 16 := ha x (by simp)
      have hy : y < 16 := hb y (by simp)
      have hva := nib_value_lt as (fun e he => ha e (List.mem_cons_of_mem _ he))
      have hvb := nib_value_lt bs (fun e he => hb e (List.mem_cons_of_mem _ he))
      rw [hl2] at hva
      obtain ⟨o1, o2⟩ := hex_digit_order ⟨x, hx⟩ ⟨y, hy⟩
      simp only [Fin.mk.injEq, Fin.mk_lt_mk] at o1 o2
      rw [nib_value_cons, nib_value_cons, hl2]
      simp only [List.map_cons, strcmp]
      by_cases hxy : x = y
      · subst hxy
        simp only [if_true]
        rw [ih bs hl2 (fun e he => ha e (List.mem_cons_of_mem _ he))
          (fun e he => hb e (List.mem_cons_of_mem _ he))]
        omega
      · rw [if_neg (fun e => hxy (o1.mp e)), o2]
        constructor
        · intro hlt
          have h3 : (x + 1) * 16 ^ bs.length ≤ y * 16 ^ bs.length :=
            Nat.mul_le_mul_right _ (by omega)
          have h4 : (x + 1) * 16 ^ bs.length = x * 16 ^ bs.length + 16 ^ bs.length := by ring
          omega
        · intro hlt
          by_contra hge
          have hyx : y < x := by omega
          have h3 : (y + 1) * 16 ^ bs.length ≤ x * 16 ^ bs.length :=
            Nat.mul_le_mul_right _ (by omega)
          have h4 : (y + 1) * 16 ^ bs.length = y * 16 ^ bs.length + 16 ^ bs.length := by ring
          omega

theorem be_value_split (s : Bytes) (off n m : Nat) :
    be_value s off (n + m) = be_value s off n * 256 ^ m + be_value s (off + n) m := by
  induction m with
  | zero => simp [be_value]
  | succ m ih =>
    rw [← Nat.add_assoc]
    simp only [be_value, ih, pow_succ, Nat.add_assoc]
    ring

/-- The archive name of a stamp is `'@'` and the 24 digits of the number
`x * 2^32 + nano`. -/
theorem archive_name_eq (t : ngim_tain_t) (hx : t.sec.x < 2 ^ 64) (hn : t.nano < 2 ^ 32) :
    archive_name t =
      '@' :: (nibbles (ngim_tain_pack local_bytes 0 t) 12).map
        (fun n => nibble_to_hex.getD n '0') ∧
    nib_value (nibbles (ngim_tain_pack local_bytes 0 t) 12) = t.sec.x * 2 ^ 32 + t.nano := by
  constructor
  · rw [← hex_string_eq]
    exact chars_to_list_format local_chars (ngim_tain_pack local_bytes 0 t) 12
  · rw [nib_value_nibbles, show (12 : Nat) = 8 + 4 by rfl, be_value_split]
    obtain ⟨v1, v2⟩ := ngim_tain_pack_value local_bytes 0 t hx hn
    rw [v1, v2]
    norm_num

/-- C11. For all TAI64N labels `t` and `u` (any 64-bit seconds and 32-bit
nanoseconds), `ngim_tain_less(t, u)` is non-zero if and only if the name
`close_tainlog` forms from `t` is smaller in `strcmp` order than the name it
forms from `u`; so archives named from an earlier and a later stamp satisfy
`A < B`, and the smallest name is the oldest archive. -/
theorem rotation_monotone (t u : ngim_tain_t) (htx : t.sec.x < 2 ^ 64) (htn : t.nano < 2 ^ 32)
    (hux : u.sec.x < 2 ^ 64) (hun : u.nano < 2 ^ 32) :
    (ngim_tain_less t u ≠ 0 ↔ strcmp (archive_name t) (archive_name u) < 0) ∧
    (archive_name t).length = 25 ∧ (archive_name u).length = 25 := by
  obtain ⟨e1, v1⟩ := archive_name_eq t htx htn
  obtain ⟨e2, v2⟩ := archive_name_eq u hux hun
  refine ⟨?_, by simp [e1, nibbles_length], by simp [e2, nibbles_length]⟩
  rw [e1, e2, strcmp_cons_self,
    strcmp_hex _ _ (by rw [nibbles_length, nibbles_length]) (nibbles_lt _ _) (nibbles_lt _ _),
    v1, v2]
  unfold ngim_tain_less
  split_ifs <;> constructor <;> intro h <;> omega

/-- C11 for a stamp and the stamp one nanosecond later. -/
theorem rotation_monotone_witness :
    (ngim_tain_less { sec := { x := 4611686019427387914 }, nano := 499999999 }
        { sec := { x := 4611686019427387914 }, nano := 500000000 } ≠ 0 ↔
      strcmp (archive_name { sec := { x := 4611686019427387914 }, nano := 499999999 })
        (archive_name { sec := { x := 4611686019427387914 }, nano := 500000000 }) < 0) :=
  (rotation_monotone _ _ (by norm_num) (by norm_num) (by norm_num) (by norm_num)).1

/-! ## The status record -/

theorem ngim_tain_pack_frame (s : Bytes) (off : Nat) (t : ngim_tain_t) (j : Nat)
    (h : j < off ∨ off + 12 ≤ j) : (ngim_tain_pack s off t) j = s j :=
  (ngim_tain_pack_bytes s off t).2.2.2.2.2 j h

theorem store_u32_frame (be : Bool) (s : Bytes) (off v j : Nat) (h : j < off ∨ off + 4 ≤ j) :
    (store_u32 be s off v) j = s j := by
  have h0 : j ≠ off := by omega
  have h1 : j ≠ off + 1 := by omega
  have h2 : j ≠ off + 2 := by omega
  have h3 : j ≠ off + 3 := by omega
  unfold store_u32
  cases be <;> simp [store, h0, h1, h2, h3]

theorem status_offsets :
    MONITOR_STATUS_SIZE = 45 ∧ MONITOR_STATUS_UPDATED = 0 ∧ MONITOR_STATUS_CHG_RUN = 12 ∧
    MONITOR_STATUS_CHG_LOG = 24 ∧ MONITOR_STATUS_PID_RUN = 36 ∧ MONITOR_STATUS_PID_LOG = 40 ∧
    MONITOR_STATUS_FORWARD = 44 := by
  decide

theorem store_frame {α : Type} (m : Nat → α) (i j : Nat) (v : α) (h : j ≠ i) :
    (store m i v) j = m j := by
  simp [store, h]

/-- Where each byte of the buffer of `write_status` comes from. -/
theorem write_status_buffer_bytes (be : Bool) (mem : Bytes)
    (updated run_changed log_changed : ngim_tain_t) (s : Monitor) :
    (∃ X : Bytes, ∀ k, k < 12 →
      (write_status_buffer be mem updated run_changed log_changed s) (0 + k) =
        (ngim_tain_pack X 0 updated) (0 + k)) ∧
    (∃ X : Bytes, ∀ k, k < 12 →
      (write_status_buffer be mem updated run_changed log_changed s) (12 + k) =
        (ngim_tain_pack X 12 run_changed) (12 + k)) ∧
    (∃ X : Bytes, ∀ k, k < 12 →
      (write_status_buffer be mem updated run_changed log_changed s) (24 + k) =
        (ngim_tain_pack X 24 log_changed) (24 + k)) ∧
    (∃ X : Bytes, ∀ k, k < 4 →
      (write_status_buffer be mem updated run_changed log_changed s) (36 + k) =
        (store_u32 be X 36 s.run.pid) (36 + k)) ∧
    (∃ X : Bytes, ∀ k, k < 4 →
      (write_status_buffer be mem updated run_changed log_changed s) (40 + k) =
        (store_u32 be X 40 s.log.pid) (40 + k)) ∧
    (write_status_buffer be mem updated run_changed log_changed s) 44 =
      (if s.flag_forward then 1 else 0) ∧
    (∀ j, 45 ≤ j →
      (write_status_buffer be mem updated run_changed log_changed s) j = mem j) := by
  obtain ⟨e0, e1, e2, e3, e4, e5, e6⟩ := status_offsets
  have unf : write_status_buffer be mem updated run_changed log_changed s =
      if s.flag_forward = true then
        store (store_u32 be (store_u32 be (ngim_tain_pack (ngim_tain_pack (ngim_tain_pack
          (fun j => if j < 45 then (0 : Fin 256) else mem j) 0 updated) 12 run_changed) 24
          log_changed) 36 s.run.pid) 40 s.log.pid) 44 1
      else
        store_u32 be (store_u32 be (ngim_tain_pack (ngim_tain_pack (ngim_tain_pack
          (fun j => if j < 45 then (0 : Fin 256) else mem j) 0 updated) 12 run_changed) 24
          log_changed) 36 s.run.pid) 40 s.log.pid := by
    unfold write_status_buffer
    simp only [e0, e1, e2, e3, e4, e5, e6]
  rw [unf]
  refine ⟨⟨fun j => if j < 45 then (0 : Fin 256) else mem j, ?_⟩,
    ⟨ngim_tain_pack (fun j => if j < 45 then (0 : Fin 256) else mem j) 0 updated, ?_⟩,
    ⟨ngim_tain_pack (ngim_tain_pack (fun j => if j < 45 then (0 : Fin 256) else mem j) 0
      updated) 12 run_changed, ?_⟩,
    ⟨ngim_tain_pack (ngim_tain_pack (ngim_tain_pack
      (fun j => if j < 45 then (0 : Fin 256) else mem j) 0 updated) 12 run_changed) 24
      log_changed, ?_⟩,
    ⟨store_u32 be (ngim_tain_pack (ngim_tain_pack (ngim_tain_pack
      (fun j => if j < 45 then (0 : Fin 256) else mem j) 0 updated) 12 run_changed) 24
      log_changed) 36 s.run.pid, ?_⟩, ?_, ?_⟩
  · intro k hk
    split_ifs
    · rw [store_frame _ _ _ _ (by omega), store_u32_frame _ _ _ _ _ (by omega),
        store_u32_frame _ _ _ _ _ (by omega), ngim_tain_pack_frame _ _ _ _ (by omega),
        ngim_tain_pack_frame _ _ _ _ (by omega)]
    · rw [store_u32_frame _ _ _ _ _ (by omega),
        store_u32_frame _ _ _ _ _ (by omega), ngim_tain_pack_frame _ _ _ _ (by omega),
        ngim_tain_pack_frame _ _ _ _ (by omega)]
  · intro k hk
    split_ifs
    · rw [store_frame _ _ _ _ (by omega), store_u32_frame _ _ _ _ _ (by omega),
        store_u32_frame _ _ _ _ _ (by omega), ngim_tain_pack_frame _ _ _ _ (by omega)]
    · rw [store_u32_frame _ _ _ _ _ (by omega),
        store_u32_frame _ _ _ _ _ (by omega), ngim_tain_pack_frame _ _ _ _ (by omega)]
  · intro k hk
    split_ifs
    · rw [store_frame _ _ _ _ (by omega), store_u32_frame _ _ _ _ _ (by omega),
        store_u32_frame _ _ _ _ _ (by omega)]
    · rw [store_u32_frame _ _ _ _ _ (by omega), store_u32_frame _ _ _ _ _ (by omega)]
  · intro k hk
    split_ifs
    · rw [store_frame _ _ _ _ (by omega), store_u32_frame _ _ _ _ _ (by omega)]
    · rw [store_u32_frame _ _ _ _ _ (by omega)]
  · intro k hk
    split_ifs
    · rw [store_frame _ _ _ _ (by omega)]
    · rfl
  · split_ifs
    · simp [store]
    · rw [store_u32_frame _ _ _ _ _ (by omega), store_u32_frame _ _ _ _ _ (by omega),
        ngim_tain_pack_frame _ _ _ _ (by omega), ngim_tain_pack_frame _ _ _ _ (by omega),
        ngim_tain_pack_frame _ _ _ _ (by omega)]
      simp
  · intro j hj
    have hj' : ¬ j < 45 := by omega
    split_ifs
    · rw [store_frame _ _ _ _ (by omega), store_u32_frame _ _ _ _ _ (by omega),
        store_u32_frame _ _ _ _ _ (by omega), ngim_tain_pack_frame _ _ _ _ (by omega),
        ngim_tain_pack_frame _ _ _ _ (by omega), ngim_tain_pack_frame _ _ _ _ (by omega)]
      simp [hj']
    · rw [store_u32_frame _ _ _ _ _ (by omega), store_u32_frame _ _ _ _ _ (by omega),
        ngim_tain_pack_frame _ _ _ _ (by omega), ngim_tain_pack_frame _ _ _ _ (by omega),
        ngim_tain_pack_frame _ _ _ _ (by omega)]
      simp [hj']

/-- C13, counterexample. `MONITOR_STATUS_SIZE` is not 37. -/
theorem status_size_counterexample :
    ¬ (MONITOR_STATUS_SIZE = 37) ∧
    ¬ ((write_status_record false (fun _ => 0) { sec := { x := 0 }, nano := 0 }
        { sec := { x := 0 }, nano := 0 } { sec := { x := 0 }, nano := 0 }
        monitor_init).length = 37) := by
  constructor
  · decide
  · simp [write_status_record, status_offsets.1]

/-- C13, amended. The status record is a fixed 45-byte record:
`MONITOR_STATUS_SIZE = 3 * 12 + 2 * 4 + 1 = 45`, the bytes `write_status`
writes are 45 in number for every state, its last field (the flag) is at
index 44, and composing the buffer touches no byte from index 45 on. -/
theorem status_size (be : Bool) (mem : Bytes) (updated run_changed log_changed : ngim_tain_t)
    (s : Monitor) :
    MONITOR_STATUS_SIZE = 3 * 12 + 2 * 4 + 1 ∧ MONITOR_STATUS_SIZE = 45 ∧
    (write_status_record be mem updated run_changed log_changed s).length = 45 ∧
    MONITOR_STATUS_FORWARD = 44 ∧
    (∀ j, 45 ≤ j →
      (write_status_buffer be mem updated run_changed log_changed s) j = mem j) := by
  refine ⟨by decide, by decide, ?_, by decide, ?_⟩
  · simp [write_status_record, status_offsets.1]
  · exact (write_status_buffer_bytes be mem updated run_changed log_changed s).2.2.2.2.2.2

/-! ## The `--logsize` option -/

/-- C17. `validate_cmdline` compares the `--logsize` argument with
`MIN_BUFSIZE` (60) instead of `MIN_FILESIZE` (1000): for every argument from
60 to 999 the log file size it selects is the argument itself, below the
documented minimum of 1000. For `--logsize 500` the selected size is 500. -/
theorem logsize_clamp_slip :
    validate_cmdline cmd_file true 0 500 0 tainlog_defaults =
      (0, { arg_keepnum := 10, arg_bufsize := 148, arg_filesize := 500 }) ∧
    (∀ n : Int, 60 ≤ n → n < 1000 →
      (validate_cmdline cmd_file true 0 n 0 tainlog_defaults).2.arg_filesize = n) ∧
    (∀ n : Int, n < 60 →
      (validate_cmdline cmd_file true 0 n 0 tainlog_defaults).2.arg_filesize = 1000) ∧
    (∀ n : Int, 100000000 < n →
      (validate_cmdline cmd_file true 0 n 0 tainlog_defaults).2.arg_filesize = 100000000) ∧
    (∀ n : Int, 1000 ≤ n → n ≤ 100000000 →
      (validate_cmdline cmd_file true 0 n 0 tainlog_defaults).2.arg_filesize = n) ∧
    (validate_cmdline 0 true 0 0 0 tainlog_defaults).2.arg_filesize = 100000 := by
  have hh : cmd_file &&& cmd_help = 0 := by decide
  have hk : cmd_file &&& cmd_keep = 0 := by decide
  have ha : cmd_file &&& cmd_keepall = 0 := by decide
  have hf : cmd_file &&& cmd_file ≠ 0 := by decide
  have hb : cmd_file &&& cmd_buffer = 0 := by decide
  have gen : ∀ n : Int, (validate_cmdline cmd_file true 0 n 0 tainlog_defaults).2.arg_filesize =
      if n > 100000000 then 100000000 else if n < 60 then 1000 else n := by
    intro n
    unfold validate_cmdline
    simp only [hh, hk, ha, hb, hf, MAX_FILESIZE, MIN_BUFSIZE, MIN_FILESIZE]
    split_ifs <;> simp_all
  refine ⟨by decide, ?_, ?_, ?_, ?_, by decide⟩
  · intro n h1 h2
    rw [gen]
    split_ifs <;> omega
  · intro n h1
    rw [gen]
    split_ifs <;> omega
  · intro n h1
    rw [gen]
    split_ifs <;> omega
  · intro n h1 h2
    rw [gen]
    split_ifs <;> omega

/-! ## The scanner's cap -/

/-- What the reading loop of `scan` collects from entries none of which is
hidden: the first entries up to a total of 127, with the warning as soon as a
128th is read. -/
theorem scan_read_spec (entries : List finfo) :
    ∀ info : List finfo, (∀ e ∈ entries, e.name.head? ≠ some '.') → info.length ≤ 127 →
      (scan_read entries info).1 = info ++ entries.take (127 - info.length) ∧
      ((scan_read entries info).2 = true ↔ 128 ≤ info.length + entries.length) := by
  induction entries with
  | nil =>
    intro info _ hl
    simp [scan_read]
    omega
  | cons e rest ih =>
    intro info hn hl
    have he : e.name.head? ≠ some '.' := hn e (by simp)
    have hrest : ∀ x ∈ rest, x.name.head? ≠ some '.' :=
      fun x hx => hn x (List.mem_cons_of_mem _ hx)
    simp only [scan_read, he, if_false, MAX_SERVICES]
    by_cases hlt : info.length < 128 - 1
    · rw [if_pos hlt]
      obtain ⟨h1, h2⟩ := ih (info ++ [e]) hrest (by simp; omega)
      rw [h1, h2]
      constructor
      · have e1 : 127 - info.length = (127 - (info ++ [e]).length) + 1 := by simp; omega
        rw [e1, List.take_succ_cons]
        simp
      · simp
        omega
    · rw [if_neg hlt]
      have e1 : 127 - info.length = 0 := by omega
      simp [e1]
      omega

theorem scan_start_loop_all (info : List finfo) :
    ∀ n, n ≤ info.length →
      scan_start_loop info (fun _ => false) n = (info.take n).reverse := by
  intro n
  induction n with
  | zero => intro _; simp [scan_start_loop]
  | succ n ih =>
    intro hn
    simp only [scan_start_loop, Bool.false_eq_true, if_false]
    rw [ih (by omega), List.take_succ, List.reverse_append]
    have hlt : n < info.length := by omega
    simp [List.getD, List.getElem?_eq_getElem hlt]

theorem qsort_perm {α : Type} (cmp : α → α → Int) (l : List α) : (qsort cmp l).Perm l :=
  List.perm_insertionSort _ l

/-- One pass over entries none of which is hidden, with `flag_stop` clear,
hands to `start` exactly the first `min n 127` entries read, each once. -/
theorem scan_pass_spec (entries : List finfo) (hn : ∀ e ∈ entries, e.name.head? ≠ some '.') :
    (scan_pass entries (fun _ => false)).1.Perm (entries.take 127) ∧
    (scan_pass entries (fun _ => false)).1.length = min entries.length 127 ∧
    ((scan_pass entries (fun _ => false)).2 = true ↔ 128 ≤ entries.length) := by
  obtain ⟨h1, h2⟩ := scan_read_spec entries [] hn (by simp)
  simp only [List.nil_append, List.length_nil, Nat.sub_zero, Nat.zero_add] at h1 h2
  have hp := qsort_perm compare_finfo_name (scan_read entries []).1
  have hlen : (scan_read entries []).1.length ≤
      (qsort compare_finfo_name (scan_read entries []).1).length := by
    rw [hp.length_eq]
  have e : (scan_pass entries (fun _ => false)).1 =
      (qsort compare_finfo_name (scan_read entries []).1).reverse := by
    unfold scan_pass
    simp only
    rw [scan_start_loop_all _ _ hlen, ← hp.length_eq, List.take_length]
  have hperm : (scan_pass entries (fun _ => false)).1.Perm (entries.take 127) := by
    rw [e, ← h1]
    exact (List.reverse_perm _).trans hp
  refine ⟨hperm, ?_, ?_⟩
  · rw [hperm.length_eq, List.length_take]
    omega
  · unfold scan_pass
    exact h2

theorem links_spec (n : Nat) :
    (links n).length = n ∧ ∀ e ∈ links n, e.name.head? ≠ some '.' := by
  unfold links
  constructor
  · simp
  · intro e he
    simp only [List.mem_map, List.mem_range] at he
    obtain ⟨i, -, rfl⟩ := he
    simp

/-- C20. With 129 non-hidden symbolic links in the active directory one pass
of `scan` hands only 127 entries to `start` (and warns); with exactly 128
links it also handles 127 and warns. In general a pass handles `min n 127` of
`n` eligible links: the reading loop stops collecting at
`active = MAX_SERVICES - 1`. -/
theorem scanner_cap_slip :
    (scan_pass (links 129) (fun _ => false)).1.length = 127 ∧
    (scan_pass (links 129) (fun _ => false)).2 = true ∧
    (scan_pass (links 128) (fun _ => false)).1.length = 127 ∧
    (scan_pass (links 128) (fun _ => false)).2 = true ∧
    (∀ n, (scan_pass (links n) (fun _ => false)).1.length = min n 127) := by
  have gen : ∀ n, (scan_pass (links n) (fun _ => false)).1.length = min n 127 ∧
      ((scan_pass (links n) (fun _ => false)).2 = true ↔ 128 ≤ n) := by
    intro n
    obtain ⟨l1, l2⟩ := links_spec n
    obtain ⟨-, h2, h3⟩ := scan_pass_spec (links n) l2
    rw [l1] at h2 h3
    exact ⟨h2, h3⟩
  refine ⟨(gen 129).1, (gen 129).2.mpr (by decide), (gen 128).1, (gen 128).2.mpr (by decide),
    fun n => (gen n).1⟩

/-! ## The line logger: one record -/

theorem chunk_self (b : Chars) (lo : Nat) : chunk b lo lo = [] := by
  simp [chunk]

theorem chunk_cons (b : Chars) (lo hi : Nat) (h : lo < hi) :
    chunk b lo hi = b lo :: chunk b (lo + 1) hi := by
  unfold chunk
  have e : hi - lo = (hi - (lo + 1)) + 1 := by omega
  rw [e, List.range_succ_eq_map]
  simp only [List.map_cons, List.map_map, Nat.add_zero]
  congr 1
  apply List.map_congr_left
  intro i _
  simp only [Function.comp_apply]
  congr 1
  omega

theorem chunk_snoc (b : Chars) (lo hi : Nat) (h : lo ≤ hi) :
    chunk b lo (hi + 1) = chunk b lo hi ++ [b hi] := by
  unfold chunk
  have e : hi + 1 - lo = (hi - lo) + 1 := by omega
  rw [e, List.range_succ, List.map_append]
  simp only [List.map_cons, List.map_nil]
  congr 3
  omega

theorem chunk_congr (b c : Chars) (lo hi : Nat)
    (h : ∀ k, lo ≤ k → k < hi → b k = c k) : chunk b lo hi = chunk c lo hi := by
  unfold chunk
  apply List.map_congr_left
  intro i hi'
  rw [List.mem_range] at hi'
  exact h _ (by omega) (by omega)

theorem chunk_length (b : Chars) (lo hi : Nat) : (chunk b lo hi).length = hi - lo := by
  simp [chunk]

/-- What the loop of `readline` does, entered with `pos < len`. -/
theorem readline_loop_spec (start len : Nat) :
    ∀ (input : List ReadResult) (buffer : Chars) (pos : Nat) (stamp : ngim_tain_t),
      pos < len →
      pos ≤ (readline_loop start len input buffer pos stamp).pos ∧
      (readline_loop start len input buffer pos stamp).pos ≤ len ∧
      (∀ k, k < pos → (readline_loop start len input buffer pos stamp).buffer k = buffer k) ∧
      (∀ k, (readline_loop start len input buffer pos stamp).pos ≤ k →
        (readline_loop start len input buffer pos stamp).buffer k = buffer k) ∧
      input_bytes input =
        chunk (readline_loop start len input buffer pos stamp).buffer pos
          (readline_loop start len input buffer pos stamp).pos ++
        input_bytes (readline_loop start len input buffer pos stamp).rest ∧
      (∀ k, pos ≤ k → k + 1 < (readline_loop start len input buffer pos stamp).pos →
        (readline_loop start len input buffer pos stamp).buffer k ≠ '\n') ∧
      ((readline_loop start len input buffer pos stamp).flag_eof = true →
        (readline_loop start len input buffer pos stamp).rest = []) ∧
      ((readline_loop start len input buffer pos stamp).flag_eof = false →
        pos < (readline_loop start len input buffer pos stamp).pos ∧
        (readline_loop start len input buffer pos stamp).rest.length < input.length) := by
  intro input
  induction input with
  | nil =>
    intro buffer pos stamp h
    simp only [readline_loop, chunk_self, input_bytes, List.nil_append, List.length_nil]
    refine ⟨Nat.le_refl _, Nat.le_of_lt h, fun _ _ => trivial, fun _ _ => trivial, trivial, ?_,
      fun _ => trivial, ?_⟩
    · intro k hk1 hk2
      omega
    · intro hf
      cases hf
  | cons e rest ih =>
    intro buffer pos stamp h
    cases e with
    | error =>
      have ih1 := ih buffer pos stamp h
      simp only [readline_loop, h, if_true, input_bytes, List.length_cons]
      obtain ⟨h1, h2, h3, h4, h5, h6, h7, h8⟩ := ih1
      refine ⟨h1, h2, h3, h4, h5, h6, h7, fun hf => ⟨(h8 hf).1, ?_⟩⟩
      have := (h8 hf).2
      omega
    | byte c now =>
      by_cases hc : c = '\n'
      · subst hc
        simp only [readline_loop, if_true, input_bytes, List.length_cons]
        refine ⟨by omega, by omega, ?_, ?_, ?_, ?_, ?_, ?_⟩
        · intro k hk
          simp [store, Nat.ne_of_lt hk]
        · intro k hk
          have : k ≠ pos := by omega
          simp [store, this]
        · rw [chunk_cons _ _ _ (Nat.lt_succ_self pos), chunk_self]
          simp [store]
        · intro k hk1 hk2
          omega
        · intro hf
          cases hf
        · intro _
          exact ⟨by omega, by omega⟩
      · by_cases hl : pos + 1 < len
        · simp only [readline_loop, hc, if_false, hl, if_true, input_bytes, List.length_cons]
          obtain ⟨h1, h2, h3, h4, h5, h6, h7, h8⟩ :=
            ih (store buffer pos c) (pos + 1) (if pos = start then now else stamp) hl
          have hb : (readline_loop start len rest (store buffer pos c) (pos + 1)
              (if pos = start then now else stamp)).buffer pos = c := by
            rw [h3 pos (Nat.lt_succ_self pos)]
            simp [store]
          refine ⟨by omega, h2, ?_, ?_, ?_, ?_, h7, ?_⟩
          · intro k hk
            rw [h3 k (by omega)]
            simp [store, Nat.ne_of_lt hk]
          · intro k hk
            rw [h4 k hk]
            have : k ≠ pos := by omega
            simp [store, this]
          · rw [chunk_cons _ _ _ (by omega), hb, List.cons_append, ← h5]
          · intro k hk1 hk2
            by_cases hkp : k = pos
            · rw [hkp, hb]
              exact hc
            · exact h6 k (by omega) hk2
          · intro hf
            have := h8 hf
            exact ⟨by omega, by omega⟩
        · simp only [readline_loop, hc, if_false, hl, input_bytes, List.length_cons]
          refine ⟨by omega, by omega, ?_, ?_, ?_, ?_, ?_, ?_⟩
          · intro k hk
            simp [store, Nat.ne_of_lt hk]
          · intro k hk
            have : k ≠ pos := by omega
            simp [store, this]
          · rw [chunk_cons _ _ _ (Nat.lt_succ_self pos), chunk_self]
            simp [store]
          · intro k hk1 hk2
            omega
          · intro hf
            cases hf
          · intro _
            exact ⟨by omega, by omega⟩

theorem tain_format_frame (s : Chars) (t : ngim_tain_t) (i : Nat) (h : NGIM_TAIN_FORMAT ≤ i) :
    ngim_tain_format s t i = s i := by
  unfold ngim_tain_format
  apply (format_textual_spec s _ NGIM_TAIN_PACK).2.2
  simp only [NGIM_TAIN_FORMAT, NGIM_TAIN_PACK] at h ⊢
  omega

theorem tain_format_name (s : Chars) (t : ngim_tain_t) :
    chars_to_list (ngim_tain_format s t) NGIM_TAIN_FORMAT = archive_name t := by
  unfold archive_name ngim_tain_format
  have e : NGIM_TAIN_FORMAT = 2 * NGIM_TAIN_PACK + 1 := by
    simp [NGIM_TAIN_FORMAT, NGIM_TAIN_PACK]
  rw [e, chars_to_list_format, chars_to_list_format]

/-- What `format_tainlog` does to a buffer holding a chunk of at least one
byte that leaves room for one more. -/
theorem format_tainlog_spec (bufsize : Nat) (buffer : Chars) (pos : Nat) (stamp : ngim_tain_t)
    (wrapped : Bool) (h1 : BUFFER_START < pos) (h2 : pos < bufsize) :
    ∃ b len w, format_tainlog bufsize buffer pos stamp wrapped = .ok (b, len, w) ∧
      chars_to_list b NGIM_TAIN_FORMAT = archive_name stamp ∧
      b BUFFER_SEPARATOR = (if wrapped then '\t' else ' ') ∧
      (∀ k, BUFFER_START ≤ k → k < pos → b k = buffer k) ∧
      (w = true ↔ buffer (pos - 1) ≠ '\n') ∧
      len = pos + (if w then 1 else 0) ∧
      (w = true → b pos = '\n') := by
  have hfr : ∀ k, BUFFER_START ≤ k →
      store (ngim_tain_format buffer stamp) BUFFER_SEPARATOR
        (if wrapped then '\t' else ' ') k = buffer k := by
    intro k hk
    have hk2 : k ≠ BUFFER_SEPARATOR := by
      simp only [BUFFER_START, BUFFER_SEPARATOR, NGIM_TAIN_FORMAT] at hk ⊢
      omega
    simp only [store, hk2, if_false]
    apply tain_format_frame
    simp only [BUFFER_START, NGIM_TAIN_FORMAT] at hk ⊢
    omega
  have hname : ∀ (c : Chars), (∀ k, k < NGIM_TAIN_FORMAT → c k = ngim_tain_format buffer stamp k) →
      chars_to_list c NGIM_TAIN_FORMAT = archive_name stamp := by
    intro c hc
    rw [chars_to_list_congr c (ngim_tain_format buffer stamp) _ hc, tain_format_name]
  have hlast : store (ngim_tain_format buffer stamp) BUFFER_SEPARATOR
      (if wrapped then '\t' else ' ') (pos - 1) = buffer (pos - 1) :=
    hfr _ (by simp only [BUFFER_START, NGIM_TAIN_FORMAT] at h1 ⊢; omega)
  unfold format_tainlog
  simp only [not_lt, Nat.not_le.mpr h2, if_false, hlast]
  by_cases hw : buffer (pos - 1) = '\n'
  · simp only [hw, ne_eq, not_true, if_false]
    refine ⟨_, _, _, rfl, ?_, ?_, ?_, ?_, ?_, ?_⟩
    · apply hname
      intro k hk
      have : k ≠ BUFFER_SEPARATOR := by
        simp only [BUFFER_SEPARATOR]
        omega
      simp [store, this]
    · simp [store]
    · intro k hk _
      exact hfr k hk
    · simp
    · simp
    · intro h
      cases h
  · simp only [ne_eq, hw, not_false_eq_true, if_true]
    refine ⟨_, _, _, rfl, ?_, ?_, ?_, ?_, ?_, ?_⟩
    · apply hname
      intro k hk
      have e1 : k ≠ BUFFER_SEPARATOR := by
        simp only [BUFFER_SEPARATOR]
        omega
      have e2 : k ≠ pos := by
        simp only [BUFFER_START, NGIM_TAIN_FORMAT] at h1 hk
        omega
      simp [store, e1, e2]
    · have e2 : BUFFER_SEPARATOR ≠ pos := by
        simp only [BUFFER_START, BUFFER_SEPARATOR, NGIM_TAIN_FORMAT] at h1 ⊢
        omega
      simp [store, e2]
    · intro k hk hk2
      have e2 : k ≠ pos := by omega
      rw [← hfr k hk]
      simp only [store, e2, if_false]
    · simp
    · simp
    · intro _
      simp [store]

theorem chunk_getLast (b : Chars) (lo hi : Nat) (h : lo < hi) :
    (chunk b lo hi).getLast? = some (b (hi - 1)) := by
  have e : hi = (hi - 1) + 1 := by omega
  rw [e, chunk_snoc _ _ _ (by omega)]
  simp

/-- C18. For every chunk `readline` returns (line buffer of at least
`MIN_BUFSIZE` bytes), `format_tainlog` succeeds and puts the textual stamp in
the first 25 characters, then a space when the previous record was not
wrapped and a tab when it was, and leaves the chunk in place; `wrapped`
becomes true exactly when the chunk does not end with a newline, and then a
newline is appended and the length grows by one. The record fits the buffer,
ends with a newline and has no other newline after the separator. -/
theorem record_format (bufsize : Nat) (h60 : 60 ≤ bufsize) (buffer : Chars)
    (stamp0 : ngim_tain_t) (input : List ReadResult) (wrapped : Bool) :
    ∃ ret r, readline buffer BUFFER_START (bufsize - 1) stamp0 input = .ok (ret, r) ∧
      input_bytes input = chunk r.buffer BUFFER_START r.pos ++ input_bytes r.rest ∧
      (ret ≠ 0 →
        ∃ b len w, format_tainlog bufsize r.buffer r.pos r.stamp wrapped = .ok (b, len, w) ∧
          chars_to_list b NGIM_TAIN_FORMAT = archive_name r.stamp ∧
          b BUFFER_SEPARATOR = (if wrapped then '\t' else ' ') ∧
          chunk b BUFFER_START r.pos = chunk r.buffer BUFFER_START r.pos ∧
          (w = true ↔ (chunk r.buffer BUFFER_START r.pos).getLast? ≠ some '\n') ∧
          len = r.pos + (if w then 1 else 0) ∧
          (w = true → b r.pos = '\n') ∧
          BUFFER_START < len ∧ len ≤ bufsize ∧
          b (len - 1) = '\n' ∧
          (∀ k, BUFFER_START ≤ k → k + 1 < len → b k ≠ '\n')) := by
  have hs : BUFFER_START < bufsize - 1 := by
    simp only [BUFFER_START, NGIM_TAIN_FORMAT, NGIM_TAIN_PACK]
    omega
  have hrd : readline buffer BUFFER_START (bufsize - 1) stamp0 input =
      .ok (if (readline_loop BUFFER_START (bufsize - 1) input buffer BUFFER_START stamp0).pos >
            BUFFER_START then 1 else 0,
          readline_loop BUFFER_START (bufsize - 1) input buffer BUFFER_START stamp0) := by
    simp only [readline, hs, not_true, if_false]
  obtain ⟨r1, r2, r3, r4, r5, r6, r7, r8⟩ :=
    readline_loop_spec BUFFER_START (bufsize - 1) input buffer BUFFER_START stamp0 hs
  generalize readline_loop BUFFER_START (bufsize - 1) input buffer BUFFER_START stamp0 = R at *
  refine ⟨_, _, hrd, r5, ?_⟩
  intro hret
  have hpos : BUFFER_START < R.pos := by
    by_contra hcon
    exact hret (by simp only [gt_iff_lt, hcon, if_false])
  obtain ⟨b, len, w, f1, f2, f3, f4, f5, f6, f7⟩ :=
    format_tainlog_spec bufsize R.buffer R.pos R.stamp wrapped hpos (by omega)
  refine ⟨b, len, w, f1, f2, f3, chunk_congr _ _ _ _ f4, ?_, f6, f7, ?_, ?_, ?_, ?_⟩
  · rw [chunk_getLast _ _ _ hpos, f5]
    simp
  · rw [f6]
    omega
  · rw [f6]
    split <;> omega
  · cases w with
    | true =>
      rw [f6]
      simpa using f7 rfl
    | false =>
      have hn : ¬ R.buffer (R.pos - 1) ≠ '\n' := fun hh => Bool.noConfusion (f5.mpr hh)
      rw [f6]
      simp only [Bool.false_eq_true, if_false, Nat.add_zero]
      rw [f4 _ (by omega) (by omega)]
      exact not_not.mp hn
  · intro k hk1 hk2
    have hk3 : k < R.pos := by
      rw [f6] at hk2
      split at hk2 <;> omega
    rw [f4 k hk1 hk3]
    by_cases hk4 : k + 1 < R.pos
    · exact r6 k hk1 hk4
    · have hk5 : k = R.pos - 1 := by omega
      have hw : w = true := by
        rw [f6] at hk2
        cases w with
        | true => rfl
        | false =>
          simp only [Bool.false_eq_true, if_false, Nat.add_zero] at hk2
          omega
      rw [hk5]
      exact f5.mp hw

/-- The record format at the line `"a\n"` with the default line buffer. -/
theorem record_format_witness :
    60 ≤ 148 ∧
    ∃ ret r, readline local_chars BUFFER_START (148 - 1) ⟨⟨0⟩, 0⟩
        [.byte 'a' ⟨⟨5⟩, 7⟩, .byte '\n' ⟨⟨5⟩, 8⟩] = .ok (ret, r) ∧
      input_bytes [.byte 'a' ⟨⟨5⟩, 7⟩, .byte '\n' ⟨⟨5⟩, 8⟩] =
        chunk r.buffer BUFFER_START r.pos ++ input_bytes r.rest ∧
      (ret ≠ 0 →
        ∃ b len w, format_tainlog 148 r.buffer r.pos r.stamp false = .ok (b, len, w) ∧
          chars_to_list b NGIM_TAIN_FORMAT = archive_name r.stamp ∧
          b BUFFER_SEPARATOR = (if false then '\t' else ' ') ∧
          chunk b BUFFER_START r.pos = chunk r.buffer BUFFER_START r.pos ∧
          (w = true ↔ (chunk r.buffer BUFFER_START r.pos).getLast? ≠ some '\n') ∧
          len = r.pos + (if w then 1 else 0) ∧
          (w = true → b r.pos = '\n') ∧
          BUFFER_START < len ∧ len ≤ 148 ∧
          b (len - 1) = '\n' ∧
          (∀ k, BUFFER_START ≤ k → k + 1 < len → b k ≠ '\n')) :=
  ⟨by decide, record_format 148 (by decide) local_chars ⟨⟨0⟩, 0⟩
    [.byte 'a' ⟨⟨5⟩, 7⟩, .byte '\n' ⟨⟨5⟩, 8⟩] false⟩

/-! ## The order of `strcmp` -/

theorem toNat_ne {a b : Char} (h : a ≠ b) : (a.toNat : Int) ≠ (b.toNat : Int) := by
  intro e
  apply h
  have e2 : a.toNat = b.toNat := by exact_mod_cast e
  rw [← Char.ofNat_toNat a, ← Char.ofNat_toNat b, e2]

theorem strcmp_irrefl (a : List Char) : ¬ strcmp a a < 0 := by
  induction a with
  | nil => simp [strcmp]
  | cons x xs ih => simpa [strcmp] using ih

theorem strcmp_trans : ∀ a b c : List Char,
    strcmp a b < 0 → strcmp b c < 0 → strcmp a c < 0
  | [], [], _, h, _ => by simp [strcmp] at h
  | [], _ :: _, [], _, h => by simp [strcmp] at h
  | [], _ :: _, _ :: _, _, _ => by simp [strcmp]
  | _ :: _, [], _, h, _ => by simp [strcmp] at h
  | _ :: _, _ :: _, [], _, h => by simp [strcmp] at h
  | x :: xs, y :: ys, z :: zs, h1, h2 => by
    by_cases hxy : x = y
    · subst hxy
      by_cases hxz : x = z
      · subst hxz
        simp only [strcmp, if_true] at h1 h2 ⊢
        exact strcmp_trans xs ys zs h1 h2
      · simp only [strcmp, hxz, if_false] at h2 ⊢
        exact h2
    · by_cases hyz : y = z
      · subst hyz
        simp only [strcmp, hxy, if_false] at h1 ⊢
        exact h1
      · have n1 := toNat_ne hxy
        have n2 := toNat_ne hyz
        simp only [strcmp, hxy, hyz, if_false] at h1 h2
        by_cases hxz : x = z
        · subst hxz
          omega
        · simp only [strcmp, hxz, if_false]
          omega

theorem strcmp_total : ∀ a b : List Char, a ≠ b → strcmp a b < 0 ∨ strcmp b a < 0
  | [], [], h => absurd rfl h
  | [], _ :: _, _ => by simp [strcmp]
  | _ :: _, [], _ => by simp [strcmp]
  | x :: xs, y :: ys, h => by
    by_cases hxy : x = y
    · subst hxy
      simp only [strcmp, if_true]
      apply strcmp_total xs ys
      intro e
      exact h (by rw [e])
    · have n1 := toNat_ne hxy
      have hyx : ¬ y = x := fun e => hxy e.symm
      simp only [strcmp, hxy, hyx, if_false]
      omega

/-! ## Pruning the archive -/

/-- The invariant of the directory scan of `flush_archive`: after the entries
`seen`, `files` counts the archive files among them and, when there is one,
`oldest` is the name of one that no other precedes. -/
theorem scan_archives_inv : ∀ (dir seen : List LogFile) (st : Nat × List Char),
    (st.1 = (seen.filter is_archive).length ∧
      (st.1 ≠ 0 → (∃ f ∈ seen, is_archive f = true ∧ f.name = st.2) ∧
        ∀ g ∈ seen, is_archive g = true → ¬ strcmp g.name st.2 < 0)) →
    ((scan_archives dir st).1 = ((seen ++ dir).filter is_archive).length ∧
      ((scan_archives dir st).1 ≠ 0 →
        (∃ f ∈ seen ++ dir, is_archive f = true ∧ f.name = (scan_archives dir st).2) ∧
        ∀ g ∈ seen ++ dir, is_archive g = true → ¬ strcmp g.name (scan_archives dir st).2 < 0))
  | [], seen, st, h => by
    simpa [scan_archives] using h
  | f :: rest, seen, st, h => by
    have e : seen ++ f :: rest = (seen ++ [f]) ++ rest := by simp
    rw [e]
    by_cases hf : is_archive f = true
    · have hstep : scan_archives (f :: rest) st = scan_archives rest
          (st.1 + 1, if st.1 = 0 ∨ strcmp f.name st.2 < 0 then f.name else st.2) := by
        simp only [scan_archives, hf, if_true]
      rw [hstep]
      apply scan_archives_inv rest (seen ++ [f])
      obtain ⟨h1, h2⟩ := h
      refine ⟨by simp [List.filter_append, hf, h1], fun _ => ?_⟩
      by_cases hc : st.1 = 0 ∨ strcmp f.name st.2 < 0
      · simp only [hc, if_true]
        refine ⟨⟨f, by simp, hf, rfl⟩, ?_⟩
        intro g hg hga
        rw [List.mem_append, List.mem_singleton] at hg
        rcases hg with hg | hg
        · rcases hc with hc | hc
          · exfalso
            rw [hc] at h1
            have hmem : g ∈ seen.filter is_archive := List.mem_filter.mpr ⟨hg, hga⟩
            rw [List.eq_nil_of_length_eq_zero h1.symm] at hmem
            cases hmem
          · by_cases h0 : st.1 = 0
            · exfalso
              rw [h0] at h1
              have hmem : g ∈ seen.filter is_archive := List.mem_filter.mpr ⟨hg, hga⟩
              rw [List.eq_nil_of_length_eq_zero h1.symm] at hmem
              cases hmem
            · intro hlt
              exact (h2 h0).2 g hg hga (strcmp_trans _ _ _ hlt hc)
        · rw [hg]
          exact strcmp_irrefl _
      · simp only [hc, if_false]
        have h0 : st.1 ≠ 0 := fun e0 => hc (Or.inl e0)
        obtain ⟨⟨f0, hf0, hf1, hf2⟩, hmin⟩ := h2 h0
        refine ⟨⟨f0, by simp [hf0], hf1, hf2⟩, ?_⟩
        intro g hg hga
        rw [List.mem_append, List.mem_singleton] at hg
        rcases hg with hg | hg
        · exact hmin g hg hga
        · rw [hg]
          exact fun hh => hc (Or.inr hh)
    · have hstep : scan_archives (f :: rest) st = scan_archives rest st := by
        simp only [scan_archives, hf, if_false]
        rfl
      rw [hstep]
      apply scan_archives_inv rest (seen ++ [f])
      obtain ⟨h1, h2⟩ := h
      refine ⟨by simp [List.filter_append, hf, h1], fun h0 => ?_⟩
      obtain ⟨⟨f0, hf0, hf1, hf2⟩, hmin⟩ := h2 h0
      refine ⟨⟨f0, by simp [hf0], hf1, hf2⟩, ?_⟩
      intro g hg hga
      rw [List.mem_append, List.mem_singleton] at hg
      rcases hg with hg | hg
      · exact hmin g hg hga
      · rw [hg] at hga
        exact absurd hga hf

/-- The directory scan of `flush_archive` counts the archive files and, when
there is one, finds the name that precedes all others. -/
theorem scan_archives_spec (dir : List LogFile) :
    (scan_archives dir (0, [])).1 = (dir.filter is_archive).length ∧
    ((scan_archives dir (0, [])).1 ≠ 0 →
      (∃ f ∈ dir, is_archive f = true ∧ f.name = (scan_archives dir (0, [])).2) ∧
      ∀ g ∈ dir, is_archive g = true → ¬ strcmp g.name (scan_archives dir (0, [])).2 < 0) := by
  have h := scan_archives_inv dir [] (0, []) ⟨by simp, fun h => absurd rfl h⟩
  simpa using h

theorem filter_name_length : ∀ (l : List LogFile) (o : List Char),
    (l.map LogFile.name).Nodup → (∃ f ∈ l, f.name = o) →
    (l.filter (fun f => f.name ≠ o)).length + 1 = l.length
  | [], _, _, h => by
    obtain ⟨f, hf, _⟩ := h
    cases hf
  | x :: xs, o, hnd, h => by
    rw [List.map_cons, List.nodup_cons] at hnd
    by_cases hx : x.name = o
    · have hall : ∀ y ∈ xs, decide (y.name ≠ o) = true := by
        intro y hy
        rw [decide_eq_true_eq]
        intro e
        exact hnd.1 (List.mem_map.mpr ⟨y, hy, by rw [e, hx]⟩)
      rw [List.filter_cons_of_neg (by simp [hx]), List.filter_eq_self.mpr hall]
      simp
    · obtain ⟨f, hf, hfo⟩ := h
      have hf2 : f ∈ xs := by
        rcases List.mem_cons.mp hf with e | e
        · exact absurd (by rw [← e]; exact hfo) hx
        · exact e
      rw [List.filter_cons_of_pos (by simp [hx]), List.length_cons, List.length_cons,
        filter_name_length xs o hnd.2 ⟨f, hf2, hfo⟩]

/-- One removal of `flush_archive`: what deleting the file named `oldest` does
to a directory that holds an archive file. -/
theorem flush_step (dir : List LogFile) (hnd : (dir.map LogFile.name).Nodup)
    (h0 : (scan_archives dir (0, [])).1 ≠ 0) :
    (dir.filter (fun f => f.name ≠ (scan_archives dir (0, [])).2)).Sublist dir ∧
    (dir.filter (fun f => f.name ≠ (scan_archives dir (0, [])).2)).length < dir.length ∧
    ((dir.filter (fun f => f.name ≠ (scan_archives dir (0, [])).2)).map LogFile.name).Nodup ∧
    ((dir.filter (fun f => f.name ≠ (scan_archives dir (0, [])).2)).filter is_archive).length + 1
      = (dir.filter is_archive).length ∧
    (∀ f ∈ dir, is_archive f = false →
      f ∈ dir.filter (fun f => f.name ≠ (scan_archives dir (0, [])).2)) ∧
    (∀ f ∈ dir, f ∉ dir.filter (fun f => f.name ≠ (scan_archives dir (0, [])).2) →
      ∀ g ∈ dir.filter (fun f => f.name ≠ (scan_archives dir (0, [])).2),
        is_archive g = true → strcmp f.name g.name < 0) := by
  obtain ⟨_, hs⟩ := scan_archives_spec dir
  obtain ⟨⟨f0, hf0, hf0a, hf0n⟩, hmin⟩ := hs h0
  generalize (scan_archives dir (0, [])).2 = o at *
  have hsub : (dir.filter (fun f => f.name ≠ o)).Sublist dir := List.filter_sublist dir
  have hlen := filter_name_length dir o hnd ⟨f0, hf0, hf0n⟩
  have hnd1 : ((dir.filter (fun f => f.name ≠ o)).map LogFile.name).Nodup :=
    hnd.sublist (hsub.map _)
  have huniq : ∀ f ∈ dir, f.name = o → f = f0 := by
    intro f hf hfn
    exact List.inj_on_of_nodup_map hnd hf hf0 (by rw [hfn, hf0n])
  refine ⟨hsub, by omega, hnd1, ?_, ?_, ?_⟩
  · have hnda : ((dir.filter is_archive).map LogFile.name).Nodup :=
      hnd.sublist ((List.filter_sublist dir).map _)
    have h2 := filter_name_length (dir.filter is_archive) o hnda
      ⟨f0, List.mem_filter.mpr ⟨hf0, hf0a⟩, hf0n⟩
    rw [List.filter_filter] at h2 ⊢
    rw [← h2]
    congr 2
    apply List.filter_congr
    intro x _
    exact Bool.and_comm _ _
  · intro f hf hfa
    apply List.mem_filter.mpr
    refine ⟨hf, ?_⟩
    rw [decide_eq_true_eq]
    intro e
    rw [huniq f hf e, hf0a] at hfa
    cases hfa
  · intro f hf hfn g hg hga
    have hfo : f.name = o := by
      by_contra hne
      exact hfn (List.mem_filter.mpr ⟨hf, by simpa using hne⟩)
    obtain ⟨hgd, hgn⟩ := List.mem_filter.mp hg
    rw [decide_eq_true_eq] at hgn
    rw [hfo]
    rcases strcmp_total o g.name (fun e => hgn e.symm) with h | h
    · exact h
    · exact absurd h (hmin g hgd hga)

/-- The loop of `flush_archive` ends within one round more than there are
directory entries, whatever the operating system answers; it only removes
files, and none that fails its test for an archive file. When every
operation succeeds it leaves `min n keepnum` of `n` archive files, and every
file it removes precedes every archive file it leaves. -/
theorem flush_loop_spec (keepnum : Int) (hk : 0 ≤ keepnum) (dopen rem : Nat → Bool) :
    ∀ (fuel i : Nat) (dir : List LogFile), dir.length < fuel →
      (dir.map LogFile.name).Nodup →
      ∃ out, flush_loop keepnum dopen rem fuel i dir = .done out ∧ out.Sublist dir ∧
        (∀ f ∈ dir, is_archive f = false → f ∈ out) ∧
        ((∀ j, dopen j = true ∧ rem j = true) →
          ((out.filter is_archive).length : Int)
            = min ((dir.filter is_archive).length : Int) keepnum ∧
          ∀ f ∈ dir, f ∉ out → ∀ g ∈ out, is_archive g = true → strcmp f.name g.name < 0) := by
  intro fuel
  induction fuel with
  | zero =>
    intro i dir h
    omega
  | succ fuel ih =>
    intro i dir hlen hnd
    have hstay : ∀ (hbad : ¬ (∀ j, dopen j = true ∧ rem j = true)),
        (dir.Sublist dir ∧ (∀ f ∈ dir, is_archive f = false → f ∈ dir) ∧
        ((∀ j, dopen j = true ∧ rem j = true) →
          ((dir.filter is_archive).length : Int)
            = min ((dir.filter is_archive).length : Int) keepnum ∧
          ∀ f ∈ dir, f ∉ dir → ∀ g ∈ dir, is_archive g = true →
            strcmp f.name g.name < 0)) :=
      fun hbad => ⟨List.Sublist.refl _, fun _ h _ => h, fun h => absurd h hbad⟩
    by_cases hdo : dopen i = true
    · obtain ⟨hcount, _⟩ := scan_archives_spec dir
      by_cases hgt : ((scan_archives dir (0, [])).1 : Int) > keepnum
      · by_cases hrm : rem i = true
        · have h0 : (scan_archives dir (0, [])).1 ≠ 0 := by
            intro e
            rw [e] at hgt
            simp at hgt
            omega
          obtain ⟨s1, s2, s3, s4, s5, s6⟩ := flush_step dir hnd h0
          by_cases hgt2 : ((scan_archives dir (0, [])).1 : Int) - 1 > keepnum
          · obtain ⟨out, o1, o2, o3, o4⟩ := ih (i + 1) _ (by omega) s3
            refine ⟨out, ?_, o2.trans s1, ?_, ?_⟩
            · simp only [flush_loop, hdo, hrm, hgt, hgt2, Bool.not_true, Bool.false_eq_true,
                if_false, if_true]
              exact o1
            · intro f hf hfa
              exact o3 f (s5 f hf hfa) hfa
            · intro hall
              obtain ⟨c1, c2⟩ := o4 hall
              refine ⟨?_, ?_⟩
              · rw [c1]
                rw [hcount] at hgt2
                omega
              · intro f hf hfo g hg hga
                by_cases hf1 : f ∈ dir.filter (fun f => f.name ≠ (scan_archives dir (0, [])).2)
                · exact c2 f hf1 hfo g hg hga
                · exact s6 f hf hf1 g (o2.subset hg) hga
          · refine ⟨_, ?_, s1, s5, ?_⟩
            · simp only [flush_loop, hdo, hrm, hgt, hgt2, Bool.not_true, Bool.false_eq_true,
                if_false, if_true]
            · intro _
              refine ⟨?_, s6⟩
              rw [hcount] at hgt hgt2
              omega
        · obtain ⟨a1, a2, a3⟩ := hstay (fun h => hrm (h i).2)
          refine ⟨dir, ?_, a1, a2, a3⟩
          simp only [flush_loop, hdo, hrm, hgt, Bool.not_true, Bool.not_false, Bool.false_eq_true,
            if_false, if_true]
      · refine ⟨dir, ?_, List.Sublist.refl _, fun _ h _ => h, ?_⟩
        · simp only [flush_loop, hdo, hgt, Bool.not_true, Bool.false_eq_true, if_false]
        · intro _
          refine ⟨?_, fun f hf hfn => absurd hf hfn⟩
          rw [hcount] at hgt
          omega
    · obtain ⟨a1, a2, a3⟩ := hstay (fun h => hdo (h i).1)
      refine ⟨dir, ?_, a1, a2, a3⟩
      have hdo2 : dopen i = false := by
        cases h : dopen i
        · rfl
        · exact absurd h hdo
      simp only [flush_loop, hdo2, Bool.not_false, if_true]

theorem not_archive_length (out dir : List LogFile) (hnd : (dir.map LogFile.name).Nodup)
    (hsub : out.Sublist dir) (hkeep : ∀ f ∈ dir, is_archive f = false → f ∈ out) :
    out.length + (dir.filter is_archive).length = dir.length + (out.filter is_archive).length := by
  have hd : dir.Nodup := List.Nodup.of_map _ hnd
  have h1 : (out.filter (fun f => !is_archive f)).length ≤
      (dir.filter (fun f => !is_archive f)).length := (hsub.filter _).length_le
  have h2 : (dir.filter (fun f => !is_archive f)).length ≤
      (out.filter (fun f => !is_archive f)).length := by
    apply List.Subperm.length_le
    apply List.subperm_of_subset (hd.filter _)
    intro f hf
    obtain ⟨hf1, hf2⟩ := List.mem_filter.mp hf
    have hfa : is_archive f = false := by simpa using hf2
    exact List.mem_filter.mpr ⟨hkeep f hf1 hfa, hf2⟩
  have e1 := List.length_eq_countP_add_countP is_archive out
  have e2 := List.length_eq_countP_add_countP is_archive dir
  simp only [List.countP_eq_length_filter] at e1 e2
  have e3 : ∀ l : List LogFile, l.filter (fun a => decide ¬ is_archive a = true)
      = l.filter (fun f => !is_archive f) := by
    intro l
    apply List.filter_congr
    intro x _
    cases is_archive x <;> simp
  rw [e3] at e1 e2
  omega

/-- C15. With every directory and remove operation succeeding and the file
names of the directory distinct, `flush_archive` returns within one round
more than there are entries. With `keepnum < 0` it removes nothing.
Otherwise it only removes files, each an archive file that precedes (by
`strcmp`) every archive file left; `min n keepnum` of the `n` archive files
remain, so with `n > keepnum` exactly `n - keepnum` files are removed; files
that fail the archive test, `current` among them, all stay. -/
theorem archive_pruning (keepnum : Int) (dir : List LogFile)
    (hnd : (dir.map LogFile.name).Nodup) (fuel : Nat) (hfuel : dir.length < fuel) :
    ∃ out, flush_archive keepnum (fun _ => true) (fun _ => true) fuel dir = .done out ∧
      (keepnum < 0 → out = dir) ∧
      out.Sublist dir ∧
      (∀ f ∈ dir, is_archive f = false → f ∈ out) ∧
      (∀ f ∈ dir, f.name = FILE_CURRENT → f ∈ out) ∧
      (0 ≤ keepnum → ((out.filter is_archive).length : Int)
        = min ((dir.filter is_archive).length : Int) keepnum) ∧
      (0 ≤ keepnum → keepnum < ((dir.filter is_archive).length : Int) →
        (out.length : Int) = dir.length - (((dir.filter is_archive).length : Int) - keepnum)) ∧
      (∀ f ∈ dir, f ∉ out → is_archive f = true ∧
        ∀ g ∈ out, is_archive g = true → strcmp f.name g.name < 0) := by
  have hcur : ∀ f : LogFile, f.name = FILE_CURRENT → is_archive f = false := by
    intro f hf
    simp [is_archive, hf, FILE_CURRENT]
  by_cases hk : keepnum < 0
  · refine ⟨dir, by simp only [flush_archive, hk, if_true], fun _ => rfl, List.Sublist.refl _,
      fun _ h _ => h, fun _ h _ => h, fun h => absurd hk (not_lt.mpr h),
      fun h => absurd hk (not_lt.mpr h), fun f hf hfn => absurd hf hfn⟩
  · have hk0 : 0 ≤ keepnum := not_lt.mp hk
    obtain ⟨out, o1, o2, o3, o4⟩ :=
      flush_loop_spec keepnum hk0 (fun _ => true) (fun _ => true) fuel 0 dir hfuel hnd
    obtain ⟨c1, c2⟩ := o4 (fun _ => ⟨rfl, rfl⟩)
    refine ⟨out, by simp only [flush_archive, hk, if_false]; exact o1,
      fun h => absurd h hk, o2, o3, fun f hf hfc => o3 f hf (hcur f hfc), fun _ => c1, ?_, ?_⟩
    · intro _ hlt
      have hl := not_archive_length out dir hnd o2 o3
      omega
    · intro f hf hfn
      refine ⟨?_, c2 f hf hfn⟩
      cases hfa : is_archive f
      · exact absurd (o3 f hf hfa) hfn
      · rfl

/-- Pruning the sample directory down to one archive file. -/
theorem archive_pruning_witness :
    (sample_dir.map LogFile.name).Nodup ∧ sample_dir.length < 6 ∧
    ∃ out, flush_archive 1 (fun _ => true) (fun _ => true) 6 sample_dir = .done out ∧
      ((1 : Int) < 0 → out = sample_dir) ∧
      out.Sublist sample_dir ∧
      (∀ f ∈ sample_dir, is_archive f = false → f ∈ out) ∧
      (∀ f ∈ sample_dir, f.name = FILE_CURRENT → f ∈ out) ∧
      ((0 : Int) ≤ 1 → ((out.filter is_archive).length : Int)
        = min ((sample_dir.filter is_archive).length : Int) 1) ∧
      ((0 : Int) ≤ 1 → 1 < ((sample_dir.filter is_archive).length : Int) →
        (out.length : Int)
          = sample_dir.length - (((sample_dir.filter is_archive).length : Int) - 1)) ∧
      (∀ f ∈ sample_dir, f ∉ out → is_archive f = true ∧
        ∀ g ∈ out, is_archive g = true → strcmp f.name g.name < 0) :=
  ⟨by decide, by decide, archive_pruning 1 sample_dir (by decide) 6 (by decide)⟩

/-- C16, as stated, fails: a regular file named `'@'` followed by 24 letters
`z` is not `'@'` plus 24 hexadecimal digits, yet `flush_archive` counts it as
an archive file and, with `keepnum` 0, removes it. -/
theorem archive_test_counterexample :
    spec_archive_name odd_file.name = false ∧
    (scan_archives [odd_file] (0, [])).1 = 1 ∧
    flush_archive 0 (fun _ => true) (fun _ => true) 2 [odd_file] = .done [] := by
  refine ⟨by decide, by decide, ?_⟩
  rfl

/-- C16, amended. The scan of `flush_archive` counts exactly the regular files
whose name starts with `'@'` and has 25 characters, and a file that is not
regular, or whose name does not start with `'@'`, or does not have 25
characters is never removed, whatever the operating system answers. -/
theorem archive_test (keepnum : Int) (dopen rem : Nat → Bool) (dir : List LogFile)
    (hnd : (dir.map LogFile.name).Nodup) (fuel : Nat) (hfuel : dir.length < fuel) :
    (scan_archives dir (0, [])).1
      = (dir.filter (fun f => decide (f.filetype = .reg ∧ f.name.head? = some '@' ∧
          f.name.length = 25))).length ∧
    ∃ out, flush_archive keepnum dopen rem fuel dir = .done out ∧
      ∀ f ∈ dir, (f.filetype ≠ .reg ∨ f.name.head? ≠ some '@' ∨ f.name.length ≠ 25) →
        f ∈ out := by
  have hia : ∀ f : LogFile, is_archive f
      = decide (f.filetype = .reg ∧ f.name.head? = some '@' ∧ f.name.length = 25) := by
    intro f
    simp only [is_archive, NGIM_TAIN_FORMAT, NGIM_TAIN_PACK, Bool.decide_and, Bool.and_assoc]
  have hna : ∀ f : LogFile,
      (f.filetype ≠ .reg ∨ f.name.head? ≠ some '@' ∨ f.name.length ≠ 25) →
      is_archive f = false := by
    intro f h
    rw [hia, decide_eq_false_iff_not]
    intro ⟨h1, h2, h3⟩
    rcases h with h | h | h
    · exact h h1
    · exact h h2
    · exact h h3
  refine ⟨?_, ?_⟩
  · rw [(scan_archives_spec dir).1]
    congr 1
    apply List.filter_congr
    intro x _
    exact hia x
  · by_cases hk : keepnum < 0
    · exact ⟨dir, by simp only [flush_archive, hk, if_true], fun _ h _ => h⟩
    · obtain ⟨out, o1, _, o3, _⟩ :=
        flush_loop_spec keepnum (not_lt.mp hk) dopen rem fuel 0 dir hfuel hnd
      exact ⟨out, by simp only [flush_archive, hk, if_false]; exact o1,
        fun f hf h => o3 f hf (hna f h)⟩

/-- The archive test on the sample directory. -/
theorem archive_test_witness :
    (sample_dir.map LogFile.name).Nodup ∧ sample_dir.length < 6 ∧
    (scan_archives sample_dir (0, [])).1
      = (sample_dir.filter (fun f => decide (f.filetype = .reg ∧ f.name.head? = some '@' ∧
          f.name.length = 25))).length ∧
    ∃ out, flush_archive 0 (fun _ => true) (fun _ => false) 6 sample_dir = .done out ∧
      ∀ f ∈ sample_dir,
        (f.filetype ≠ .reg ∨ f.name.head? ≠ some '@' ∨ f.name.length ≠ 25) → f ∈ out :=
  ⟨by decide, by decide,
    archive_test 0 (fun _ => true) (fun _ => false) sample_dir (by decide) 6 (by decide)⟩

/-! ## The line logger: the loop -/

theorem flush_loop_total (keepnum : Int) (hk : 0 ≤ keepnum) (dopen rem : Nat → Bool) :
    ∀ (fuel i : Nat) (dir : List LogFile), dir.length < fuel →
      ∃ out, flush_loop keepnum dopen rem fuel i dir = .done out := by
  intro fuel
  induction fuel with
  | zero =>
    intro i dir h
    omega
  | succ fuel ih =>
    intro i dir hlen
    cases hdo : dopen i
    · simp only [flush_loop, hdo, Bool.not_false, if_true]
      exact ⟨_, rfl⟩
    · by_cases hgt : ((scan_archives dir (0, [])).1 : Int) > keepnum
      · cases hrm : rem i
        · simp only [flush_loop, hdo, hrm, hgt, Bool.not_true, Bool.not_false,
            Bool.false_eq_true, if_false, if_true]
          exact ⟨_, rfl⟩
        · by_cases hgt2 : ((scan_archives dir (0, [])).1 : Int) - 1 > keepnum
          · have h0 : (scan_archives dir (0, [])).1 ≠ 0 := by
              intro e
              rw [e] at hgt
              simp at hgt
              omega
            obtain ⟨⟨f0, hf0, _, hf0n⟩, _⟩ := (scan_archives_spec dir).2 h0
            have hlt : (dir.filter (fun f => f.name ≠ (scan_archives dir (0, [])).2)).length
                < dir.length := by
              apply List.length_filter_lt_length_iff_exists.mpr
              exact ⟨f0, hf0, by simp [hf0n]⟩
            obtain ⟨out, ho⟩ := ih (i + 1)
              (dir.filter (fun f => f.name ≠ (scan_archives dir (0, [])).2)) (by omega)
            refine ⟨out, ?_⟩
            simp only [flush_loop, hdo, hrm, hgt, hgt2, Bool.not_true, Bool.false_eq_true,
              if_false, if_true]
            exact ho
          · simp only [flush_loop, hdo, hrm, hgt, hgt2, Bool.not_true,
              Bool.false_eq_true, if_false, if_true]
            exact ⟨_, rfl⟩
      · simp only [flush_loop, hdo, hgt, Bool.not_true, Bool.false_eq_true, if_false]
        exact ⟨_, rfl⟩

theorem flush_archive_total (keepnum : Int) (dopen rem : Nat → Bool) (fuel : Nat)
    (dir : List LogFile) (h : dir.length < fuel) :
    ∃ out, flush_archive keepnum dopen rem fuel dir = .done out := by
  by_cases hk : keepnum < 0
  · exact ⟨dir, by simp only [flush_archive, hk, if_true]⟩
  · obtain ⟨out, ho⟩ := flush_loop_total keepnum (not_lt.mp hk) dopen rem fuel 0 dir h
    exact ⟨out, by simp only [flush_archive, hk, if_false]; exact ho⟩

/-- The function `append_tainlog` returns for every buffer that passes its
assertion. -/
theorem append_tainlog_total (bufsize filesize : Nat) (keepnum : Int) (env : AppendEnv)
    (len : Nat) (stamp : ngim_tain_t) (L : Logger) (h1 : 0 < len) (h2 : len ≤ bufsize) :
    ∃ L1, append_tainlog bufsize filesize keepnum env len stamp L = .done L1 := by
  have hc : len > 0 ∧ len ≤ bufsize := ⟨h1, h2⟩
  obtain ⟨d, hd⟩ := flush_archive_total keepnum env.dir_open_ok env.remove_ok
    ((close_tainlog stamp env.rename_ok L).dir.length + 1)
    (close_tainlog stamp env.rename_ok L).dir (Nat.lt_succ_self _)
  by_cases hr : L.current_size + len > filesize
  · by_cases ho : (open_tainlog env.open_ok env.lock_ok
        { close_tainlog stamp env.rename_ok L with dir := d }).current_open = true
    · simp only [append_tainlog, hc, hr, hd, ho, and_self, not_true, if_false, if_true]
      exact ⟨_, rfl⟩
    · simp only [append_tainlog, hc, hr, hd, ho, and_self, not_true, if_false, if_true]
      exact ⟨_, rfl⟩
  · by_cases ho : (open_tainlog env.open_ok env.lock_ok L).current_open = true
    · simp only [append_tainlog, hc, hr, ho, and_self, not_true, if_false, if_true]
      exact ⟨_, rfl⟩
    · simp only [append_tainlog, hc, hr, ho, and_self, not_true, if_false, if_true]
      exact ⟨_, rfl⟩

theorem chunk_append (b : Chars) (lo mid : Nat) (h1 : lo ≤ mid) :
    ∀ hi, mid ≤ hi → chunk b lo hi = chunk b lo mid ++ chunk b mid hi := by
  intro hi
  induction hi with
  | zero =>
    intro h
    have e1 : mid = 0 := by omega
    have e2 : lo = 0 := by omega
    subst e1
    subst e2
    simp [chunk_self]
  | succ hi ih =>
    intro h
    by_cases hm : mid = hi + 1
    · subst hm
      simp [chunk_self]
    · rw [chunk_snoc _ _ _ (by omega), chunk_snoc _ _ _ (by omega), ih (by omega),
        List.append_assoc]

theorem chars_to_list_chunk (s : Chars) (n : Nat) : chars_to_list s n = chunk s 0 n := by
  simp [chars_to_list, chunk]

theorem chars_to_list_drop (s : Chars) (k n : Nat) (h : k ≤ n) :
    (chars_to_list s n).drop k = chunk s k n := by
  rw [chars_to_list_chunk, chunk_append s 0 k (Nat.zero_le _) n h]
  apply List.drop_left'
  simp [chunk_length]

theorem chars_to_list_getD (s : Chars) (i n : Nat) (d : Char) (h : i < n) :
    (chars_to_list s n).getD i d = s i := by
  simp [chars_to_list, List.getD_eq_getElem?_getD, h]

theorem final_newline_append (c x : List Char) (hx : x ≠ []) :
    final_newline (c ++ x) = final_newline x := by
  unfold final_newline
  rw [List.getLast?_append_of_ne_nil _ hx]
  simp [hx]

theorem chunk_ne_nil (b : Chars) (lo hi : Nat) (h : lo < hi) : chunk b lo hi ≠ [] := by
  intro e
  have := chunk_length b lo hi
  rw [e] at this
  simp at this
  omega

/-- The record `format_tainlog` makes of a chunk, as reassembly sees it. -/
theorem record_payload (bufsize : Nat) (buffer : Chars) (pos : Nat) (stamp : ngim_tain_t)
    (wrapped : Bool) (h1 : BUFFER_START < pos) (h2 : pos < bufsize) :
    ∃ b len w, format_tainlog bufsize buffer pos stamp wrapped = .ok (b, len, w) ∧
      0 < len ∧ len ≤ bufsize ∧
      (separator (chars_to_list b len) = '\t' ↔ wrapped = true) ∧
      (chars_to_list b len).drop BUFFER_START
        = chunk buffer BUFFER_START pos ++ final_newline (chunk buffer BUFFER_START pos) ∧
      (w = true → ((chars_to_list b len).drop BUFFER_START).dropLast
        = chunk buffer BUFFER_START pos) ∧
      (w = false → (chars_to_list b len).drop BUFFER_START = chunk buffer BUFFER_START pos) := by
  obtain ⟨b, len, w, f1, _, f3, f4, f5, f6, f7⟩ :=
    format_tainlog_spec bufsize buffer pos stamp wrapped h1 h2
  have hlen : pos ≤ len := by
    rw [f6]
    omega
  have hsep : separator (chars_to_list b len) = '\t' ↔ wrapped = true := by
    unfold separator
    rw [chars_to_list_getD _ _ _ _
      (by simp only [BUFFER_START, BUFFER_SEPARATOR] at h1 ⊢; omega), f3]
    cases wrapped <;> simp
  have hC : chunk b BUFFER_START pos = chunk buffer BUFFER_START pos := chunk_congr _ _ _ _ f4
  have hne := chunk_ne_nil buffer BUFFER_START pos h1
  have hfin : final_newline (chunk buffer BUFFER_START pos)
      = if buffer (pos - 1) ≠ '\n' then ['\n'] else [] := by
    unfold final_newline
    rw [chunk_getLast _ _ _ h1]
    simp [hne]
  have hdrop : (chars_to_list b len).drop BUFFER_START = chunk b BUFFER_START len :=
    chars_to_list_drop _ _ _ (by omega)
  refine ⟨b, len, w, f1, by omega, by rw [f6]; split <;> omega, hsep, ?_, ?_, ?_⟩
  · rw [hdrop, hfin]
    cases w with
    | true =>
      have hw := f5.mp rfl
      simp only [if_true] at f6
      rw [f6, chunk_snoc _ _ _ (Nat.le_of_lt h1), hC, f7 rfl]
      simp [hw]
    | false =>
      have hw : ¬ buffer (pos - 1) ≠ '\n' := fun hh => Bool.noConfusion (f5.mpr hh)
      simp only [Bool.false_eq_true, if_false, Nat.add_zero] at f6
      rw [f6, hC]
      simp only [hw, if_false, List.append_nil]
  · intro hw
    subst hw
    simp only [if_true] at f6
    rw [hdrop, f6, chunk_snoc _ _ _ (Nat.le_of_lt h1), hC]
    simp
  · intro hw
    subst hw
    simp only [Bool.false_eq_true, if_false, Nat.add_zero] at f6
    rw [hdrop, f6, hC]

/-- The loop of `tainlog` ends within one round more than there are read
results left, and the records it adds reassemble to the bytes read. -/
theorem tainlog_loop_spec (bufsize : Nat) (h60 : 60 ≤ bufsize) (filesize : Nat) (keepnum : Int)
    (env : Nat → AppendEnv) :
    ∀ (fuel : Nat) (T : Tainlog), T.input.length < fuel →
      ∃ T1, tainlog_loop bufsize filesize keepnum env fuel T = .done T1 ∧
        ∃ new, T1.records = T.records ++ new ∧
          (new = [] ↔ input_bytes T.input = []) ∧
          (∀ r rest, new = r :: rest → (separator r = '\t' ↔ T.wrapped = true)) ∧
          reassemble new = input_bytes T.input ++ final_newline (input_bytes T.input) := by
  intro fuel
  induction fuel with
  | zero =>
    intro T h
    omega
  | succ fuel ih =>
    intro T hlen
    have hs : BUFFER_START < bufsize - 1 := by
      simp only [BUFFER_START, NGIM_TAIN_FORMAT, NGIM_TAIN_PACK]
      omega
    have hrd : readline T.buffer BUFFER_START (bufsize - 1) T.stamp T.input =
        .ok (if (readline_loop BUFFER_START (bufsize - 1) T.input T.buffer BUFFER_START
              T.stamp).pos > BUFFER_START then 1 else 0,
            readline_loop BUFFER_START (bufsize - 1) T.input T.buffer BUFFER_START T.stamp) := by
      simp only [readline, hs, not_true, if_false]
    obtain ⟨r1, r2, _, _, r5, _, r7, r8⟩ :=
      readline_loop_spec BUFFER_START (bufsize - 1) T.input T.buffer BUFFER_START T.stamp hs
    generalize readline_loop BUFFER_START (bufsize - 1) T.input T.buffer BUFFER_START T.stamp
      = R at *
    by_cases hpos : BUFFER_START < R.pos
    · obtain ⟨b, len, w, f1, f2, f3, f4, f5, f6, f7⟩ :=
        record_payload bufsize R.buffer R.pos R.stamp T.wrapped hpos (by omega)
      obtain ⟨L, hL⟩ := append_tainlog_total bufsize filesize keepnum (env T.records.length)
        len R.stamp T.logger f2 f3
      have hne := chunk_ne_nil R.buffer BUFFER_START R.pos hpos
      cases hE : R.flag_eof with
      | true =>
        have hrest := r7 hE
        rw [hrest] at r5
        simp only [input_bytes, List.append_nil] at r5
        refine ⟨(⟨b, R.stamp, w, true, R.rest, L, T.records ++ [chars_to_list b len]⟩ : Tainlog),
          ?_, [chars_to_list b len], rfl, ?_, ?_, ?_⟩
        · simp only [tainlog_loop, hrd, gt_iff_lt, hpos, if_true, ne_eq, one_ne_zero,
            not_false_eq_true, f1, hL, hE]
        · rw [r5]
          simp [hne]
        · intro r rest h
          rw [List.cons.injEq] at h
          rw [← h.1]
          exact f4
        · rw [r5]
          simp only [reassemble]
          exact f5
      | false =>
        obtain ⟨_, hshort⟩ := r8 hE
        obtain ⟨T2, t1, new, t2, t3, t4, t5⟩ := ih
          { buffer := b, stamp := R.stamp, wrapped := w, flag_eof := false,
            input := R.rest, logger := L,
            records := T.records ++ [chars_to_list b len] } (by simp only; omega)
        simp only at t2 t3 t4 t5
        refine ⟨T2, ?_, chars_to_list b len :: new, ?_, ?_, ?_, ?_⟩
        · simp only [tainlog_loop, hrd, gt_iff_lt, hpos, if_true, ne_eq, one_ne_zero,
            not_false_eq_true, f1, hL, hE, Bool.false_eq_true, if_false]
          exact t1
        · rw [t2, List.append_assoc]
          rfl
        · rw [r5]
          simp [hne]
        · intro r rest h
          rw [List.cons.injEq] at h
          rw [← h.1]
          exact f4
        · rw [r5]
          cases new with
          | nil =>
            have hb := t3.mp rfl
            rw [hb]
            simp only [reassemble, List.append_nil]
            exact f5
          | cons r2 rest =>
            have hb : input_bytes R.rest ≠ [] := fun e => by
              have := t3.mpr e
              cases this
            have hsep := t4 r2 rest rfl
            rw [final_newline_append _ _ hb, List.append_assoc, ← t5]
            simp only [reassemble]
            congr 1
            cases w with
            | true =>
              simp only [hsep.mpr rfl, if_true]
              exact f6 rfl
            | false =>
              have : ¬ separator r2 = '\t' := fun hh => Bool.noConfusion (hsep.mp hh)
              simp only [this, if_false]
              exact f7 rfl
    · have hp : R.pos = BUFFER_START := by omega
      cases hE : R.flag_eof with
      | false => exact absurd (r8 hE).1 hpos
      | true =>
        have hrest := r7 hE
        rw [hrest, hp, chunk_self] at r5
        simp only [input_bytes, List.append_nil] at r5
        refine ⟨(⟨R.buffer, R.stamp, T.wrapped, true, R.rest, T.logger, T.records⟩ : Tainlog),
          ?_, [], (List.append_nil _).symm, ?_, ?_, ?_⟩
        · simp only [tainlog_loop, hrd, gt_iff_lt, hpos, if_false, ne_eq, not_true, hE, if_true]
        · simp [r5]
        · intro r rest h
          cases h
        · rw [r5]
          simp [reassemble, final_newline]

/-- C19. For every input (read errors included), every line buffer of at
least `MIN_BUFSIZE` bytes, every log directory and whatever the file
operations answer, the loop of `tainlog` ends within one round more than
there are read results, and its records reassemble to the input: stripping
stamp and separator from each record and the final newline from each record
followed by a tab-separated one, the concatenation is the input, followed by
one newline when the input is non-empty and does not end with one. -/
theorem reassembly (bufsize : Nat) (h60 : 60 ≤ bufsize) (filesize : Nat) (keepnum : Int)
    (env : Nat → AppendEnv) (dir : List LogFile) (open_ok lock_ok : Bool)
    (stamp0 : ngim_tain_t) (input : List ReadResult) (fuel : Nat)
    (hfuel : input.length < fuel) :
    ∃ T, tainlog_loop bufsize filesize keepnum env fuel
        (tainlog_init dir open_ok lock_ok stamp0 input) = .done T ∧
      reassemble T.records = input_bytes input ++ final_newline (input_bytes input) := by
  obtain ⟨T, t1, new, t2, _, _, t5⟩ := tainlog_loop_spec bufsize h60 filesize keepnum env fuel
    (tainlog_init dir open_ok lock_ok stamp0 input) hfuel
  refine ⟨T, t1, ?_⟩
  rw [t2]
  simpa [tainlog_init] using t5

/-- Reassembly of a line that wraps in a line buffer of 60 bytes. -/
theorem reassembly_witness :
    60 ≤ 60 ∧ long_line.length < 43 ∧
    ∃ T, tainlog_loop 60 1000 10 (fun _ => ok_env) 43
        (tainlog_init [] true true (tick 0) long_line) = .done T ∧
      reassemble T.records = input_bytes long_line ++ final_newline (input_bytes long_line) :=
  ⟨by decide, by decide,
    reassembly 60 (by decide) 1000 10 (fun _ => ok_env) [] true true (tick 0) long_line 43
      (by decide)⟩

/-! ## The line logger: rotation -/

theorem archive_name_shape (t : ngim_tain_t) :
    (archive_name t).head? = some '@' ∧ (archive_name t).length = NGIM_TAIN_FORMAT := by
  unfold archive_name
  refine ⟨?_, by simp [chars_to_list]⟩
  unfold ngim_tain_format
  have e : NGIM_TAIN_FORMAT = 2 * NGIM_TAIN_PACK + 1 := by
    simp [NGIM_TAIN_FORMAT, NGIM_TAIN_PACK]
  rw [e, chars_to_list_format]
  rfl

theorem is_archive_named (t : ngim_tain_t) (s : Nat) :
    is_archive { name := archive_name t, filetype := .reg, size := s } = true := by
  obtain ⟨h1, h2⟩ := archive_name_shape t
  simp [is_archive, h1, h2]

theorem is_archive_not_current (f : LogFile) (h : is_archive f = true) :
    f.name ≠ FILE_CURRENT := by
  intro e
  simp [is_archive, e, FILE_CURRENT] at h

/-- Archive names are ordered by `strcmp` as their stamps are by time. -/
theorem archive_name_lt (t u : ngim_tain_t) (htx : t.sec.x < 2 ^ 64) (htn : t.nano < 2 ^ 32)
    (hux : u.sec.x < 2 ^ 64) (hun : u.nano < 2 ^ 32) (h : ngim_tain_less t u ≠ 0) :
    strcmp (archive_name t) (archive_name u) < 0 := by
  obtain ⟨e1, v1⟩ := archive_name_eq t htx htn
  obtain ⟨e2, v2⟩ := archive_name_eq u hux hun
  rw [e1, e2, strcmp_cons_self,
    strcmp_hex _ _ (by rw [nibbles_length, nibbles_length]) (nibbles_lt _ _) (nibbles_lt _ _),
    v1, v2]
  unfold ngim_tain_less at h
  split_ifs at h <;> omega

theorem append_keep (bufsize filesize : Nat) (keepnum : Int) (len : Nat) (stamp : ngim_tain_t)
    (arch : List LogFile) (c : Nat) (ha : ∀ f ∈ arch, is_archive f = true)
    (h1 : 0 < len) (h2 : len ≤ bufsize) (h3 : c + len ≤ filesize) :
    append_tainlog bufsize filesize keepnum ok_env len stamp (logger_with arch c)
      = .done (logger_with arch (c + len)) := by
  have hc : len > 0 ∧ len ≤ bufsize := ⟨h1, h2⟩
  have hr : ¬ c + len > filesize := by omega
  have hmap : arch.map (fun f => if f.name = FILE_CURRENT
      then ({ f with size := f.size + len } : LogFile) else f) = arch := by
    rw [List.map_congr_left (g := id), List.map_id]
    intro f hf
    simp only [is_archive_not_current f (ha f hf), if_false, id]
  simp only [append_tainlog, logger_with, open_tainlog, ok_env, hc, hr, and_self, not_true,
    if_false, if_true, List.map_append, List.map_cons, List.map_nil, Nat.min_self, hmap]

theorem scan_sorted (h : LogFile) (t : List LogFile)
    (ha : ∀ f ∈ h :: t, is_archive f = true)
    (hs : (h :: t).Pairwise (fun a b => strcmp a.name b.name < 0)) :
    scan_archives (h :: t) (0, []) = ((h :: t).length, h.name) := by
  obtain ⟨hc, hm⟩ := scan_archives_spec (h :: t)
  have hall : (h :: t).filter is_archive = h :: t := List.filter_eq_self.mpr ha
  rw [hall] at hc
  have h0 : (scan_archives (h :: t) (0, [])).1 ≠ 0 := by
    rw [hc]
    simp
  obtain ⟨⟨f, hf, _, hfn⟩, hmin⟩ := hm h0
  apply Prod.ext
  · exact hc
  · simp only
    rw [← hfn]
    rcases List.mem_cons.mp hf with e | e
    · rw [e]
    · exfalso
      have hlt := (List.pairwise_cons.mp hs).1 f e
      rw [hfn] at hlt
      exact hmin h (List.mem_cons_self _ _) (ha h (List.mem_cons_self _ _)) hlt

theorem filter_head_sorted (h : LogFile) (t : List LogFile)
    (hs : (h :: t).Pairwise (fun a b => strcmp a.name b.name < 0)) :
    (h :: t).filter (fun f => f.name ≠ h.name) = t := by
  rw [List.filter_cons_of_neg (by simp)]
  apply List.filter_eq_self.mpr
  intro x hx
  rw [decide_eq_true_eq]
  intro e
  have hlt := (List.pairwise_cons.mp hs).1 x hx
  rw [e] at hlt
  exact strcmp_irrefl _ hlt

/-- With every operation succeeding, `flush_archive` takes the first of
`K + 1` archive files listed oldest first, and leaves fewer alone. -/
theorem flush_sorted (K : Nat) (arch : List LogFile) (fuel : Nat)
    (ha : ∀ f ∈ arch, is_archive f = true)
    (hs : arch.Pairwise (fun a b => strcmp a.name b.name < 0))
    (hl : arch.length ≤ K + 1) :
    flush_archive (K : Int) (fun _ => true) (fun _ => true) (fuel + 1) arch
      = .done (arch.drop (arch.length - K)) := by
  have hk : ¬ ((K : Int) < 0) := by omega
  cases arch with
  | nil =>
    simp [flush_archive, flush_loop, scan_archives, hk]
  | cons h t =>
    rw [flush_archive, if_neg hk, flush_loop]
    simp only [Bool.not_true, Bool.false_eq_true, if_false]
    rw [scan_sorted h t ha hs]
    simp only
    by_cases hgt : ((h :: t).length : Int) > K
    · have hlen : (h :: t).length = K + 1 := by omega
      have hgt2 : ¬ (((h :: t).length : Int) - 1 > K) := by omega
      rw [if_pos hgt, if_neg hgt2, filter_head_sorted h t hs]
      have e : (h :: t).length - K = 1 := by omega
      rw [e]
      rfl
    · have e : (h :: t).length - K = 0 := by omega
      rw [if_neg hgt, e]
      rfl

theorem close_sorted (stamp : ngim_tain_t) (arch : List LogFile) (c : Nat)
    (ha : ∀ f ∈ arch, is_archive f = true)
    (hnew : ∀ f ∈ arch, strcmp f.name (archive_name stamp) < 0) :
    close_tainlog stamp true (logger_with arch c)
      = { dir := arch ++ [archived stamp c],
          current_open := false, current_size := c } := by
  have hcur : FILE_CURRENT ≠ archive_name stamp := fun e =>
    is_archive_not_current (archived stamp 0) (is_archive_named stamp 0) e.symm
  have hfilter : (arch ++ [(⟨FILE_CURRENT, .reg, c⟩ : LogFile)]).filter
      (fun f => f.name ≠ archive_name stamp)
      = arch ++ [(⟨FILE_CURRENT, .reg, c⟩ : LogFile)] := by
    apply List.filter_eq_self.mpr
    intro f hf
    rw [decide_eq_true_eq]
    rcases List.mem_append.mp hf with h | h
    · intro e
      have := hnew f h
      rw [e] at this
      exact strcmp_irrefl _ this
    · rw [List.mem_singleton] at h
      rw [h]
      exact hcur
  have hmap : arch.map (fun f => if f.name = FILE_CURRENT
      then ({ f with name := archive_name stamp } : LogFile) else f) = arch := by
    rw [List.map_congr_left (g := id), List.map_id]
    intro f hf
    simp only [is_archive_not_current f (ha f hf), if_false, id]
  simp only [close_tainlog, logger_with, Bool.true_and, List.any_append, List.any_cons,
    List.any_nil, decide_True, Bool.true_or, Bool.or_true, if_true, hfilter, List.map_append,
    List.map_cons, List.map_nil, hmap, archived]

theorem open_fresh (arch : List LogFile) (c : Nat) (ha : ∀ f ∈ arch, is_archive f = true) :
    open_tainlog true true { dir := arch, current_open := false, current_size := c }
      = logger_with arch 0 := by
  have hfind : arch.find? (fun f => f.name = FILE_CURRENT) = none := by
    apply List.find?_eq_none.mpr
    intro f hf
    simpa using is_archive_not_current f (ha f hf)
  simp only [open_tainlog, Bool.false_eq_true, if_false, hfind, if_true, logger_with]

/-- A rotation with every operation succeeding: `current` becomes the newest
archive file, the oldest goes when there are more than `K`, and the buffer
starts a new `current`. -/
theorem append_turn (bufsize filesize K len : Nat) (stamp : ngim_tain_t)
    (arch : List LogFile) (c : Nat) (ha : ∀ f ∈ arch, is_archive f = true)
    (hs : arch.Pairwise (fun a b => strcmp a.name b.name < 0))
    (hnew : ∀ f ∈ arch, strcmp f.name (archive_name stamp) < 0)
    (hl : arch.length ≤ K) (h1 : 0 < len) (h2 : len ≤ bufsize) (h3 : c + len > filesize) :
    append_tainlog bufsize filesize (K : Int) ok_env len stamp (logger_with arch c)
      = .done (logger_with
          ((arch ++ [archived stamp c]).drop
            (arch.length + 1 - K)) len) := by
  have hc : len > 0 ∧ len ≤ bufsize := ⟨h1, h2⟩
  have ha2 : ∀ f ∈ arch ++ [archived stamp c],
      is_archive f = true := by
    intro f hf
    rcases List.mem_append.mp hf with h | h
    · exact ha f h
    · rw [List.mem_singleton] at h
      rw [h]
      exact is_archive_named stamp c
  have hs2 : (arch ++ [archived stamp c]).Pairwise
      (fun a b => strcmp a.name b.name < 0) := by
    apply List.pairwise_append.mpr
    refine ⟨hs, List.pairwise_singleton _ _, ?_⟩
    intro a ha1 b hb
    rw [List.mem_singleton] at hb
    rw [hb]
    exact hnew a ha1
  have ha3 : ∀ f ∈ (arch ++ [archived stamp c]).drop (arch.length + 1 - K), is_archive f = true :=
    fun f hf => ha2 f (List.mem_of_mem_drop hf)
  have hcl := close_sorted stamp arch c ha hnew
  have hd : flush_archive (K : Int) ok_env.dir_open_ok ok_env.remove_ok
      ((close_tainlog stamp ok_env.rename_ok (logger_with arch c)).dir.length + 1)
      (close_tainlog stamp ok_env.rename_ok (logger_with arch c)).dir
      = .done ((arch ++ [archived stamp c]).drop
          (arch.length + 1 - K)) := by
    have e : ok_env.rename_ok = true := rfl
    rw [e, hcl]
    have := flush_sorted K _ (arch ++ [archived stamp c]).length ha2 hs2 (by simp; omega)
    simpa using this
  have hmap : ∀ l : List LogFile, (∀ f ∈ l, is_archive f = true) →
      l.map (fun f => if f.name = FILE_CURRENT
        then ({ f with size := f.size + len } : LogFile) else f) = l := by
    intro l hl
    rw [List.map_congr_left (g := id), List.map_id]
    intro f hf
    simp only [is_archive_not_current f (hl f hf), if_false, id]
  have hsz : (logger_with arch c).current_size = c := rfl
  have e1 : ok_env.rename_ok = true := rfl
  have e2 : ok_env.open_ok = true := rfl
  have e3 : ok_env.lock_ok = true := rfl
  have e4 : ok_env.written len = len := rfl
  simp only [append_tainlog, hc, hsz, h3, hd, and_self, not_true, if_false, if_true, e2, e3, e4]
  rw [e1, hcl]
  simp only [open_fresh _ c ha3]
  simp only [logger_with, List.map_append, List.map_cons, List.map_nil, hmap _ ha3, if_true,
    Nat.min_self, Nat.zero_add]

theorem nth_archive_lt (clock : Nat → ngim_tain_t) (N : Nat)
    (hv : ∀ k, k < N → (clock k).sec.x < 2 ^ 64 ∧ (clock k).nano < 2 ^ 32)
    (hinc : ∀ i j, i < j → j < N → ngim_tain_less (clock i) (clock j) ≠ 0) (i j : Nat)
    (h : i < j) (hj : 2 * (3571 * j) < N) :
    strcmp (nth_archive clock i).name (nth_archive clock j).name < 0 := by
  simp only [nth_archive, archived]
  have hi : 2 * (3571 * i) < N := by omega
  exact archive_name_lt _ _ (hv _ hi).1 (hv _ hi).2 (hv _ hj).1 (hv _ hj).2
    (hinc _ _ (by omega) hj)

theorem archives_mem (clock : Nat → ngim_tain_t) (K q : Nat) (f : LogFile)
    (h : f ∈ archives clock K q) : ∃ j, j < q + 1 ∧ f = nth_archive clock j := by
  have h2 := List.mem_of_mem_drop h
  obtain ⟨j, hj, e⟩ := List.mem_map.mp h2
  rw [List.mem_range] at hj
  exact ⟨j + 1, by omega, e.symm⟩

theorem archives_all (clock : Nat → ngim_tain_t) (K q : Nat) :
    ∀ f ∈ archives clock K q, is_archive f = true := by
  intro f hf
  obtain ⟨j, _, e⟩ := archives_mem clock K q f hf
  rw [e]
  exact is_archive_named _ _

theorem archives_sorted (clock : Nat → ngim_tain_t) (N : Nat)
    (hv : ∀ k, k < N → (clock k).sec.x < 2 ^ 64 ∧ (clock k).nano < 2 ^ 32)
    (hinc : ∀ i j, i < j → j < N → ngim_tain_less (clock i) (clock j) ≠ 0) (K q : Nat)
    (hq : 2 * (3571 * q) < N) :
    (archives clock K q).Pairwise (fun a b => strcmp a.name b.name < 0) := by
  apply List.Pairwise.sublist (List.drop_sublist _ _)
  rw [List.pairwise_map]
  have hr : (List.range q).Pairwise (fun a b => a < b ∧ b < q) := by
    rw [List.pairwise_iff_getElem]
    intro i j hi hj hij
    simp only [List.getElem_range]
    rw [List.length_range] at hj
    exact ⟨hij, hj⟩
  apply List.Pairwise.imp _ hr
  intro a b hab
  exact nth_archive_lt clock N hv hinc _ _ (by omega) (by omega)

theorem archives_length (clock : Nat → ngim_tain_t) (K q : Nat) :
    (archives clock K q).length = q - (q - K) := by
  simp [archives]

theorem archives_succ (clock : Nat → ngim_tain_t) (K q : Nat) :
    (archives clock K q ++ [nth_archive clock (q + 1)]).drop
      ((archives clock K q).length + 1 - K) = archives clock K (q + 1) := by
  have hl := archives_length clock K q
  have e1 : archives clock K q ++ [nth_archive clock (q + 1)]
      = (((List.range q).map (fun j => nth_archive clock (j + 1))) ++
          [nth_archive clock (q + 1)]).drop (q - K) := by
    rw [List.drop_append_of_le_length (by simp)]
    rfl
  rw [e1, List.drop_drop, hl]
  unfold archives
  rw [List.range_succ, List.map_append, List.map_cons, List.map_nil]
  congr 1
  omega

theorem round_eof (bufsize : Nat) (h60 : 60 ≤ bufsize) (filesize : Nat) (keepnum : Int)
    (env : Nat → AppendEnv) (fuel : Nat) (T : Tainlog) (hin : T.input = []) :
    tainlog_loop bufsize filesize keepnum env (fuel + 1) T
      = .done ⟨T.buffer, T.stamp, T.wrapped, true, [], T.logger, T.records⟩ := by
  have hs : BUFFER_START < bufsize - 1 := by
    simp only [BUFFER_START, NGIM_TAIN_FORMAT, NGIM_TAIN_PACK]
    omega
  simp only [tainlog_loop, readline, hin, readline_loop, hs, not_true, if_false, gt_iff_lt,
    Nat.lt_irrefl, ne_eq, if_true]

theorem round_a (filesize : Nat) (keepnum : Int) (env : Nat → AppendEnv) (fuel : Nat)
    (T : Tainlog) (t1 t2 : ngim_tain_t) (rest : List ReadResult) (L : Logger)
    (hw : T.wrapped = false) (hin : T.input = .byte 'a' t1 :: .byte '\n' t2 :: rest)
    (hL : append_tainlog 148 filesize keepnum (env T.records.length) 28 t1 T.logger = .done L) :
    ∃ b, tainlog_loop 148 filesize keepnum env (fuel + 1) T
      = tainlog_loop 148 filesize keepnum env fuel
          ⟨b, t1, false, false, rest, L, T.records ++ [chars_to_list b 28]⟩ := by
  have hrl : readline_loop BUFFER_START (148 - 1) (.byte 'a' t1 :: .byte '\n' t2 :: rest)
      T.buffer BUFFER_START T.stamp
      = ⟨store (store T.buffer 26 'a') 27 '\n', 28, t1, false, rest⟩ := by
    simp [readline_loop, BUFFER_START, NGIM_TAIN_FORMAT, NGIM_TAIN_PACK]
  have hrd : readline T.buffer BUFFER_START (148 - 1) T.stamp T.input
      = .ok (1, ⟨store (store T.buffer 26 'a') 27 '\n', 28, t1, false, rest⟩) := by
    rw [hin]
    simp only [readline, hrl]
    simp [BUFFER_START, NGIM_TAIN_FORMAT, NGIM_TAIN_PACK]
  obtain ⟨b, len, w, f1, _, _, _, f5, f6, _⟩ :=
    format_tainlog_spec 148 (store (store T.buffer 26 'a') 27 '\n') 28 t1 T.wrapped
      (by simp [BUFFER_START, NGIM_TAIN_FORMAT, NGIM_TAIN_PACK]) (by omega)
  have hwf : w = false := by
    cases w with
    | false => rfl
    | true =>
      have := f5.mp rfl
      simp [store] at this
  subst hwf
  simp only [Bool.false_eq_true, if_false, Nat.add_zero] at f6
  subst f6
  rw [hw] at f1
  refine ⟨b, ?_⟩
  rw [tainlog_loop]
  simp only [hrd, ne_eq, one_ne_zero, not_false_eq_true, if_true, hw, f1, hL,
    Bool.false_eq_true, if_false]

theorem a_lines_bytes (clock : Nat → ngim_tain_t) :
    ∀ m i, (input_bytes (a_lines clock i m)).length = 2 * m ∧ (a_lines clock i m).length = 2 * m
  | 0, _ => by simp [a_lines, input_bytes]
  | m + 1, i => by
    obtain ⟨h1, h2⟩ := a_lines_bytes clock m (i + 1)
    simp only [a_lines, input_bytes, List.length_cons, h1, h2]
    omega

/-- The scenario of lines `"a\n"` with the default settings and every
operation succeeding, from the state after `3571 * q + r` lines: `q` rotations
done, `r` records in `current`. -/
theorem run_a_lines (clock : Nat → ngim_tain_t) (N : Nat)
    (hv : ∀ k, k < N → (clock k).sec.x < 2 ^ 64 ∧ (clock k).nano < 2 ^ 32)
    (hinc : ∀ i j, i < j → j < N → ngim_tain_less (clock i) (clock j) ≠ 0) :
    ∀ (m q r fuel : Nat) (T : Tainlog), m < fuel → r ≤ 3571 →
      2 * (3571 * q + r + m) ≤ N → T.wrapped = false →
      T.input = a_lines clock (3571 * q + r) m →
      T.logger = logger_with (archives clock 10 q) (28 * r) →
      ∃ T1 q1 r1, tainlog_loop 148 100000 10 (fun _ => ok_env) fuel T = .done T1 ∧
        T1.logger = logger_with (archives clock 10 q1) (28 * r1) ∧
        3571 * q1 + r1 = 3571 * q + r + m ∧ r1 ≤ 3571 ∧
        T1.records.length = T.records.length + m ∧
        (T1.records.map List.length).sum = (T.records.map List.length).sum + 28 * m := by
  intro m
  induction m with
  | zero =>
    intro q r fuel T hf hr _ _ hin hlog
    cases fuel with
    | zero => omega
    | succ fuel =>
      refine ⟨_, q, r, round_eof 148 (by omega) 100000 10 _ fuel T (by rw [hin]; rfl), hlog,
        rfl, hr, rfl, rfl⟩
  | succ m ih =>
    intro q r fuel T hf hr hN hw hin hlog
    cases fuel with
    | zero => omega
    | succ fuel =>
      have hin2 : T.input = .byte 'a' (clock (2 * (3571 * q + r))) ::
          .byte '\n' (clock (2 * (3571 * q + r) + 1)) ::
          a_lines clock (3571 * q + r + 1) m := by
        rw [hin]
        rfl
      by_cases hlt : r < 3571
      · have hL : append_tainlog 148 100000 10 ((fun _ => ok_env) T.records.length) 28
            (clock (2 * (3571 * q + r))) T.logger
            = .done (logger_with (archives clock 10 q) (28 * (r + 1))) := by
          rw [hlog]
          exact append_keep 148 100000 10 28 _ _ _ (archives_all clock 10 q) (by omega)
            (by omega) (by omega)
        obtain ⟨b, hb⟩ := round_a 100000 10 (fun _ => ok_env) fuel T _ _ _ _ hw hin2 hL
        obtain ⟨T1, q1, r1, t1, t2, t3, t4, t5, t6⟩ := ih q (r + 1) fuel
          ⟨b, clock (2 * (3571 * q + r)), false, false, a_lines clock (3571 * q + r + 1) m,
            logger_with (archives clock 10 q) (28 * (r + 1)),
            T.records ++ [chars_to_list b 28]⟩
          (by omega) (by omega) (by omega) rfl rfl rfl
        refine ⟨T1, q1, r1, by rw [hb]; exact t1, t2, by omega, t4, ?_, ?_⟩
        · rw [t5]
          simp only [List.length_append, List.length_singleton]
          omega
        · rw [t6]
          simp only [List.map_append, List.sum_append, List.map_cons, List.map_nil,
            List.sum_cons, List.sum_nil, chars_to_list, List.length_map, List.length_range]
          omega
      · have hr2 : r = 3571 := by omega
        subst hr2
        have hidx : 2 * (3571 * q + 3571) = 2 * (3571 * (q + 1)) := by omega
        have hnew : ∀ f ∈ archives clock 10 q,
            strcmp f.name (archive_name (clock (2 * (3571 * q + 3571)))) < 0 := by
          intro f hf
          obtain ⟨j, hj, e⟩ := archives_mem clock 10 q f hf
          rw [e, hidx]
          exact nth_archive_lt clock N hv hinc j (q + 1) hj (by omega)
        have hturn := append_turn 148 100000 10 28 (clock (2 * (3571 * q + 3571)))
          (archives clock 10 q) (28 * 3571) (archives_all clock 10 q)
          (archives_sorted clock N hv hinc 10 q (by omega)) hnew
          (by rw [archives_length]; omega) (by omega) (by omega) (by omega)
        have harch : archived (clock (2 * (3571 * q + 3571))) (28 * 3571)
            = nth_archive clock (q + 1) := by
          rw [hidx]
          rfl
        rw [harch, archives_succ] at hturn
        have hL : append_tainlog 148 100000 10 ((fun _ => ok_env) T.records.length) 28
            (clock (2 * (3571 * q + 3571))) T.logger
            = .done (logger_with (archives clock 10 (q + 1)) (28 * 1)) := by
          rw [hlog]
          exact hturn
        obtain ⟨b, hb⟩ := round_a 100000 10 (fun _ => ok_env) fuel T _ _ _ _ hw hin2 hL
        have hi2 : 3571 * q + 3571 + 1 = 3571 * (q + 1) + 1 := by omega
        obtain ⟨T1, q1, r1, t1, t2, t3, t4, t5, t6⟩ := ih (q + 1) 1 fuel
          ⟨b, clock (2 * (3571 * q + 3571)), false, false,
            a_lines clock (3571 * q + 3571 + 1) m,
            logger_with (archives clock 10 (q + 1)) (28 * 1),
            T.records ++ [chars_to_list b 28]⟩
          (by omega) (by omega) (by omega) rfl (by rw [hi2]) rfl
        refine ⟨T1, q1, r1, by rw [hb]; exact t1, t2, by omega, t4, ?_, ?_⟩
        · rw [t5]
          simp only [List.length_append, List.length_singleton]
          omega
        · rw [t6]
          simp only [List.map_append, List.sum_append, List.map_cons, List.map_nil,
            List.sum_cons, List.sum_nil, chars_to_list, List.length_map, List.length_range]
          omega

theorem sum_const {α : Type} (g : α → Nat) (c : Nat) :
    ∀ l : List α, (∀ x ∈ l, g x = c) → (l.map g).sum = l.length * c
  | [], _ => by simp
  | x :: xs, h => by
    rw [List.map_cons, List.sum_cons, h x (List.mem_cons_self _ _),
      sum_const g c xs (fun y hy => h y (List.mem_cons_of_mem _ hy)), List.length_cons]
    ring

/-- The run of the scenario: 100000 lines `"a\n"`, default settings, empty
log directory, every operation succeeding, stamps valid and strictly
increasing. -/
theorem rotation_run (clock : Nat → ngim_tain_t)
    (hv : ∀ k, k < 200000 → (clock k).sec.x < 2 ^ 64 ∧ (clock k).nano < 2 ^ 32)
    (hinc : ∀ i j, i < j → j < 200000 → ngim_tain_less (clock i) (clock j) ≠ 0)
    (stamp0 : ngim_tain_t) (fuel : Nat) (hfuel : 100000 < fuel) :
    ∃ T, tainlog_loop 148 100000 10 (fun _ => ok_env) fuel
        (tainlog_init [] true true stamp0 (a_lines clock 0 100000)) = .done T ∧
      T.logger.dir = archives clock 10 28 ++ [⟨FILE_CURRENT, .reg, 336⟩] ∧
      T.logger.current_size = 336 ∧
      T.records.length = 100000 ∧
      (T.records.map List.length).sum = 2800000 ∧
      (T.logger.dir.filter is_archive).length = 10 ∧
      (T.logger.dir.map LogFile.size).sum = 1000216 := by
  obtain ⟨T, q1, r1, t1, t2, t3, t4, t5, t6⟩ := run_a_lines clock 200000 hv hinc 100000 0 0 fuel
    (tainlog_init [] true true stamp0 (a_lines clock 0 100000)) hfuel (by omega) (by omega)
    rfl rfl rfl
  have hq : q1 = 28 := by omega
  have hr : r1 = 12 := by omega
  subst hq
  subst hr
  have hdir : T.logger.dir = archives clock 10 28 ++ [⟨FILE_CURRENT, .reg, 336⟩] := by
    rw [t2]
    rfl
  have hcur : is_archive ⟨FILE_CURRENT, .reg, 336⟩ = false := by
    simp [is_archive, FILE_CURRENT]
  have hsize : ∀ f ∈ archives clock 10 28, f.size = 99988 := by
    intro f hf
    obtain ⟨j, _, e⟩ := archives_mem clock 10 28 f hf
    rw [e]
    rfl
  refine ⟨T, t1, hdir, by rw [t2]; rfl, by simpa [tainlog_init] using t5,
    by simpa [tainlog_init] using t6, ?_, ?_⟩
  · rw [hdir, List.filter_append, List.filter_eq_self.mpr (archives_all clock 10 28),
      List.filter_cons_of_neg (by simp [hcur]), List.filter_nil, List.append_nil,
      archives_length]
  · rw [hdir, List.map_append, List.sum_append, sum_const _ 99988 _ hsize, archives_length]
    simp

theorem tick_valid : ∀ k, k < 200000 → (tick k).sec.x < 2 ^ 64 ∧ (tick k).nano < 2 ^ 32 := by
  intro k hk
  simp only [tick]
  omega

theorem tick_increasing :
    ∀ i j, i < j → j < 200000 → ngim_tain_less (tick i) (tick j) ≠ 0 := by
  intro i j h _
  simp [ngim_tain_less, tick, h]

/-- C14, as stated, fails. With the default settings (keep 10, line buffer
148, log size 100000), an empty log directory, every operation succeeding
and a clock that advances with every byte, the 200 000 input bytes of
100 000 lines `"a\n"` are written as 2 800 000 bytes of records; what is
left is not two archive files but ten, and the files total 1 000 216 bytes,
not 200 000. -/
theorem rotation_scenario_counterexample :
    tainlog_defaults = ⟨10, 148, 100000⟩ ∧
    (input_bytes (a_lines tick 0 100000)).length = 200000 ∧
    ∃ T, tainlog_loop 148 100000 10 (fun _ => ok_env) 100001
        (tainlog_init [] true true (tick 0) (a_lines tick 0 100000)) = .done T ∧
      (T.records.map List.length).sum = 2800000 ∧
      (T.logger.dir.filter is_archive).length = 10 ∧
      (T.logger.dir.filter is_archive).length ≠ 2 ∧
      (T.logger.dir.map LogFile.size).sum = 1000216 ∧
      (T.logger.dir.map LogFile.size).sum ≠ 200000 := by
  obtain ⟨T, t1, _, _, _, t5, t6, t7⟩ :=
    rotation_run tick tick_valid tick_increasing (tick 0) 100001 (by omega)
  refine ⟨rfl, (a_lines_bytes tick 100000 0).1, T, t1, t5, t6, ?_, t7, ?_⟩
  · rw [t6]
    omega
  · rw [t7]
    omega

/-- C14, amended. With the default settings, an empty log directory, every
operation succeeding and stamps valid and strictly increasing, the loop ends
on the 100 000 lines `"a\n"` having written 100 000 records, 2 800 000 bytes
in all. It leaves ten archive files of 99 988 bytes (3571 records each), the
last ten of the 28 it made, each named by a stamp later than the one before,
and a `current` of 336 bytes; the files total 1 000 216 bytes. -/
theorem rotation_scenario (clock : Nat → ngim_tain_t)
    (hv : ∀ k, k < 200000 → (clock k).sec.x < 2 ^ 64 ∧ (clock k).nano < 2 ^ 32)
    (hinc : ∀ i j, i < j → j < 200000 → ngim_tain_less (clock i) (clock j) ≠ 0)
    (stamp0 : ngim_tain_t) (fuel : Nat) (hfuel : 100000 < fuel) :
    ∃ T, tainlog_loop 148 100000 10 (fun _ => ok_env) fuel
        (tainlog_init [] true true stamp0 (a_lines clock 0 100000)) = .done T ∧
      T.records.length = 100000 ∧
      (T.records.map List.length).sum = 2800000 ∧
      T.logger.dir = (List.range 10).map
          (fun t => archived (clock (2 * (3571 * (19 + t)))) 99988)
        ++ [⟨FILE_CURRENT, .reg, 336⟩] ∧
      (T.logger.dir.filter is_archive).length = 10 ∧
      (T.logger.dir.filter is_archive).Pairwise (fun a b => strcmp a.name b.name < 0) ∧
      (T.logger.dir.map LogFile.size).sum = 1000216 := by
  obtain ⟨T, t1, t2, _, t4, t5, t6, t7⟩ := rotation_run clock hv hinc stamp0 fuel hfuel
  have harch : archives clock 10 28
      = (List.range 10).map (fun t => archived (clock (2 * (3571 * (19 + t)))) 99988) := by
    simp [archives, nth_archive, List.range_succ]
  refine ⟨T, t1, t4, t5, by rw [t2, harch], t6, ?_, t7⟩
  have hcur : is_archive ⟨FILE_CURRENT, .reg, 336⟩ = false := by
    simp [is_archive, FILE_CURRENT]
  rw [t2, List.filter_append, List.filter_eq_self.mpr (archives_all clock 10 28),
    List.filter_cons_of_neg (by simp [hcur]), List.filter_nil, List.append_nil]
  exact archives_sorted clock 200000 hv hinc 10 28 (by omega)

/-- The rotation scenario with a clock that advances one second per byte. -/
theorem rotation_scenario_witness :
    (∀ k, k < 200000 → (tick k).sec.x < 2 ^ 64 ∧ (tick k).nano < 2 ^ 32) ∧
    (∀ i j, i < j → j < 200000 → ngim_tain_less (tick i) (tick j) ≠ 0) ∧
    100000 < 100001 ∧
    ∃ T, tainlog_loop 148 100000 10 (fun _ => ok_env) 100001
        (tainlog_init [] true true (tick 0) (a_lines tick 0 100000)) = .done T ∧
      T.records.length = 100000 ∧
      (T.records.map List.length).sum = 2800000 ∧
      T.logger.dir = (List.range 10).map
          (fun t => archived (tick (2 * (3571 * (19 + t)))) 99988)
        ++ [⟨FILE_CURRENT, .reg, 336⟩] ∧
      (T.logger.dir.filter is_archive).length = 10 ∧
      (T.logger.dir.filter is_archive).Pairwise (fun a b => strcmp a.name b.name < 0) ∧
      (T.logger.dir.map LogFile.size).sum = 1000216 :=
  ⟨tick_valid, tick_increasing, by decide,
    rotation_scenario tick tick_valid tick_increasing (tick 0) 100001 (by decide)⟩

/-! ## The scanner's order -/

theorem strcmp_le_iff : ∀ a b : List Char, strcmp a b ≤ 0 ↔ ¬ strcmp b a < 0
  | [], [] => by simp [strcmp]
  | [], _ :: _ => by simp [strcmp]
  | _ :: _, [] => by simp [strcmp]
  | x :: xs, y :: ys => by
    by_cases hxy : x = y
    · subst hxy
      simp only [strcmp, if_true]
      exact strcmp_le_iff xs ys
    · have n1 := toNat_ne hxy
      have hyx : ¬ y = x := fun e => hxy e.symm
      simp only [strcmp, hxy, hyx, if_false]
      omega

theorem strcmp_le_total (a b : List Char) : strcmp a b ≤ 0 ∨ strcmp b a ≤ 0 := by
  rw [strcmp_le_iff a b, strcmp_le_iff b a]
  by_cases h : strcmp b a < 0
  · right
    intro h2
    exact strcmp_irrefl _ (strcmp_trans _ _ _ h h2)
  · exact Or.inl h

theorem strcmp_le_trans (a b c : List Char) (h1 : strcmp a b ≤ 0) (h2 : strcmp b c ≤ 0) :
    strcmp a c ≤ 0 := by
  rw [strcmp_le_iff] at h1 h2 ⊢
  intro h
  by_cases e1 : b = c
  · rw [e1] at h1
    exact h1 h
  · rcases strcmp_total b c e1 with h3 | h3
    · exact h1 (strcmp_trans _ _ _ h3 h)
    · exact h2 h3

theorem qsort_sorted (l : List finfo) :
    (qsort compare_finfo_name l).Pairwise (fun a b => strcmp b.name a.name ≤ 0) := by
  haveI : IsTotal finfo (fun a b => compare_finfo_name a b ≤ 0) :=
    ⟨fun a b => strcmp_le_total b.name a.name⟩
  haveI : IsTrans finfo (fun a b => compare_finfo_name a b ≤ 0) :=
    ⟨fun a b c h1 h2 => strcmp_le_trans c.name b.name a.name h2 h1⟩
  exact List.sorted_insertionSort (fun a b => compare_finfo_name a b ≤ 0) l

theorem scan_start_loop_mem (info : List finfo) (stop : Nat → Bool) :
    ∀ (n : Nat) (x : finfo), x ∈ scan_start_loop info stop n →
      ∃ j, j < n ∧ x = info.getD j { name := [], filetype := .other } := by
  intro n
  induction n with
  | zero =>
    intro x hx
    simp [scan_start_loop] at hx
  | succ n ih =>
    intro x hx
    unfold scan_start_loop at hx
    split at hx
    · cases hx
    · rcases List.mem_cons.mp hx with e | e
      · exact ⟨n, Nat.lt_succ_self n, e⟩
      · obtain ⟨j, hj, e2⟩ := ih x e
        exact ⟨j, by omega, e2⟩

/-- The loop that calls `start` walks a descending array from its end: the
entries come out in ascending order, up to the point where `flag_stop` is
seen. -/
theorem scan_start_loop_ascending (info : List finfo) (stop : Nat → Bool)
    (hs : info.Pairwise (fun a b => strcmp b.name a.name ≤ 0)) :
    ∀ n, n ≤ info.length →
      (scan_start_loop info stop n).Pairwise (fun a b => strcmp a.name b.name ≤ 0) := by
  intro n
  induction n with
  | zero =>
    intro _
    simp [scan_start_loop]
  | succ n ih =>
    intro hn
    unfold scan_start_loop
    split
    · exact List.Pairwise.nil
    · apply List.Pairwise.cons _ (ih (by omega))
      intro x hx
      obtain ⟨j, hj, e⟩ := scan_start_loop_mem info stop n x hx
      rw [e, List.getD_eq_getElem _ _ (by omega), List.getD_eq_getElem _ _ (by omega)]
      exact (List.pairwise_iff_getElem.mp hs) j n (by omega) (by omega) hj

/-- C21, as stated, fails. A directory with the links `a` and `b` is sorted
into the array `b`, `a`, and the loop that counts `active` down hands `a` to
`start` first: the entry with the smaller name goes before the one with the
greater name, whichever way the directory was read. -/
theorem scanner_order_counterexample :
    qsort compare_finfo_name (scan_read two_links []).1
      = [{ name := ['b'], filetype := .lnk }, { name := ['a'], filetype := .lnk }] ∧
    (scan_pass two_links (fun _ => false)).1
      = [{ name := ['a'], filetype := .lnk }, { name := ['b'], filetype := .lnk }] ∧
    (scan_pass two_links.reverse (fun _ => false)).1
      = [{ name := ['a'], filetype := .lnk }, { name := ['b'], filetype := .lnk }] ∧
    strcmp ['b'] ['a'] > 0 := by
  decide

/-- C21, amended. In each pass the collected entries are sorted descending by
name, and the loop hands them to `start` from the end of the array: monitors
are started in ascending `strcmp` order of link name, an entry handed to
`start` earlier never having the greater name, up to the point where a stop
signal ends the pass. -/
theorem scanner_order (entries : List finfo) (stop : Nat → Bool) :
    (qsort compare_finfo_name (scan_read entries []).1).Pairwise
      (fun a b => strcmp b.name a.name ≤ 0) ∧
    (scan_pass entries stop).1.Pairwise (fun a b => strcmp a.name b.name ≤ 0) ∧
    (scan_pass entries (fun _ => false)).1
      = (qsort compare_finfo_name (scan_read entries []).1).reverse := by
  refine ⟨qsort_sorted _, ?_, ?_⟩
  · unfold scan_pass
    apply scan_start_loop_ascending _ _ (qsort_sorted _)
    exact Nat.le_of_eq (qsort_perm compare_finfo_name (scan_read entries []).1).length_eq.symm
  · unfold scan_pass
    simp only
    rw [scan_start_loop_all _ _
        (Nat.le_of_eq (qsort_perm compare_finfo_name (scan_read entries []).1).length_eq.symm),
      ← (qsort_perm compare_finfo_name (scan_read entries []).1).length_eq, List.take_length]

/-! ## Conversion from and to `apr_time_t` -/

/-- C30. The label `ngim_tain_from_apr` makes of a non-negative `apr_time_t`
is valid, but `ngim_tain_to_apr` does not give the time back: the 500
nanoseconds the first adds and the 500 the second adds before dividing by
1000 make one microsecond, so the round trip of `a` is `a + 1`. For `a = 0`
the label is `(2^62 + 10, 500)` and the time made of it is 1. -/
theorem apr_roundtrip_slip :
    ngim_tain_from_apr 0 = { sec := { x := 4611686018427387914 }, nano := 500 } ∧
    ngim_tain_to_apr (ngim_tain_from_apr 0) = 1 ∧
    ngim_tain_to_apr (ngim_tain_from_apr 1999999) = 2000000 ∧
    (∀ a : Int, 0 ≤ a → a < 2 ^ 63 - 1 →
      (ngim_tain_from_apr a).nano ≤ TAI_MAX_NA ∧
      (ngim_tain_from_apr a).sec.x ≤ TAI_MAX_SEC ∧
      ngim_tain_to_apr (ngim_tain_from_apr a) = a + 1) := by
  have key : ∀ a : Int, 0 ≤ a → a < 2 ^ 63 - 1 →
      (ngim_tain_from_apr a).nano ≤ TAI_MAX_NA ∧
      (ngim_tain_from_apr a).sec.x ≤ TAI_MAX_SEC ∧
      ngim_tain_to_apr (ngim_tain_from_apr a) = a + 1 := by
    intro a h0 h1
    have e1 : a.tdiv 1000000 = a / 1000000 := Int.tdiv_eq_ediv h0 (by norm_num)
    have e2 : a.tmod 1000000 = a % 1000000 := Int.tmod_eq_emod h0 (by norm_num)
    have hx : ((ngim_tain_from_apr a).sec.x : Int) = 4611686018427387914 + a / 1000000 := by
      unfold ngim_tain_from_apr apr_time_sec APR_USEC_PER_SEC NGIM_TAI_APR_EPOCH
      rw [e1]
      show (((4611686018427387914 + a / 1000000) % 2 ^ 64).toNat : Int) = _
      omega
    have hn : ((ngim_tain_from_apr a).nano : Int) = 1000 * (a % 1000000) + 500 := by
      unfold ngim_tain_from_apr apr_time_usec APR_USEC_PER_SEC
      rw [e2]
      show (((1000 * (a % 1000000) + 500) % 2 ^ 32).toNat : Int) = _
      omega
    generalize ngim_tain_from_apr a = t at hx hn
    have hs : ((((t.sec.x : Int) - 4611686018427387914) % 2 ^ 64).toNat : Int)
        = a / 1000000 := by omega
    have hu : (((t.nano + 500) % 2 ^ 32 / 1000 : Nat) : Int) = a % 1000000 + 1 := by omega
    refine ⟨by unfold TAI_MAX_NA; omega, by unfold TAI_MAX_SEC; omega, ?_⟩
    unfold ngim_tain_to_apr apr_time_make to_int64 APR_USEC_PER_SEC NGIM_TAI_APR_EPOCH APR_MAX_U
    simp only
    generalize (((t.sec.x : Int) - 4611686018427387914) % 2 ^ 64).toNat = sN at hs ⊢
    generalize (t.nano + 500) % 2 ^ 32 / 1000 = uN at hu ⊢
    split_ifs <;> omega
  refine ⟨?_, ?_, ?_, key⟩
  · simp [ngim_tain_from_apr, apr_time_sec, apr_time_usec, APR_USEC_PER_SEC, NGIM_TAI_APR_EPOCH]
  · exact (key 0 (by norm_num) (by norm_num)).2.2
  · exact (key 1999999 (by norm_num) (by norm_num)).2.2

/-! ## The pipe assertion -/

/-- C27. A state with log running and no pipe is reachable: from the state
with both children running, a KILL command closes the pipe and terminates
both children; when run exits and log survives all five signals,
`terminate_child` gives up and leaves `log.pid` non-zero. In that state the
next `start_children` reaches `create_procattr_run` with log running and
`pipe_runlog[1]` NULL, and its `die_assert` fails: the loop body ends in the
assertion. -/
theorem pipe_assert_fails :
    parse_command 65 MONITOR_CMD_KILL (fun _ => [100]) (fun _ => []) both_running
      = .ok log_survives ∧
    Reachable 65 log_survives ∧
    log_survives.log.pid ≠ 0 ∧ log_survives.pipe_runlog1 = false ∧
    start_children (env_ok true 0 106) log_survives = .error .assertion ∧
    monitor_iter 65
      { reaped := [], env := env_ok true 0 106, cmd := none, rr := fun _ => [],
        rl := fun _ => [] } log_survives = .error .assertion := by
  have hk : parse_command 65 MONITOR_CMD_KILL (fun _ => [100]) (fun _ => []) both_running
      = .ok log_survives := rfl
  refine ⟨hk, ?_, by decide, rfl, rfl, rfl⟩
  refine Reachable.command MONITOR_CMD_KILL (fun _ => [100]) (fun _ => [])
    both_running_reachable rfl (by decide) ?_ ?_ hk
  · intro i p hp
    rw [List.mem_singleton] at hp
    omega
  · intro i p hp
    cases hp

/-! ## ISO 8601 dates -/

theorem to_char_digit (e : Int) (h0 : 0 ≤ e) (h9 : e ≤ 9) :
    (to_char (e + char_zero)).isDigit = true := by
  interval_cases e <;> rfl

theorem to_char_not_digit (e : Int) (h0 : -9 ≤ e) (h9 : e ≤ -1) :
    (to_char (e + char_zero)).isDigit = false := by
  interval_cases e <;> rfl

theorem tdiv_digit (x k : Int) (h0 : 0 ≤ x) (hk : 0 < k) (h : x < 10 * k) :
    0 ≤ x.tdiv k ∧ x.tdiv k ≤ 9 := by
  rw [Int.tdiv_eq_ediv h0 (le_of_lt hk)]
  constructor
  · exact Int.ediv_nonneg h0 (le_of_lt hk)
  · have : x / k < 10 := Int.ediv_lt_of_lt_mul hk h
    omega

theorem tmod_range (x k : Int) (h0 : 0 ≤ x) (hk : 0 < k) :
    0 ≤ x.tmod k ∧ x.tmod k < k := by
  rw [Int.tmod_eq_emod h0 (le_of_lt hk)]
  exact ⟨Int.emod_nonneg x (ne_of_gt hk), Int.emod_lt_of_pos x hk⟩

theorem iso_two_digits (x : Int) (h0 : 0 ≤ x) (h : x ≤ 99) :
    (iso_two x).length = 2 ∧ ∀ c ∈ iso_two x, c.isDigit = true := by
  refine ⟨rfl, ?_⟩
  intro c hc
  simp only [iso_two, List.mem_cons, List.mem_singleton, List.not_mem_nil, or_false] at hc
  obtain ⟨a1, a2⟩ := tdiv_digit x 10 h0 (by norm_num) (by omega)
  obtain ⟨b1, b2⟩ := tmod_range x 10 h0 (by norm_num)
  rcases hc with e | e
  · rw [e]
    exact to_char_digit _ a1 a2
  · rw [e]
    exact to_char_digit _ b1 (by omega)

theorem iso_year_digits (exp : apr_time_exp_t) (h0 : 0 ≤ exp.tm_year + 1900)
    (h : exp.tm_year + 1900 ≤ 99999) :
    ∃ Y, iso_year exp = Y ++ ['-'] ∧ (Y.length = 4 ∨ Y.length = 5) ∧
      ∀ c ∈ Y, c.isDigit = true := by
  have m1 := tmod_range (exp.tm_year + 1900) 10000 h0 (by norm_num)
  have m2 := tmod_range (exp.tm_year + 1900) 1000 h0 (by norm_num)
  have m3 := tmod_range (exp.tm_year + 1900) 100 h0 (by norm_num)
  have m4 := tmod_range (exp.tm_year + 1900) 10 h0 (by norm_num)
  have d1 := tdiv_digit _ 1000 m1.1 (by norm_num) (by omega)
  have d2 := tdiv_digit _ 100 m2.1 (by norm_num) (by omega)
  have d3 := tdiv_digit _ 10 m3.1 (by norm_num) (by omega)
  by_cases hy : exp.tm_year + 1900 > 9999
  · have d0 := tdiv_digit (exp.tm_year + 1900) 10000 h0 (by norm_num) (by omega)
    refine ⟨[to_char ((exp.tm_year + 1900).tdiv 10000 + char_zero),
      to_char (((exp.tm_year + 1900).tmod 10000).tdiv 1000 + char_zero),
      to_char (((exp.tm_year + 1900).tmod 1000).tdiv 100 + char_zero),
      to_char (((exp.tm_year + 1900).tmod 100).tdiv 10 + char_zero),
      to_char ((exp.tm_year + 1900).tmod 10 + char_zero)],
      by simp only [iso_year, hy, if_true]; rfl, Or.inr rfl, ?_⟩
    intro c hc
    simp only [List.mem_cons, List.mem_singleton, List.not_mem_nil, or_false] at hc
    rcases hc with e | e | e | e | e <;> rw [e]
    · exact to_char_digit _ d0.1 d0.2
    · exact to_char_digit _ d1.1 d1.2
    · exact to_char_digit _ d2.1 d2.2
    · exact to_char_digit _ d3.1 d3.2
    · exact to_char_digit _ m4.1 (by omega)
  · have d0 := tdiv_digit (exp.tm_year + 1900) 1000 h0 (by norm_num) (by omega)
    refine ⟨[to_char ((exp.tm_year + 1900).tdiv 1000 + char_zero),
      to_char (((exp.tm_year + 1900).tmod 1000).tdiv 100 + char_zero),
      to_char (((exp.tm_year + 1900).tmod 100).tdiv 10 + char_zero),
      to_char ((exp.tm_year + 1900).tmod 10 + char_zero)],
      by simp only [iso_year, hy, if_false]; rfl, Or.inl rfl, ?_⟩
    intro c hc
    simp only [List.mem_cons, List.mem_singleton, List.not_mem_nil, or_false] at hc
    rcases hc with e | e | e | e <;> rw [e]
    · exact to_char_digit _ d0.1 d0.2
    · exact to_char_digit _ d2.1 d2.2
    · exact to_char_digit _ d3.1 d3.2
    · exact to_char_digit _ m4.1 (by omega)

theorem iso_usec_digits (exp : apr_time_exp_t) (h0 : 0 ≤ exp.tm_usec)
    (h : exp.tm_usec ≤ 999999) :
    (exp.tm_usec = 0 → iso_usec exp = []) ∧
    (exp.tm_usec ≠ 0 → ∃ D, iso_usec exp = '.' :: D ∧ D.length = 6 ∧
      ∀ c ∈ D, c.isDigit = true) := by
  constructor
  · intro e
    simp [iso_usec, e]
  · intro hne
    have hp : exp.tm_usec > 0 := by omega
    have m1 := tmod_range exp.tm_usec 100000 h0 (by norm_num)
    have m2 := tmod_range exp.tm_usec 10000 h0 (by norm_num)
    have m3 := tmod_range exp.tm_usec 1000 h0 (by norm_num)
    have m4 := tmod_range exp.tm_usec 100 h0 (by norm_num)
    have m5 := tmod_range exp.tm_usec 10 h0 (by norm_num)
    have d0 := tdiv_digit exp.tm_usec 100000 h0 (by norm_num) (by omega)
    have d1 := tdiv_digit _ 10000 m1.1 (by norm_num) (by omega)
    have d2 := tdiv_digit _ 1000 m2.1 (by norm_num) (by omega)
    have d3 := tdiv_digit _ 100 m3.1 (by norm_num) (by omega)
    have d4 := tdiv_digit _ 10 m4.1 (by norm_num) (by omega)
    refine ⟨[to_char (exp.tm_usec.tdiv 100000 + char_zero),
      to_char ((exp.tm_usec.tmod 100000).tdiv 10000 + char_zero),
      to_char ((exp.tm_usec.tmod 10000).tdiv 1000 + char_zero),
      to_char ((exp.tm_usec.tmod 1000).tdiv 100 + char_zero),
      to_char ((exp.tm_usec.tmod 100).tdiv 10 + char_zero),
      to_char (exp.tm_usec.tmod 10 + char_zero)],
      by simp only [iso_usec, hp, if_true], rfl, ?_⟩
    intro c hc
    simp only [List.mem_cons, List.mem_singleton, List.not_mem_nil, or_false] at hc
    rcases hc with e | e | e | e | e | e <;> rw [e]
    · exact to_char_digit _ d0.1 d0.2
    · exact to_char_digit _ d1.1 d1.2
    · exact to_char_digit _ d2.1 d2.2
    · exact to_char_digit _ d3.1 d3.2
    · exact to_char_digit _ d4.1 d4.2
    · exact to_char_digit _ m5.1 (by omega)

theorem iso_zone_digits (exp : apr_time_exp_t) (h0 : 0 ≤ exp.tm_gmtoff)
    (h : exp.tm_gmtoff < 360000) :
    (exp.tm_gmtoff = 0 → iso_zone exp = ['Z']) ∧
    (exp.tm_gmtoff ≠ 0 → ∃ H M, iso_zone exp = '+' :: (H ++ M) ∧ H.length = 2 ∧
      (M.length = 2 ∨ M = []) ∧ (M = [] ↔ exp.tm_gmtoff % 3600 < 60) ∧
      ∀ c ∈ H ++ M, c.isDigit = true) := by
  constructor
  · intro e
    simp [iso_zone, e]
  · intro hne
    have hp : exp.tm_gmtoff > 0 := by omega
    have e1 : exp.tm_gmtoff.tdiv 3600 = exp.tm_gmtoff / 3600 :=
      Int.tdiv_eq_ediv h0 (by norm_num)
    have e2 : exp.tm_gmtoff.tmod 3600 = exp.tm_gmtoff % 3600 :=
      Int.tmod_eq_emod h0 (by norm_num)
    have e3 : (exp.tm_gmtoff % 3600).tdiv 60 = exp.tm_gmtoff % 3600 / 60 :=
      Int.tdiv_eq_ediv (by omega) (by norm_num)
    have hH := iso_two_digits (exp.tm_gmtoff / 3600) (by omega) (by omega)
    have hM := iso_two_digits (exp.tm_gmtoff % 3600 / 60) (by omega) (by omega)
    simp only [iso_zone, ne_eq, hne, not_false_eq_true, if_true, hp, e1, e2, e3,
      List.singleton_append, List.append_assoc]
    by_cases hm : exp.tm_gmtoff % 3600 / 60 > 0
    · refine ⟨iso_two (exp.tm_gmtoff / 3600), iso_two (exp.tm_gmtoff % 3600 / 60),
        by simp only [hm, if_true]; rfl, hH.1, Or.inl hM.1, ?_, ?_⟩
      · constructor
        · intro e
          have := hM.1
          rw [e] at this
          cases this
        · intro hlt
          omega
      · intro c hc
        rcases List.mem_append.mp hc with hc | hc
        · exact hH.2 c hc
        · exact hM.2 c hc
    · refine ⟨iso_two (exp.tm_gmtoff / 3600), [], by simp only [hm, if_false]; rfl, hH.1,
        Or.inr rfl, ?_, ?_⟩
      · constructor
        · intro _
          omega
        · intro _
          rfl
      · intro c hc
        rw [List.append_nil] at hc
        exact hH.2 c hc

/-- C26. For a negative offset from UTC `format_iso8601` does not write the
digits of the offset's magnitude: it divides the negative offset itself, so
for UTC-5 (`tm_gmtoff = -18000`) it writes `-0+` where `-05` is due, and for
UTC-3:30 it writes `-0-` and drops the minutes. For every offset from -9 to
-1 hours a character after the sign is not a decimal digit. For offsets that
are zero or positive the shape holds: year of 4 or 5 digits, two-digit
fields, six digits of microseconds exactly when they are non-zero, `Z` or
`+hh` with `mm` when the minutes are non-zero. The string, with its NUL,
never exceeds `NGIM_ISO8601_FORMAT` bytes. -/
theorem iso8601_offset_slip :
    format_iso8601 (sample_time (-18000)) = "2005-06-15 12:30:45-0+".toList ++ [Char.ofNat 0] ∧
    format_iso8601 (sample_time (-12600)) = "2005-06-15 12:30:45-0-".toList ++ [Char.ofNat 0] ∧
    format_iso8601 (sample_time 19800) = "2005-06-15 12:30:45+0530".toList ++ [Char.ofNat 0] ∧
    format_iso8601 (sample_time 0) = "2005-06-15 12:30:45Z".toList ++ [Char.ofNat 0] ∧
    (∀ exp : apr_time_exp_t, -36000 < exp.tm_gmtoff → exp.tm_gmtoff ≤ -3600 →
      ∃ c ∈ (iso_zone exp).tail, c.isDigit = false) ∧
    (∀ exp : apr_time_exp_t, (format_iso8601 exp).length ≤ NGIM_ISO8601_FORMAT ∧
      (format_iso8601 exp).getLast? = some (Char.ofNat 0)) ∧
    (∀ exp : apr_time_exp_t, 0 ≤ exp.tm_year + 1900 → exp.tm_year + 1900 ≤ 99999 →
      ∃ Y, iso_year exp = Y ++ ['-'] ∧ (Y.length = 4 ∨ Y.length = 5) ∧
        ∀ c ∈ Y, c.isDigit = true) ∧
    (∀ x : Int, 0 ≤ x → x ≤ 99 →
      (iso_two x).length = 2 ∧ ∀ c ∈ iso_two x, c.isDigit = true) ∧
    (∀ exp : apr_time_exp_t, 0 ≤ exp.tm_usec → exp.tm_usec ≤ 999999 →
      (exp.tm_usec = 0 → iso_usec exp = []) ∧
      (exp.tm_usec ≠ 0 → ∃ D, iso_usec exp = '.' :: D ∧ D.length = 6 ∧
        ∀ c ∈ D, c.isDigit = true)) ∧
    (∀ exp : apr_time_exp_t, 0 ≤ exp.tm_gmtoff → exp.tm_gmtoff < 360000 →
      (exp.tm_gmtoff = 0 → iso_zone exp = ['Z']) ∧
      (exp.tm_gmtoff ≠ 0 → ∃ H M, iso_zone exp = '+' :: (H ++ M) ∧ H.length = 2 ∧
        (M.length = 2 ∨ M = []) ∧ (M = [] ↔ exp.tm_gmtoff % 3600 < 60) ∧
        ∀ c ∈ H ++ M, c.isDigit = true)) := by
  refine ⟨by decide, by decide, by decide, by decide, ?_, ?_, iso_year_digits, iso_two_digits,
    iso_usec_digits, iso_zone_digits⟩
  · intro exp h1 h2
    have hne : exp.tm_gmtoff ≠ 0 := by omega
    have hd : exp.tm_gmtoff.tdiv 3600 = -((-exp.tm_gmtoff) / 3600) := by
      rw [← Int.neg_neg exp.tm_gmtoff, Int.neg_tdiv, Int.neg_neg,
        Int.tdiv_eq_ediv (by omega) (by norm_num)]
    have hr : -9 ≤ exp.tm_gmtoff.tdiv 3600 ∧ exp.tm_gmtoff.tdiv 3600 ≤ -1 := by
      rw [hd]
      omega
    have hm : (exp.tm_gmtoff.tdiv 3600).tmod 10 = exp.tm_gmtoff.tdiv 3600 := by
      generalize exp.tm_gmtoff.tdiv 3600 = t at hr
      obtain ⟨a, b⟩ := hr
      interval_cases t <;> rfl
    refine ⟨to_char ((exp.tm_gmtoff.tdiv 3600).tmod 10 + char_zero), ?_, ?_⟩
    · simp [iso_zone, hne, iso_two]
    · rw [hm]
      exact to_char_not_digit _ hr.1 hr.2
  · intro exp
    constructor
    · simp only [format_iso8601, iso_year, iso_two, iso_usec, iso_zone, NGIM_ISO8601_FORMAT,
        List.length_append, List.length_cons, List.length_nil]
      split_ifs <;> simp
    · unfold format_iso8601
      rw [List.getLast?_append_of_ne_nil _ (by simp)]
      rfl

/-! ## Line-buffer safety -/

/-- Entered with `pos < len` and `len` at most the size of the buffer, the
checked loop of `readline` never leaves the buffer and does what the
unchecked one does. -/
theorem readline_loop_chk_eq (size start len : Nat) (hl : len ≤ size) :
    ∀ (input : List ReadResult) (buffer : Chars) (pos : Nat) (stamp : ngim_tain_t),
      pos < len →
      readline_loop_chk size start len input buffer pos stamp
        = .ok (readline_loop start len input buffer pos stamp) := by
  intro input
  induction input with
  | nil =>
    intro buffer pos stamp h
    have hp : pos < size := by omega
    simp only [readline_loop_chk, readline_loop, hp, not_true, if_false]
  | cons e rest ih =>
    intro buffer pos stamp h
    have hp : pos < size := by omega
    cases e with
    | error =>
      simp only [readline_loop_chk, readline_loop, hp, h, not_true, if_false, if_true]
      exact ih buffer pos stamp h
    | byte c now =>
      by_cases hc : c = '\n'
      · simp only [readline_loop_chk, readline_loop, hp, hc, not_true, if_false, if_true]
      · by_cases hn : pos + 1 < len
        · simp only [readline_loop_chk, readline_loop, hp, hc, hn, not_true, if_false, if_true]
          exact ih _ _ _ hn
        · simp only [readline_loop_chk, readline_loop, hp, hc, hn, not_true, if_false]

theorem format_tainlog_chk_eq (size bufsize : Nat) (hs : bufsize ≤ size) (buffer : Chars)
    (pos : Nat) (stamp : ngim_tain_t) (wrapped : Bool) (h1 : BUFFER_START < pos)
    (h2 : pos < bufsize) :
    format_tainlog_chk size bufsize buffer pos stamp wrapped
      = format_tainlog bufsize buffer pos stamp wrapped := by
  have a1 : NGIM_TAIN_FORMAT ≤ size := by
    simp only [BUFFER_START] at h1
    omega
  have a2 : BUFFER_SEPARATOR < size := by
    simp only [BUFFER_START, BUFFER_SEPARATOR] at h1 ⊢
    omega
  have a3 : ¬ (pos = 0 ∨ ¬ pos - 1 < size) := by
    simp only [BUFFER_START] at h1
    omega
  have a4 : pos < size := by omega
  simp only [format_tainlog_chk, format_tainlog, h2, a1, a2, a3, a4, not_true, if_false]

/-- What `format_tainlog` leaves alone: the bytes after the chunk, except the
one where the newline of a wrapped line goes. -/
theorem format_tainlog_frame (bufsize : Nat) (buffer : Chars) (pos : Nat) (stamp : ngim_tain_t)
    (wrapped : Bool) (b : Chars) (len : Nat) (w : Bool)
    (h : format_tainlog bufsize buffer pos stamp wrapped = .ok (b, len, w)) (k : Nat)
    (hk : pos < k) (hk2 : BUFFER_START ≤ k) : b k = buffer k := by
  have hb2 : store (ngim_tain_format buffer stamp) BUFFER_SEPARATOR
      (if wrapped then '\t' else ' ') k = buffer k := by
    have hk1 : k ≠ BUFFER_SEPARATOR := by
      simp only [BUFFER_START, BUFFER_SEPARATOR] at hk2 ⊢
      omega
    simp only [store, hk1, if_false]
    apply tain_format_frame
    simp only [BUFFER_START] at hk2
    omega
  by_cases hlt : pos < bufsize
  · simp only [format_tainlog, hlt, not_true, if_false, ne_eq] at h
    generalize store (ngim_tain_format buffer stamp) BUFFER_SEPARATOR
      (if wrapped then '\t' else ' ') = b2 at h hb2
    by_cases hn : b2 (pos - 1) = '\n'
    · simp only [hn, not_true, if_false] at h
      injection h with h
      injection h with h1 _
      rw [← h1]
      exact hb2
    · simp only [hn, not_false_eq_true, if_true] at h
      injection h with h
      injection h with h1 _
      rw [← h1]
      have hkp : k ≠ pos := by omega
      simp only [store, hkp, if_false]
      exact hb2
  · simp only [format_tainlog, hlt, not_false_eq_true, if_true] at h
    cases h

/-- C29. For every line buffer of at least `MIN_BUFSIZE` bytes (the buffer
has `arg_bufsize` bytes), every buffer content, input (bytes, read errors,
end of file), wrapped flag and logger state, one round of the loop of
`tainlog` stays inside the buffer and passes its assertions: `readline` is
called with `start < len` and every byte it touches is below the buffer
size; when it reports a chunk, `format_tainlog` gets a length below the
buffer size and touches only indices below it; and `append_tainlog` gets a
length from 1 to the buffer size. The checked functions return what the
unchecked ones do, and the whole loop never ends in a fault. -/
theorem line_buffer_safety (bufsize : Nat) (h60 : 60 ≤ bufsize) (buffer : Chars)
    (stamp0 : ngim_tain_t) (input : List ReadResult) (wrapped : Bool) (filesize : Nat)
    (keepnum : Int) (env : Nat → AppendEnv) (L : Logger) :
    BUFFER_START < bufsize - 1 ∧
    (∃ ret r, readline_chk bufsize buffer BUFFER_START (bufsize - 1) stamp0 input = .ok (ret, r) ∧
      readline buffer BUFFER_START (bufsize - 1) stamp0 input = .ok (ret, r) ∧
      r.pos < bufsize ∧ (∀ k, bufsize ≤ k → r.buffer k = buffer k) ∧
      (ret ≠ 0 →
        ∃ b len w, format_tainlog_chk bufsize bufsize r.buffer r.pos r.stamp wrapped
            = .ok (b, len, w) ∧
          format_tainlog bufsize r.buffer r.pos r.stamp wrapped = .ok (b, len, w) ∧
          (∀ k, bufsize ≤ k → b k = buffer k) ∧
          1 ≤ len ∧ len ≤ bufsize ∧
          ∃ L1, append_tainlog_chk bufsize bufsize filesize keepnum (env 0) len r.stamp L
            = .done L1)) ∧
    (∀ (T : Tainlog) (fuel : Nat), T.input.length < fuel →
      ∃ T1, tainlog_loop bufsize filesize keepnum env fuel T = .done T1) := by
  have hs : BUFFER_START < bufsize - 1 := by
    simp only [BUFFER_START, NGIM_TAIN_FORMAT, NGIM_TAIN_PACK]
    omega
  refine ⟨hs, ?_, ?_⟩
  · have hchk := readline_loop_chk_eq bufsize BUFFER_START (bufsize - 1) (by omega) input buffer
      BUFFER_START stamp0 hs
    obtain ⟨r1, r2, _, r4, _, _, _, _⟩ :=
      readline_loop_spec BUFFER_START (bufsize - 1) input buffer BUFFER_START stamp0 hs
    have hrd : readline buffer BUFFER_START (bufsize - 1) stamp0 input =
        .ok (if (readline_loop BUFFER_START (bufsize - 1) input buffer BUFFER_START stamp0).pos >
              BUFFER_START then 1 else 0,
            readline_loop BUFFER_START (bufsize - 1) input buffer BUFFER_START stamp0) := by
      simp only [readline, hs, not_true, if_false]
    have hrc : readline_chk bufsize buffer BUFFER_START (bufsize - 1) stamp0 input =
        .ok (if (readline_loop BUFFER_START (bufsize - 1) input buffer BUFFER_START stamp0).pos >
              BUFFER_START then 1 else 0,
            readline_loop BUFFER_START (bufsize - 1) input buffer BUFFER_START stamp0) := by
      simp only [readline_chk, hs, not_true, if_false, hchk]
    generalize readline_loop BUFFER_START (bufsize - 1) input buffer BUFFER_START stamp0 = R at *
    refine ⟨_, R, hrc, hrd, by omega, fun k hk => r4 k (by omega), ?_⟩
    intro hret
    have hpos : BUFFER_START < R.pos := by
      by_contra hcon
      exact hret (by simp only [gt_iff_lt, hcon, if_false])
    obtain ⟨b, len, w, f1, _, _, _, f5, f6, _⟩ :=
      format_tainlog_spec bufsize R.buffer R.pos R.stamp wrapped hpos (by omega)
    have hlen : 1 ≤ len ∧ len ≤ bufsize := by
      rw [f6]
      split <;> omega
    have hfr : ∀ k, bufsize ≤ k → b k = buffer k := by
      intro k hk
      have hb : b k = R.buffer k :=
        format_tainlog_frame bufsize R.buffer R.pos R.stamp wrapped b len w f1 k (by omega)
          (by simp only [BUFFER_START, NGIM_TAIN_FORMAT, NGIM_TAIN_PACK]; omega)
      rw [hb]
      exact r4 k (by omega)
    obtain ⟨L1, hL⟩ := append_tainlog_total bufsize filesize keepnum (env 0) len R.stamp L
      hlen.1 hlen.2
    refine ⟨b, len, w, ?_, f1, hfr, hlen.1, hlen.2, L1, ?_⟩
    · rw [format_tainlog_chk_eq bufsize bufsize (Nat.le_refl _) _ _ _ _ hpos (by omega)]
      exact f1
    · have hc : len > 0 ∧ len ≤ bufsize := ⟨hlen.1, hlen.2⟩
      simp only [append_tainlog_chk, hc, and_self, not_true, if_false, hlen.2]
      exact hL
  · intro T fuel hf
    obtain ⟨T1, t1, _⟩ := tainlog_loop_spec bufsize h60 filesize keepnum env fuel T hf
    exact ⟨T1, t1⟩

/-- Line-buffer safety for the smallest line buffer and a line that wraps. -/
theorem line_buffer_safety_witness :
    60 ≤ 60 ∧
    BUFFER_START < 60 - 1 ∧
    (∃ ret r, readline_chk 60 local_chars BUFFER_START (60 - 1) (tick 0) long_line = .ok (ret, r) ∧
      readline local_chars BUFFER_START (60 - 1) (tick 0) long_line = .ok (ret, r) ∧
      r.pos < 60 ∧ (∀ k, 60 ≤ k → r.buffer k = local_chars k) ∧
      (ret ≠ 0 →
        ∃ b len w, format_tainlog_chk 60 60 r.buffer r.pos r.stamp false = .ok (b, len, w) ∧
          format_tainlog 60 r.buffer r.pos r.stamp false = .ok (b, len, w) ∧
          (∀ k, 60 ≤ k → b k = local_chars k) ∧
          1 ≤ len ∧ len ≤ 60 ∧
          ∃ L1, append_tainlog_chk 60 60 1000 10 ((fun _ => ok_env) 0) len r.stamp
            (logger_with [] 0) = .done L1)) ∧
    (∀ (T : Tainlog) (fuel : Nat), T.input.length < fuel →
      ∃ T1, tainlog_loop 60 1000 10 (fun _ => ok_env) fuel T = .done T1) :=
  ⟨by decide, line_buffer_safety 60 (by decide) local_chars (tick 0) long_line false 1000 10
    (fun _ => ok_env) (logger_with [] 0)⟩

/-! ## At most one monitor per service -/

theorem keys_set_value (t : Services) (k : service_key) (f : service_value → service_value) :
    (set_value t k f).map Prod.fst = t.map Prod.fst := by
  simp only [set_value, List.map_map]
  apply List.map_congr_left
  intro e _
  simp only [Function.comp]
  split <;> rfl

theorem set_value_mem (t : Services) (k : service_key) (f : service_value → service_value)
    (k1 : service_key) (v : service_value) (h : (k1, v) ∈ t) :
    (k1, if k1 = k then f v else v) ∈ set_value t k f := by
  apply List.mem_map.mpr
  refine ⟨(k1, v), h, ?_⟩
  by_cases e : k1 = k <;> simp [e]

theorem unique_value (t : Services) (hn : (t.map Prod.fst).Nodup) (k : service_key)
    (v v1 : service_value) (h1 : (k, v) ∈ t) (h2 : (k, v1) ∈ t) : v = v1 := by
  have := List.inj_on_of_nodup_map hn h1 h2 rfl
  injection this

theorem hash_get_some (t : Services) (k : service_key) (v : service_value)
    (h : apr_hash_get t k = some v) : (k, v) ∈ t := by
  unfold apr_hash_get at h
  cases hf : t.find? (fun e => e.1 = k) with
  | none =>
    rw [hf] at h
    cases h
  | some e =>
    rw [hf] at h
    simp only [Option.map_some', Option.some.injEq] at h
    have h1 := List.find?_some hf
    have h2 := List.mem_of_find?_eq_some hf
    simp only [decide_eq_true_eq] at h1
    rw [← h, ← h1]
    exact h2

theorem hash_get_none (t : Services) (k : service_key) (h : apr_hash_get t k = none)
    (v : service_value) : (k, v) ∉ t := by
  unfold apr_hash_get at h
  intro hm
  cases hf : t.find? (fun e => e.1 = k) with
  | none =>
    have := List.find?_eq_none.mp hf (k, v) hm
    simp at this
  | some e =>
    rw [hf] at h
    cases h

theorem monitor_done_keys (pid : Nat) (t : Services) :
    (monitor_done pid t).map Prod.fst = t.map Prod.fst := by
  induction t with
  | nil => rfl
  | cons e rest ih =>
    unfold monitor_done
    split
    · rfl
    · simp only [List.map_cons, ih]

theorem monitor_done_mem (pid : Nat) (t : Services) (e : service_key × service_value)
    (h : e ∈ t) (hp : e.2.pid ≠ pid) : e ∈ monitor_done pid t := by
  induction t with
  | nil => cases h
  | cons x rest ih =>
    unfold monitor_done
    rcases List.mem_cons.mp h with hx | hx
    · have hx2 : ¬ x.2.pid = pid := by
        rw [← hx]
        exact hp
      simp only [hx2, if_false, hx, List.mem_cons, true_or]
    · split
      · exact List.mem_cons_of_mem _ hx
      · exact List.mem_cons_of_mem _ (ih hx)

theorem clear_services_keys (t : Services) :
    ((clear_services t).map Prod.fst).Sublist (t.map Prod.fst) := by
  induction t with
  | nil => exact List.Sublist.refl _
  | cons e rest ih =>
    unfold clear_services at ih ⊢
    rw [List.filterMap_cons]
    by_cases ha : e.2.active = true
    · simp only [ha, if_true, List.map_cons]
      exact ih.cons₂ _
    · by_cases hp : e.2.pid = 0
      · simp only [ha, hp, if_false, if_true, List.map_cons, Bool.false_eq_true]
        exact ih.cons _
      · simp only [ha, hp, if_false, List.map_cons, Bool.false_eq_true]
        exact ih.cons₂ _

theorem clear_services_mem (t : Services) (k : service_key) (v : service_value)
    (h : (k, v) ∈ t) (hp : v.pid ≠ 0) :
    ∃ v1, (k, v1) ∈ clear_services t ∧ v1.pid = v.pid := by
  by_cases ha : v.active = true
  · refine ⟨{ v with active := false }, ?_, rfl⟩
    apply List.mem_filterMap.mpr
    exact ⟨(k, v), h, by simp only [ha, if_true]⟩
  · refine ⟨v, ?_, rfl⟩
    apply List.mem_filterMap.mpr
    exact ⟨(k, v), h, by simp only [ha, hp, if_false, Bool.false_eq_true]⟩

theorem nodup_all_eq {α : Type} : ∀ (l : List α), l.Nodup → (∀ x ∈ l, ∀ y ∈ l, x = y) →
    l.length ≤ 1
  | [], _, _ => by simp
  | [_], _, _ => by simp
  | a :: b :: rest, hn, h => by
    exfalso
    have e : a = b := h a (by simp) b (by simp)
    rw [e] at hn
    simp at hn

theorem ScanInv_init : ScanInv { services := [], monitors := [] } :=
  ⟨List.nodup_nil, Nat.zero_le _, fun _ h => absurd h (List.not_mem_nil _), List.nodup_nil,
    fun _ h => absurd h (List.not_mem_nil _)⟩

/-- Marking an entry active keeps the invariant. -/
theorem ScanInv_active (t : Services) (M : List (Nat × service_key)) (k : service_key)
    (h : ScanInv { services := t, monitors := M }) :
    ScanInv { services := set_value t k (fun v => { v with active := true }), monitors := M } := by
  obtain ⟨h1, h2, h3, h4, h5⟩ := h
  refine ⟨by simp only [keys_set_value]; exact h1, by simpa [set_value] using h2, ?_, h4, h5⟩
  intro m hm
  obtain ⟨v, hv, hp⟩ := h3 m hm
  have := set_value_mem t k (fun v => { v with active := true }) m.2 v hv
  refine ⟨_, this, ?_⟩
  split
  · exact hp
  · exact hp

/-- A new entry, made by `create_entry` for a key that is not in the table,
keeps the invariant. -/
theorem ScanInv_create (a : StartAnswers) (t t1 : Services) (M : List (Nat × service_key))
    (k : service_key) (h : ScanInv { services := t, monitors := M })
    (hg : apr_hash_get t k = none) (hc : create_entry a k t = some t1) :
    ScanInv { services := t1, monitors := M } ∧ t1 = t ++ [(k, { pid := 0, active := false })] ∧
    t.length < MAX_SERVICES := by
  obtain ⟨h1, h2, h3, h4, h5⟩ := h
  have hfil : t.filter (fun e => e.1 ≠ k) = t := by
    apply List.filter_eq_self.mpr
    intro e he
    rw [decide_eq_true_eq]
    intro ek
    exact hash_get_none t k hg e.2 (by rw [← ek]; exact he)
  have hk : k ∉ t.map Prod.fst := by
    intro hm
    obtain ⟨e, he, ek⟩ := List.mem_map.mp hm
    exact hash_get_none t k hg e.2 (by rw [← ek]; exact he)
  unfold create_entry at hc
  by_cases hl : t.length ≥ MAX_SERVICES
  · simp only [hl, if_true] at hc
    cases hc
  · simp only [hl, if_false] at hc
    split at hc
    · cases hc
    · split at hc
      · cases hc
      · simp only [apr_hash_set, hfil, Option.some.injEq] at hc
        subst hc
        refine ⟨⟨?_, ?_, ?_, h4, h5⟩, rfl, by omega⟩
        · rw [List.map_append, List.map_singleton]
          exact List.Nodup.append h1 (List.nodup_singleton _)
            (by
              intro x hx1 hx2
              rw [List.mem_singleton] at hx2
              rw [hx2] at hx1
              exact hk hx1)
        · rw [List.length_append, List.length_singleton]
          omega
        · intro m hm
          obtain ⟨v, hv, hp⟩ := h3 m hm
          exact ⟨v, List.mem_append_left _ hv, hp⟩

/-- Starting a monitor for a key whose entry has pid 0 keeps the invariant. -/
theorem ScanInv_start_monitor (a : StartAnswers) (t : Services) (M : List (Nat × service_key))
    (k : service_key) (v : service_value) (h : ScanInv { services := t, monitors := M })
    (hv : (k, v) ∈ t) (hp : v.pid = 0)
    (hf : ∀ pid, a.spawn = some pid → pid ≠ 0 ∧ pid ∉ M.map Prod.fst) :
    ScanInv { services := (start_monitor k a t).1,
              monitors := M ++ (start_monitor k a t).2.toList } ∧
    (∀ m ∈ M, m.2 ≠ k) := by
  obtain ⟨h1, h2, h3, h4, h5⟩ := h
  have hnk : ∀ m ∈ M, m.2 ≠ k := by
    intro m hm ek
    obtain ⟨v0, hv0, hp0⟩ := h3 m hm
    rw [ek] at hv0
    have := unique_value t h1 k v v0 hv hv0
    rw [← this, hp] at hp0
    exact h5 m hm hp0.symm
  refine ⟨?_, hnk⟩
  unfold start_monitor
  by_cases hattr : a.attr_ok = true
  · cases hs : a.spawn with
    | none =>
      simp only [hattr, Bool.not_true, Bool.false_eq_true, if_false, Option.toList,
        List.append_nil]
      exact ⟨h1, h2, h3, h4, h5⟩
    | some pid =>
      obtain ⟨hz, hfresh⟩ := hf pid hs
      simp only [hattr, Bool.not_true, Bool.false_eq_true, if_false, Option.toList]
      refine ⟨by simp only [keys_set_value]; exact h1, by simpa [set_value] using h2, ?_, ?_, ?_⟩
      · intro m hm
        rcases List.mem_append.mp hm with hm | hm
        · obtain ⟨v0, hv0, hp0⟩ := h3 m hm
          have := set_value_mem t k (fun v => { v with pid := pid }) m.2 v0 hv0
          simp only [hnk m hm, if_false] at this
          exact ⟨v0, this, hp0⟩
        · rw [List.mem_singleton] at hm
          rw [hm]
          have := set_value_mem t k (fun v => { v with pid := pid }) k v hv
          simp only [if_true] at this
          exact ⟨_, this, rfl⟩
      · rw [List.map_append, List.map_singleton]
        exact List.Nodup.append h4 (List.nodup_singleton _)
          (by
            intro x hx1 hx2
            rw [List.mem_singleton] at hx2
            rw [hx2] at hx1
            exact hfresh hx1)
      · intro m hm
        rcases List.mem_append.mp hm with hm | hm
        · exact h5 m hm
        · rw [List.mem_singleton] at hm
          rw [hm]
          exact hz
  · have hattr2 : a.attr_ok = false := by
      cases h : a.attr_ok
      · rfl
      · exact absurd h hattr
    simp only [hattr2, Bool.not_false, if_true, Option.toList, List.append_nil]
    exact ⟨h1, h2, h3, h4, h5⟩

/-- The function `start` keeps the invariant. -/
theorem ScanInv_start (S : Scanner) (h : ScanInv S) (entry : finfo) (a : StartAnswers)
    (hf : ∀ pid, a.spawn = some pid → pid ≠ 0 ∧ pid ∉ S.monitors.map Prod.fst) :
    ScanInv { services := (start entry a S.services).1,
              monitors := S.monitors ++ (start entry a S.services).2.toList } := by
  obtain ⟨t, M⟩ := S
  simp only at hf ⊢
  have hsame : ScanInv { services := t, monitors := M ++ (none : Option (Nat × service_key)).toList } := by
    simpa using h
  unfold start
  by_cases h1 : entry.filetype ≠ .lnk ∨ entry.name.head? = some '.'
  · simp only [h1, if_true]
    exact hsame
  · simp only [h1, if_false]
    cases hst : a.stat with
    | none => exact hsame
    | some p =>
      obtain ⟨ft, k⟩ := p
      simp only
      by_cases hd : ft ≠ .dir
      · rw [if_pos hd]
        exact hsame
      · simp only [hd, if_false]
        cases hg : apr_hash_get t k with
        | some v =>
          simp only
          have hact := ScanInv_active t M k h
          by_cases hp : v.pid ≠ 0
          · rw [if_pos hp]
            simpa using hact
          · simp only [hp, if_false]
            have hv := set_value_mem t k (fun v => { v with active := true }) k v
              (hash_get_some t k v hg)
            simp only [if_true] at hv
            exact (ScanInv_start_monitor a _ M k _ hact hv (by simpa using hp) hf).1
        | none =>
          simp only
          cases hc : create_entry a k t with
          | none => exact hsame
          | some t1 =>
            simp only
            obtain ⟨hi1, he, _⟩ := ScanInv_create a t t1 M k h hg hc
            have hact := ScanInv_active t1 M k hi1
            have hv := set_value_mem t1 k (fun v => { v with active := true }) k
              { pid := 0, active := false } (by rw [he]; simp)
            simp only [if_true] at hv
            exact (ScanInv_start_monitor a _ M k _ hact hv rfl hf).1

/-- The function `monitor_done`, with the reaped child taken off the list of
unreaped monitors, keeps the invariant. -/
theorem ScanInv_done (S : Scanner) (h : ScanInv S) (pid : Nat) :
    ScanInv { services := monitor_done pid S.services,
              monitors := S.monitors.filter (fun m => m.1 ≠ pid) } := by
  obtain ⟨h1, h2, h3, h4, h5⟩ := h
  refine ⟨by simp only [monitor_done_keys]; exact h1, ?_, ?_, ?_, ?_⟩
  · have := congrArg List.length (monitor_done_keys pid S.services)
    simp only [List.length_map] at this
    simp only [this]
    exact h2
  · intro m hm
    obtain ⟨hm1, hm2⟩ := List.mem_filter.mp hm
    rw [decide_eq_true_eq] at hm2
    obtain ⟨v, hv, hp⟩ := h3 m hm1
    exact ⟨v, monitor_done_mem pid _ (m.2, v) hv (by simp only [hp]; exact hm2), hp⟩
  · exact h4.sublist ((List.filter_sublist _).map _)
  · intro m hm
    exact h5 m (List.mem_filter.mp hm).1

/-- The function `clear_services` keeps the invariant. -/
theorem ScanInv_clear (S : Scanner) (h : ScanInv S) :
    ScanInv { services := clear_services S.services, monitors := S.monitors } := by
  obtain ⟨h1, h2, h3, h4, h5⟩ := h
  refine ⟨h1.sublist (clear_services_keys _), ?_, ?_, h4, h5⟩
  · exact Nat.le_trans (List.length_filterMap_le _ _) h2
  · intro m hm
    obtain ⟨v, hv, hp⟩ := h3 m hm
    obtain ⟨v1, hv1, hp1⟩ := clear_services_mem _ m.2 v hv (by rw [hp]; exact h5 m hm)
    exact ⟨v1, hv1, by rw [hp1, hp]⟩

theorem ScanReachable_inv {S : Scanner} (h : ScanReachable S) : ScanInv S := by
  induction h with
  | init => exact ScanInv_init
  | start entry a _ hf ih => exact ScanInv_start _ ih entry a hf
  | done pid _ ih => exact ScanInv_done _ ih pid
  | clear _ ih => exact ScanInv_clear _ ih

/-- Under the invariant no key has two unreaped monitors. -/
theorem ScanInv_single (S : Scanner) (h : ScanInv S) (k : service_key) :
    (S.monitors.filter (fun m => m.2 = k)).length ≤ 1 := by
  obtain ⟨h1, _, h3, h4, _⟩ := h
  apply nodup_all_eq
  · exact (List.Nodup.of_map _ h4).filter _
  · intro x hx y hy
    obtain ⟨hx1, hx2⟩ := List.mem_filter.mp hx
    obtain ⟨hy1, hy2⟩ := List.mem_filter.mp hy
    rw [decide_eq_true_eq] at hx2 hy2
    obtain ⟨v, hv, hp⟩ := h3 x hx1
    obtain ⟨w, hw, hq⟩ := h3 y hy1
    rw [hx2] at hv
    rw [hy2] at hw
    have e := unique_value _ h1 k v w hv hw
    apply Prod.ext
    · rw [← hp, ← hq, e]
    · rw [hx2, hy2]

/-- When `start` starts a monitor, the link resolved to a directory whose key
was absent from the table, with room for it, or present with pid 0. -/
theorem start_spawns (entry : finfo) (a : StartAnswers) (t : Services) (p : Nat)
    (k : service_key) (h : (start entry a t).2 = some (p, k)) :
    a.stat = some (.dir, k) ∧ a.spawn = some p ∧
    ((apr_hash_get t k = none ∧ t.length < MAX_SERVICES) ∨
      ∃ v, apr_hash_get t k = some v ∧ v.pid = 0) := by
  have hsm : ∀ (k1 : service_key) (t1 : Services),
      (start_monitor k1 a t1).2 = some (p, k) → a.spawn = some p ∧ k1 = k := by
    intro k1 t1 hs
    unfold start_monitor at hs
    split at hs
    · cases hs
    · cases hsp : a.spawn with
      | none =>
        rw [hsp] at hs
        cases hs
      | some pid =>
        rw [hsp] at hs
        simp only [Option.some.injEq, Prod.mk.injEq] at hs
        exact ⟨by rw [hs.1], hs.2⟩
  unfold start at h
  by_cases h1 : entry.filetype ≠ .lnk ∨ entry.name.head? = some '.'
  · simp only [h1, if_true] at h
    cases h
  · simp only [h1, if_false] at h
    cases hst : a.stat with
    | none =>
      rw [hst] at h
      cases h
    | some q =>
      obtain ⟨ft, k1⟩ := q
      rw [hst] at h
      simp only at h
      by_cases hd : ft ≠ .dir
      · rw [if_pos hd] at h
        cases h
      · simp only [hd, if_false] at h
        have hft : ft = .dir := not_not.mp hd
        cases hg : apr_hash_get t k1 with
        | some v =>
          rw [hg] at h
          simp only at h
          by_cases hp : v.pid ≠ 0
          · rw [if_pos hp] at h
            cases h
          · simp only [hp, if_false] at h
            obtain ⟨e1, e2⟩ := hsm _ _ h
            subst e2
            exact ⟨by rw [hft], e1, Or.inr ⟨v, hg, not_not.mp hp⟩⟩
        | none =>
          rw [hg] at h
          simp only at h
          cases hc : create_entry a k1 t with
          | none =>
            rw [hc] at h
            cases h
          | some t1 =>
            rw [hc] at h
            simp only at h
            obtain ⟨e1, e2⟩ := hsm _ _ h
            subst e2
            have hlen : t.length < MAX_SERVICES := by
              unfold create_entry at hc
              by_cases hl : t.length ≥ MAX_SERVICES
              · simp only [hl, if_true] at hc
                cases hc
              · omega
            exact ⟨by rw [hft], e1, Or.inl ⟨hg, hlen⟩⟩

/-- For a key that is in the table with a non-zero pid, `start` marks the
entry active and starts nothing. -/
theorem start_running (entry : finfo) (a : StartAnswers) (t : Services) (k : service_key)
    (v : service_value) (hl : entry.filetype = .lnk) (hn : entry.name.head? ≠ some '.')
    (hs : a.stat = some (.dir, k)) (hg : apr_hash_get t k = some v) (hp : v.pid ≠ 0) :
    start entry a t = (set_value t k (fun v => { v with active := true }), none) := by
  have h1 : ¬ (entry.filetype ≠ .lnk ∨ entry.name.head? = some '.') := by
    intro h
    rcases h with h | h
    · exact h hl
    · exact hn h
  simp only [start, h1, if_false, hs, ne_eq, not_true, hg, hp, not_false_eq_true, if_true]

/-- The monitor that `start` starts is recorded under its key. -/
theorem start_recorded (entry : finfo) (a : StartAnswers) (t : Services) (p : Nat)
    (k : service_key) (h : (start entry a t).2 = some (p, k)) :
    ∃ v, (k, v) ∈ (start entry a t).1 ∧ v.pid = p ∧ v.active = true := by
  have hsm : ∀ (k1 : service_key) (t1 : Services) (v1 : service_value), (k1, v1) ∈ t1 →
      v1.active = true → (start_monitor k1 a t1).2 = some (p, k) →
      ∃ v, (k, v) ∈ (start_monitor k1 a t1).1 ∧ v.pid = p ∧ v.active = true := by
    intro k1 t1 v1 hm ha hs
    unfold start_monitor at hs ⊢
    by_cases hattr : (!a.attr_ok) = true
    · rw [if_pos hattr] at hs
      cases hs
    · rw [if_neg hattr] at hs ⊢
      cases hsp : a.spawn with
      | none =>
        rw [hsp] at hs
        cases hs
      | some pid =>
        rw [hsp] at hs
        simp only [Option.some.injEq, Prod.mk.injEq] at hs
        obtain ⟨e1, e2⟩ := hs
        subst e1
        subst e2
        have := set_value_mem t1 k1 (fun v => { v with pid := pid }) k1 v1 hm
        simp only [if_true] at this
        exact ⟨_, this, rfl, ha⟩
  unfold start at h ⊢
  by_cases h1 : entry.filetype ≠ .lnk ∨ entry.name.head? = some '.'
  · rw [if_pos h1] at h
    cases h
  · rw [if_neg h1] at h ⊢
    cases hst : a.stat with
    | none =>
      rw [hst] at h
      cases h
    | some q =>
      obtain ⟨ft, k1⟩ := q
      rw [hst] at h
      simp only at h ⊢
      by_cases hd : ft ≠ .dir
      · rw [if_pos hd] at h
        cases h
      · rw [if_neg hd] at h ⊢
        cases hg : apr_hash_get t k1 with
        | some v =>
          rw [hg] at h
          simp only at h ⊢
          by_cases hp : v.pid ≠ 0
          · rw [if_pos hp] at h
            cases h
          · rw [if_neg hp] at h ⊢
            have hv := set_value_mem t k1 (fun v => { v with active := true }) k1 v
              (hash_get_some t k1 v hg)
            simp only [if_true] at hv
            exact hsm _ _ _ hv rfl h
        | none =>
          rw [hg] at h
          simp only at h ⊢
          cases hc : create_entry a k1 t with
          | none =>
            rw [hc] at h
            cases h
          | some t1 =>
            rw [hc] at h
            simp only at h ⊢
            have hmem : (k1, ({ pid := 0, active := false } : service_value)) ∈ t1 := by
              unfold create_entry at hc
              split at hc
              · cases hc
              · split at hc
                · cases hc
                · split at hc
                  · cases hc
                  · simp only [apr_hash_set, Option.some.injEq] at hc
                    rw [← hc]
                    simp
            have hv := set_value_mem t1 k1 (fun v => { v with active := true }) k1 _ hmem
            simp only [if_true] at hv
            exact hsm _ _ _ hv rfl h

theorem one_service_reachable : ScanReachable one_service :=
  ScanReachable.start web_link web_answers ScanReachable.init
    (fun pid h => by
      simp only [web_answers, Option.some.injEq] at h
      subst h
      simp)

/-- C22. In every state of the scanner the table holds no key twice and at
most `MAX_SERVICES` entries, and no key has two unreaped monitors. `start`
starts a monitor only for a link that resolves to a directory whose key was
absent (and is then in the table) or present with pid 0, and then no unreaped
monitor exists for that key; the new pid is recorded under the key, marked
active. For a key present with a non-zero pid `start` only marks the entry
active and starts nothing. -/
theorem one_monitor_per_service (S : Scanner) (h : ScanReachable S) :
    (S.services.map Prod.fst).Nodup ∧ S.services.length ≤ MAX_SERVICES ∧
    (∀ k, (S.monitors.filter (fun m => m.2 = k)).length ≤ 1) ∧
    (∀ entry a p k, (start entry a S.services).2 = some (p, k) →
      a.stat = some (.dir, k) ∧ a.spawn = some p ∧
      ((apr_hash_get S.services k = none ∧ S.services.length < MAX_SERVICES) ∨
        ∃ v, apr_hash_get S.services k = some v ∧ v.pid = 0) ∧
      S.monitors.filter (fun m => m.2 = k) = [] ∧
      ∃ v, (k, v) ∈ (start entry a S.services).1 ∧ v.pid = p ∧ v.active = true) ∧
    (∀ entry a k v, entry.filetype = .lnk → entry.name.head? ≠ some '.' →
      a.stat = some (.dir, k) → apr_hash_get S.services k = some v → v.pid ≠ 0 →
      start entry a S.services
        = (set_value S.services k (fun v => { v with active := true }), none)) := by
  have hi := ScanReachable_inv h
  refine ⟨hi.keys, hi.count, ScanInv_single S hi, ?_, ?_⟩
  · intro entry a p k hs
    obtain ⟨s1, s2, s3⟩ := start_spawns entry a S.services p k hs
    refine ⟨s1, s2, s3, ?_, start_recorded entry a S.services p k hs⟩
    apply List.filter_eq_nil_iff.mpr
    intro m hm hk
    rw [decide_eq_true_eq] at hk
    obtain ⟨v0, hv0, hp0⟩ := hi.recorded m hm
    rw [hk] at hv0
    rcases s3 with ⟨hn, _⟩ | ⟨v, hv, hp⟩
    · exact hash_get_none _ k hn v0 hv0
    · have := unique_value _ hi.keys k v v0 (hash_get_some _ k v hv) hv0
      rw [← this, hp] at hp0
      exact hi.nonzero m hm hp0.symm
  · intro entry a k v hl hn hs hg hp
    exact start_running entry a S.services k v hl hn hs hg hp

/-- One monitor per service in the state with one service. -/
theorem one_monitor_per_service_witness :
    ScanReachable one_service ∧
    (one_service.services.map Prod.fst).Nodup ∧ one_service.services.length ≤ MAX_SERVICES ∧
    (∀ k, (one_service.monitors.filter (fun m => m.2 = k)).length ≤ 1) ∧
    (∀ entry a p k, (start entry a one_service.services).2 = some (p, k) →
      a.stat = some (.dir, k) ∧ a.spawn = some p ∧
      ((apr_hash_get one_service.services k = none ∧
          one_service.services.length < MAX_SERVICES) ∨
        ∃ v, apr_hash_get one_service.services k = some v ∧ v.pid = 0) ∧
      one_service.monitors.filter (fun m => m.2 = k) = [] ∧
      ∃ v, (k, v) ∈ (start entry a one_service.services).1 ∧ v.pid = p ∧ v.active = true) ∧
    (∀ entry a k v, entry.filetype = .lnk → entry.name.head? ≠ some '.' →
      a.stat = some (.dir, k) → apr_hash_get one_service.services k = some v → v.pid ≠ 0 →
      start entry a one_service.services
        = (set_value one_service.services k (fun v => { v with active := true }), none)) :=
  ⟨one_service_reachable, one_monitor_per_service one_service one_service_reachable⟩

/-! ## Status atomicity -/

theorem create_lockfile_locked (a : SetupAnswers) (h : (create_lockfile a).2 = true) :
    a.lock = .locked := by
  unfold create_lockfile at h
  split at h
  · cases h
  · cases hl : a.lock with
    | locked => rfl
    | eagain =>
      rw [hl] at h
      cases h
    | failed =>
      rw [hl] at h
      cases h

theorem LockReachable_inv {S : LockState} (h : LockReachable S) :
    S.holders.length ≤ 1 ∧ S.past_lock = S.holders := by
  induction h with
  | init => exact ⟨Nat.zero_le _, rfl⟩
  | attempt p a _ _ _ hos ih =>
    by_cases hc : (create_lockfile a).2 = true
    · have he := hos (create_lockfile_locked a hc)
      simp only [hc, if_true]
      rw [ih.2, he]
      exact ⟨by simp, rfl⟩
    · simp only [hc, if_false, Bool.false_eq_true]
      exact ih
  | exit p _ ih =>
    refine ⟨Nat.le_trans (List.length_filter_le _ _) ih.1, ?_⟩
    simp only [ih.2]

theorem lock_held_reachable : LockReachable lock_held :=
  LockReachable.attempt 5 setup_ok LockReachable.init (by simp) (by simp) (fun _ => rfl)

/-- C24. With the operating system granting the exclusive lock on
`monitor/lock` only when no process holds it, at every moment at most one
process holds the lock, and the monitors that got past `create_lockfile` are
exactly the holders, so at most one. A monitor whose lock attempt fails (with
EAGAIN or otherwise) dies in `create_lockfile`: its calls end with the lock
attempt, before the control pipe is opened, before `write_status` and before
the loop that starts the children; a monitor that reaches its loop has been
granted the lock. -/
theorem lock_exclusive (S : LockState) (h : LockReachable S) :
    S.holders.length ≤ 1 ∧ S.past_lock.length ≤ 1 ∧ S.past_lock = S.holders ∧
    (∀ a : SetupAnswers, a.lock ≠ .locked →
      (monitor_startup a).2 = false ∧
      SetupStep.control_pipe ∉ (monitor_startup a).1 ∧
      SetupStep.stdin_pipe ∉ (monitor_startup a).1 ∧
      SetupStep.write_status ∉ (monitor_startup a).1 ∧
      SetupStep.loop ∉ (monitor_startup a).1 ∧
      (SetupStep.lock ∈ (monitor_startup a).1 →
        (monitor_startup a).1 = [.chdir, .pool, .create_directory, .open_lock, .lock])) ∧
    (∀ a : SetupAnswers, (monitor_startup a).2 = true →
      a.lock = .locked ∧
      (monitor_startup a).1 = [.chdir, .pool, .create_directory, .open_lock, .lock,
        .control_pipe, .pollset, .stdin_pipe, .pool_runlog, .write_status, .loop]) := by
  obtain ⟨h1, h2⟩ := LockReachable_inv h
  refine ⟨h1, by rw [h2]; exact h1, h2, ?_, ?_⟩
  · intro a hl
    obtain ⟨c1, c2, c3, c4, l, c5, c6, c7, c8⟩ := a
    cases l with
    | locked => exact absurd rfl hl
    | eagain =>
      cases c1 <;> cases c2 <;> cases c3 <;> cases c4 <;>
        simp [monitor_startup, setup_monitor, create_lockfile]
    | failed =>
      cases c1 <;> cases c2 <;> cases c3 <;> cases c4 <;>
        simp [monitor_startup, setup_monitor, create_lockfile]
  · intro a hr
    obtain ⟨c1, c2, c3, c4, l, c5, c6, c7, c8⟩ := a
    cases l with
    | locked =>
      cases c1 <;> cases c2 <;> cases c3 <;> cases c4 <;> cases c5 <;> cases c6 <;>
        cases c7 <;> cases c8 <;>
        simp [monitor_startup, setup_monitor, create_lockfile] at hr ⊢
    | eagain =>
      cases c1 <;> cases c2 <;> cases c3 <;> cases c4 <;>
        simp [monitor_startup, setup_monitor, create_lockfile] at hr
    | failed =>
      cases c1 <;> cases c2 <;> cases c3 <;> cases c4 <;>
        simp [monitor_startup, setup_monitor, create_lockfile] at hr

/-- Lock exclusivity in the state where the monitor with pid 5 holds the lock. -/
theorem lock_exclusive_witness :
    LockReachable lock_held ∧
    lock_held.holders.length ≤ 1 ∧ lock_held.past_lock.length ≤ 1 ∧
    lock_held.past_lock = lock_held.holders ∧
    (∀ a : SetupAnswers, a.lock ≠ .locked →
      (monitor_startup a).2 = false ∧
      SetupStep.control_pipe ∉ (monitor_startup a).1 ∧
      SetupStep.stdin_pipe ∉ (monitor_startup a).1 ∧
      SetupStep.write_status ∉ (monitor_startup a).1 ∧
      SetupStep.loop ∉ (monitor_startup a).1 ∧
      (SetupStep.lock ∈ (monitor_startup a).1 →
        (monitor_startup a).1 = [.chdir, .pool, .create_directory, .open_lock, .lock])) ∧
    (∀ a : SetupAnswers, (monitor_startup a).2 = true →
      a.lock = .locked ∧
      (monitor_startup a).1 = [.chdir, .pool, .create_directory, .open_lock, .lock,
        .control_pipe, .pollset, .stdin_pipe, .pool_runlog, .write_status, .loop]) :=
  ⟨lock_held_reachable, lock_exclusive lock_held lock_held_reachable⟩

/-! ## Command line processing -/

theorem or_and_self (s c : Nat) : (s ||| c) &&& c = c := by
  apply Nat.eq_of_testBit_eq
  intro i
  simp only [Nat.testBit_and, Nat.testBit_or]
  cases s.testBit i <;> cases c.testBit i <;> rfl

theorem or_and_keep (s c q : Nat) (h : s &&& q = q) : (s ||| c) &&& q = q := by
  apply Nat.eq_of_testBit_eq
  intro i
  have hi := congrArg (fun x => x.testBit i) h
  simp only [Nat.testBit_and] at hi
  simp only [Nat.testBit_and, Nat.testBit_or]
  cases hs : s.testBit i <;> cases hc : c.testBit i <;> cases hq : q.testBit i <;>
    simp_all

/-- A round of the loop that reaches the end of its body: what it did. -/
theorem parse_params_body_next {params : List ngim_cmdline_params_t} {argv : List (List Char)}
    {i j : Nat} {st st' : Cmdline} (h : parse_params_body params argv i st = .next j st') :
    ∃ p, is_param (argv.getD i []) ∧ find_param params (argv.getD i []) = some p ∧
      st.selected &&& p.cmd = 0 ∧ st'.selected = st.selected ||| p.cmd ∧
      ((p.arg = none ∧ j = i ∧ st'.used = (i, .param) :: st.used) ∨
       (p.arg ≠ none ∧ j = i + 1 ∧ i + 1 < argv.length ∧
        ∃ u, u ≠ Use.param ∧ st'.used = (i + 1, u) :: (i, .param) :: st.used)) := by
  unfold parse_params_body at h
  by_cases h1 : (argv.getD i []).head? ≠ some '-'
  · rw [if_pos h1] at h
    cases h
  rw [if_neg h1] at h
  by_cases h2 : (argv.getD i []).tail = [] ∨ (argv.getD i []).tail = ['-']
  · rw [if_pos h2] at h
    split at h <;> cases h
  rw [if_neg h2] at h
  cases hf : find_param params (argv.getD i []) with
  | none =>
    rw [hf] at h
    cases h
  | some p =>
    rw [hf] at h
    simp only at h
    by_cases h3 : st.selected &&& p.cmd ≠ 0
    · rw [if_pos h3] at h
      cases h
    rw [if_neg h3] at h
    refine ⟨p, ⟨not_not.mp h1, h2⟩, rfl, not_not.mp h3, ?_⟩
    cases hp : p.arg with
    | none =>
      rw [hp] at h
      simp only at h
      cases h
      exact ⟨rfl, Or.inl ⟨rfl, rfl, rfl⟩⟩
    | some v =>
      rw [hp] at h
      simp only at h
      by_cases h4 : argv.length ≤ i + 1
      · rw [if_pos h4] at h
        cases h
      rw [if_neg h4] at h
      by_cases h5 : (st.vars v).isSome = true
      · rw [if_pos h5] at h
        cases h
        exact ⟨rfl, Or.inr ⟨by simp, rfl, by omega, _, by decide, rfl⟩⟩
      rw [if_neg h5] at h
      split at h
      · cases h
      · cases h
        exact ⟨rfl, Or.inr ⟨by simp, rfl, by omega, _, by decide, rfl⟩⟩

/-- A round of the loop that returns: the value, and the elements gone
past. -/
theorem parse_params_body_ret {params : List ngim_cmdline_params_t} {argv : List (List Char)}
    {i : Nat} {r : Int} {st st' : Cmdline} (hi : i < argv.length)
    (h : parse_params_body params argv i st = .ret r st') :
    (∀ x ∈ st.used, x ∈ st'.used) ∧
    (r = -1 ∨ (r = (i : Int) ∧ st' = st) ∨
     (r = ((i + 1 : Nat) : Int) ∧ i + 1 < argv.length ∧ (i, Use.terminator) ∈ st'.used) ∨
     (r = 0 ∧ argv.length ≤ i + 1 ∧ (i, Use.terminator) ∈ st'.used)) := by
  unfold parse_params_body at h
  by_cases h1 : (argv.getD i []).head? ≠ some '-'
  · rw [if_pos h1] at h
    cases h
    exact ⟨fun _ hx => hx, Or.inr (Or.inl ⟨rfl, rfl⟩)⟩
  rw [if_neg h1] at h
  by_cases h2 : (argv.getD i []).tail = [] ∨ (argv.getD i []).tail = ['-']
  · rw [if_pos h2] at h
    by_cases h3 : i + 1 < argv.length
    · rw [if_pos h3] at h
      cases h
      exact ⟨fun _ hx => List.mem_cons_of_mem _ hx,
        Or.inr (Or.inr (Or.inl ⟨rfl, h3, List.mem_cons_self _ _⟩))⟩
    · rw [if_neg h3] at h
      cases h
      exact ⟨fun _ hx => List.mem_cons_of_mem _ hx,
        Or.inr (Or.inr (Or.inr ⟨rfl, by omega, List.mem_cons_self _ _⟩))⟩
  rw [if_neg h2] at h
  cases hf : find_param params (argv.getD i []) with
  | none =>
    rw [hf] at h
    cases h
    exact ⟨fun _ hx => hx, Or.inl rfl⟩
  | some p =>
    rw [hf] at h
    simp only at h
    by_cases h3 : st.selected &&& p.cmd ≠ 0
    · rw [if_pos h3] at h
      cases h
      exact ⟨fun _ hx => hx, Or.inl rfl⟩
    rw [if_neg h3] at h
    cases hp : p.arg with
    | none =>
      rw [hp] at h
      cases h
    | some v =>
      rw [hp] at h
      simp only at h
      by_cases h4 : argv.length ≤ i + 1
      · rw [if_pos h4] at h
        cases h
        exact ⟨fun _ hx => List.mem_cons_of_mem _ hx, Or.inl rfl⟩
      rw [if_neg h4] at h
      by_cases h5 : (st.vars v).isSome = true
      · rw [if_pos h5] at h
        cases h
      rw [if_neg h5] at h
      split at h
      · cases h
        exact ⟨fun _ hx => List.mem_cons_of_mem _ hx, Or.inl rfl⟩
      · cases h

/-- The rounds of the loop that return -1: an unknown parameter, a parameter
whose command bit is already selected, and a parameter that lacks its
argument. -/
theorem parse_params_body_error (params : List ngim_cmdline_params_t) (argv : List (List Char))
    (i : Nat) (st : Cmdline) (hs : is_param (argv.getD i []))
    (h : find_param params (argv.getD i []) = none ∨
      ∃ p, find_param params (argv.getD i []) = some p ∧
        (st.selected &&& p.cmd ≠ 0 ∨ (p.arg ≠ none ∧ argv.length ≤ i + 1))) :
    ∃ st', parse_params_body params argv i st = .ret (-1) st' := by
  unfold parse_params_body
  rw [if_neg (not_not.mpr hs.1), if_neg hs.2]
  rcases h with h | ⟨p, hf, h⟩
  · rw [h]
    exact ⟨_, rfl⟩
  · rw [hf]
    simp only
    by_cases h3 : st.selected &&& p.cmd ≠ 0
    · rw [if_pos h3]
      exact ⟨_, rfl⟩
    · rw [if_neg h3]
      rcases h with h | ⟨ha, hl⟩
      · exact absurd h h3
      · cases hp : p.arg with
        | none => exact absurd hp ha
        | some v =>
          simp only
          rw [if_pos hl]
          exact ⟨_, rfl⟩

/-- The loop of `parse_params` returns, with enough fuel, -1, 0 after going
past every element, or the index of an element with every element before it
gone past. -/
theorem parse_params_loop_spec (params : List ngim_cmdline_params_t) (argv : List (List Char)) :
    ∀ (fuel i : Nat) (st : Cmdline), 1 ≤ i → 0 < fuel → argv.length < fuel + i →
      (∀ k, 1 ≤ k → k < i → ∃ u, (k, u) ∈ st.used) →
      ∃ r st', parse_params_loop params argv fuel i st = some (r, st') ∧
        (r = -1 ∨ (r = 0 ∧ ∀ k, 1 ≤ k → k < argv.length → ∃ u, (k, u) ∈ st'.used) ∨
         (0 < r ∧ r < (argv.length : Int) ∧
          ∀ k, 1 ≤ k → k < r.toNat → ∃ u, (k, u) ∈ st'.used)) := by
  intro fuel
  induction fuel with
  | zero =>
    intro i st hi h0 hf hc
    exact absurd h0 (Nat.lt_irrefl 0)
  | succ fuel ih =>
    intro i st hi _ hf hc
    unfold parse_params_loop
    by_cases hlt : i < argv.length
    · rw [if_pos hlt]
      cases hb : parse_params_body params argv i st with
      | ret r st' =>
        simp only
        refine ⟨r, st', rfl, ?_⟩
        obtain ⟨hsub, hr⟩ := parse_params_body_ret hlt hb
        rcases hr with hr | ⟨hr, he⟩ | ⟨hr, hl, hm⟩ | ⟨hr, hl, hm⟩
        · exact Or.inl hr
        · refine Or.inr (Or.inr ⟨by omega, by omega, ?_⟩)
          intro k hk1 hk2
          subst he
          exact hc k hk1 (by omega)
        · refine Or.inr (Or.inr ⟨by omega, by omega, ?_⟩)
          intro k hk1 hk2
          by_cases hki : k < i
          · obtain ⟨u, hu⟩ := hc k hk1 hki
            exact ⟨u, hsub _ hu⟩
          · have : k = i := by omega
            subst this
            exact ⟨_, hm⟩
        · refine Or.inr (Or.inl ⟨hr, ?_⟩)
          intro k hk1 hk2
          by_cases hki : k < i
          · obtain ⟨u, hu⟩ := hc k hk1 hki
            exact ⟨u, hsub _ hu⟩
          · have : k = i := by omega
            subst this
            exact ⟨_, hm⟩
      | next j st' =>
        simp only
        obtain ⟨p, _, _, _, _, hj⟩ := parse_params_body_next hb
        apply ih (j + 1) st' (by omega)
        · rcases hj with ⟨_, hj, _⟩ | ⟨_, hj, _, _⟩ <;> omega
        · rcases hj with ⟨_, hj, _⟩ | ⟨_, hj, _, _⟩ <;> omega
        · intro k hk1 hk2
          by_cases hki : k < i
          · obtain ⟨u, hu⟩ := hc k hk1 hki
            rcases hj with ⟨_, _, hu'⟩ | ⟨_, _, _, u', _, hu'⟩
            · exact ⟨u, by rw [hu']; exact List.mem_cons_of_mem _ hu⟩
            · exact ⟨u, by rw [hu']; exact List.mem_cons_of_mem _ (List.mem_cons_of_mem _ hu)⟩
          · rcases hj with ⟨_, hj, hu'⟩ | ⟨_, hj, _, u', _, hu'⟩
            · have : k = i := by omega
              subst this
              exact ⟨_, by rw [hu']; exact List.mem_cons_self _ _⟩
            · by_cases hk : k = i
              · subst hk
                exact ⟨_, by rw [hu']; exact List.mem_cons_of_mem _ (List.mem_cons_self _ _)⟩
              · have : k = i + 1 := by omega
                subst this
                exact ⟨_, by rw [hu']; exact List.mem_cons_self _ _⟩
    · rw [if_neg hlt]
      refine ⟨0, st, rfl, Or.inr (Or.inl ⟨rfl, ?_⟩)⟩
      intro k hk1 hk2
      exact hc k hk1 (by omega)

/-- The loop of `parse_args` returns -1, 0 after going past every element,
or the index of the first element not gone past. -/
theorem parse_args_loop_spec (argv : List (List Char)) :
    ∀ (args : List Nat) (index : Nat) (st : Cmdline), 1 ≤ index →
      (∀ k, 1 ≤ k → k < index → ∃ u, (k, u) ∈ st.used) →
      (parse_args_loop argv args index st).1 = -1 ∨
      ((parse_args_loop argv args index st).1 = 0 ∧
        ∀ k, 1 ≤ k → k < argv.length →
          ∃ u, (k, u) ∈ (parse_args_loop argv args index st).2.used) ∨
      (0 < (parse_args_loop argv args index st).1 ∧
        (parse_args_loop argv args index st).1 < (argv.length : Int)) := by
  intro args
  induction args with
  | nil =>
    intro index st hi hc
    unfold parse_args_loop
    by_cases hlt : index < argv.length
    · rw [if_pos hlt]
      exact Or.inr (Or.inr ⟨by show (0 : Int) < (index : Int); omega,
        by show (index : Int) < _; omega⟩)
    · rw [if_neg hlt]
      exact Or.inr (Or.inl ⟨rfl, fun k hk1 hk2 => hc k hk1 (by omega)⟩)
  | cons v args ih =>
    intro index st hi hc
    unfold parse_args_loop
    by_cases h1 : argv.length ≤ index
    · rw [if_pos h1]
      exact Or.inl rfl
    rw [if_neg h1]
    by_cases h2 : (st.vars v).isSome = true
    · rw [if_pos h2]
      exact Or.inl rfl
    rw [if_neg h2]
    apply ih (index + 1) _ (by omega)
    intro k hk1 hk2
    by_cases hki : k < index
    · obtain ⟨u, hu⟩ := hc k hk1 hki
      exact ⟨u, List.mem_cons_of_mem _ hu⟩
    · have : k = index := by omega
      subst this
      exact ⟨_, List.mem_cons_self _ _⟩

/-- A loop head of `parse_params` is a state of its run: the run from there
gives the result of the whole loop. -/
theorem LoopHead_run {params : List ngim_cmdline_params_t} {argv : List (List Char)}
    {vars : Nat → Option (List Char)} {i : Nat} {st : Cmdline}
    (h : LoopHead params argv vars i st) :
    1 ≤ i ∧ ∃ fuel, argv.length < fuel + i ∧
      parse_params_loop params argv fuel i st =
        parse_params params argv { selected := 0, vars := vars, used := [] } := by
  induction h with
  | first => exact ⟨Nat.le_refl _, argv.length + 1, by omega, rfl⟩
  | @next i j st st' _ hi hb ih =>
    obtain ⟨h1, fuel, hf, he⟩ := ih
    obtain ⟨p, _, _, _, _, hj⟩ := parse_params_body_next hb
    have hij : i ≤ j := by
      rcases hj with ⟨_, hj, _⟩ | ⟨_, hj, _, _⟩ <;> omega
    refine ⟨by omega, ?_⟩
    cases fuel with
    | zero => omega
    | succ fuel =>
      refine ⟨fuel, by omega, ?_⟩
      rw [← he]
      conv => rhs; unfold parse_params_loop
      rw [if_pos hi, hb]

/-- The parameters gone past have their command bits selected. -/
theorem LoopHead_selected {params : List ngim_cmdline_params_t} {argv : List (List Char)}
    {vars : Nat → Option (List Char)} {i : Nat} {st : Cmdline}
    (h : LoopHead params argv vars i st) :
    ∀ k, (k, Use.param) ∈ st.used →
      is_param (argv.getD k []) ∧
      ∃ q, find_param params (argv.getD k []) = some q ∧ st.selected &&& q.cmd = q.cmd := by
  induction h with
  | first =>
    intro k hk
    cases hk
  | @next i j st st' _ hi hb ih =>
    obtain ⟨p, hs, hf, h0, hsel, hj⟩ := parse_params_body_next hb
    intro k hk
    have hcase : k = i ∨ (k, Use.param) ∈ st.used := by
      rcases hj with ⟨_, _, hu⟩ | ⟨_, _, _, u, hne, hu⟩
      · rw [hu] at hk
        rcases List.mem_cons.mp hk with hk | hk
        · exact Or.inl (congrArg Prod.fst hk)
        · exact Or.inr hk
      · rw [hu] at hk
        rcases List.mem_cons.mp hk with hk | hk
        · exact absurd (congrArg Prod.snd hk).symm hne
        · rcases List.mem_cons.mp hk with hk | hk
          · exact Or.inl (congrArg Prod.fst hk)
          · exact Or.inr hk
    rcases hcase with hk | hk
    · subst hk
      exact ⟨hs, p, hf, by rw [hsel]; exact or_and_self _ _⟩
    · obtain ⟨hs', q, hq, hqs⟩ := ih k hk
      exact ⟨hs', q, hq, by rw [hsel]; exact or_and_keep _ _ _ hqs⟩

theorem and_overlap (s q p : Nat) (h : s &&& q = q) (hqp : q &&& p ≠ 0) : s &&& p ≠ 0 := by
  intro h0
  apply hqp
  rw [← h, Nat.land_assoc, Nat.land_comm q p, ← Nat.land_assoc, h0]
  exact Nat.zero_and q

/-- A round that returns at a loop head gives the result of `parse_params`. -/
theorem LoopHead_ret {params : List ngim_cmdline_params_t} {argv : List (List Char)}
    {vars : Nat → Option (List Char)} {i : Nat} {st st' : Cmdline} {r : Int}
    (h : LoopHead params argv vars i st) (hi : i < argv.length)
    (hb : parse_params_body params argv i st = .ret r st') :
    parse_params params argv { selected := 0, vars := vars, used := [] } = some (r, st') := by
  obtain ⟨_, fuel, hf, he⟩ := LoopHead_run h
  rw [← he]
  cases fuel with
  | zero => omega
  | succ fuel =>
    unfold parse_params_loop
    rw [if_pos hi, hb]

/-- The function `ngim_cmdline_parse` with `noextra` set returns; its value
is at most 0, it is 0 only when every element after the first was gone past,
and it is -1 when `parse_params` returns -1. -/
theorem cmdline_parse_spec (argv : List (List Char)) (params : List ngim_cmdline_params_t)
    (args : Option (List Nat)) (vars : Nat → Option (List Char)) :
    ∃ r st, ngim_cmdline_parse argv true params args vars = some (r, st) ∧ r ≤ 0 ∧
      (r = 0 → ∀ k, 1 ≤ k → k < argv.length → ∃ u, (k, u) ∈ st.used) ∧
      (2 ≤ argv.length → ∀ s,
        parse_params params argv { selected := 0, vars := vars, used := [] } = some (-1, s) →
        r = -1) := by
  unfold ngim_cmdline_parse
  by_cases hargc : argv.length < 2
  · rw [if_pos hargc]
    exact ⟨0, _, rfl, Int.le_refl _, fun _ k hk1 hk2 => absurd hk2 (by omega),
      fun h2 => absurd h2 (by omega)⟩
  rw [if_neg hargc]
  obtain ⟨r0, st0, hpp, hr0⟩ := parse_params_loop_spec params argv (argv.length + 1) 1
    { selected := 0, vars := vars, used := [] } (Nat.le_refl _) (by omega) (by omega)
    (fun k hk1 hk2 => absurd hk2 (by omega))
  have hpp' : parse_params params argv { selected := 0, vars := vars, used := [] } =
      some (r0, st0) := hpp
  rw [hpp']
  simp only
  rcases hr0 with hr | ⟨hr, hc⟩ | ⟨hr, hlt, hc⟩
  · subst hr
    rw [if_neg (by decide)]
    exact ⟨-1, st0, rfl, by decide, fun h => absurd h (by decide), fun _ _ _ => rfl⟩
  · subst hr
    rw [if_neg (by decide)]
    refine ⟨0, st0, rfl, Int.le_refl _, fun _ => hc, fun _ s hs => ?_⟩
    cases hs
  · rw [if_pos hr]
    have hneg : ∀ s, some (r0, st0) = some ((-1 : Int), s) → False := by
      intro s hs
      have : r0 = -1 := congrArg Prod.fst (Option.some.inj hs)
      omega
    cases args with
    | none =>
      simp only [if_true]
      exact ⟨-1, st0, rfl, by decide, fun h => absurd h (by decide), fun _ _ _ => rfl⟩
    | some a =>
      simp only [true_and]
      have hidx : 1 ≤ r0.toNat := by omega
      rcases parse_args_loop_spec argv a r0.toNat st0 hidx hc with h1 | ⟨h1, h2⟩ | ⟨h1, _⟩
      · have ha : (parse_args argv r0.toNat a st0).1 = -1 := h1
        rw [if_neg (by rw [ha]; decide)]
        exact ⟨_, _, rfl, le_of_eq_of_le ha (by decide), fun h => absurd (ha.symm.trans h) (by decide),
          fun _ _ _ => ha⟩
      · have ha : (parse_args argv r0.toNat a st0).1 = 0 := h1
        rw [if_neg (by rw [ha]; decide)]
        exact ⟨_, _, rfl, le_of_eq ha, fun _ => h2, fun _ s hs => (hneg s hs).elim⟩
      · have ha : 0 < (parse_args argv r0.toNat a st0).1 := h1
        rw [if_pos ha]
        exact ⟨-1, _, rfl, by decide, fun h => absurd h (by decide), fun _ _ _ => rfl⟩

/-- C25. For every `argv`, parameter table, argument table and variables,
`ngim_cmdline_parse` with `noextra` set returns a value that is never
positive. The value 0 means that every element of `argv` after the first was
gone past by the parser (as a parameter, the argument of a parameter, the
end mark `-` or `--`, or a positional argument), so an element left unused
gives a value below 0. Whenever the loop of `parse_params` reaches a
parameter that is not in the table, one whose command bit is already
selected, in particular one sharing a command bit with a parameter seen
before, or one that needs an argument at the end of `argv`, the value is -1.
The parses of a few `tainlog` command lines follow. -/
theorem cmdline_noextra (argv : List (List Char)) (params : List ngim_cmdline_params_t)
    (args : Option (List Nat)) (vars : Nat → Option (List Char)) :
    (∃ r st, ngim_cmdline_parse argv true params args vars = some (r, st) ∧ r ≤ 0 ∧
      (r = 0 → ∀ k, 1 ≤ k → k < argv.length → ∃ u, (k, u) ∈ st.used) ∧
      (∀ k, 1 ≤ k → k < argv.length → (∀ u, (k, u) ∉ st.used) → r < 0) ∧
      (∀ i st_i, LoopHead params argv vars i st_i → i < argv.length →
        is_param (argv.getD i []) →
        (find_param params (argv.getD i []) = none ∨
         ∃ p, find_param params (argv.getD i []) = some p ∧
           (st_i.selected &&& p.cmd ≠ 0 ∨ (p.arg ≠ none ∧ argv.length ≤ i + 1))) →
        r = -1) ∧
      (∀ i st_i k q p, LoopHead params argv vars i st_i → i < argv.length →
        (k, Use.param) ∈ st_i.used → find_param params (argv.getD k []) = some q →
        is_param (argv.getD i []) → find_param params (argv.getD i []) = some p →
        q.cmd &&& p.cmd ≠ 0 → r = -1)) ∧
    parse_value ["tainlog", "-k", "5", "dir"] = some 0 ∧
    parse_value ["tainlog", "-k", "5", "dir", "extra"] = some (-1) ∧
    parse_value ["tainlog", "--bogus", "dir"] = some (-1) ∧
    parse_value ["tainlog", "-a", "-a", "dir"] = some (-1) ∧
    parse_value ["tainlog", "-a", "--keep-all", "dir"] = some (-1) ∧
    parse_value ["tainlog", "--keep"] = some (-1) := by
  refine ⟨?_, by decide, by decide, by decide, by decide, by decide, by decide⟩
  obtain ⟨r, st, hres, hle, hzero, hneg⟩ := cmdline_parse_spec argv params args vars
  have herr : ∀ i st_i, LoopHead params argv vars i st_i → i < argv.length →
      is_param (argv.getD i []) →
      (find_param params (argv.getD i []) = none ∨
       ∃ p, find_param params (argv.getD i []) = some p ∧
         (st_i.selected &&& p.cmd ≠ 0 ∨ (p.arg ≠ none ∧ argv.length ≤ i + 1))) →
      r = -1 := by
    intro i st_i hh hi hs he
    obtain ⟨st', hb⟩ := parse_params_body_error params argv i st_i hs he
    have h1 := (LoopHead_run hh).1
    exact hneg (by omega) st' (LoopHead_ret hh hi hb)
  refine ⟨r, st, hres, hle, hzero, ?_, herr, ?_⟩
  · intro k hk1 hk2 hun
    have hne : r ≠ 0 := by
      intro h0
      obtain ⟨u, hu⟩ := hzero h0 k hk1 hk2
      exact hun u hu
    omega
  · intro i st_i k q p hh hi hk hq hs hp hqp
    obtain ⟨_, q', hq', hsel⟩ := LoopHead_selected hh k hk
    rw [hq] at hq'
    cases hq'
    exact herr i st_i hh hi hs (Or.inr ⟨p, hp, Or.inl (and_overlap _ _ _ hsel hqp)⟩)

end Ngim
